import Mathlib

/-!
# Zoho CRM codec: a shallow embedding of `crm/xml.go` and `crm/options.go`

The Go package `crm` marshals typed records to and from the XML dialect of the
Zoho CRM API and encodes option records as URL queries.  This file embeds the
functions of that package as Lean definitions and proves properties of them.

Conventions of the embedding:

* Go strings and byte slices are Lean `String`s; the tests `len(x) > 0` are
  tests on the length of the string.
* A Go call can end in three ways, see `Outcome`: it returns, it panics, or it
  ends the process through `log.Fatal`.
* The standard library is modelled where the code depends on its results:
  `strings`, `strconv.ParseInt`, `strconv.ParseBool`, the token reader and the
  unmarshaller of `encoding/xml`, `url.Values`.  Floating point parsing and
  printing and `time.Parse` are taken as parameters (`Lib`).
* A document is the list of the tokens that `xml.Decoder` reads from it; XML
  names are modelled by their local part, namespace prefixes are outside the
  model, and the code never reads them.
* A loop that reads tokens is given one turn for each unread token and one
  more; the section "The loops read a token at every turn" proves that more
  turns never change a result.
* A target record is a value together with what `reflect` tells about its
  type; record types that contain themselves are outside the model.
* Go's `int` is 64 bits wide.
-/

namespace crm

/-! ## Outcomes of a Go call -/

/-- How a call ends: it returns its results, it panics, or the process is
ended by `log.Fatal`. -/
inductive Outcome (α : Type) where
  | returned (a : α)
  | panic
  | fatal
  deriving Repr, DecidableEq

/-! ## package strings -/

namespace strings

/-- The pieces of a character list between occurrences of `sep`. -/
def splitChars (sep : Char) : List Char → List (List Char)
  | [] => [[]]
  | c :: cs =>
    if c = sep then [] :: splitChars sep cs
    else
      match splitChars sep cs with
      | [] => [[c]]
      | h :: t => (c :: h) :: t

/-- Go `strings.Split(s, sep)` for a separator of one character. -/
def Split (s : String) (sep : Char) : List String :=
  (splitChars sep s.data).map String.mk

/-- Go `strings.Contains(s, sep)` for a substring of one character. -/
def Contains (s : String) (sep : Char) : Bool :=
  s.data.contains sep

/-- Go `strings.HasPrefix`. -/
def HasPrefix (s p : String) : Bool :=
  p.data.isPrefixOf s.data

/-- Go `strings.TrimPrefix`. -/
def TrimPrefix (s p : String) : String :=
  if HasPrefix s p then String.mk (s.data.drop p.data.length) else s

/-- Go `unicode.IsSpace`. -/
def isSpace (c : Char) : Bool :=
  let n := c.toNat
  n = 0x09 || n = 0x0A || n = 0x0B || n = 0x0C || n = 0x0D || n = 0x20 ||
  n = 0x85 || n = 0xA0 || n = 0x1680 || (0x2000 ≤ n && n ≤ 0x200A) ||
  n = 0x2028 || n = 0x2029 || n = 0x202F || n = 0x205F || n = 0x3000

/-- Go `strings.TrimSpace`. -/
def TrimSpace (s : String) : String :=
  String.mk ((s.data.dropWhile isSpace).reverse.dropWhile isSpace).reverse

end strings

/-! ## package strconv -/

namespace strconv

/-- The two kinds of `*strconv.NumError`. -/
inductive NumError where
  | ErrSyntax
  | ErrRange
  deriving Repr, DecidableEq

/-- The largest `uint64`. -/
def maxUint64 : Nat := 2 ^ 64 - 1

/-- The digit loop of `strconv.ParseUint(s, 10, 64)`: `n` is the value read so
far.  A byte that is not a decimal digit is a syntax error with value 0; an
overflow is a range error with the largest value. -/
def parseUintLoop : List Char → Nat → Nat × Option NumError
  | [], n => (n, none)
  | c :: cs, n =>
    if '0' ≤ c ∧ c ≤ '9' then
      let d := c.toNat - '0'.toNat
      if n ≥ maxUint64 / 10 + 1 then (maxUint64, some .ErrRange)
      else
        let n10 := (n * 10) % 2 ^ 64
        let n1 := (n10 + d) % 2 ^ 64
        if n1 < n10 ∨ n1 > maxUint64 then (maxUint64, some .ErrRange)
        else parseUintLoop cs n1
    else (0, some .ErrSyntax)

/-- Go `strconv.ParseUint(s, 10, 64)`. -/
def ParseUint (s : String) : Nat × Option NumError :=
  if s = "" then (0, some .ErrSyntax) else parseUintLoop s.data 0

/-- Go `strconv.ParseInt(s, 10, 64)`: an optional sign, then `ParseUint`; on a
syntax error the value is 0, on a range error the nearest bound. -/
def ParseInt (s : String) : Int × Option NumError :=
  if s = "" then (0, some .ErrSyntax)
  else
    let neg := s.data.head? = some '-'
    let body : String :=
      if s.data.head? = some '+' ∨ s.data.head? = some '-' then String.mk s.data.tail else s
    match ParseUint body with
    | (_, some .ErrSyntax) => (0, some .ErrSyntax)
    | (un, _) =>
      let cutoff : Nat := 2 ^ 63
      if ¬ neg ∧ un ≥ cutoff then ((cutoff : Int) - 1, some .ErrRange)
      else if neg ∧ un > cutoff then (-(cutoff : Int), some .ErrRange)
      else if neg then (-(un : Int), none)
      else ((un : Int), none)

/-- Go `strconv.ParseBool`: the value and whether an error was returned. -/
def ParseBool (s : String) : Bool × Bool :=
  if s = "1" ∨ s = "t" ∨ s = "T" ∨ s = "TRUE" ∨ s = "true" ∨ s = "True" then (true, false)
  else if s = "0" ∨ s = "f" ∨ s = "F" ∨ s = "FALSE" ∨ s = "false" ∨ s = "False" then (false, false)
  else (false, true)

end strconv

/-! ## Parameters from the standard library -/

/-- A `float64`, by its IEEE-754 bit pattern. -/
structure Float64 where
  bits : Nat
  deriving Repr, DecidableEq

/-- A `time.Time`, by what the code observes of it: the calendar accessors,
`IsZero()`, and whether it is deeply equal to the zero value `time.Time{}`. -/
structure Time where
  Year : Int
  Month : Int
  Day : Int
  Hour : Int
  Minute : Int
  Second : Int
  IsZero : Bool
  isZeroValue : Bool
  deriving Repr, DecidableEq

/-- The library functions that are taken as parameters. -/
structure Lib where
  /-- The call `strconv.ParseFloat(s, 64)`: the value and whether an error was returned. -/
  ParseFloat : String → Float64 × Bool
  /-- The call `time.Parse(layout, value)`: the time, or the text of the error. -/
  timeParse : String → String → Except String Time
  /-- The call `fmt.Sprintf("%f", v)`. -/
  fmtFloat : Float64 → String
  /-- The capacity that `append` gives the new array of a `[]FieldLabel` whose
  capacity `n` is used up (the runtime's `growslice`). -/
  growslice : Nat → Nat

/-! ## The generic tree (`xml.go`) -/

mutual
/-- Go `FieldLabel`: one wire field `<FL val="Label">Value</FL>`, possibly
carrying nested groups. -/
inductive FieldLabel where
  | mk (XMLName : String) (Label : String) (Value : String)
      (Data : List InternalGroup) (Tags : List String)
/-- Go `InternalGroup`: one occurrence of a repeated sub-record of a field. -/
inductive InternalGroup where
  | mk (XMLName : String) (Number : Int) (Fields : List FieldLabel)
end

namespace FieldLabel

def XMLName : FieldLabel → String
  | mk n _ _ _ _ => n

def Label : FieldLabel → String
  | mk _ l _ _ _ => l

def Value : FieldLabel → String
  | mk _ _ v _ _ => v

def Data : FieldLabel → List InternalGroup
  | mk _ _ _ d _ => d

def Tags : FieldLabel → List String
  | mk _ _ _ _ t => t

/-- The zero value `FieldLabel{}`. -/
def zero : FieldLabel := mk "" "" "" [] []

/-- The literal `FieldLabel{Label: l}`. -/
def ofLabel (l : String) : FieldLabel := mk "" l "" [] []

/-- The field with its `Data` replaced. -/
def setData (f : FieldLabel) (d : List InternalGroup) : FieldLabel :=
  mk f.XMLName f.Label f.Value d f.Tags

end FieldLabel

namespace InternalGroup

def XMLName : InternalGroup → String
  | mk n _ _ => n

def Number : InternalGroup → Int
  | mk _ n _ => n

def Fields : InternalGroup → List FieldLabel
  | mk _ _ f => f

/-- The zero value `InternalGroup{}`. -/
def zero : InternalGroup := mk "" 0 []

/-- The group with its `XMLName` replaced. -/
def setXMLName (g : InternalGroup) (n : String) : InternalGroup :=
  mk n g.Number g.Fields

/-- The group with its `Number` replaced. -/
def setNumber (g : InternalGroup) (n : Int) : InternalGroup :=
  mk g.XMLName n g.Fields

/-- The group with a field appended to its `Fields`. -/
def addField (g : InternalGroup) (f : FieldLabel) : InternalGroup :=
  mk g.XMLName g.Number (g.Fields ++ [f])

end InternalGroup

/-- Go `Row`: one record of the wire format. -/
structure Row where
  XMLName : String := ""
  Number : Int := 0
  ID : String := ""
  PL : String := ""
  SL : String := ""
  GT : String := ""
  Value : String := ""
  Fields : List FieldLabel := []

/-- Go `XMLError`: a decoded sentinel element. -/
structure XMLError where
  XMLName : String := ""
  Code : Int := 0
  Message : String := ""
  deriving Repr, DecidableEq

/-- Go `XMLData`: the parse result. -/
structure XMLData where
  XMLName : String := ""
  Rows : List Row := []
  Error : XMLError := {}

/-- Go `getFieldLabelByName`: a name holding `>` is first cut at its first
`>`; the first field with that label is returned, or the zero field. -/
def getFieldLabelByName (f : List FieldLabel) (name : String) : FieldLabel :=
  let name :=
    if strings.Contains name '>' then (strings.Split name '>').headD "" else name
  match f.find? (fun a => a.Label = name) with
  | some a => a
  | none => FieldLabel.zero

/-- Go `removeLabelByName`: the list without its first field labelled `name`. -/
def removeLabelByName : List FieldLabel → String → List FieldLabel
  | [], _ => []
  | a :: rest, name =>
    if a.Label = name then rest else a :: removeLabelByName rest name

/-! ## package encoding/xml: tokens and the token reader -/

namespace xml

/-- Go `xml.Attr`. -/
structure Attr where
  Name : String
  Value : String
  deriving Repr, DecidableEq

/-- Go `xml.Token`: what `Decoder.Token` hands out. -/
inductive Token where
  | StartElement (Name : String) (Attr : List Attr)
  | EndElement (Name : String)
  | CharData (data : String)
  | Comment (data : String)
  | ProcInst (target : String) (inst : String)
  | Directive (data : String)
  deriving Repr, DecidableEq

/-- A document is the sequence of its tokens; an element `<a/>` is a start
token followed by an end token. -/
abbrev Document := List Token

/-- Go `xml.Decoder` in strict mode: the tokens not yet read, the names of the
open elements (innermost first) and whether a syntax error has been met, after
which every read fails. -/
structure Decoder where
  toks : List Token
  stk : List String
  err : Bool
  deriving Repr, DecidableEq

/-- Go `xml.NewDecoder`. -/
def NewDecoder (b : Document) : Decoder := ⟨b, [], false⟩

/-- The result of one call of `Decoder.Token`: a token, `(nil, io.EOF)`, or
`(nil, err)` with a syntax error. -/
inductive Read where
  | token (t : Token)
  | EOF
  | failed
  deriving Repr, DecidableEq

/-- How reading a token changes the stack of open elements: a start element
is pushed, an end element must close the innermost open element (`none` is the
syntax error of `popElement`). -/
def pushPop (stk : List String) : Token → Option (List String)
  | .StartElement n _ => some (n :: stk)
  | .EndElement n =>
    match stk with
    | [] => none
    | top :: rest => if top = n then some rest else none
  | _ => some stk

/-- Go `Decoder.Token`.  At the end of the input the result is `io.EOF` when
no element is open and the syntax error `unexpected EOF` otherwise. -/
def Decoder.Token (d : Decoder) : Read × Decoder :=
  if d.err then (.failed, d)
  else
    match d.toks with
    | [] => if d.stk = [] then (.EOF, d) else (.failed, { d with err := true })
    | t :: rest =>
      match pushPop d.stk t with
      | some stk2 => (.token t, ⟨rest, stk2, false⟩)
      | none => (.failed, ⟨rest, d.stk, true⟩)

/-- The loop of Go `Decoder.Skip`: reads up to the end element that closes
the element whose start has been read; `false` when a read fails. -/
def skipLoop : Nat → Decoder → Nat → Bool × Decoder
  | 0, d, _ => (false, d)
  | fuel + 1, d, depth =>
    match d.Token with
    | (.token (.StartElement _ _), d1) => skipLoop fuel d1 (depth + 1)
    | (.token (.EndElement _), d1) =>
      if depth = 0 then (true, d1) else skipLoop fuel d1 (depth - 1)
    | (.token _, d1) => skipLoop fuel d1 depth
    | (_, d1) => (false, d1)

/-- Go `Decoder.Skip`; every turn of the loop reads a token, so the number of
unread tokens bounds the number of turns. -/
def Decoder.Skip (d : Decoder) : Bool × Decoder :=
  skipLoop (d.toks.length + 1) d 0

/-- The loop of `Decoder.unmarshal` for a value that is not a struct, after
the start element: the character data lying directly in the element is
collected, nested elements are skipped.  `none` when a read fails. -/
def charDataLoop : Nat → Decoder → String → Option String × Decoder
  | 0, d, _ => (none, d)
  | fuel + 1, d, acc =>
    match d.Token with
    | (.token (.StartElement _ _), d1) =>
      match d1.Skip with
      | (true, d2) => charDataLoop fuel d2 acc
      | (false, d2) => (none, d2)
    | (.token (.EndElement _), d1) => (some acc, d1)
    | (.token (.CharData s), d1) => charDataLoop fuel d1 (acc ++ s)
    | (.token _, d1) => charDataLoop fuel d1 acc
    | (_, d1) => (none, d1)

/-- Go `copyValue` into an `int`: empty data gives 0, other data is trimmed
and parsed in base 10; `none` when it does not parse. -/
def copyInt (src : String) : Option Int :=
  if src.length = 0 then some 0
  else
    match strconv.ParseInt (strings.TrimSpace src) with
    | (n, none) => some n
    | (_, some _) => none

/-- Go `Decoder.unmarshal` into an `int`, after the start element. -/
def unmarshalInt (d : Decoder) : Option Int × Decoder :=
  match charDataLoop (d.toks.length + 1) d "" with
  | (some data, d1) => (copyInt data, d1)
  | (none, d1) => (none, d1)

/-- Go `Decoder.unmarshal` into a `string`, after the start element. -/
def unmarshalString (d : Decoder) : Option String × Decoder :=
  charDataLoop (d.toks.length + 1) d ""

end xml

/-! ## Unmarshalling the types of `xml.go` -/

/-- The loop of `Decoder.unmarshal` into an `XMLError`, after the start
element: a child `code` is unmarshalled into `Code`, a child `message` into
`Message`, other children are skipped.  `false` when it returns an error. -/
def unmarshalXMLErrorLoop : Nat → xml.Decoder → XMLError → Bool × XMLError × xml.Decoder
  | 0, d, e => (false, e, d)
  | fuel + 1, d, e =>
    match d.Token with
    | (.token (.StartElement n _), d1) =>
      if n = "code" then
        match xml.unmarshalInt d1 with
        | (some c, d2) => unmarshalXMLErrorLoop fuel d2 { e with Code := c }
        | (none, d2) => (false, e, d2)
      else if n = "message" then
        match xml.unmarshalString d1 with
        | (some m, d2) => unmarshalXMLErrorLoop fuel d2 { e with Message := m }
        | (none, d2) => (false, e, d2)
      else
        match d1.Skip with
        | (true, d2) => unmarshalXMLErrorLoop fuel d2 e
        | (false, d2) => (false, e, d2)
    | (.token (.EndElement _), d1) => (true, e, d1)
    | (.token _, d1) => unmarshalXMLErrorLoop fuel d1 e
    | (_, d1) => (false, e, d1)

/-- Go `decoder.DecodeElement(&e, &e1)` for `e` an `XMLError`: the untagged
`XMLName` takes the name of the start element, then the children are read. -/
def DecodeElementXMLError (d : xml.Decoder) (e : XMLError) (start : String) :
    Bool × XMLError × xml.Decoder :=
  unmarshalXMLErrorLoop (d.toks.length + 1) d { e with XMLName := start }

/-- The attributes of `Decoder.unmarshal` into an `InternalGroup`: every
attribute `no` is copied into `Number`; `none` when one does not parse. -/
def groupNumber : List xml.Attr → Int → Option Int
  | [], n => some n
  | a :: rest, n =>
    if a.Name = "no" then
      match xml.copyInt a.Value with
      | some m => groupNumber rest m
      | none => none
    else groupNumber rest n

/-- The loop of `Decoder.unmarshal` into an `InternalGroup`, after the start
element.  A child `Fields` is unmarshalled into a new element of
`Fields []FieldLabel`, which fails at once because `FieldLabel` demands the
element name `FL`; other children are skipped. -/
def unmarshalGroupLoop : Nat → xml.Decoder → Bool × xml.Decoder
  | 0, d => (false, d)
  | fuel + 1, d =>
    match d.Token with
    | (.token (.StartElement n _), d1) =>
      if n = "Fields" then (false, d1)
      else
        match d1.Skip with
        | (true, d2) => unmarshalGroupLoop fuel d2
        | (false, d2) => (false, d2)
    | (.token (.EndElement _), d1) => (true, d1)
    | (.token _, d1) => unmarshalGroupLoop fuel d1
    | (_, d1) => (false, d1)

/-- Go `Decoder.unmarshal` into an `InternalGroup` for the start element
`start`: the group, or `none` on an error. -/
def unmarshalInternalGroup (d : xml.Decoder) (start : String) (attr : List xml.Attr) :
    Option InternalGroup × xml.Decoder :=
  match groupNumber attr 0 with
  | none => (none, d)
  | some n =>
    match unmarshalGroupLoop (d.toks.length + 1) d with
    | (true, d1) => (some (InternalGroup.mk start n []), d1)
    | (false, d1) => (none, d1)

/-- The attributes of `Decoder.unmarshal` into a `FieldLabel`: every
attribute `val` is copied into `Label`. -/
def labelOfAttr : List xml.Attr → String → String
  | [], l => l
  | a :: rest, l => if a.Name = "val" then labelOfAttr rest a.Value else labelOfAttr rest l

/-- The loop of `Decoder.unmarshal` into a `FieldLabel`, after the start
element: character data is collected for `Value`, a child `Data` is
unmarshalled into a new element of `Data []InternalGroup`, other children are
skipped.  On an error the field is left as far as it was filled (`Value` is
set at the end only) and `false` is returned. -/
def unmarshalFieldLabelLoop : Nat → xml.Decoder → FieldLabel → String →
    Bool × FieldLabel × xml.Decoder
  | 0, d, f, _ => (false, f, d)
  | fuel + 1, d, f, data =>
    match d.Token with
    | (.token (.StartElement n attr), d1) =>
      if n = "Data" then
        match unmarshalInternalGroup d1 n attr with
        | (some g, d2) => unmarshalFieldLabelLoop fuel d2 (f.setData (f.Data ++ [g])) data
        | (none, d2) => (false, f, d2)
      else
        match d1.Skip with
        | (true, d2) => unmarshalFieldLabelLoop fuel d2 f data
        | (false, d2) => (false, f, d2)
    | (.token (.EndElement _), d1) =>
      (true, FieldLabel.mk f.XMLName f.Label data f.Data f.Tags, d1)
    | (.token (.CharData s), d1) => unmarshalFieldLabelLoop fuel d1 f (data ++ s)
    | (.token _, d1) => unmarshalFieldLabelLoop fuel d1 f data
    | (_, d1) => (false, f, d1)

/-- Go `FieldLabel.decode(decoder, v)` on a new `FieldLabel`, `v` being the
start element read last: `DecodeElement` fails when the element is not named
`FL`; the error is printed and dropped, so the field comes back as far as it
was filled. -/
def FieldLabel.decode (d : xml.Decoder) (start : String) (attr : List xml.Attr) :
    FieldLabel × xml.Decoder :=
  if start ≠ "FL" then (FieldLabel.zero, d)
  else
    let r := unmarshalFieldLabelLoop (d.toks.length + 1) d
      (FieldLabel.mk start (labelOfAttr attr "") "" [] []) ""
    (r.2.1, r.2.2)

/-! ## The generic tree parser -/

/-- The loop `ATTR_1` of `checkForInternalGroup`: every attribute of the new
element `e` has an attribute of `v` with the same name and value. -/
def sameAttrs (e v : List xml.Attr) : Bool :=
  e.all (fun a => v.any (fun b => a.Name = b.Name && a.Value = b.Value))

/-- The loop of Go `checkForInternalGroup(decoder, v)`, `found` being its
local variable. -/
def checkLoop (vName : String) (vAttr : List xml.Attr) : Nat → xml.Decoder → Bool → Bool
  | 0, _, _ => false
  | fuel + 1, d, found =>
    match d.Token with
    | (.token (.EndElement _), d1) =>
      if found then false else checkLoop vName vAttr fuel d1 found
    | (.token (.StartElement n attr), d1) =>
      if found then (if n = "FL" then false else true)
      else if n = vName then
        checkLoop vName vAttr fuel d1 (if sameAttrs attr vAttr then true else found)
      else checkLoop vName vAttr fuel d1 found
    | (.token _, d1) => checkLoop vName vAttr fuel d1 found
    | (_, _) => false

/-- Go `checkForInternalGroup(decoder, v)`. -/
def checkForInternalGroup (decoder : xml.Decoder) (vName : String) (vAttr : List xml.Attr) :
    Bool :=
  checkLoop vName vAttr (decoder.toks.length + 1) decoder false

/-- The local variables of `getValuesFromXML` that live across the turns of
its loop. -/
structure ParseState where
  values : List Row
  currentRow : List FieldLabel
  nestedField : FieldLabel
  nestedGroup : InternalGroup
  module : String
  nested : String

/-- The variables as `getValuesFromXML` declares them. -/
def ParseState.init : ParseState :=
  ⟨[], [], FieldLabel.zero, InternalGroup.zero, "", ""⟩

/-- The loop `ATTR` of the `FL` case: `nestedField` becomes a new field
labelled by the first attribute `val`, and stays as it is without one. -/
def nestedFieldOfAttr : List xml.Attr → FieldLabel → FieldLabel
  | [], f => f
  | a :: rest, f => if a.Name = "val" then FieldLabel.ofLabel a.Value else nestedFieldOfAttr rest f

/-- The loop `cROW` at the close of a nested element: the group `g`, numbered
one more than the groups already there, is appended to the first field of the
row labelled `label`; `none` when the row has no such field. -/
def attachGroup (label : String) (g : InternalGroup) : List FieldLabel → Option (List FieldLabel)
  | [] => none
  | f :: rest =>
    if f.Label = label then
      some (f.setData (f.Data ++ [g.setNumber (f.Data.length + 1)]) :: rest)
    else
      match attachGroup label g rest with
      | some rest2 => some (f :: rest2)
      | none => none

/-- The body of `case nested:` when `nested` is not empty. -/
def closeNested (st : ParseState) : ParseState :=
  match attachGroup st.nestedField.Label st.nestedGroup st.currentRow with
  | some row =>
    { st with nested := "", currentRow := row, nestedGroup := InternalGroup.zero }
  | none =>
    let g := st.nestedGroup.setNumber 1
    let nf := st.nestedField.setData (st.nestedField.Data ++ [g])
    { st with
      nested := "",
      nestedGroup := InternalGroup.zero,
      currentRow := st.currentRow ++ [nf],
      nestedField := FieldLabel.ofLabel nf.Label }

/-- The literal `Row{Number: len(values) + 1, Fields: currentRow}`. -/
def newRow (values : List Row) (currentRow : List FieldLabel) : Row :=
  { Number := values.length + 1, Fields := currentRow }

/-- The loop `PRIME` of `getValuesFromXML(b)`, one turn for each token read
from `decoder`.  A failed read and a sentinel that does not decode end the
process (`log.Fatal`).  A row appended to `values` is taken as a copy of
`currentRow`: a group that closes after `</row>` and before the next `<row>`
is not written through to the row already appended.  The rows as slices of
the arrays they share are followed by `sharedLoop`, which `decodeXML` reads. -/
def primeLoop (b : xml.Document) : Nat → ParseState → xml.Decoder →
    Outcome (XMLData × Option String)
  | 0, _, _ => .fatal
  | fuel + 1, st, decoder =>
    match decoder.Token with
    | (.failed, _) => .fatal
    | (.EOF, _) => .returned ({ Rows := st.values }, none)
    | (.token (.StartElement name attr), d1) =>
      if name = "response" ∨ name = "result" then primeLoop b fuel st d1
      else if name = "nodata" then
        match DecodeElementXMLError d1 { XMLName := "nodata" } name with
        | (true, e, _) => .returned ({ Error := e }, none)
        | (false, _, _) => .fatal
      else if name = "error" then
        match DecodeElementXMLError d1 { XMLName := "error" } name with
        | (true, e, _) => .returned ({ Error := e }, none)
        | (false, _, _) => .fatal
      else if name = "row" then primeLoop b fuel { st with currentRow := [] } d1
      else if name = "FL" then
        if checkForInternalGroup (xml.NewDecoder b) name attr then
          primeLoop b fuel { st with nestedField := nestedFieldOfAttr attr st.nestedField } d1
        else
          let r := FieldLabel.decode d1 name attr
          if st.nested ≠ "" then
            primeLoop b fuel
              { st with nestedGroup := st.nestedGroup.addField r.1 } r.2
          else primeLoop b fuel { st with currentRow := st.currentRow ++ [r.1] } r.2
      else if st.module = "" then primeLoop b fuel { st with module := name } d1
      else
        primeLoop b fuel
          { st with nested := name, nestedGroup := st.nestedGroup.setXMLName name } d1
    | (.token (.EndElement name), d1) =>
      if name = "row" then
        primeLoop b fuel { st with values := st.values ++ [newRow st.values st.currentRow] } d1
      else if name = st.nested then
        if st.nested ≠ "" then primeLoop b fuel (closeNested st) d1
        else primeLoop b fuel st d1
      else if name = st.module then
        if st.module ≠ "" then .returned ({ Rows := st.values }, none)
        else primeLoop b fuel st d1
      else if name = "response" then .returned ({ Rows := st.values }, none)
      else if name = "result" then .returned ({ Rows := st.values }, none)
      else primeLoop b fuel st d1
    | (.token _, d1) => primeLoop b fuel st d1

/-- Go `getValuesFromXML(b)`: the parse result and the error, which is always
nil.  Every turn of the loop reads a token, so the number of tokens bounds the
number of turns. -/
def getValuesFromXML (b : xml.Document) : Outcome (XMLData × Option String) :=
  primeLoop b (b.length + 1) ParseState.init (xml.NewDecoder b)

/-! ## The record materializer: target records, as reflection sees them -/

/-- What `reflect` tells about a struct field apart from its value: its name,
its `zoho` tag and whether it is exported (only then can it be set). -/
structure StructField where
  Name : String
  zoho : String
  exported : Bool
  deriving Repr, DecidableEq

/-- A Go value together with what `reflect` tells about its type.  `time` is a
`time.Time` (kind `Struct`, type name `Time`, package `time`); `struct` is any
other struct type; `slice` carries the zero value of its element type, which
is what `reflect.New(uT)` points to; `other` is a value of any other kind. -/
inductive GoValue where
  | int (v : Int)
  | int64 (v : Int)
  | float64 (v : Float64)
  | string (v : String)
  | bool (v : Bool)
  | time (v : Time)
  | struct (fields : List (StructField × GoValue))
  | slice (elem : GoValue) (items : List GoValue)
  | ptr (target : Option GoValue)
  | other

/-- Go `reflect.Value.OverflowInt` for a type of `bits` bits. -/
def OverflowInt (bits : Nat) (x : Int) : Bool :=
  ! (decide (-(2 : Int) ^ (bits - 1) ≤ x) && decide (x < (2 : Int) ^ (bits - 1)))

/-- The `reflect.Int` and `reflect.Int64` cases of `fillStructFromValues`:
the value of the field after the case, `old` being its value before. -/
def setIntFromValue (old : Int) (value : String) : Int :=
  let r := strconv.ParseInt value
  let field := if r.2.isSome then (if value.length > 0 then 1 else 0) else old
  if ! OverflowInt 64 r.1 then r.1 else field

/-- Go `reflect.Value.OverflowFloat` on a field of kind `Float64`: false for
every value. -/
def OverflowFloat64 (_ : Float64) : Bool := false

/-- The `reflect.Float64` case of `fillStructFromValues`. -/
def setFloatFromValue (lib : Lib) (old : Float64) (value : String) : Float64 :=
  let r := lib.ParseFloat value
  let field : Float64 :=
    if r.2 then (if value.length > 0 then ⟨0x3FF0000000000000⟩ else ⟨0⟩) else old
  if ! OverflowFloat64 r.1 then r.1 else field

/-- The `reflect.Bool` case of `fillStructFromValues`. -/
def setBoolFromValue (old : Bool) (value : String) : Bool :=
  let r := strconv.ParseBool value
  let field := if r.2 then (if value.length > 0 then true else false) else old
  -- the statement `field.SetBool(b)` follows whatever `err` was
  Function.const Bool r.1 field

/-- The `time.Time` case of `fillStructFromValues`: the primary layout, then
the date-only layout; the error when both fail. -/
def setTimeFromValue (lib : Lib) (value : String) : Except String Time :=
  match lib.timeParse "2006-01-02 15:04:05" value with
  | .ok t => .ok t
  | .error _ =>
    match lib.timeParse "2006-01-02" value with
    | .ok t => .ok t
    | .error e => .error ("Got error parsing Time format: " ++ e)

/-! ## The record materializer: `fillStructFromValues` -/

/-- The loop `for _, a := range f.Data` of the `reflect.Slice` case:
`fillElem` materializes one group into a new element; the element is appended
and the field set, which panics when the struct field is a pointer to the
slice (`viaPtr`), the types of the two sides of `Set` being different. -/
def appendGroups (fillElem : List FieldLabel → Outcome (Except String GoValue))
    (viaPtr : Bool) : List InternalGroup → List GoValue →
    Outcome (Except String (List GoValue))
  | [], acc => .returned (.ok acc)
  | a :: rest, acc =>
    match fillElem a.Fields with
    | .returned (.ok item) =>
      if viaPtr then .panic else appendGroups fillElem viaPtr rest (acc ++ [item])
    | .returned (.error e) => .returned (.error e)
    | .panic => .panic
    | .fatal => .fatal

mutual
/-- Go `fillStructFromValues(fields, data)`, `data` pointing to the value
given here: the value after the call, or the error returned. -/
def fillStructFromValues (lib : Lib) (fields : List FieldLabel) :
    GoValue → Outcome (Except String GoValue)
  | .struct fs =>
    match fillFields lib fields fs with
    | .returned (.ok fs2) => .returned (.ok (.struct fs2))
    | .returned (.error e) => .returned (.error e)
    | .panic => .panic
    | .fatal => .fatal
  | v => .returned (.ok v)
/-- The loop `FIELDS` over the fields of the struct; `fields` are the wire
fields not yet consumed. -/
def fillFields (lib : Lib) (fields : List FieldLabel) :
    List (StructField × GoValue) → Outcome (Except String (List (StructField × GoValue)))
  | [] => .returned (.ok [])
  | (sf, .ptr none) :: rest =>
    -- a nil pointer: `reflect.Indirect` gives an invalid value
    match fillFields lib fields rest with
    | .returned (.ok r) => .returned (.ok ((sf, .ptr none) :: r))
    | o => o
  | (sf, .ptr (some tv)) :: rest =>
    let f := getFieldLabelByName fields ((strings.Split sf.zoho ',').headD "")
    if ! sf.exported || f.Label = "" then
      match fillFields lib fields rest with
      | .returned (.ok r) => .returned (.ok ((sf, .ptr (some tv)) :: r))
      | o => o
    else
      match fillKind lib f true tv with
      | .returned (.ok tv2) =>
        match fillFields lib (removeLabelByName fields f.Label) rest with
        | .returned (.ok r) => .returned (.ok ((sf, .ptr (some tv2)) :: r))
        | o => o
      | .returned (.error e) => .returned (.error e)
      | .panic => .panic
      | .fatal => .fatal
  | (sf, v) :: rest =>
    let f := getFieldLabelByName fields ((strings.Split sf.zoho ',').headD "")
    if ! sf.exported || f.Label = "" then
      match fillFields lib fields rest with
      | .returned (.ok r) => .returned (.ok ((sf, v) :: r))
      | o => o
    else
      match fillKind lib f false v with
      | .returned (.ok v2) =>
        match fillFields lib (removeLabelByName fields f.Label) rest with
        | .returned (.ok r) => .returned (.ok ((sf, v2) :: r))
        | o => o
      | .returned (.error e) => .returned (.error e)
      | .panic => .panic
      | .fatal => .fatal
/-- The statement `switch field.Kind()` for the wire field `f` matched to the
struct field; `viaPtr` tells that the struct field is a pointer to the value.
The recursive call of the struct case is `fillStructFromValues` on the fields
of the first group. -/
def fillKind (lib : Lib) (f : FieldLabel) (viaPtr : Bool) :
    GoValue → Outcome (Except String GoValue)
  | .int old => .returned (.ok (.int (setIntFromValue old f.Value)))
  | .int64 old => .returned (.ok (.int64 (setIntFromValue old f.Value)))
  | .float64 old => .returned (.ok (.float64 (setFloatFromValue lib old f.Value)))
  | .string _ => .returned (.ok (.string f.Value))
  | .bool old => .returned (.ok (.bool (setBoolFromValue old f.Value)))
  | .time _ =>
    match setTimeFromValue lib f.Value with
    | .ok t => .returned (.ok (.time t))
    | .error e => .returned (.error e)
  | .struct fs =>
    match f.Data with
    | [] => .returned (.ok (.struct fs))
    | g :: _ =>
      match fillFields lib g.Fields fs with
      | .returned (.ok fs2) => .returned (.ok (.struct fs2))
      | .returned (.error e) => .returned (.error e)
      | .panic => .panic
      | .fatal => .fatal
  | .slice elem items =>
    match appendGroups (fun fs => fillStructFromValues lib fs elem) viaPtr f.Data items with
    | .returned (.ok items2) => .returned (.ok (.slice elem items2))
    | .returned (.error e) => .returned (.error e)
    | .panic => .panic
    | .fatal => .fatal
  | .ptr t => .returned (.ok (.ptr t))
  | .other => .returned (.ok .other)
end

/-! ## The record materializer: `decodeXML` -/

/-- Go `fmt.Sprintf("%d", n)`. -/
def fmtD (n : Int) : String :=
  if n < 0 then "-" ++ Nat.repr n.natAbs else Nat.repr n.natAbs

mutual
/-- The zero value of the type of a value: what `reflect.New` points to. -/
def GoValue.zeroOf : GoValue → GoValue
  | .int _ => .int 0
  | .int64 _ => .int64 0
  | .float64 _ => .float64 ⟨0⟩
  | .string _ => .string ""
  | .bool _ => .bool false
  | .time _ => .time ⟨1, 1, 1, 0, 0, 0, true, true⟩
  | .struct fs => .struct (GoValue.zeroFields fs)
  | .slice elem _ => .slice elem []
  | .ptr _ => .ptr none
  | .other => .other
/-- The zero values of the fields of a struct. -/
def GoValue.zeroFields : List (StructField × GoValue) → List (StructField × GoValue)
  | [] => []
  | (sf, v) :: rest => (sf, GoValue.zeroOf v) :: GoValue.zeroFields rest
end

/-- Go `CrmError`, by the fields `decodeXML` sets (`type` is the Go field
`Type`); the type is declared outside the files at hand. -/
structure CrmError where
  type : String
  Code : Int
  Message : String
  deriving Repr, DecidableEq

/-- A value of the interface `crmData` as `decodeXML` returns it: the target
with the rows materialized into it, or a `CrmError`. -/
inductive CrmData where
  | value (v : GoValue)
  | crmError (e : CrmError)

/-! ## Slices of fields and the arrays behind them

`getValuesFromXML` hands its rows to `decodeXML` as slices, and
`removeLabelByName` moves the fields of a slice within its array.  Two rows
whose slices lie in one array see each other's moves, so for `decodeXML` the
parse is followed once more with the arrays kept apart from the slices. -/

/-- A Go slice header of a `[]FieldLabel`: the array, the length and the
capacity.  The arrays are numbered; array 0 has no places and stands behind
`nil` and `[]FieldLabel{}`. -/
structure Slice where
  arr : Nat
  len : Nat
  cap : Nat
  deriving Repr, DecidableEq

/-- The slice `[]FieldLabel{}`, and `nil`. -/
def Slice.empty : Slice := ⟨0, 0, 0⟩

/-- Go `InternalGroup` as it lies in memory: `Fields` is a slice header. -/
structure GroupCell where
  XMLName : String
  Number : Int
  Fields : Slice
  deriving Repr, DecidableEq

/-- Go `FieldLabel` as it lies in memory.  The groups of `Data` are kept as a
list: a group is never changed once it is in `Data`, and `append` writes only
behind the length of every slice that shares the array. -/
structure FieldCell where
  XMLName : String
  Label : String
  Value : String
  Data : List GroupCell
  Tags : List String
  deriving Repr, DecidableEq

/-- The zero value `FieldLabel{}`. -/
def FieldCell.zero : FieldCell := ⟨"", "", "", [], []⟩

/-- The literal `FieldLabel{Label: l}`. -/
def FieldCell.ofLabel (l : String) : FieldCell := ⟨"", l, "", [], []⟩

/-- The zero value `InternalGroup{}`. -/
def GroupCell.zero : GroupCell := ⟨"", 0, Slice.empty⟩

/-- A group that `DecodeElement` has made: its `Fields` stay nil
(`unmarshalInternalGroup`). -/
def GroupCell.ofDecoded (g : InternalGroup) : GroupCell :=
  ⟨g.XMLName, g.Number, Slice.empty⟩

/-- A field that `FieldLabel.decode` has filled. -/
def FieldCell.ofDecoded (f : FieldLabel) : FieldCell :=
  ⟨f.XMLName, f.Label, f.Value, f.Data.map GroupCell.ofDecoded, f.Tags⟩

/-- The arrays of fields, each with all its places. -/
abbrev Heap := List (List FieldCell)

/-- The memory before anything is allocated: array 0. -/
def Heap.init : Heap := [[]]

/-- The places of an array. -/
def Heap.cells (h : Heap) (a : Nat) : List FieldCell := h.getD a []

/-- The fields a slice shows: the first `len` places of its array. -/
def Heap.view (h : Heap) (s : Slice) : List FieldCell := (h.cells s.arr).take s.len

/-- Go `append(s, x)` for one field.  With room left the field is written in
place behind the length; otherwise a new array is allocated, of the capacity
that the runtime chooses (`growslice`, at least one more than the length), and
the fields of the slice are copied into it. -/
def Heap.append (lib : Lib) (h : Heap) (s : Slice) (x : FieldCell) : Heap × Slice :=
  if s.len < s.cap then
    (h.set s.arr ((h.cells s.arr).set s.len x), { s with len := s.len + 1 })
  else
    let c := max (lib.growslice s.cap) (s.len + 1)
    (h ++ [h.view s ++ x :: List.replicate (c - (s.len + 1)) FieldCell.zero],
      ⟨h.length, s.len + 1, c⟩)

/-- Go `Row` as `getValuesFromXML` makes it: `Number` and the slice `Fields`. -/
structure SharedRow where
  Number : Int
  Fields : Slice
  deriving Repr, DecidableEq

/-- Go `XMLData` as `getValuesFromXML` returns it, with the arrays behind the
slices of its rows. -/
structure SharedData where
  heap : Heap
  Rows : List SharedRow
  Error : XMLError

/-- The local variables of `getValuesFromXML` that live across the turns of
its loop, with the arrays behind the slices. -/
structure SharedState where
  heap : Heap
  values : List SharedRow
  currentRow : Slice
  nestedField : FieldCell
  nestedGroup : GroupCell
  module : String
  nested : String

/-- The variables as `getValuesFromXML` declares them. -/
def SharedState.init : SharedState :=
  ⟨Heap.init, [], Slice.empty, FieldCell.zero, GroupCell.zero, "", ""⟩

/-- The loop `ATTR` of the `FL` case, as `nestedFieldOfAttr`. -/
def nestedCellOfAttr : List xml.Attr → FieldCell → FieldCell
  | [], f => f
  | a :: rest, f => if a.Name = "val" then FieldCell.ofLabel a.Value else nestedCellOfAttr rest f

/-- The body of `case nested:` when `nested` is not empty.  The loop `cROW`
looks through `currentRow` for the first field labelled as `nestedField`; the
group is appended to the `Data` of that field where it lies in the array, so
every slice of that array shows it.  Without such a field the group goes into
`nestedField`, which is appended to `currentRow`. -/
def closeNestedShared (lib : Lib) (st : SharedState) : SharedState :=
  match (st.heap.view st.currentRow).findIdx? (fun c => c.Label = st.nestedField.Label) with
  | some i =>
    let cells := st.heap.cells st.currentRow.arr
    let c := cells.getD i FieldCell.zero
    let g : GroupCell := { st.nestedGroup with Number := c.Data.length + 1 }
    { st with
      nested := "",
      heap := st.heap.set st.currentRow.arr (cells.set i { c with Data := c.Data ++ [g] }),
      nestedGroup := GroupCell.zero }
  | none =>
    let g : GroupCell := { st.nestedGroup with Number := 1 }
    let nf : FieldCell := { st.nestedField with Data := st.nestedField.Data ++ [g] }
    let r := st.heap.append lib st.currentRow nf
    { st with
      nested := "",
      nestedGroup := GroupCell.zero,
      heap := r.1,
      currentRow := r.2,
      nestedField := FieldCell.ofLabel nf.Label }

/-- The loop `PRIME` of `getValuesFromXML(b)` with the arrays behind the
slices, turn by turn as in `primeLoop`.  At `</row>` the row takes the slice
header of `currentRow`, not a copy of its fields. -/
def sharedLoop (lib : Lib) (b : xml.Document) : Nat → SharedState → xml.Decoder →
    Outcome SharedData
  | 0, _, _ => .fatal
  | fuel + 1, st, decoder =>
    match decoder.Token with
    | (.failed, _) => .fatal
    | (.EOF, _) => .returned ⟨st.heap, st.values, {}⟩
    | (.token (.StartElement name attr), d1) =>
      if name = "response" ∨ name = "result" then sharedLoop lib b fuel st d1
      else if name = "nodata" then
        match DecodeElementXMLError d1 { XMLName := "nodata" } name with
        | (true, e, _) => .returned ⟨st.heap, [], e⟩
        | (false, _, _) => .fatal
      else if name = "error" then
        match DecodeElementXMLError d1 { XMLName := "error" } name with
        | (true, e, _) => .returned ⟨st.heap, [], e⟩
        | (false, _, _) => .fatal
      else if name = "row" then sharedLoop lib b fuel { st with currentRow := Slice.empty } d1
      else if name = "FL" then
        if checkForInternalGroup (xml.NewDecoder b) name attr then
          sharedLoop lib b fuel
            { st with nestedField := nestedCellOfAttr attr st.nestedField } d1
        else
          let r := FieldLabel.decode d1 name attr
          if st.nested ≠ "" then
            let a := st.heap.append lib st.nestedGroup.Fields (FieldCell.ofDecoded r.1)
            sharedLoop lib b fuel
              { st with heap := a.1, nestedGroup := { st.nestedGroup with Fields := a.2 } } r.2
          else
            let a := st.heap.append lib st.currentRow (FieldCell.ofDecoded r.1)
            sharedLoop lib b fuel { st with heap := a.1, currentRow := a.2 } r.2
      else if st.module = "" then sharedLoop lib b fuel { st with module := name } d1
      else
        sharedLoop lib b fuel
          { st with nested := name, nestedGroup := { st.nestedGroup with XMLName := name } } d1
    | (.token (.EndElement name), d1) =>
      if name = "row" then
        sharedLoop lib b fuel
          { st with values := st.values ++ [⟨st.values.length + 1, st.currentRow⟩] } d1
      else if name = st.nested then
        if st.nested ≠ "" then sharedLoop lib b fuel (closeNestedShared lib st) d1
        else sharedLoop lib b fuel st d1
      else if name = st.module then
        if st.module ≠ "" then .returned ⟨st.heap, st.values, {}⟩
        else sharedLoop lib b fuel st d1
      else if name = "response" then .returned ⟨st.heap, st.values, {}⟩
      else if name = "result" then .returned ⟨st.heap, st.values, {}⟩
      else sharedLoop lib b fuel st d1
    | (.token _, d1) => sharedLoop lib b fuel st d1

/-- Go `getValuesFromXML(b)` with the arrays behind the slices of the rows. -/
def getValuesShared (lib : Lib) (b : xml.Document) : Outcome SharedData :=
  sharedLoop lib b (b.length + 1) SharedState.init (xml.NewDecoder b)

/-- Go `getFieldLabelByName` on the fields a slice shows. -/
def getCellByName (f : List FieldCell) (name : String) : FieldCell :=
  let name :=
    if strings.Contains name '>' then (strings.Split name '>').headD "" else name
  match f.find? (fun a => a.Label = name) with
  | some a => a
  | none => FieldCell.zero

/-- Go `removeLabelByName(f, name)` with its effect on the array: for the first
field at a place `i` labelled `name`, `append(f[:i], f[i+1:]...)` moves the
fields behind place `i` one place down in the array of `f` and leaves the last
place of the slice as it was; the slice returned is one shorter. -/
def removeInPlace (h : Heap) (s : Slice) (name : String) : Heap × Slice :=
  match (h.view s).findIdx? (fun a => a.Label = name) with
  | some i =>
    let cells := h.cells s.arr
    (h.set s.arr (cells.take i ++ (cells.drop (i + 1)).take (s.len - 1 - i) ++
        cells.drop (s.len - 1)),
      { s with len := s.len - 1 })
  | none => (h, s)

/-- The loop `for _, a := range f.Data` of the `reflect.Slice` case, as
`appendGroups`, with the arrays. -/
def appendGroupsShared (fillElem : Heap → Slice → Outcome (Except String (GoValue × Heap)))
    (viaPtr : Bool) : Heap → List GroupCell → List GoValue →
    Outcome (Except String (List GoValue × Heap))
  | h, [], acc => .returned (.ok (acc, h))
  | h, a :: rest, acc =>
    match fillElem h a.Fields with
    | .returned (.ok (item, h2)) =>
      if viaPtr then .panic else appendGroupsShared fillElem viaPtr h2 rest (acc ++ [item])
    | .returned (.error e) => .returned (.error e)
    | .panic => .panic
    | .fatal => .fatal

mutual
/-- Go `fillStructFromValues(fields, data)` with the arrays: the value after
the call and the arrays after it, or the error returned. -/
def fillStructShared (lib : Lib) (h : Heap) (fields : Slice) :
    GoValue → Outcome (Except String (GoValue × Heap))
  | .struct fs =>
    match fillFieldsShared lib h fields fs with
    | .returned (.ok (fs2, h2)) => .returned (.ok (.struct fs2, h2))
    | .returned (.error e) => .returned (.error e)
    | .panic => .panic
    | .fatal => .fatal
  | v => .returned (.ok (v, h))
/-- The loop `FIELDS` as `fillFields`, with the arrays: the matched wire field
is copied out, `removeLabelByName` then moves the fields of the slice, and the
struct field is set from the copy. -/
def fillFieldsShared (lib : Lib) (h : Heap) (fields : Slice) :
    List (StructField × GoValue) →
    Outcome (Except String (List (StructField × GoValue) × Heap))
  | [] => .returned (.ok ([], h))
  | (sf, .ptr none) :: rest =>
    match fillFieldsShared lib h fields rest with
    | .returned (.ok (r, h2)) => .returned (.ok ((sf, .ptr none) :: r, h2))
    | o => o
  | (sf, .ptr (some tv)) :: rest =>
    let f := getCellByName (h.view fields) ((strings.Split sf.zoho ',').headD "")
    if ! sf.exported || f.Label = "" then
      match fillFieldsShared lib h fields rest with
      | .returned (.ok (r, h2)) => .returned (.ok ((sf, .ptr (some tv)) :: r, h2))
      | o => o
    else
      let m := removeInPlace h fields f.Label
      match fillKindShared lib m.1 f true tv with
      | .returned (.ok (tv2, h2)) =>
        match fillFieldsShared lib h2 m.2 rest with
        | .returned (.ok (r, h3)) => .returned (.ok ((sf, .ptr (some tv2)) :: r, h3))
        | o => o
      | .returned (.error e) => .returned (.error e)
      | .panic => .panic
      | .fatal => .fatal
  | (sf, v) :: rest =>
    let f := getCellByName (h.view fields) ((strings.Split sf.zoho ',').headD "")
    if ! sf.exported || f.Label = "" then
      match fillFieldsShared lib h fields rest with
      | .returned (.ok (r, h2)) => .returned (.ok ((sf, v) :: r, h2))
      | o => o
    else
      let m := removeInPlace h fields f.Label
      match fillKindShared lib m.1 f false v with
      | .returned (.ok (v2, h2)) =>
        match fillFieldsShared lib h2 m.2 rest with
        | .returned (.ok (r, h3)) => .returned (.ok ((sf, v2) :: r, h3))
        | o => o
      | .returned (.error e) => .returned (.error e)
      | .panic => .panic
      | .fatal => .fatal
/-- The statement `switch field.Kind()` as `fillKind`, with the arrays: the
struct and the slice case hand the slice `Fields` of a group on. -/
def fillKindShared (lib : Lib) (h : Heap) (f : FieldCell) (viaPtr : Bool) :
    GoValue → Outcome (Except String (GoValue × Heap))
  | .int old => .returned (.ok (.int (setIntFromValue old f.Value), h))
  | .int64 old => .returned (.ok (.int64 (setIntFromValue old f.Value), h))
  | .float64 old => .returned (.ok (.float64 (setFloatFromValue lib old f.Value), h))
  | .string _ => .returned (.ok (.string f.Value, h))
  | .bool old => .returned (.ok (.bool (setBoolFromValue old f.Value), h))
  | .time _ =>
    match setTimeFromValue lib f.Value with
    | .ok t => .returned (.ok (.time t, h))
    | .error e => .returned (.error e)
  | .struct fs =>
    match f.Data with
    | [] => .returned (.ok (.struct fs, h))
    | g :: _ =>
      match fillFieldsShared lib h g.Fields fs with
      | .returned (.ok (fs2, h2)) => .returned (.ok (.struct fs2, h2))
      | .returned (.error e) => .returned (.error e)
      | .panic => .panic
      | .fatal => .fatal
  | .slice elem items =>
    match appendGroupsShared (fun h2 fs => fillStructShared lib h2 fs elem) viaPtr h f.Data
        items with
    | .returned (.ok (items2, h2)) => .returned (.ok (.slice elem items2, h2))
    | .returned (.error e) => .returned (.error e)
    | .panic => .panic
    | .fatal => .fatal
  | .ptr t => .returned (.ok (.ptr t, h))
  | .other => .returned (.ok (.other, h))
end

/-- The loop `for _, a := range x.Rows` of `decodeXML` and the return after
it, `dV` being the target.  For a slice a new element is filled from the slice
`a.Fields` of the row and appended; the fields that are matched are removed
from that slice within its array, so a later row whose slice lies in the same
array is read as those moves have left it.  For a struct a new struct is
filled, and `dV.Set(item)` then panics, `item` being a pointer.  Other kinds
leave the target as it is. -/
def decodeRows (lib : Lib) : Heap → List SharedRow → GoValue →
    Outcome (Option CrmData × Option String)
  | _, [], dV => .returned (some (.value dV), none)
  | h, a :: rest, .slice elem items =>
    match fillStructShared lib h a.Fields elem with
    | .returned (.ok (item, h2)) => decodeRows lib h2 rest (.slice elem (items ++ [item]))
    | .returned (.error e) => .returned (none, some e)
    | .panic => .panic
    | .fatal => .fatal
  | h, a :: _, .struct fs =>
    match fillStructShared lib h a.Fields (GoValue.zeroOf (.struct fs)) with
    | .returned (.ok _) => .panic
    | .returned (.error e) => .returned (none, some e)
    | .panic => .panic
    | .fatal => .fatal
  | h, a :: _, .time t =>
    match fillStructShared lib h a.Fields (GoValue.zeroOf (.time t)) with
    | .returned (.ok _) => .panic
    | .returned (.error e) => .returned (none, some e)
    | .panic => .panic
    | .fatal => .fatal
  | h, _ :: rest, dV => decodeRows lib h rest dV

/-- Go `decodeXML(b, data)`, `data` being the target value or pointing to it:
the two results, `nil` being `none`.  The error of `getValuesFromXML` is
always nil. -/
def decodeXML (lib : Lib) (b : xml.Document) (data : GoValue) :
    Outcome (Option CrmData × Option String) :=
  match getValuesShared lib b with
  | .panic => .panic
  | .fatal => .fatal
  | .returned x =>
    if x.Error ≠ {} ∧ x.Error.XMLName = "error" then
      .returned (some (.crmError ⟨x.Error.XMLName, x.Error.Code, x.Error.Message⟩),
        some ("Zoho CRM returned an Error: Code " ++ fmtD x.Error.Code ++ ": " ++ x.Error.Message))
    else if x.Error ≠ {} ∧ x.Error.XMLName = "nodata" then
      .returned (some (.value data), none)
    else decodeRows lib x.heap x.Rows data

/-! ## The stripping pass of `XMLData.encode` -/

/-- The loop `for k := range fields`: the first index below `m` whose field is
labelled `label`; the slice `fields` is the first `m` places of the array. -/
def findLabel : List FieldLabel → Nat → String → Option Nat
  | [], _, _ => none
  | _ :: _, 0, _ => none
  | f :: rest, m + 1, label =>
    if f.Label = label then some 0
    else
      match findLabel rest m label with
      | some k => some (k + 1)
      | none => none

/-- The loop over the tags of the field at place `j`: at a tag `strip` the
search is made, and its hit ends the loop. -/
def stripTags (arr : List FieldLabel) (m : Nat) (label : String) : List String → Option Nat
  | [] => none
  | tag :: rest =>
    if tag = "strip" then
      match findLabel arr m label with
      | some k => some k
      | none => stripTags arr m label rest
    else stripTags arr m label rest

/-- The statement `fields[len(fields)-1], fields[k] = fields[k], fields[len(fields)-1]`
on the array, `last` being `len(fields)-1`. -/
def swapFields (arr : List FieldLabel) (last k : Nat) : List FieldLabel :=
  match arr[k]?, arr[last]? with
  | some fk, some fl => (arr.set last fk).set k fl
  | _, _ => arr

/-- The loop `FIELDS` from place `j` on, `cnt` places being left.  `arr` is
the array that `x2.Rows[i].Fields` and `fields` share, `m` is `len(fields)`. -/
def stripLoop : Nat → Nat → List FieldLabel → Nat → List FieldLabel × Nat
  | 0, _, arr, m => (arr, m)
  | cnt + 1, j, arr, m =>
    match arr[j]? with
    | none => (arr, m)
    | some fj =>
      match stripTags arr m fj.Label fj.Tags with
      | some k => stripLoop cnt (j + 1) (swapFields arr (m - 1) k) (m - 1)
      | none => stripLoop cnt (j + 1) arr m

/-- The fields of a row after the stripping pass: `x2.Rows[i].Fields = fields`. -/
def stripFields (fields : List FieldLabel) : List FieldLabel :=
  let r := stripLoop fields.length 0 fields fields.length
  r.1.take r.2

/-- The rows of an `XMLData` after the stripping pass of `encode`, which is
what `xml.Marshal` is then given. -/
def XMLData.encodeStrip (x : XMLData) : XMLData :=
  { x with Rows := x.Rows.map (fun r => { r with Fields := stripFields r.Fields }) }

/-! ## package net/url: `url.Values` -/

namespace url

/-- Go `url.Values`, a map from keys to lists of values, as a list of
entries with distinct keys. -/
abbrev Values := List (String × List String)

/-- Go `Values.Set(key, value)`: the entry of `key` becomes `[value]`. -/
def Values.Set : Values → String → String → Values
  | [], key, value => [(key, [value])]
  | (k, vs) :: rest, key, value =>
    if k = key then (k, [value]) :: rest else (k, vs) :: Values.Set rest key value

/-- Go `Values.Get(key)`: the first value of `key`, or the empty string. -/
def Values.Get : Values → String → String
  | [], _ => ""
  | (k, vs) :: rest, key => if k = key then vs.headD "" else Values.Get rest key

/-- The bytes of the UTF-8 encoding of a character. -/
def utf8Bytes (c : Char) : List Nat :=
  let n := c.toNat
  if n < 0x80 then [n]
  else if n < 0x800 then [0xC0 + n / 64, 0x80 + n % 64]
  else if n < 0x10000 then [0xE0 + n / 4096, 0x80 + n / 64 % 64, 0x80 + n % 64]
  else [0xF0 + n / 262144, 0x80 + n / 4096 % 64, 0x80 + n / 64 % 64, 0x80 + n % 64]

/-- The digit of `"0123456789ABCDEF"` at place `n`. -/
def upperhex (n : Nat) : Char :=
  if n < 10 then Char.ofNat ('0'.toNat + n) else Char.ofNat ('A'.toNat + (n - 10))

/-- Go `shouldEscape(c, encodeQueryComponent)`: letters, digits and `-_.~`
are kept. -/
def shouldEscape (b : Nat) : Bool :=
  ! ((0x61 ≤ b && b ≤ 0x7A) || (0x41 ≤ b && b ≤ 0x5A) || (0x30 ≤ b && b ≤ 0x39) ||
     b = 0x2D || b = 0x5F || b = 0x2E || b = 0x7E)

/-- The escape of one byte in Go `url.QueryEscape`. -/
def escapeByte (b : Nat) : List Char :=
  if b = 0x20 then ['+']
  else if shouldEscape b then ['%', upperhex (b / 16), upperhex (b % 16)]
  else [Char.ofNat b]

/-- Go `url.QueryEscape`. -/
def QueryEscape (s : String) : String :=
  String.mk ((s.data.map utf8Bytes).flatten.map escapeByte).flatten

/-- The order of Go strings, byte by byte; on UTF-8 text it is the order of
the characters, place by place. -/
def lessChars : List Char → List Char → Bool
  | _, [] => false
  | [], _ :: _ => true
  | a :: as, b :: bs =>
    if a.toNat < b.toNat then true
    else if b.toNat < a.toNat then false
    else lessChars as bs

/-- One key put in its place in a sorted list of entries. -/
def insertEntry (e : String × List String) : Values → Values
  | [] => [e]
  | x :: rest =>
    if lessChars e.1.data x.1.data then e :: x :: rest else x :: insertEntry e rest

/-- The entries sorted by key, as `sort.Strings(keys)` orders them. -/
def sortEntries : Values → Values
  | [] => []
  | e :: rest => insertEntry e (sortEntries rest)

/-- The text `key=value` of every value of every entry, in order. -/
def pairs : Values → List String
  | [] => []
  | (k, vs) :: rest => vs.map (fun v => QueryEscape k ++ "=" ++ QueryEscape v) ++ pairs rest

/-- Go `Values.Encode()`: the pairs sorted by key and joined by `&`. -/
def Values.Encode (v : Values) : String :=
  "&".intercalate (pairs (sortEntries v))

/-- Go `url.URL`, by the one field the code writes. -/
structure URL where
  RawQuery : String
  deriving Repr, DecidableEq

end url

/-! ## The URL option encoder (`options.go`) -/

/-- The value of a field of an options record, by its dynamic type as the type
switch of `encodeOptionsToURL` tells them apart.  `crmData` is a value, not
nil, of a type with the methods of `crmData`: whether it equals the zero value
of its type, and what its `writeXML()` returns.  `nil` is a nil interface.
`other` is a value of any other type, a named string or integer type or a
slice for instance, with whether it equals the zero value of its type. -/
inductive OptValue where
  | bool (v : Bool)
  | int (v : Int)
  | float64 (v : Float64)
  | string (v : String)
  | time (v : Time)
  | crmData (isZero : Bool) (writeXML : String)
  | nil
  | other (isZero : Bool)
  deriving Repr, DecidableEq

/-- The test `reflect.DeepEqual(value, reflect.Zero(reflect.TypeOf(value)).Interface())`;
for a nil interface `reflect.TypeOf` is nil and `reflect.Zero` panics (`none`). -/
def OptValue.isZero : OptValue → Option Bool
  | .bool v => some (! v)
  | .int v => some (v = 0)
  | .float64 v => some (v.bits % 2 ^ 63 = 0)
  | .string v => some (v = "")
  | .time v => some v.isZeroValue
  | .crmData z _ => some z
  | .nil => none
  | .other z => some z

/-- A field of an options record: its Go name, its `zoho` tag, its value. -/
structure OptField where
  Name : String
  zoho : String
  Value : OptValue
  deriving Repr, DecidableEq

/-- The loop `for _, a := range tags` for one field: the name and the value
after it, or the error returned.  Each of the three branches makes the zero
test on the current value. -/
def tagsLoop : List String → String → OptValue → Outcome (Except String (String × OptValue))
  | [], name, value => .returned (.ok (name, value))
  | a :: rest, name, value =>
    match value.isZero with
    | none => .panic
    | some z =>
      if a = "required" then
        if z then .returned (.error ("Error field '" ++ name ++ "' is required for this request"))
        else tagsLoop rest name value
      else if strings.HasPrefix a "default>" then
        if z then tagsLoop rest name (.string (strings.TrimPrefix a "default>"))
        else tagsLoop rest name value
      else
        if ! z then tagsLoop rest a value else tagsLoop rest name value

/-- The type switch `switch v := value.(type)`: the parameter set for the
field, if any. -/
def setParam (lib : Lib) (vals : url.Values) (name : String) : OptValue → url.Values
  | .bool v => vals.Set name (if v then "true" else "false")
  | .int v => vals.Set name (fmtD v)
  | .float64 v => vals.Set name (lib.fmtFloat v)
  | .string v => vals.Set name v
  | .time v =>
    if ! v.IsZero then
      vals.Set name (fmtD v.Year ++ "-" ++ fmtD v.Month ++ "-" ++ fmtD v.Day ++ " " ++
        fmtD v.Hour ++ ":" ++ fmtD v.Minute ++ ":" ++ fmtD v.Second)
    else vals
  | .crmData _ x => vals.Set name x
  | .nil => vals
  | .other _ => vals

/-- One turn of the loop over the fields of the record: the parameters after
the field, or the error returned. -/
def encodeField (lib : Lib) (vals : url.Values) (f : OptField) :
    Outcome (Except String url.Values) :=
  match tagsLoop (strings.Split f.zoho ',') f.Name f.Value with
  | .returned (.ok (name, value)) => .returned (.ok (setParam lib vals name value))
  | .returned (.error e) => .returned (.error e)
  | .panic => .panic
  | .fatal => .fatal

/-- The loop over the fields of the record. -/
def encodeFields (lib : Lib) : List OptField → url.Values → Outcome (Except String url.Values)
  | [], vals => .returned (.ok vals)
  | f :: rest, vals =>
    match encodeField lib vals f with
    | .returned (.ok vals2) => encodeFields lib rest vals2
    | o => o

/-- Go `encodeOptionsToURL(o, u)`, `o` being given by its fields in the order
of declaration: the error returned (`none` is nil) and the URL after the
call. -/
def encodeOptionsToURL (lib : Lib) (o : List OptField) (u : url.URL) :
    Outcome (Option String × url.URL) :=
  match encodeFields lib o [] with
  | .returned (.ok vals) =>
    .returned (none, { u with RawQuery := ((vals.Set "version" "2").Set "newFormat" "1").Encode })
  | .returned (.error e) => .returned (some e, u)
  | .panic => .panic
  | .fatal => .fatal

/-! ## Shapes of documents used in the statements -/

/-- A token that opens a wrapper element or is no element: not an end
element, and not the start of a `row`, `FL`, `nodata` or `error` element. -/
def opensWrapper : xml.Token → Bool
  | .StartElement n _ => n ≠ "row" && n ≠ "FL" && n ≠ "nodata" && n ≠ "error"
  | .EndElement _ => false
  | _ => true

/-- The stack of open elements after the start elements among `pre` have been
read on top of `stk`. -/
def openedBy : List xml.Token → List String → List String
  | [], stk => stk
  | .StartElement n _ :: rest, stk => openedBy rest (n :: stk)
  | _ :: rest, stk => openedBy rest stk

/-- The children and the end of a sentinel element with code 4600 and the
message `Unable to process`, followed by a row and the end of `response`. -/
def sentinelBodyThenRow : List xml.Token :=
  [.StartElement "code" [], .CharData "4600", .EndElement "code",
   .StartElement "message" [], .CharData "Unable to process", .EndElement "message",
   .EndElement "error",
   .StartElement "row" [⟨"no", "1"⟩],
   .StartElement "FL" [⟨"val", "LEADID"⟩], .CharData "7", .EndElement "FL",
   .EndElement "row",
   .EndElement "response"]

/-- The document `<response><result/><error><code>4600</code><message>Unable
to process</message></error></response>`: an `error` element after an empty
`result` element, and no row. -/
def errorAfterResult : xml.Document :=
  [.StartElement "response" [], .StartElement "result" [], .EndElement "result",
   .StartElement "error" [],
   .StartElement "code" [], .CharData "4600", .EndElement "code",
   .StartElement "message" [], .CharData "Unable to process", .EndElement "message",
   .EndElement "error", .EndElement "response"]

/-- The document `<response><result><Leads><row no="1"><FL val="LEADID">7</FL>
</row></Leads></result></response>`. -/
def oneRowDocument : xml.Document :=
  [.StartElement "response" [], .StartElement "result" [], .StartElement "Leads" [],
   .StartElement "row" [⟨"no", "1"⟩],
   .StartElement "FL" [⟨"val", "LEADID"⟩], .CharData "7", .EndElement "FL",
   .EndElement "row",
   .EndElement "Leads", .EndElement "result", .EndElement "response"]

/-- The row that `oneRowDocument` parses to. -/
def leadRow : Row :=
  { Number := 1, Fields := [FieldLabel.mk "FL" "LEADID" "7" [] []] }

/-- The children and the end of a `nodata` element with code 4422 and the
message `No data`, followed by the end of `response`. -/
def nodataBody : List xml.Token :=
  [.StartElement "code" [], .CharData "4422", .EndElement "code",
   .StartElement "message" [], .CharData "No data", .EndElement "message",
   .EndElement "nodata", .EndElement "response"]

/-- A library whose float and time parsers reject every input, for inputs
that hold neither floats nor times; `append` doubles a capacity used up. -/
def rejectingLib : Lib :=
  ⟨fun _ => (⟨0⟩, true), fun _ _ => .error "cannot parse", fun _ => "", fun n => 2 * n⟩

/-- A record type with one string field `LEADID`, holding `v`. -/
def leadRecord (v : String) : GoValue :=
  .struct [(⟨"LEADID", "LEADID", true⟩, .string v)]

/-- No token `default>…` of an annotation stands before a token `required`. -/
def noDefaultBeforeRequired : List String → Bool
  | [] => true
  | a :: rest =>
    if strings.HasPrefix a "default>" then ! rest.contains "required"
    else noDefaultBeforeRequired rest

/-- The Go name of the first field of an options record that is annotated
`required` and holds the zero value of its type, if there is one. -/
def firstMissing : List OptField → Option String
  | [] => none
  | f :: rest =>
    if (strings.Split f.zoho ',').contains "required" && f.Value.isZero = some true
    then some f.Name
    else firstMissing rest

/-- The zero value `time.Time{}`. -/
def zeroTime : Time := ⟨1, 1, 1, 0, 0, 0, true, true⟩

/-- The record `SearchRecordsOptions` of `methods.go` with `Criteria` set and
the other fields left at their zero values. -/
def searchRecordsOptions (criteria : String) : List OptField :=
  [⟨"Criteria", "criteria,required,noencode", .string criteria⟩,
   ⟨"SelectColumns", "selectColumns,default>All", .string ""⟩,
   ⟨"FromIndex", "fromIndex,default>1", .int 0⟩,
   ⟨"ToIndex", "toIndex,default>20", .int 0⟩,
   ⟨"LastModifiedTime", "lastModifiedTime", .time zeroTime⟩]

/-- The record `GetSearchRecordsByPDCOptions` of `methods.go` with
`SearchColumn` and `SearchValue` set and the other fields left at their zero
values. -/
def getSearchRecordsByPDCOptions (column value : String) : List OptField :=
  [⟨"SelectColumns", "selectColumns,default>All", .string ""⟩,
   ⟨"FromIndex", "fromIndex,default>1", .int 0⟩,
   ⟨"ToIndex", "toIndex,default>20", .int 0⟩,
   ⟨"SearchColumn", "searchColumn,required,noencode", .string column⟩,
   ⟨"SearchValue", "searchValue,required,noencode", .string value⟩]

/-- The record `InsertRecordsOptions` of `methods.go` with `Data` set to a
value whose `writeXML()` gives `xml`, `WorkflowTrigger` set to true and the
other fields left at their zero values; `DuplicateCheck` has a named integer
type. -/
def insertRecordsOptions (xml : String) : List OptField :=
  [⟨"Data", "xmlData,required", .crmData false xml⟩,
   ⟨"WorkflowTrigger", "wfTrigger,default>false", .bool true⟩,
   ⟨"DuplicateCheck", "duplicateCheck,default>1", .other true⟩,
   ⟨"IsApproval", "isApproval,default>false", .bool false⟩]

/-- The keys of two entries are in ascending order, byte by byte. -/
def keyLE (a b : String × List String) : Prop :=
  url.lessChars b.1.data a.1.data = false

/-- A record type with one string field `Name`, holding `v`. -/
def productRecord (v : String) : GoValue :=
  .struct [(⟨"Name", "Name", true⟩, .string v)]

/-- A group `product` numbered `n` whose one field `Name` has the value `v`. -/
def productGroup (n : Int) (v : String) : InternalGroup :=
  InternalGroup.mk "product" n [FieldLabel.mk "FL" "Name" v [] []]

/-- A wire field `Products` with three groups. -/
def productsField : FieldLabel :=
  FieldLabel.mk "" "Products" "" [productGroup 1 "p1", productGroup 2 "p2", productGroup 3 "p3"] []

/-- The struct field `Products []Product` tagged `zoho:"Products"`. -/
def productsStructField : StructField := ⟨"Products", "Products", true⟩

/-- The rows are numbered 1, 2, … in their order: the row at place `k`
(counted from 0) has the number `k + 1`. -/
def numberedFromOne (rows : List Row) : Prop :=
  ∀ (k : Nat) (r : Row), rows[k]? = some r → r.Number = (k : Int) + 1

/-- The document `<response><result><Leads><row no="5"><FL val="LEADID">7</FL>
</row><row no="9"><FL val="LEADID">8</FL></row></Leads></result></response>`,
whose rows carry the attributes `no="5"` and `no="9"`. -/
def twoRowDocument : xml.Document :=
  [.StartElement "response" [], .StartElement "result" [], .StartElement "Leads" [],
   .StartElement "row" [⟨"no", "5"⟩],
   .StartElement "FL" [⟨"val", "LEADID"⟩], .CharData "7", .EndElement "FL",
   .EndElement "row",
   .StartElement "row" [⟨"no", "9"⟩],
   .StartElement "FL" [⟨"val", "LEADID"⟩], .CharData "8", .EndElement "FL",
   .EndElement "row",
   .EndElement "Leads", .EndElement "result", .EndElement "response"]

/-- The rows that `twoRowDocument` parses to. -/
def twoLeadRows : List Row :=
  [{ Number := 1, Fields := [FieldLabel.mk "FL" "LEADID" "7" [] []] },
   { Number := 2, Fields := [FieldLabel.mk "FL" "LEADID" "8" [] []] }]

/-- The document `<Leads><row no="1"><FL val="Note"></FL></row><row no="2">
<FL val="Note"><Data no="7"></Data></FL></row></Leads>`: the field `Note` of
the second row has a child element named `Data`. -/
def groupNumberDocument : xml.Document :=
  [.StartElement "Leads" [], .StartElement "row" [⟨"no", "1"⟩],
   .StartElement "FL" [⟨"val", "Note"⟩], .EndElement "FL",
   .EndElement "row",
   .StartElement "row" [⟨"no", "2"⟩],
   .StartElement "FL" [⟨"val", "Note"⟩],
   .StartElement "Data" [⟨"no", "7"⟩], .EndElement "Data",
   .EndElement "FL",
   .EndElement "row", .EndElement "Leads"]

/-- The rows that `groupNumberDocument` parses to: the only group of the
second `Note` has the number 7. -/
def groupNumberRows : List Row :=
  [{ Number := 1, Fields := [FieldLabel.mk "FL" "Note" "" [] []] },
   { Number := 2,
     Fields := [FieldLabel.mk "FL" "Note" "" [InternalGroup.mk "Data" 7 []] []] }]

/-! ### Documents whose fields carry repeated groups -/

/-- The loop of `getValuesFromXML` continued from the state `st` at the
reader `d`, with one turn more than there are unread tokens. -/
def parseFrom (b : xml.Document) (st : ParseState) (d : xml.Decoder) :
    Outcome (XMLData × Option String) :=
  primeLoop b (d.toks.length + 1) st d

/-- The loop of `checkForInternalGroup` for an `FL` element continued at the
reader `d`, with one turn more than there are unread tokens. -/
def checkFrom (vAttr : List xml.Attr) (d : xml.Decoder) (found : Bool) : Bool :=
  checkLoop "FL" vAttr (d.toks.length + 1) d found

/-- The element names that the loop of `getValuesFromXML` treats in a case of
their own. -/
def reservedNames : List String := ["response", "result", "nodata", "error", "row", "FL"]

/-- A simple field on the wire: its label and the pieces of its character
data (none for an empty field). -/
structure SimpleField where
  label : String
  texts : List String

/-- The tokens `<FL val="label">texts</FL>` of a simple field. -/
def SimpleField.tokens (f : SimpleField) : List xml.Token :=
  .StartElement "FL" [⟨"val", f.label⟩] :: (f.texts.map xml.Token.CharData
    ++ [.EndElement "FL"])

/-- The field that a simple field is to parse to. -/
def SimpleField.parsed (f : SimpleField) : FieldLabel :=
  FieldLabel.mk "FL" f.label (f.texts.foldl (fun acc s => acc ++ s) "") [] []

/-- One occurrence of the repeated element of a field: the attributes of its
start element and the simple fields it contains. -/
structure Occurrence where
  attrs : List xml.Attr
  fields : List SimpleField

/-- The tokens `<g attrs>fields</g>` of an occurrence of the element `g`. -/
def Occurrence.tokens (g : String) (o : Occurrence) : List xml.Token :=
  .StartElement g o.attrs :: (o.fields.flatMap SimpleField.tokens ++ [.EndElement g])

/-- The groups that occurrences of `g` are to parse to, numbered from `k + 1`
in their order. -/
def numberGroups (g : String) : Nat → List Occurrence → List InternalGroup
  | _, [] => []
  | k, o :: os =>
    InternalGroup.mk g ((k : Int) + 1) (o.fields.map SimpleField.parsed)
      :: numberGroups g (k + 1) os

/-- An item of a row: a simple field, or a field labelled `label` whose content
is one or more occurrences of the element `g`. -/
inductive Item where
  | simple (f : SimpleField)
  | grouped (label : String) (g : String) (first : Occurrence) (more : List Occurrence)

/-- The tokens of an item. -/
def Item.tokens : Item → List xml.Token
  | .simple f => f.tokens
  | .grouped label g first more =>
    .StartElement "FL" [⟨"val", label⟩]
      :: ((first :: more).flatMap (Occurrence.tokens g) ++ [.EndElement "FL"])

/-- The field that an item is to parse to: a field with groups has no element
name and no value, and its groups are numbered from 1. -/
def Item.parsed : Item → FieldLabel
  | .simple f => f.parsed
  | .grouped label g first more =>
    FieldLabel.mk "" label "" (numberGroups g 0 (first :: more)) []

/-- The labels of the simple fields of an item, those inside its occurrences
included. -/
def Item.simpleLabels : Item → List String
  | .simple f => [f.label]
  | .grouped _ _ first more =>
    (first :: more).flatMap (fun o => o.fields.map SimpleField.label)

/-- The label of an item when it is a field with groups. -/
def Item.groupedLabels : Item → List String
  | .simple _ => []
  | .grouped label _ _ _ => [label]

/-- The names of the repeated elements of an item. -/
def Item.groupNames : Item → List String
  | .simple _ => []
  | .grouped _ g _ _ => [g]

/-- A row on the wire: the attributes of its start element and its items. -/
structure WireRow where
  attrs : List xml.Attr
  items : List Item

/-- The tokens `<row attrs>items</row>` of a row. -/
def WireRow.tokens (r : WireRow) : List xml.Token :=
  .StartElement "row" r.attrs :: (r.items.flatMap Item.tokens ++ [.EndElement "row"])

/-- The rows that rows on the wire are to parse to, numbered from `k + 1` in
their order. -/
def numberRows : Nat → List WireRow → List Row
  | _, [] => []
  | k, r :: rs =>
    { Number := (k : Int) + 1, Fields := r.items.map Item.parsed } :: numberRows (k + 1) rs

/-- A token before the module element: the start of `response` or `result`,
or a token that is no element (a processing instruction, a comment, text). -/
def isWrapper : xml.Token → Bool
  | .StartElement n _ => n = "response" || n = "result"
  | .EndElement _ => false
  | _ => true

/-- A document with a module element: wrappers, the start of the module
element `m`, rows, the end of the module element and whatever follows. -/
def moduleDocument (wrappers : List xml.Token) (m : String) (mattrs : List xml.Attr)
    (rows : List WireRow) (tail : List xml.Token) : xml.Document :=
  wrappers ++ (.StartElement m mattrs :: (rows.flatMap WireRow.tokens ++ (.EndElement m :: tail)))

/-- What the first field bearing the label `l` among items is: `some true` for
a field with groups, `some false` for a simple field (one inside an
occurrence included), `none` when no field bears the label. -/
def firstField (l : String) : List Item → Option Bool
  | [] => none
  | .simple f :: rest => if f.label = l then some false else firstField l rest
  | .grouped label _ first more :: rest =>
    if label = l then some true
    else if l ∈ (first :: more).flatMap (fun o => o.fields.map SimpleField.label) then some false
    else firstField l rest

/-- The rows of the document `<Invoices><row no="1"><FL val="Tax"><t no="1">
<FL val="Rate">5</FL></t></FL><FL val="Products"><product no="1">
<FL val="Tax">9</FL></product></FL></row></Invoices>`: the simple field inside
the only `product` bears the label of the field `Tax`, which has groups. -/
def sharedLabelRows : List WireRow :=
  [⟨[⟨"no", "1"⟩],
    [.grouped "Tax" "t" ⟨[⟨"no", "1"⟩], [⟨"Rate", ["5"]⟩]⟩ [],
     .grouped "Products" "product" ⟨[⟨"no", "1"⟩], [⟨"Tax", ["9"]⟩]⟩ []]⟩]

/-- The rows of the document `<Invoices><row no="1"><FL val="Items"><row no="1">
<FL val="Name">x</FL></row></FL></row></Invoices>`: the repeated element of
the field `Items` is named `row`. -/
def nestedRowRows : List WireRow :=
  [⟨[⟨"no", "1"⟩], [.grouped "Items" "row" ⟨[⟨"no", "1"⟩], [⟨"Name", ["x"]⟩]⟩ []]⟩]

/-- The rows of the document `<response><result><Invoices><row no="1">
<FL val="Subject">Order</FL><FL val="Products"><product no="1">
<FL val="Name">a</FL></product><product no="2"><FL val="Name">b</FL></product>
<product no="3"><FL val="Name">c</FL></product></FL></row></Invoices></result>
</response>`: the field `Products` has three occurrences of `product`. -/
def threeProductsRows : List WireRow :=
  [⟨[⟨"no", "1"⟩],
    [.simple ⟨"Subject", ["Order"]⟩,
     .grouped "Products" "product" ⟨[⟨"no", "1"⟩], [⟨"Name", ["a"]⟩]⟩
       [⟨[⟨"no", "2"⟩], [⟨"Name", ["b"]⟩]⟩, ⟨[⟨"no", "3"⟩], [⟨"Name", ["c"]⟩]⟩]]⟩]

/-- The row that the document of `threeProductsRows` parses to. -/
def threeProductsRow : Row :=
  { Number := 1,
    Fields := [FieldLabel.mk "FL" "Subject" "Order" [] [],
      FieldLabel.mk "" "Products" ""
        [InternalGroup.mk "product" 1 [FieldLabel.mk "FL" "Name" "a" [] []],
         InternalGroup.mk "product" 2 [FieldLabel.mk "FL" "Name" "b" [] []],
         InternalGroup.mk "product" 3 [FieldLabel.mk "FL" "Name" "c" [] []]] []] }

/-- The rows that the document of `sharedLabelRows` parses to: one field,
`Tax`, whose second group is the `product`, without fields. -/
def sharedLabelResult : List Row :=
  [{ Number := 1,
     Fields := [FieldLabel.mk "" "Tax" ""
       [InternalGroup.mk "t" 1 [FieldLabel.mk "FL" "Rate" "5" [] []],
        InternalGroup.mk "product" 2 []] []] }]

/-- The rows that the document of `nestedRowRows` parses to: two rows, each
with the simple field `Name`. -/
def nestedRowResult : List Row :=
  [{ Number := 1, Fields := [FieldLabel.mk "FL" "Name" "x" [] []] },
   { Number := 2, Fields := [FieldLabel.mk "FL" "Name" "x" [] []] }]

/-- The rows of the document `<Invoices><row no="1"><FL val="Products"></FL>
</row><row no="2"><FL val="Products"><product no="1"><FL val="Name">a</FL>
</product></FL></row></Invoices>`: the field `Products` is empty in the first
row and holds one `product` in the second. -/
def emptyThenProductsRows : List WireRow :=
  [⟨[⟨"no", "1"⟩], [.simple ⟨"Products", []⟩]⟩,
   ⟨[⟨"no", "2"⟩], [.grouped "Products" "product" ⟨[⟨"no", "1"⟩], [⟨"Name", ["a"]⟩]⟩ []]⟩]

/-- The rows that the document of `emptyThenProductsRows` parses to: the
field `Products` of the second row is a simple field without groups. -/
def emptyThenProductsResult : List Row :=
  [{ Number := 1, Fields := [FieldLabel.mk "FL" "Products" "" [] []] },
   { Number := 2, Fields := [FieldLabel.mk "FL" "Products" "" [] []] }]

/-- The tokens of a row that is left open: none, or the start of the row and
items of it. -/
def openRowTokens : Option WireRow → List xml.Token
  | none => []
  | some r => .StartElement "row" r.attrs :: r.items.flatMap Item.tokens

/-- A document that ends with elements open: wrappers, the start of the module
element `m`, rows, and then the end of the input, or the start of one more row
and items of it and then the end of the input. -/
def openDocument (wrappers : List xml.Token) (m : String) (mattrs : List xml.Attr)
    (rows : List WireRow) (openRow : Option WireRow) : xml.Document :=
  wrappers ++ (.StartElement m mattrs :: (rows.flatMap WireRow.tokens ++ openRowTokens openRow))

/-! ### Timestamps that do not parse -/

/-- The value parses in neither the layout `2006-01-02 15:04:05`
("YYYY-MM-DD HH:MM:SS") nor the layout `2006-01-02` ("YYYY-MM-DD"). -/
def unparsableTime (lib : Lib) (value : String) : Bool :=
  match lib.timeParse "2006-01-02 15:04:05" value, lib.timeParse "2006-01-02" value with
  | .error _, .error _ => true
  | _, _ => false

mutual
/-- Following the words of the claim about failures: some wire field matched
to a timestamp target field, at any nesting depth, has a value that parses in
neither layout.  Matching is the matching of `fillStructFromValues`: a target
field that can be set takes the first wire field, not yet consumed, that its
annotation names; a struct field goes on with the fields of the first group of
its wire field, a slice field with those of every group. -/
def badTimestamp (lib : Lib) (fields : List FieldLabel) : GoValue → Bool
  | .struct fs => badTimestampFields lib fields fs
  | _ => false
/-- The same for the fields of a target struct, `fields` being the wire fields
not yet consumed. -/
def badTimestampFields (lib : Lib) (fields : List FieldLabel) :
    List (StructField × GoValue) → Bool
  | [] => false
  | (_, .ptr none) :: rest => badTimestampFields lib fields rest
  | (sf, .ptr (some tv)) :: rest =>
    let f := getFieldLabelByName fields ((strings.Split sf.zoho ',').headD "")
    if ! sf.exported || f.Label = "" then badTimestampFields lib fields rest
    else badTimestampKind lib f tv ||
      badTimestampFields lib (removeLabelByName fields f.Label) rest
  | (sf, v) :: rest =>
    let f := getFieldLabelByName fields ((strings.Split sf.zoho ',').headD "")
    if ! sf.exported || f.Label = "" then badTimestampFields lib fields rest
    else badTimestampKind lib f v ||
      badTimestampFields lib (removeLabelByName fields f.Label) rest
/-- The same for one target field matched to the wire field `f`. -/
def badTimestampKind (lib : Lib) (f : FieldLabel) : GoValue → Bool
  | .time _ => unparsableTime lib f.Value
  | .struct fs =>
    match f.Data with
    | [] => false
    | g :: _ => badTimestampFields lib g.Fields fs
  | .slice elem _ => f.Data.any (fun g => badTimestamp lib g.Fields elem)
  | _ => false
end

/-- An outcome with an error channel fails only for the reason `bad`: an error
is returned only when `bad` holds, no value is returned when `bad` holds, and
the process is never ended. -/
def failsOnlyOnBad {α : Type} (out : Outcome (Except String α)) (bad : Bool) : Prop :=
  (∀ e, out = .returned (.error e) → bad = true) ∧
  (bad = true → ∀ v, out ≠ .returned (.ok v)) ∧
  out ≠ .fatal

/-- A record type with an integer field `Count` and a slice field `Visits` of
records with one timestamp field `When`. -/
def visitsRecord : GoValue :=
  .struct [(⟨"Count", "Count", true⟩, .int 0),
    (⟨"Visits", "Visits", true⟩, .slice (.struct [(⟨"When", "When", true⟩, .time zeroTime)]) [])]

/-- Wire fields for `visitsRecord`: a count that is no number, a field that no
target field names, and one visit whose `When` is `yesterday`. -/
def visitsFields : List FieldLabel :=
  [FieldLabel.mk "FL" "Count" "many" [] [],
   FieldLabel.mk "FL" "Unknown" "x" [] [],
   FieldLabel.mk "" "Visits" ""
     [InternalGroup.mk "visit" 1 [FieldLabel.mk "FL" "When" "yesterday" [] []]] []]

/-! ### Documents with an unknown element -/

/-- A row on the wire that holds simple fields only. -/
structure SimpleRow where
  attrs : List xml.Attr
  fields : List SimpleField

/-- A row of simple fields as a row on the wire. -/
def SimpleRow.wire (r : SimpleRow) : WireRow :=
  ⟨r.attrs, r.fields.map Item.simple⟩

/-- The tokens of rows of simple fields. -/
def simpleRowsTokens (rows : List SimpleRow) : List xml.Token :=
  (rows.map SimpleRow.wire).flatMap WireRow.tokens

/-- A document of rows of simple fields with an empty element `<x></x>`
between two rows: behind the rows `rows1`, before the rows `rows2`. -/
def unknownBetweenRows (wrappers : List xml.Token) (m : String) (mattrs : List xml.Attr)
    (rows1 : List SimpleRow) (x : String) (xattrs : List xml.Attr) (rows2 : List SimpleRow)
    (tail : List xml.Token) : xml.Document :=
  wrappers ++ (.StartElement m mattrs :: (simpleRowsTokens rows1 ++
    (.StartElement x xattrs :: .EndElement x :: (simpleRowsTokens rows2 ++
      (.EndElement m :: tail)))))

/-- A document of rows of simple fields with an empty element `<x></x>`
between two fields of a row: behind the fields `before`, before the fields
`after`. -/
def unknownBetweenFields (wrappers : List xml.Token) (m : String) (mattrs : List xml.Attr)
    (rows1 : List SimpleRow) (rattrs : List xml.Attr) (before : List SimpleField)
    (x : String) (xattrs : List xml.Attr) (after : List SimpleField) (rows2 : List SimpleRow)
    (tail : List xml.Token) : xml.Document :=
  wrappers ++ (.StartElement m mattrs :: (simpleRowsTokens rows1 ++
    (.StartElement "row" rattrs :: (before.flatMap SimpleField.tokens ++
      (.StartElement x xattrs :: .EndElement x :: (after.flatMap SimpleField.tokens ++
        (.EndElement "row" :: (simpleRowsTokens rows2 ++ (.EndElement m :: tail)))))))))

/-- The field that an empty element `<x></x>` inside a row leaves in the row:
a field without label that carries one group named `x`, without fields. -/
def unknownField (x : String) : FieldLabel :=
  FieldLabel.mk "" "" "" [InternalGroup.mk x 1 []] []

/-- The row that a row with an empty element `<x></x>` between its fields
`before` and `after` parses to, behind `k` rows: the fields and, between them,
the field that the element leaves. -/
def rowWithUnknown (k : Nat) (before : List SimpleField) (x : String)
    (after : List SimpleField) : Row :=
  { Number := (k : Int) + 1,
    Fields := before.map SimpleField.parsed ++ unknownField x :: after.map SimpleField.parsed }

/-- The rows that a document with an empty element between two fields of a row
parses to. -/
def rowsWithUnknown (rows1 : List SimpleRow) (before : List SimpleField) (x : String)
    (after : List SimpleField) (rows2 : List SimpleRow) : List Row :=
  numberRows 0 (rows1.map SimpleRow.wire) ++
    rowWithUnknown rows1.length before x after ::
      numberRows (rows1.length + 1) (rows2.map SimpleRow.wire)

/-! ## Where the parse ends -/

/-- The reader `d` with the tokens `p` behind what it has left to read. -/
def xml.Decoder.withTail (d : xml.Decoder) (p : List xml.Token) : xml.Decoder :=
  ⟨d.toks ++ p, d.stk, d.err⟩

/-- A start or an end element: the tokens at which `checkForInternalGroup`
answers once it has found the field. -/
def isElement : xml.Token → Bool
  | .StartElement _ _ => true
  | .EndElement _ => true
  | _ => false

/-- Whether `checkForInternalGroup` gives its answer while reading `toks`: an
element named `vName` with the attributes of `vAttr` is met (or has been met,
`found`), and a start or end element follows it. -/
def settles (vName : String) (vAttr : List xml.Attr) : Bool → List xml.Token → Bool
  | _, [] => false
  | true, t :: rest => isElement t || settles vName vAttr true rest
  | false, .StartElement n attr :: rest =>
    settles vName vAttr (decide (n = vName) && sameAttrs attr vAttr) rest
  | false, _ :: rest => settles vName vAttr false rest

/-- The loop `PRIME` of `getValuesFromXML(b)` once more, turn by turn as in
`primeLoop`, giving the reader as it stands right behind the end element at
which the loop breaks: the close of the module wrapper, of `response` or of
`result`.  `none` when the loop ends in another way: at the end of the input,
at a sentinel, or in `log.Fatal`. -/
def closeReader (b : xml.Document) : Nat → ParseState → xml.Decoder → Option xml.Decoder
  | 0, _, _ => none
  | fuel + 1, st, decoder =>
    match decoder.Token with
    | (.failed, _) => none
    | (.EOF, _) => none
    | (.token (.StartElement name attr), d1) =>
      if name = "response" ∨ name = "result" then closeReader b fuel st d1
      else if name = "nodata" then none
      else if name = "error" then none
      else if name = "row" then closeReader b fuel { st with currentRow := [] } d1
      else if name = "FL" then
        if checkForInternalGroup (xml.NewDecoder b) name attr then
          closeReader b fuel { st with nestedField := nestedFieldOfAttr attr st.nestedField } d1
        else
          let r := FieldLabel.decode d1 name attr
          if st.nested ≠ "" then
            closeReader b fuel
              { st with nestedGroup := st.nestedGroup.addField r.1 } r.2
          else closeReader b fuel { st with currentRow := st.currentRow ++ [r.1] } r.2
      else if st.module = "" then closeReader b fuel { st with module := name } d1
      else
        closeReader b fuel
          { st with nested := name, nestedGroup := st.nestedGroup.setXMLName name } d1
    | (.token (.EndElement name), d1) =>
      if name = "row" then
        closeReader b fuel { st with values := st.values ++ [newRow st.values st.currentRow] } d1
      else if name = st.nested then
        if st.nested ≠ "" then closeReader b fuel (closeNested st) d1
        else closeReader b fuel st d1
      else if name = st.module then
        if st.module ≠ "" then some d1
        else closeReader b fuel st d1
      else if name = "response" then some d1
      else if name = "result" then some d1
      else closeReader b fuel st d1
    | (.token _, d1) => closeReader b fuel st d1

/-- The document `b` cut just after the end element at which the loop of
`getValuesFromXML(b)` breaks; `none` when the loop does not end at a close. -/
def cutAtClose (b : xml.Document) : Option xml.Document :=
  match closeReader b (b.length + 1) ParseState.init (xml.NewDecoder b) with
  | some d => some (b.take (b.length - d.toks.length))
  | none => none

/-- A document with a close of `result` inside a field that has no groups:
`<Leads><row><FL val="a"><FL val="b"><result/></FL></FL></row></Leads>`. -/
def closeInsideField : xml.Document :=
  [.StartElement "Leads" [], .StartElement "row" [],
   .StartElement "FL" [⟨"val", "a"⟩], .StartElement "FL" [⟨"val", "b"⟩],
   .StartElement "result" [], .EndElement "result",
   .EndElement "FL", .EndElement "FL", .EndElement "row", .EndElement "Leads"]

/-- Whether a token is the close of `name`, of `response` or of `result`. -/
def isClose (name : String) (t : xml.Token) : Bool :=
  t == .EndElement name || t == .EndElement "response" || t == .EndElement "result"

/-- A document with a row and a sentinel behind the close of the module
wrapper: `<response><result><Leads><row><FL val="a">x</FL></row></Leads>`
followed by `<row><FL val="b">y</FL></row><error/></result></response>`. -/
def moreBehindClose : xml.Document :=
  [.StartElement "response" [], .StartElement "result" [], .StartElement "Leads" [],
   .StartElement "row" [], .StartElement "FL" [⟨"val", "a"⟩], .CharData "x",
   .EndElement "FL", .EndElement "row", .EndElement "Leads",
   .StartElement "row" [], .StartElement "FL" [⟨"val", "b"⟩], .CharData "y",
   .EndElement "FL", .EndElement "row", .StartElement "error" [], .EndElement "error",
   .EndElement "result", .EndElement "response"]

/-- The key under which a field of an options record is sent: the name as the
loop over the tags of the field leaves it, the Go name of the field or a token
of its annotation. -/
def sentUnder (f : OptField) : String :=
  match tagsLoop (strings.Split f.zoho ',') f.Name f.Value with
  | .returned (.ok (key, _)) => key
  | _ => f.Name

/-- What a result of `getValuesFromXML` tells apart from the fields of its
rows: the numbers of the rows and the sentinel. -/
def outlineOf : Outcome (XMLData × Option String) → Outcome (List Int × XMLError)
  | .returned (x, _) => .returned (x.Rows.map (fun r => r.Number), x.Error)
  | .panic => .panic
  | .fatal => .fatal

/-- The numbers of the rows and the sentinel of a result with its arrays. -/
def sharedOutlineOf : Outcome SharedData → Outcome (List Int × XMLError)
  | .returned x => .returned (x.Rows.map (fun r => r.Number), x.Error)
  | .panic => .panic
  | .fatal => .fatal

/-- A document with a `row` element inside a field of a row:
`<Invoices><row><FL val="Items"><row><FL val="A">1</FL><FL val="B">2</FL></row></FL></row></Invoices>`.
The inner `<row>` starts the current row anew, and each of the two `</row>`
appends it. -/
def rowInFieldDocument : xml.Document :=
  [.StartElement "Invoices" [], .StartElement "row" [],
   .StartElement "FL" [⟨"val", "Items"⟩], .StartElement "row" [],
   .StartElement "FL" [⟨"val", "A"⟩], .CharData "1", .EndElement "FL",
   .StartElement "FL" [⟨"val", "B"⟩], .CharData "2", .EndElement "FL",
   .EndElement "row", .EndElement "FL", .EndElement "row", .EndElement "Invoices"]

/-- A record type with two string fields `A` and `B`, holding `a` and `b`. -/
def pairRecord (a b : String) : GoValue :=
  .struct [(⟨"A", "A", true⟩, .string a), (⟨"B", "B", true⟩, .string b)]

/-- A document in which a group closes behind a row and before the next:
`<Leads><row><FL val="P"><p><FL val="N">a</FL></p></FL></row><q></q></Leads>`. -/
def groupBehindRowDocument : xml.Document :=
  [.StartElement "Leads" [], .StartElement "row" [], .StartElement "FL" [⟨"val", "P"⟩],
   .StartElement "p" [], .StartElement "FL" [⟨"val", "N"⟩], .CharData "a", .EndElement "FL",
   .EndElement "p", .EndElement "FL", .EndElement "row",
   .StartElement "q" [], .EndElement "q", .EndElement "Leads"]

/-- The labels of the fields that the rows of a result show, each with the
names and numbers of its groups. -/
def SharedData.groupsShown (x : SharedData) : List (List (String × List (String × Int))) :=
  x.Rows.map (fun r =>
    (x.heap.view r.Fields).map (fun c => (c.Label, c.Data.map (fun g => (g.XMLName, g.Number)))))

/-! ## Theorems -/

/-! ### The loops read a token at every turn

Each loop of the embedding is given as many turns as there are unread tokens,
and one more.  The lemmas of this section show that this is enough: with more
turns the result is the same, so no loop ever stops for lack of turns. -/

/-- A token that is read is taken off the input. -/
theorem Token_lt {d d1 : xml.Decoder} {t : xml.Token} (h : d.Token = (.token t, d1)) :
    d1.toks.length < d.toks.length := by
  unfold xml.Decoder.Token at h
  split at h
  · simp at h
  · split at h
    · split at h <;> simp at h
    · rename_i t0 rest heq
      split at h
      · simp only [Prod.mk.injEq, xml.Read.token.injEq] at h
        obtain ⟨_, h2⟩ := h
        subst h2
        simp [heq]
      · simp at h

/-- Reading never gives input back. -/
theorem Token_le {d d1 : xml.Decoder} {r : xml.Read} (h : d.Token = (r, d1)) :
    d1.toks.length ≤ d.toks.length := by
  unfold xml.Decoder.Token at h
  split at h
  · simp only [Prod.mk.injEq] at h
    rw [← h.2]
  · split at h
    · split at h <;> (simp only [Prod.mk.injEq] at h; rw [← h.2])
    · rename_i t0 rest heq
      split at h <;> (simp only [Prod.mk.injEq] at h; rw [← h.2]; simp [heq])

/-- `Skip` never gives input back. -/
theorem skipLoop_length :
    ∀ (fuel : Nat) (d : xml.Decoder) (depth : Nat),
      (xml.skipLoop fuel d depth).2.toks.length ≤ d.toks.length := by
  intro fuel
  induction fuel with
  | zero => intro d depth; simp [xml.skipLoop]
  | succ fuel ih =>
    intro d depth
    simp only [xml.skipLoop]
    split
    · rename_i heq
      exact le_trans (ih _ _) (le_of_lt (Token_lt heq))
    · rename_i heq
      split
      · exact le_of_lt (Token_lt heq)
      · exact le_trans (ih _ _) (le_of_lt (Token_lt heq))
    · rename_i heq
      exact le_trans (ih _ _) (le_of_lt (Token_lt heq))
    · rename_i heq
      exact Token_le heq

/-- More turns than unread tokens do not change the result of `Skip`. -/
theorem skipLoop_fuel :
    ∀ (f1 f2 : Nat) (d : xml.Decoder) (depth : Nat),
      d.toks.length < f1 → d.toks.length < f2 →
      xml.skipLoop f1 d depth = xml.skipLoop f2 d depth := by
  intro f1
  induction f1 with
  | zero => intro f2 d depth h; omega
  | succ f1 ih =>
    intro f2 d depth h1 h2
    cases f2 with
    | zero => omega
    | succ f2 =>
      simp only [xml.skipLoop]
      rcases hT : d.Token with ⟨r, d1⟩
      cases r with
      | token t =>
        have hlt := Token_lt hT
        cases t <;> simp only [] <;> (try split) <;>
          first
            | rfl
            | exact ih _ _ _ (by omega) (by omega)
      | EOF => rfl
      | failed => rfl

/-- `Decoder.Skip` never gives input back. -/
theorem Skip_length (d : xml.Decoder) : d.Skip.2.toks.length ≤ d.toks.length :=
  skipLoop_length _ d 0

/-- Reading the character data of an element never gives input back. -/
theorem charDataLoop_length :
    ∀ (fuel : Nat) (d : xml.Decoder) (acc : String),
      (xml.charDataLoop fuel d acc).2.toks.length ≤ d.toks.length := by
  intro fuel
  induction fuel with
  | zero => intro d acc; simp [xml.charDataLoop]
  | succ fuel ih =>
    intro d acc
    simp only [xml.charDataLoop]
    rcases hT : d.Token with ⟨r, d1⟩
    cases r with
    | token t =>
      have hlt := Token_lt hT
      cases t with
      | StartElement n a =>
        simp only []
        have hs := Skip_length d1
        rcases hS : d1.Skip with ⟨ok, d2⟩
        rw [hS] at hs
        cases ok
        · exact le_trans hs (le_of_lt hlt)
        · exact le_trans (ih d2 acc) (le_trans hs (le_of_lt hlt))
      | EndElement n => exact le_of_lt hlt
      | CharData c => exact le_trans (ih d1 _) (le_of_lt hlt)
      | Comment c => exact le_trans (ih d1 _) (le_of_lt hlt)
      | ProcInst a c => exact le_trans (ih d1 _) (le_of_lt hlt)
      | Directive c => exact le_trans (ih d1 _) (le_of_lt hlt)
    | EOF => exact Token_le hT
    | failed => exact Token_le hT

/-- More turns than unread tokens do not change the character data read. -/
theorem charDataLoop_fuel :
    ∀ (f1 f2 : Nat) (d : xml.Decoder) (acc : String),
      d.toks.length < f1 → d.toks.length < f2 →
      xml.charDataLoop f1 d acc = xml.charDataLoop f2 d acc := by
  intro f1
  induction f1 with
  | zero => intro f2 d acc h; omega
  | succ f1 ih =>
    intro f2 d acc h1 h2
    cases f2 with
    | zero => omega
    | succ f2 =>
      simp only [xml.charDataLoop]
      rcases hT : d.Token with ⟨r, d1⟩
      cases r with
      | token t =>
        have hlt := Token_lt hT
        cases t with
        | StartElement n a =>
          simp only []
          have hs := Skip_length d1
          rcases hS : d1.Skip with ⟨ok, d2⟩
          rw [hS] at hs
          cases ok
          · rfl
          · exact ih _ _ _ (by simp only at hs; omega) (by simp only at hs; omega)
        | EndElement n => rfl
        | CharData c => exact ih _ _ _ (by omega) (by omega)
        | Comment c => exact ih _ _ _ (by omega) (by omega)
        | ProcInst a c => exact ih _ _ _ (by omega) (by omega)
        | Directive c => exact ih _ _ _ (by omega) (by omega)
      | EOF => rfl
      | failed => rfl

/-- Unmarshalling an `int` never gives input back. -/
theorem unmarshalInt_length (d : xml.Decoder) :
    (xml.unmarshalInt d).2.toks.length ≤ d.toks.length := by
  have h := charDataLoop_length (d.toks.length + 1) d ""
  unfold xml.unmarshalInt
  split
  · rename_i heq; rw [heq] at h; exact h
  · rename_i heq; rw [heq] at h; exact h

/-- Unmarshalling a `string` never gives input back. -/
theorem unmarshalString_length (d : xml.Decoder) :
    (xml.unmarshalString d).2.toks.length ≤ d.toks.length :=
  charDataLoop_length _ d ""

/-- More turns than unread tokens do not change the `XMLError` decoded. -/
theorem unmarshalXMLErrorLoop_fuel :
    ∀ (f1 f2 : Nat) (d : xml.Decoder) (e : XMLError),
      d.toks.length < f1 → d.toks.length < f2 →
      unmarshalXMLErrorLoop f1 d e = unmarshalXMLErrorLoop f2 d e := by
  intro f1
  induction f1 with
  | zero => intro f2 d e h; omega
  | succ f1 ih =>
    intro f2 d e h1 h2
    cases f2 with
    | zero => omega
    | succ f2 =>
      simp only [unmarshalXMLErrorLoop]
      rcases hT : d.Token with ⟨r, d1⟩
      cases r with
      | token t =>
        have hlt := Token_lt hT
        cases t with
        | StartElement n a =>
          simp only []
          split
          · have hs := unmarshalInt_length d1
            rcases hS : xml.unmarshalInt d1 with ⟨c, d2⟩
            rw [hS] at hs
            cases c
            · rfl
            · exact ih _ _ _ (by simp only at hs; omega) (by simp only at hs; omega)
          · split
            · have hs := unmarshalString_length d1
              rcases hS : xml.unmarshalString d1 with ⟨c, d2⟩
              rw [hS] at hs
              cases c
              · rfl
              · exact ih _ _ _ (by simp only at hs; omega) (by simp only at hs; omega)
            · have hs := Skip_length d1
              rcases hS : d1.Skip with ⟨ok, d2⟩
              rw [hS] at hs
              cases ok
              · rfl
              · exact ih _ _ _ (by simp only at hs; omega) (by simp only at hs; omega)
        | EndElement n => rfl
        | CharData c => exact ih _ _ _ (by omega) (by omega)
        | Comment c => exact ih _ _ _ (by omega) (by omega)
        | ProcInst a c => exact ih _ _ _ (by omega) (by omega)
        | Directive c => exact ih _ _ _ (by omega) (by omega)
      | EOF => rfl
      | failed => rfl

/-- Unmarshalling the children of a group never gives input back. -/
theorem unmarshalGroupLoop_length :
    ∀ (fuel : Nat) (d : xml.Decoder),
      (unmarshalGroupLoop fuel d).2.toks.length ≤ d.toks.length := by
  intro fuel
  induction fuel with
  | zero => intro d; simp [unmarshalGroupLoop]
  | succ fuel ih =>
    intro d
    simp only [unmarshalGroupLoop]
    rcases hT : d.Token with ⟨r, d1⟩
    cases r with
    | token t =>
      have hlt := Token_lt hT
      cases t with
      | StartElement n a =>
        simp only []
        split
        · exact le_of_lt hlt
        · have hs := Skip_length d1
          rcases hS : d1.Skip with ⟨ok, d2⟩
          rw [hS] at hs
          cases ok
          · exact le_trans hs (le_of_lt hlt)
          · exact le_trans (ih d2) (le_trans hs (le_of_lt hlt))
      | EndElement n => exact le_of_lt hlt
      | CharData c => exact le_trans (ih d1) (le_of_lt hlt)
      | Comment c => exact le_trans (ih d1) (le_of_lt hlt)
      | ProcInst a c => exact le_trans (ih d1) (le_of_lt hlt)
      | Directive c => exact le_trans (ih d1) (le_of_lt hlt)
    | EOF => exact Token_le hT
    | failed => exact Token_le hT

/-- More turns than unread tokens do not change the result for a group. -/
theorem unmarshalGroupLoop_fuel :
    ∀ (f1 f2 : Nat) (d : xml.Decoder),
      d.toks.length < f1 → d.toks.length < f2 →
      unmarshalGroupLoop f1 d = unmarshalGroupLoop f2 d := by
  intro f1
  induction f1 with
  | zero => intro f2 d h; omega
  | succ f1 ih =>
    intro f2 d h1 h2
    cases f2 with
    | zero => omega
    | succ f2 =>
      simp only [unmarshalGroupLoop]
      rcases hT : d.Token with ⟨r, d1⟩
      cases r with
      | token t =>
        have hlt := Token_lt hT
        cases t with
        | StartElement n a =>
          simp only []
          split
          · rfl
          · have hs := Skip_length d1
            rcases hS : d1.Skip with ⟨ok, d2⟩
            rw [hS] at hs
            cases ok
            · rfl
            · exact ih _ _ (by simp only at hs; omega) (by simp only at hs; omega)
        | EndElement n => rfl
        | CharData c => exact ih _ _ (by omega) (by omega)
        | Comment c => exact ih _ _ (by omega) (by omega)
        | ProcInst a c => exact ih _ _ (by omega) (by omega)
        | Directive c => exact ih _ _ (by omega) (by omega)
      | EOF => rfl
      | failed => rfl

/-- Unmarshalling a group never gives input back. -/
theorem unmarshalInternalGroup_length (d : xml.Decoder) (start : String)
    (attr : List xml.Attr) :
    (unmarshalInternalGroup d start attr).2.toks.length ≤ d.toks.length := by
  have h := unmarshalGroupLoop_length (d.toks.length + 1) d
  unfold unmarshalInternalGroup
  split
  · exact le_refl _
  · split
    · rename_i heq; rw [heq] at h; exact h
    · rename_i heq; rw [heq] at h; exact h

/-- Unmarshalling a field never gives input back. -/
theorem unmarshalFieldLabelLoop_length :
    ∀ (fuel : Nat) (d : xml.Decoder) (f : FieldLabel) (data : String),
      (unmarshalFieldLabelLoop fuel d f data).2.2.toks.length ≤ d.toks.length := by
  intro fuel
  induction fuel with
  | zero => intro d f data; simp [unmarshalFieldLabelLoop]
  | succ fuel ih =>
    intro d f data
    simp only [unmarshalFieldLabelLoop]
    rcases hT : d.Token with ⟨r, d1⟩
    cases r with
    | token t =>
      have hlt := Token_lt hT
      cases t with
      | StartElement n a =>
        simp only []
        split
        · have hs := unmarshalInternalGroup_length d1 n a
          rcases hS : unmarshalInternalGroup d1 n a with ⟨g, d2⟩
          rw [hS] at hs
          cases g
          · exact le_trans hs (le_of_lt hlt)
          · exact le_trans (ih d2 _ _) (le_trans hs (le_of_lt hlt))
        · have hs := Skip_length d1
          rcases hS : d1.Skip with ⟨ok, d2⟩
          rw [hS] at hs
          cases ok
          · exact le_trans hs (le_of_lt hlt)
          · exact le_trans (ih d2 _ _) (le_trans hs (le_of_lt hlt))
      | EndElement n => exact le_of_lt hlt
      | CharData c => exact le_trans (ih d1 _ _) (le_of_lt hlt)
      | Comment c => exact le_trans (ih d1 _ _) (le_of_lt hlt)
      | ProcInst a c => exact le_trans (ih d1 _ _) (le_of_lt hlt)
      | Directive c => exact le_trans (ih d1 _ _) (le_of_lt hlt)
    | EOF => exact Token_le hT
    | failed => exact Token_le hT

/-- More turns than unread tokens do not change the field decoded. -/
theorem unmarshalFieldLabelLoop_fuel :
    ∀ (f1 f2 : Nat) (d : xml.Decoder) (f : FieldLabel) (data : String),
      d.toks.length < f1 → d.toks.length < f2 →
      unmarshalFieldLabelLoop f1 d f data = unmarshalFieldLabelLoop f2 d f data := by
  intro f1
  induction f1 with
  | zero => intro f2 d f data h; omega
  | succ f1 ih =>
    intro f2 d f data h1 h2
    cases f2 with
    | zero => omega
    | succ f2 =>
      simp only [unmarshalFieldLabelLoop]
      rcases hT : d.Token with ⟨r, d1⟩
      cases r with
      | token t =>
        have hlt := Token_lt hT
        cases t with
        | StartElement n a =>
          simp only []
          split
          · have hs := unmarshalInternalGroup_length d1 n a
            rcases hS : unmarshalInternalGroup d1 n a with ⟨g, d2⟩
            rw [hS] at hs
            cases g
            · rfl
            · exact ih _ _ _ _ (by simp only at hs; omega) (by simp only at hs; omega)
          · have hs := Skip_length d1
            rcases hS : d1.Skip with ⟨ok, d2⟩
            rw [hS] at hs
            cases ok
            · rfl
            · exact ih _ _ _ _ (by simp only at hs; omega) (by simp only at hs; omega)
        | EndElement n => rfl
        | CharData c => exact ih _ _ _ _ (by omega) (by omega)
        | Comment c => exact ih _ _ _ _ (by omega) (by omega)
        | ProcInst a c => exact ih _ _ _ _ (by omega) (by omega)
        | Directive c => exact ih _ _ _ _ (by omega) (by omega)
      | EOF => rfl
      | failed => rfl

/-- `FieldLabel.decode` never gives input back. -/
theorem FieldLabel.decode_length (d : xml.Decoder) (start : String) (attr : List xml.Attr) :
    (FieldLabel.decode d start attr).2.toks.length ≤ d.toks.length := by
  unfold FieldLabel.decode
  split
  · exact le_refl _
  · exact unmarshalFieldLabelLoop_length _ d _ _

/-- More turns than unread tokens do not change the answer of
`checkForInternalGroup`. -/
theorem checkLoop_fuel (vName : String) (vAttr : List xml.Attr) :
    ∀ (f1 f2 : Nat) (d : xml.Decoder) (found : Bool),
      d.toks.length < f1 → d.toks.length < f2 →
      checkLoop vName vAttr f1 d found = checkLoop vName vAttr f2 d found := by
  intro f1
  induction f1 with
  | zero => intro f2 d found h; omega
  | succ f1 ih =>
    intro f2 d found h1 h2
    cases f2 with
    | zero => omega
    | succ f2 =>
      simp only [checkLoop]
      rcases hT : d.Token with ⟨r, d1⟩
      cases r with
      | token t =>
        have hlt := Token_lt hT
        cases t with
        | StartElement n a =>
          simp only []
          split
          · rfl
          · split
            · exact ih _ _ _ (by omega) (by omega)
            · exact ih _ _ _ (by omega) (by omega)
        | EndElement n =>
          simp only []
          split
          · rfl
          · exact ih _ _ _ (by omega) (by omega)
        | CharData c => exact ih _ _ _ (by omega) (by omega)
        | Comment c => exact ih _ _ _ (by omega) (by omega)
        | ProcInst a c => exact ih _ _ _ (by omega) (by omega)
        | Directive c => exact ih _ _ _ (by omega) (by omega)
      | EOF => rfl
      | failed => rfl

/-- More turns than unread tokens do not change the result of the loop of
`getValuesFromXML`. -/
theorem primeLoop_fuel (b : xml.Document) :
    ∀ (f1 f2 : Nat) (st : ParseState) (d : xml.Decoder),
      d.toks.length < f1 → d.toks.length < f2 →
      primeLoop b f1 st d = primeLoop b f2 st d := by
  intro f1
  induction f1 with
  | zero => intro f2 st d h; omega
  | succ f1 ih =>
    intro f2 st d h1 h2
    cases f2 with
    | zero => omega
    | succ f2 =>
      simp only [primeLoop]
      rcases hT : d.Token with ⟨r, d1⟩
      cases r with
      | token t =>
        have hlt := Token_lt hT
        cases t with
        | StartElement n a =>
          have hd := FieldLabel.decode_length d1 n a
          simp only []
          repeat' split
          all_goals first
            | rfl
            | exact ih _ _ _ (by omega) (by omega)
        | EndElement n =>
          simp only []
          repeat' split
          all_goals first
            | rfl
            | exact ih _ _ _ (by omega) (by omega)
        | CharData c => exact ih _ _ _ (by omega) (by omega)
        | Comment c => exact ih _ _ _ (by omega) (by omega)
        | ProcInst a c => exact ih _ _ _ (by omega) (by omega)
        | Directive c => exact ih _ _ _ (by omega) (by omega)
      | EOF => rfl
      | failed => rfl

/-- The loop of `getValuesFromXML` never stops for lack of turns: with any
number of further turns the result is the one of `getValuesFromXML`. -/
theorem getValuesFromXML_turns (b : xml.Document) (k : Nat) :
    primeLoop b (b.length + 1 + k) ParseState.init (xml.NewDecoder b) = getValuesFromXML b :=
  primeLoop_fuel b _ _ _ _ (by simp only [xml.NewDecoder]; omega)
    (by simp only [xml.NewDecoder]; omega)

/-- Reading wrapper openings only moves the parser on: after them the loop
stands at the rest of the document with those elements open. -/
theorem primeLoop_wrappers (b : xml.Document) :
    ∀ (pre : List xml.Token) (fuel : Nat) (st : ParseState) (stk : List String)
      (rest : List xml.Token),
      (∀ t ∈ pre, opensWrapper t = true) →
      ∃ st2, primeLoop b (pre.length + fuel) st ⟨pre ++ rest, stk, false⟩
        = primeLoop b fuel st2 ⟨rest, openedBy pre stk, false⟩ := by
  intro pre
  induction pre with
  | nil => intro fuel st stk rest _; exact ⟨st, by simp [openedBy]⟩
  | cons t pre ih =>
    intro fuel st stk rest h
    have ht := h t (List.mem_cons_self _ _)
    have hpre : ∀ u ∈ pre, opensWrapper u = true := fun u hu => h u (List.mem_cons_of_mem _ hu)
    have hlen : (t :: pre).length + fuel = (pre.length + fuel) + 1 := by
      simp only [List.length_cons]; omega
    rw [hlen]
    cases t with
    | StartElement n attr =>
      simp only [opensWrapper, Bool.and_eq_true, decide_eq_true_eq] at ht
      obtain ⟨⟨⟨h1, h2⟩, h3⟩, h4⟩ := ht
      simp only [primeLoop, xml.Decoder.Token, xml.pushPop, List.cons_append, openedBy,
        Bool.false_eq_true, if_false, h1, h2, h3, h4]
      by_cases hw : n = "response" ∨ n = "result"
      · simp only [hw, if_true]
        exact ih fuel _ _ rest hpre
      · simp only [hw, if_false]
        by_cases hm : st.module = ""
        · simp only [hm, if_true]
          exact ih fuel _ _ rest hpre
        · simp only [hm, if_false]
          exact ih fuel _ _ rest hpre
    | EndElement n => simp [opensWrapper] at ht
    | CharData s =>
      simp only [primeLoop, xml.Decoder.Token, xml.pushPop, List.cons_append, openedBy,
        Bool.false_eq_true, if_false]
      exact ih fuel _ _ rest hpre
    | Comment s =>
      simp only [primeLoop, xml.Decoder.Token, xml.pushPop, List.cons_append, openedBy,
        Bool.false_eq_true, if_false]
      exact ih fuel _ _ rest hpre
    | ProcInst a c =>
      simp only [primeLoop, xml.Decoder.Token, xml.pushPop, List.cons_append, openedBy,
        Bool.false_eq_true, if_false]
      exact ih fuel _ _ rest hpre
    | Directive s =>
      simp only [primeLoop, xml.Decoder.Token, xml.pushPop, List.cons_append, openedBy,
        Bool.false_eq_true, if_false]
      exact ih fuel _ _ rest hpre

/-- After wrapper openings, a sentinel element (`error` or `nodata`) that
decodes ends the parse with that sentinel and no rows; one that does not
decode ends the process. -/
theorem getValuesFromXML_sentinel (kind : String) (hk : kind = "nodata" ∨ kind = "error")
    (pre : List xml.Token) (attr : List xml.Attr) (rest : List xml.Token)
    (hpre : ∀ t ∈ pre, opensWrapper t = true) :
    getValuesFromXML (pre ++ .StartElement kind attr :: rest) =
      match DecodeElementXMLError ⟨rest, kind :: openedBy pre [], false⟩
          { XMLName := kind } kind with
      | (true, e, _) => .returned ({ Error := e }, none)
      | (false, _, _) => .fatal := by
  have hlen : (pre ++ xml.Token.StartElement kind attr :: rest).length + 1
      = pre.length + (rest.length + 1 + 1) := by
    simp only [List.length_append, List.length_cons]; omega
  unfold getValuesFromXML xml.NewDecoder
  rw [hlen]
  obtain ⟨st2, h2⟩ := primeLoop_wrappers (pre ++ xml.Token.StartElement kind attr :: rest)
    pre (rest.length + 1 + 1) ParseState.init [] (xml.Token.StartElement kind attr :: rest) hpre
  rw [h2]
  rcases hk with hk | hk
  · subst hk
    simp only [primeLoop, xml.Decoder.Token, xml.pushPop, Bool.false_eq_true, if_false]
    simp
  · subst hk
    simp only [primeLoop, xml.Decoder.Token, xml.pushPop, Bool.false_eq_true, if_false]
    simp

/-- Closing a nested element changes neither the rows nor the module, and
clears `nested`. -/
theorem closeNested_outline (st : ParseState) :
    (closeNested st).values = st.values ∧ (closeNested st).module = st.module ∧
    (closeNested st).nested = "" := by
  unfold closeNested
  split <;> exact ⟨rfl, rfl, rfl⟩

/-- Closing a nested element, with the arrays, changes neither the rows nor
the module, and clears `nested`. -/
theorem closeNestedShared_outline (lib : Lib) (st : SharedState) :
    (closeNestedShared lib st).values = st.values ∧
    (closeNestedShared lib st).module = st.module ∧
    (closeNestedShared lib st).nested = "" := by
  unfold closeNestedShared
  split <;> exact ⟨rfl, rfl, rfl⟩

/-- The loop with the arrays and the loop `primeLoop` take the same turns:
they end in the same way, with the same sentinel and with rows of the same
numbers. -/
theorem sharedLoop_outline (lib : Lib) (b : xml.Document) :
    ∀ (fuel : Nat) (st : ParseState) (sh : SharedState) (d : xml.Decoder),
      sh.module = st.module → sh.nested = st.nested →
      sh.values.map (fun r => r.Number) = st.values.map (fun r => r.Number) →
      sharedOutlineOf (sharedLoop lib b fuel sh d) = outlineOf (primeLoop b fuel st d) := by
  intro fuel
  induction fuel with
  | zero => intro st sh d _ _ _; rfl
  | succ fuel ih =>
    intro st sh d hm hn hv
    obtain ⟨hp, vs, cr, nf, ng, m1, n1⟩ := sh
    obtain ⟨vs2, cr2, nf2, ng2, m2, n2⟩ := st
    simp only at hm hn hv
    subst hm hn
    simp only [primeLoop, sharedLoop]
    rcases hT : d.Token with ⟨r, d1⟩
    cases r with
    | token t =>
      cases t with
      | StartElement n a =>
        simp only []
        by_cases h1 : n = "response" ∨ n = "result"
        · rw [if_pos h1, if_pos h1]; exact ih _ _ _ rfl rfl hv
        · rw [if_neg h1, if_neg h1]
          by_cases h2 : n = "nodata"
          · rw [if_pos h2, if_pos h2]
            rcases DecodeElementXMLError d1 { XMLName := "nodata" } n with ⟨ok, e, d2⟩
            cases ok <;> rfl
          · rw [if_neg h2, if_neg h2]
            by_cases h3 : n = "error"
            · rw [if_pos h3, if_pos h3]
              rcases DecodeElementXMLError d1 { XMLName := "error" } n with ⟨ok, e, d2⟩
              cases ok <;> rfl
            · rw [if_neg h3, if_neg h3]
              by_cases h4 : n = "row"
              · rw [if_pos h4, if_pos h4]; exact ih _ _ _ rfl rfl hv
              · rw [if_neg h4, if_neg h4]
                by_cases h5 : n = "FL"
                · rw [if_pos h5, if_pos h5]
                  by_cases h6 : checkForInternalGroup (xml.NewDecoder b) n a = true
                  · rw [if_pos h6, if_pos h6]; exact ih _ _ _ rfl rfl hv
                  · rw [if_neg h6, if_neg h6]
                    by_cases h7 : n1 ≠ ""
                    · rw [if_pos h7, if_pos h7]; exact ih _ _ _ rfl rfl hv
                    · rw [if_neg h7, if_neg h7]; exact ih _ _ _ rfl rfl hv
                · rw [if_neg h5, if_neg h5]
                  by_cases h6 : m1 = ""
                  · rw [if_pos h6, if_pos h6]; exact ih _ _ _ rfl rfl hv
                  · rw [if_neg h6, if_neg h6]; exact ih _ _ _ rfl rfl hv
      | EndElement n =>
        simp only []
        by_cases h1 : n = "row"
        · rw [if_pos h1, if_pos h1]
          refine ih _ _ _ rfl rfl ?_
          have hl : vs.length = vs2.length := by
            have := congrArg List.length hv
            simpa using this
          simp [hv, hl, newRow]
        · rw [if_neg h1, if_neg h1]
          by_cases h2 : n = n1
          · rw [if_pos h2, if_pos h2]
            by_cases h3 : n1 ≠ ""
            · rw [if_pos h3, if_pos h3]
              obtain ⟨c1, c2, c3⟩ := closeNestedShared_outline lib ⟨hp, vs, cr, nf, ng, m1, n1⟩
              obtain ⟨e1, e2, e3⟩ := closeNested_outline ⟨vs2, cr2, nf2, ng2, m1, n1⟩
              refine ih _ _ _ ?_ ?_ ?_
              · rw [c2, e2]
              · rw [c3, e3]
              · rw [c1, e1]; exact hv
            · rw [if_neg h3, if_neg h3]; exact ih _ _ _ rfl rfl hv
          · rw [if_neg h2, if_neg h2]
            by_cases h3 : n = m1
            · rw [if_pos h3, if_pos h3]
              by_cases h4 : m1 ≠ ""
              · rw [if_pos h4, if_pos h4]; simp [sharedOutlineOf, outlineOf, hv]
              · rw [if_neg h4, if_neg h4]; exact ih _ _ _ rfl rfl hv
            · rw [if_neg h3, if_neg h3]
              by_cases h4 : n = "response"
              · rw [if_pos h4, if_pos h4]; simp [sharedOutlineOf, outlineOf, hv]
              · rw [if_neg h4, if_neg h4]
                by_cases h5 : n = "result"
                · rw [if_pos h5, if_pos h5]; simp [sharedOutlineOf, outlineOf, hv]
                · rw [if_neg h5, if_neg h5]; exact ih _ _ _ rfl rfl hv
      | CharData c => exact ih _ _ _ rfl rfl hv
      | Comment c => exact ih _ _ _ rfl rfl hv
      | ProcInst c1 c2 => exact ih _ _ _ rfl rfl hv
      | Directive c => exact ih _ _ _ rfl rfl hv
    | EOF => simp [sharedOutlineOf, outlineOf, hv]
    | failed => rfl

/-- `getValuesFromXML` with the arrays ends as `getValuesFromXML` does, with
the same sentinel and with rows of the same numbers. -/
theorem getValuesShared_outline (lib : Lib) (b : xml.Document) :
    sharedOutlineOf (getValuesShared lib b) = outlineOf (getValuesFromXML b) :=
  sharedLoop_outline lib b _ _ _ _ rfl rfl rfl

/-- A sentinel that `getValuesFromXML` returns is returned with the arrays as
well. -/
theorem getValuesShared_error (lib : Lib) (b : xml.Document) (x : XMLData)
    (err : Option String) (h : getValuesFromXML b = .returned (x, err)) :
    ∃ r : SharedData, getValuesShared lib b = .returned r ∧ r.Error = x.Error ∧
      r.Rows.map (fun a => a.Number) = x.Rows.map (fun a => a.Number) := by
  have h1 := getValuesShared_outline lib b
  rw [h] at h1
  cases hs : getValuesShared lib b with
  | returned r =>
    rw [hs] at h1
    simp only [sharedOutlineOf, outlineOf, Outcome.returned.injEq, Prod.mk.injEq] at h1
    exact ⟨r, rfl, h1.2, h1.1⟩
  | panic => rw [hs] at h1; simp [sharedOutlineOf, outlineOf] at h1
  | fatal => rw [hs] at h1; simp [sharedOutlineOf, outlineOf] at h1

/-- Unmarshalling an `XMLError` leaves its `XMLName` as it was set from the
start element. -/
theorem unmarshalXMLErrorLoop_name :
    ∀ (fuel : Nat) (d : xml.Decoder) (e : XMLError),
      (unmarshalXMLErrorLoop fuel d e).2.1.XMLName = e.XMLName := by
  intro fuel
  induction fuel with
  | zero => intro d e; rfl
  | succ fuel ih =>
    intro d e
    simp only [unmarshalXMLErrorLoop]
    split
    · split
      · split
        · rw [ih]
        · rfl
      · split
        · split
          · rw [ih]
          · rfl
        · split
          · rw [ih]
          · rfl
    · rfl
    · rw [ih]
    · rfl

/-- A sentinel element whose children are a `code` element with the text `s`
and a `message` element with the text `m` decodes, when `s` is empty or a
base-10 number `c` (0 when empty), to the code `c` and the message `m`. -/
theorem DecodeElementXMLError_code_message (kind s m : String) (c : Int)
    (stk : List String) (rest : List xml.Token) (hc : xml.copyInt s = some c) :
    DecodeElementXMLError
        ⟨.StartElement "code" [] :: .CharData s :: .EndElement "code" ::
          .StartElement "message" [] :: .CharData m :: .EndElement "message" ::
          .EndElement kind :: rest, kind :: stk, false⟩
        { XMLName := kind } kind
      = (true, ⟨kind, c, m⟩, ⟨rest, stk, false⟩) := by
  have e1 : ("" : String) ++ s = s := by
    apply String.ext; simp [String.data_append]
  have e2 : ("" : String) ++ m = m := by
    apply String.ext; simp [String.data_append]
  simp [DecodeElementXMLError, unmarshalXMLErrorLoop, xml.Decoder.Token, xml.pushPop,
    xml.unmarshalInt, xml.unmarshalString, xml.charDataLoop, e1, e2, hc]

/-- Every result of the loop of `getValuesFromXML` has no rows or has the zero
`XMLError`. -/
theorem primeLoop_rows_or_error (b : xml.Document) :
    ∀ (fuel : Nat) (st : ParseState) (d : xml.Decoder) (x : XMLData) (err : Option String),
      primeLoop b fuel st d = .returned (x, err) → x.Rows = [] ∨ x.Error = {} := by
  intro fuel
  induction fuel with
  | zero => intro st d x err h; simp [primeLoop] at h
  | succ fuel ih =>
    intro st d x err h
    simp only [primeLoop] at h
    repeat' split at h
    all_goals first
      | exact ih _ _ _ _ h
      | (simp only [Outcome.returned.injEq, Prod.mk.injEq] at h
         obtain ⟨hx, _⟩ := h
         subst hx
         first | exact Or.inl rfl | exact Or.inr rfl)
      | (exact absurd h (by simp))

/-- A token `default>D` is recognised as a default and is not `required`. -/
theorem default_token (D : String) :
    ("default>" ++ D ≠ "required") ∧
      strings.HasPrefix ("default>" ++ D) "default>" = true ∧
      strings.TrimPrefix ("default>" ++ D) "default>" = D := by
  have hp : strings.HasPrefix ("default>" ++ D) "default>" = true := by
    simp [strings.HasPrefix, String.data_append]
  refine ⟨?_, hp, ?_⟩
  · intro h
    have h1 := congrArg String.data h
    simp [String.data_append] at h1
  · simp only [strings.TrimPrefix, hp, if_true, String.data_append]
    have : ("default>".data ++ D.data).drop "default>".data.length = D.data :=
      List.drop_left _ _
    rw [this]

/-- Tokens that are neither `required` nor a default change at most the name
under which the field is sent. -/
theorem tagsLoop_plain (rest : List String) (v : OptValue) (z : Bool)
    (hz : v.isZero = some z) :
    ∀ (l : List String) (name : String),
      (∀ a ∈ l, a ≠ "required" ∧ strings.HasPrefix a "default>" = false) →
      ∃ key, tagsLoop (l ++ rest) name v = tagsLoop rest key v := by
  intro l
  induction l with
  | nil => intro name _; exact ⟨name, rfl⟩
  | cons a l ih =>
    intro name h
    obtain ⟨h1, h2⟩ := h a (List.mem_cons_self _ _)
    have hl : ∀ c ∈ l, c ≠ "required" ∧ strings.HasPrefix c "default>" = false :=
      fun c hc => h c (List.mem_cons_of_mem _ hc)
    simp only [List.cons_append, tagsLoop, hz, h1, h2, if_false, Bool.false_eq_true]
    cases z with
    | true => simpa using ih name hl
    | false => simpa using ih a hl

/-- Without a token `required` the loop over the tags returns no error. -/
theorem tagsLoop_no_required :
    ∀ (l : List String) (name : String) (v : OptValue),
      v.isZero ≠ none → "required" ∉ l →
      ∃ n2 v2, tagsLoop l name v = .returned (.ok (n2, v2)) := by
  intro l
  induction l with
  | nil => intro name v _ _; exact ⟨name, v, rfl⟩
  | cons a l ih =>
    intro name v hv hl
    have ha2 : a ≠ "required" := fun h => hl (by rw [h]; exact List.mem_cons_self _ _)
    have hl2 : "required" ∉ l := fun h => hl (List.mem_cons_of_mem _ h)
    cases hz : v.isZero with
    | none => exact absurd hz hv
    | some z =>
      simp only [tagsLoop, hz, ha2, if_false]
      split
      · split
        · exact ih name _ (by simp [OptValue.isZero]) hl2
        · exact ih name v hv hl2
      · split
        · exact ih a v hv hl2
        · exact ih name v hv hl2

/-- The loop over the tags of a field whose annotation puts no default before
`required`, for a value that is not a nil interface: the error that names the
field when the annotation holds `required` and the value is the zero value,
and no error otherwise. -/
theorem tagsLoop_required :
    ∀ (l : List String) (name : String) (v : OptValue) (z : Bool),
      v.isZero = some z → noDefaultBeforeRequired l = true →
      if "required" ∈ l ∧ z = true then
        tagsLoop l name v
          = .returned (.error ("Error field '" ++ name ++ "' is required for this request"))
      else ∃ n2 v2, tagsLoop l name v = .returned (.ok (n2, v2)) := by
  intro l
  induction l with
  | nil =>
    intro name v z _ _
    rw [if_neg (by simp)]
    exact ⟨name, v, rfl⟩
  | cons a l ih =>
    intro name v z hz hl
    simp only [noDefaultBeforeRequired] at hl
    by_cases ha : a = "required"
    · subst ha
      have hp : strings.HasPrefix "required" "default>" = false := by decide
      simp only [hp, Bool.false_eq_true, if_false] at hl
      cases z with
      | true =>
        rw [if_pos ⟨List.mem_cons_self _ _, rfl⟩]
        simp only [tagsLoop, hz, if_true]
      | false =>
        rw [if_neg (by simp)]
        have h2 := ih name v false hz hl
        rw [if_neg (by simp)] at h2
        simpa only [tagsLoop, hz, if_true, Bool.false_eq_true, if_false] using h2
    · have hmem : "required" ∈ a :: l ↔ "required" ∈ l := by
        constructor
        · intro h
          rcases List.mem_cons.mp h with h | h
          · exact absurd h.symm ha
          · exact h
        · exact List.mem_cons_of_mem _
      by_cases hp : strings.HasPrefix a "default>" = true
      · simp only [hp, if_true, Bool.not_eq_true', List.contains_eq_any_beq, List.any_eq_false,
          beq_iff_eq] at hl
        have hno : "required" ∉ l := fun h => hl _ h rfl
        rw [if_neg (fun h => hno (hmem.mp h.1))]
        simp only [tagsLoop, hz, ha, hp, if_true, if_false]
        split
        · exact tagsLoop_no_required l name _ (by simp [OptValue.isZero]) hno
        · exact tagsLoop_no_required l name v (by simp [hz]) hno
      · have hp2 : strings.HasPrefix a "default>" = false := by simpa using hp
        simp only [hp2, Bool.false_eq_true, if_false] at hl
        simp only [hmem, tagsLoop, hz, ha, hp2, Bool.false_eq_true, if_false]
        cases z with
        | true => simpa using ih name v true hz hl
        | false => simpa using ih a v false hz hl

/-- Required-field enforcement for records that hold no nil interface and
whose annotations put no default before `required`: `encodeOptionsToURL`
returns the error that names the first required field left at its zero value,
with the URL untouched, and returns no error when there is no such field. -/
theorem encodeOptionsToURL_required (lib : Lib) (u : url.URL) :
    ∀ (o : List OptField),
      (∀ f ∈ o, f.Value.isZero ≠ none ∧
        noDefaultBeforeRequired (strings.Split f.zoho ',') = true) →
      match firstMissing o with
      | some n =>
        encodeOptionsToURL lib o u
          = .returned (some ("Error field '" ++ n ++ "' is required for this request"), u)
      | none => ∃ u2, encodeOptionsToURL lib o u = .returned (none, u2) := by
  have key : ∀ (o : List OptField) (vals : url.Values),
      (∀ f ∈ o, f.Value.isZero ≠ none ∧
        noDefaultBeforeRequired (strings.Split f.zoho ',') = true) →
      match firstMissing o with
      | some n =>
        encodeFields lib o vals
          = .returned (.error ("Error field '" ++ n ++ "' is required for this request"))
      | none => ∃ vals2, encodeFields lib o vals = .returned (.ok vals2) := by
    intro o
    induction o with
    | nil => intro vals _; exact ⟨vals, rfl⟩
    | cons f o ih =>
      intro vals h
      obtain ⟨hv, hn⟩ := h f (List.mem_cons_self _ _)
      have ho := fun g hg => h g (List.mem_cons_of_mem _ hg)
      cases hz : f.Value.isZero with
      | none => exact absurd hz hv
      | some z =>
        have ht := tagsLoop_required (strings.Split f.zoho ',') f.Name f.Value z hz hn
        by_cases hc : "required" ∈ strings.Split f.zoho ',' ∧ z = true
        · rw [if_pos hc] at ht
          obtain ⟨hc1, hc2⟩ := hc
          subst hc2
          have hf : firstMissing (f :: o) = some f.Name := by
            simp [firstMissing, hz, hc1]
          rw [hf]
          simp only [encodeFields, encodeField, ht]
        · rw [if_neg hc] at ht
          obtain ⟨n2, v2, ht⟩ := ht
          have hf : firstMissing (f :: o) = firstMissing o := by
            simp only [firstMissing, hz]
            cases z
            · simp
            · have : "required" ∉ strings.Split f.zoho ',' := fun h => hc ⟨h, rfl⟩
              simp [this]
          rw [hf]
          have h3 := ih (setParam lib vals n2 v2) ho
          simpa only [encodeFields, encodeField, ht] using h3
  intro o h
  have hk := key o [] h
  cases hm : firstMissing o with
  | some n =>
    simp only [hm] at hk
    simp only [encodeOptionsToURL, hk]
  | none =>
    simp only [hm] at hk
    obtain ⟨vals2, hk⟩ := hk
    refine ⟨⟨((vals2.Set "version" "2").Set "newFormat" "1").Encode⟩, ?_⟩
    simp only [encodeOptionsToURL, hk]

/-- The value that `strconv.ParseInt(s, 10, 64)` returns is an `int64`. -/
theorem ParseInt_range (s : String) :
    -(2 : Int) ^ 63 ≤ (strconv.ParseInt s).1 ∧ (strconv.ParseInt s).1 < (2 : Int) ^ 63 := by
  unfold strconv.ParseInt
  split
  · constructor <;> norm_num
  · simp only []
    split
    · constructor <;> norm_num
    · rename_i un e _ _
      split
      · constructor <;> norm_num
      · split
        · constructor <;> norm_num
        · split
          · rename_i h1 h2 h3
            have hle : un ≤ 2 ^ 63 := by
              by_contra hc
              exact h2 ⟨h3, by omega⟩
            have hle2 : (un : Int) ≤ 2 ^ 63 := by exact_mod_cast hle
            have h0 : (0 : Int) ≤ (un : Int) := Int.ofNat_nonneg _
            have hp : (0 : Int) < 2 ^ 63 := by norm_num
            constructor
            · show -(2 : Int) ^ 63 ≤ -(un : Int)
              omega
            · show -(un : Int) < (2 : Int) ^ 63
              omega
          · rename_i h1 h2 h3
            have hlt : un < 2 ^ 63 := by
              by_contra hc
              exact h1 ⟨h3, by omega⟩
            have hlt2 : (un : Int) < 2 ^ 63 := by exact_mod_cast hlt
            have h0 : (0 : Int) ≤ (un : Int) := Int.ofNat_nonneg _
            have hp : (0 : Int) < 2 ^ 63 := by norm_num
            constructor
            · show -(2 : Int) ^ 63 ≤ (un : Int)
              omega
            · exact hlt2

/-- An integer field always ends as the value that `ParseInt` returns for the
wire value, whatever the fallback set before it: the parsed number, 0 beside a
syntax error, the nearest bound beside a range error. -/
theorem setIntFromValue_eq (old : Int) (value : String) :
    setIntFromValue old value = (strconv.ParseInt value).1 := by
  have h := ParseInt_range value
  have ho : OverflowInt 64 (strconv.ParseInt value).1 = false := by
    simp only [OverflowInt, Bool.not_eq_false', Bool.and_eq_true, decide_eq_true_eq]
    constructor
    · have h1 : (64 - 1 : Nat) = 63 := rfl
      rw [h1]; exact h.1
    · have h1 : (64 - 1 : Nat) = 63 := rfl
      rw [h1]; exact h.2
  simp only [setIntFromValue, ho, Bool.not_false, if_true]

/-- A boolean field always ends as the value that `ParseBool` returns for the
wire value, whatever the fallback set before it. -/
theorem setBoolFromValue_eq (old : Bool) (value : String) :
    setBoolFromValue old value = (strconv.ParseBool value).1 :=
  rfl

/-- C1 (the code departs from the claim).  An integer field (`int` and
`int64` alike) matched to the wire value `""` becomes 0 and matched to `"42"`
becomes 42, as claimed; matched to `"abc"` it becomes 0, not the claimed 1:
the fallback `SetInt(1)` is overwritten by `SetInt(d)` with the `d = 0` that
`ParseInt` returns beside its error. -/
theorem C1_int_fallback_overwritten (lib : Lib) (old : Int) :
    fillStructFromValues lib [FieldLabel.mk "FL" "Count" "" [] []]
        (.struct [(⟨"Count", "Count", true⟩, .int old)])
      = .returned (.ok (.struct [(⟨"Count", "Count", true⟩, .int 0)])) ∧
    fillStructFromValues lib [FieldLabel.mk "FL" "Count" "42" [] []]
        (.struct [(⟨"Count", "Count", true⟩, .int old)])
      = .returned (.ok (.struct [(⟨"Count", "Count", true⟩, .int 42)])) ∧
    fillStructFromValues lib [FieldLabel.mk "FL" "Count" "abc" [] []]
        (.struct [(⟨"Count", "Count", true⟩, .int old)])
      = .returned (.ok (.struct [(⟨"Count", "Count", true⟩, .int 0)])) ∧
    fillStructFromValues lib [FieldLabel.mk "FL" "Count" "abc" [] []]
        (.struct [(⟨"Count", "Count", true⟩, .int64 old)])
      = .returned (.ok (.struct [(⟨"Count", "Count", true⟩, .int64 0)])) := by
  refine ⟨rfl, rfl, rfl, rfl⟩

/-- C2 (the code departs from the claim).  A boolean field matched to the
wire value `"true"` becomes true and matched to `""` becomes false, as
claimed; matched to `"yes"`, which is not a boolean token and is not empty, it
becomes false, not the claimed true: the fallback `SetBool(true)` is
overwritten by `SetBool(b)` with the `b = false` that `ParseBool` returns
beside its error. -/
theorem C2_bool_fallback_overwritten (lib : Lib) (old : Bool) :
    fillStructFromValues lib [FieldLabel.mk "FL" "Active" "true" [] []]
        (.struct [(⟨"Active", "Active", true⟩, .bool old)])
      = .returned (.ok (.struct [(⟨"Active", "Active", true⟩, .bool true)])) ∧
    fillStructFromValues lib [FieldLabel.mk "FL" "Active" "" [] []]
        (.struct [(⟨"Active", "Active", true⟩, .bool old)])
      = .returned (.ok (.struct [(⟨"Active", "Active", true⟩, .bool false)])) ∧
    fillStructFromValues lib [FieldLabel.mk "FL" "Active" "yes" [] []]
        (.struct [(⟨"Active", "Active", true⟩, .bool old)])
      = .returned (.ok (.struct [(⟨"Active", "Active", true⟩, .bool false)])) := by
  refine ⟨rfl, rfl, rfl⟩

/-- C3 (the claim as stated fails).  In the document `errorAfterResult` an
`error` element occurs before any row, after an empty `result` element; the
parse ends at `</result>` and returns no sentinel: the `Error` of the result
is not of kind `error`. -/
theorem C3_counterexample_error_after_closed_result :
    ∃ x, getValuesFromXML errorAfterResult = .returned (x, none) ∧
      x.Error = {} ∧ x.Error.XMLName ≠ "error" :=
  ⟨{}, rfl, rfl, by decide⟩

/-- C3 (amended).  When the tokens before an `error` start element only open
wrapper elements (no element is closed, and no `row`, `FL`, `nodata` or
`error` element is opened before it) and the `error` element decodes to `e`,
`getValuesFromXML` returns the sentinel `e`, of kind `error`, and no rows,
whatever tokens follow the start of the `error` element. -/
theorem C3_error_sentinel_precedence (pre : List xml.Token) (attr : List xml.Attr)
    (rest : List xml.Token) (e : XMLError) (d2 : xml.Decoder)
    (hpre : ∀ t ∈ pre, opensWrapper t = true)
    (hdec : DecodeElementXMLError ⟨rest, "error" :: openedBy pre [], false⟩
        { XMLName := "error" } "error" = (true, e, d2)) :
    getValuesFromXML (pre ++ .StartElement "error" attr :: rest)
        = .returned ({ Rows := [], Error := e }, none) ∧
      e.XMLName = "error" := by
  constructor
  · rw [getValuesFromXML_sentinel "error" (Or.inr rfl) pre attr rest hpre, hdec]
  · have h := unmarshalXMLErrorLoop_name (rest.length + 1)
      ⟨rest, "error" :: openedBy pre [], false⟩ { XMLName := "error" }
    unfold DecodeElementXMLError at hdec
    simp only at hdec
    rw [hdec] at h
    exact h

/-- C3, an instance: `<response uri="/crm"><error>…</error><row>…</row></response>`. -/
theorem C3_error_sentinel_precedence_witness :
    getValuesFromXML ([.StartElement "response" [⟨"uri", "/crm"⟩]] ++
        .StartElement "error" [] :: sentinelBodyThenRow)
        = .returned ({ Rows := [], Error := ⟨"error", 4600, "Unable to process"⟩ }, none) ∧
      (⟨"error", 4600, "Unable to process"⟩ : XMLError).XMLName = "error" :=
  C3_error_sentinel_precedence [.StartElement "response" [⟨"uri", "/crm"⟩]] []
    sentinelBodyThenRow ⟨"error", 4600, "Unable to process"⟩
    ⟨sentinelBodyThenRow.drop 7, ["response"], false⟩ (by decide) (by rfl)

/-- C4.  A result of `getValuesFromXML` never carries both rows and a
sentinel: if its `Error` is not the zero `XMLError` its `Rows` are empty, and
if its `Rows` are not empty its `Error` is the zero `XMLError`. -/
theorem C4_rows_and_sentinel_exclusive (b : xml.Document) (x : XMLData) (err : Option String)
    (h : getValuesFromXML b = .returned (x, err)) :
    (x.Error ≠ {} → x.Rows = []) ∧ (x.Rows ≠ [] → x.Error = {}) := by
  rcases primeLoop_rows_or_error b _ _ _ x err h with h1 | h1
  · exact ⟨fun _ => h1, fun h2 => absurd h1 h2⟩
  · exact ⟨fun h2 => absurd h1 h2, fun _ => h1⟩

/-- C4, an instance: a document with one row. -/
theorem C4_rows_and_sentinel_exclusive_witness :
    getValuesFromXML oneRowDocument = .returned ({ Rows := [leadRow] }, none) ∧
      ((({} : XMLError) ≠ {} → [leadRow] = []) ∧ ([leadRow] ≠ [] → ({} : XMLError) = {})) :=
  ⟨rfl, C4_rows_and_sentinel_exclusive oneRowDocument { Rows := [leadRow] } none rfl⟩

/-- C5 (the claim as stated fails).  The document `<response><nodata>…
</nodata></response>` and a slice target that already holds one element give
back that slice with its element: the result collection is not empty. -/
theorem C5_counterexample_target_with_elements :
    decodeXML rejectingLib ([.StartElement "response" [], .StartElement "nodata" []] ++ nodataBody)
        (.slice (leadRecord "") [leadRecord "old"])
      = .returned (some (.value (.slice (leadRecord "") [leadRecord "old"])), none) :=
  rfl

/-- C5 (amended).  For a document in which, after wrapper openings only, a
`nodata` element stands and decodes, and for every slice target, `decodeXML`
returns a nil error and the target collection as it was given: no element is
added, so an empty target gives an empty result. -/
theorem C5_nodata_returns_target (lib : Lib) (pre : List xml.Token) (attr : List xml.Attr)
    (rest : List xml.Token) (e : XMLError) (d2 : xml.Decoder)
    (elem : GoValue) (items : List GoValue)
    (hpre : ∀ t ∈ pre, opensWrapper t = true)
    (hdec : DecodeElementXMLError ⟨rest, "nodata" :: openedBy pre [], false⟩
        { XMLName := "nodata" } "nodata" = (true, e, d2)) :
    decodeXML lib (pre ++ .StartElement "nodata" attr :: rest) (.slice elem items)
      = .returned (some (.value (.slice elem items)), none) := by
  have hname : e.XMLName = "nodata" := by
    have h := unmarshalXMLErrorLoop_name (rest.length + 1)
      ⟨rest, "nodata" :: openedBy pre [], false⟩ { XMLName := "nodata" }
    unfold DecodeElementXMLError at hdec
    simp only at hdec
    rw [hdec] at h
    exact h
  have hne : e ≠ {} := by
    intro h0
    rw [h0] at hname
    exact absurd hname (by decide)
  have hx : getValuesFromXML (pre ++ .StartElement "nodata" attr :: rest)
      = .returned ({ Error := e }, none) := by
    rw [getValuesFromXML_sentinel "nodata" (Or.inl rfl) pre attr rest hpre, hdec]
  obtain ⟨r, hr, hre, -⟩ := getValuesShared_error lib _ _ _ hx
  have hre2 : r.Error = e := hre
  unfold decodeXML
  rw [hr]
  simp [hre2, hname, hne]

/-- C5, an instance: `<response><nodata>…</nodata></response>` and an empty
slice of records. -/
theorem C5_nodata_returns_target_witness :
    decodeXML rejectingLib
        ([.StartElement "response" []] ++ .StartElement "nodata" [] :: nodataBody)
        (.slice (leadRecord "") [])
      = .returned (some (.value (.slice (leadRecord "") [])), none) :=
  C5_nodata_returns_target _ [.StartElement "response" []] [] nodataBody
    ⟨"nodata", 4422, "No data"⟩ ⟨nodataBody.drop 7, ["response"], false⟩
    (leadRecord "") [] (by decide) (by rfl)

/-- C6.  When a document parses to a sentinel of kind `error` with code `c`
and message `m`, `decodeXML` returns, whatever the target, a `CrmError` with
type `error`, code `c` and message `m` in place of the target, together with a
non-nil error that quotes the code and the message. -/
theorem C6_error_sentinel_to_CrmError (lib : Lib) (b : xml.Document) (x : XMLData)
    (c : Int) (m : String) (data : GoValue)
    (h : getValuesFromXML b = .returned (x, none))
    (he : x.Error = ⟨"error", c, m⟩) :
    decodeXML lib b data
      = .returned (some (.crmError ⟨"error", c, m⟩),
          some ("Zoho CRM returned an Error: Code " ++ fmtD c ++ ": " ++ m)) := by
  obtain ⟨r, hr, hre, -⟩ := getValuesShared_error lib b x none h
  unfold decodeXML
  rw [hr]
  have hne : (⟨"error", c, m⟩ : XMLError) ≠ {} := by
    intro h0
    have h1 : "error" = "" := congrArg XMLError.XMLName h0
    exact absurd h1 (by decide)
  simp only [hre, he]
  rw [if_pos ⟨hne, trivial⟩]

/-- C6, an instance: `<response><error>…</error><row>…</row></response>` and
a slice target that holds an element. -/
theorem C6_error_sentinel_to_CrmError_witness :
    decodeXML rejectingLib
        (.StartElement "response" [] :: .StartElement "error" [] :: sentinelBodyThenRow)
        (.slice (leadRecord "") [leadRecord "old"])
      = .returned (some (.crmError ⟨"error", 4600, "Unable to process"⟩),
          some ("Zoho CRM returned an Error: Code " ++ fmtD 4600 ++ ": " ++ "Unable to process")) :=
  C6_error_sentinel_to_CrmError _
    (.StartElement "response" [] :: .StartElement "error" [] :: sentinelBodyThenRow)
    { Error := ⟨"error", 4600, "Unable to process"⟩ } 4600 "Unable to process"
    (.slice (leadRecord "") [leadRecord "old"]) rfl rfl

/-- C7 (the code departs from the claim).  A row whose fields are `A`
(flagged `strip`), `B` and `C` (flagged `strip`, in last place) leaves the
stripping pass as `C`, `B`: the flagged field `C` is still in the row.
Removing `A` moves the last field `C` to the place of `A`, behind the place
the loop has reached, and at place 2 the loop finds `A` again, which is no
longer among the fields. -/
theorem C7_strip_leaves_flagged_field :
    XMLData.encodeStrip
        { Rows := [{ Number := 1, Fields :=
            [FieldLabel.mk "FL" "A" "1" [] ["strip"], FieldLabel.mk "FL" "B" "2" [] [],
             FieldLabel.mk "FL" "C" "3" [] ["strip"]] }] }
      = { Rows := [{ Number := 1, Fields :=
            [FieldLabel.mk "FL" "C" "3" [] ["strip"], FieldLabel.mk "FL" "B" "2" [] []] }] } :=
  rfl

/-- C8 (the code departs from the claim).  The options record
`UpdateRecordsOptions{ID: "1"}`, whose required field `Data` holds the zero
value of its interface type, nil: the call does not return the error that
names `Data`, it panics in `reflect.Zero(reflect.TypeOf(value))`. -/
theorem C8_required_nil_interface_panics (lib : Lib) (u : url.URL) :
    encodeOptionsToURL lib
        [⟨"ID", "id,required", .string "1"⟩,
         ⟨"Data", "xmlData,required", .nil⟩,
         ⟨"WorkflowTrigger", "wfTrigger,default>false", .bool false⟩] u
      = .panic :=
  rfl

/-- C10 (the claim as stated fails).  The field `ToIndex` annotated
`toIndex,default>20` and left at zero is sent as `ToIndex=20`, under its Go
name, not as `toIndex=20`. -/
theorem C10_counterexample_zero_value_keeps_go_name :
    encodeOptionsToURL rejectingLib [⟨"ToIndex", "toIndex,default>20", .int 0⟩] ⟨""⟩
      = .returned (none, ⟨"ToIndex=20&newFormat=1&version=2"⟩) :=
  rfl

/-- C10 (amended).  For an options field whose annotation is `W` or
`W,default>D`, `W` being neither `required` nor a default token, the parameter
set for the field has the key `W` when the field's value is not the zero
value, and the Go name of the field when it is; with `W,default>D` a zero
value is sent as `D`. -/
theorem C10_wire_name_when_set (lib : Lib) (vals : url.Values) (name tag W D : String)
    (v : OptValue) (z : Bool)
    (hz : v.isZero = some z)
    (hW : W ≠ "required" ∧ strings.HasPrefix W "default>" = false) :
    (strings.Split tag ',' = [W] →
      encodeField lib vals ⟨name, tag, v⟩
        = .returned (.ok (setParam lib vals (if z = true then name else W) v))) ∧
    (strings.Split tag ',' = [W, "default>" ++ D] →
      encodeField lib vals ⟨name, tag, v⟩
        = .returned (.ok (setParam lib vals (if z = true then name else W)
            (if z = true then .string D else v)))) := by
  obtain ⟨hd1, hd2, hd3⟩ := default_token D
  obtain ⟨h1, h2⟩ := hW
  constructor
  · intro hs
    cases z <;> simp [encodeField, hs, tagsLoop, hz, h1, h2]
  · intro hs
    cases z <;> simp [encodeField, hs, tagsLoop, hz, h1, h2, hd1, hd2, hd3]

/-- C10, an instance: `ToIndex` annotated `toIndex,default>20` and set to 5 is
sent under the key `toIndex`. -/
theorem C10_wire_name_when_set_witness :
    encodeField rejectingLib []
        ⟨"ToIndex", "toIndex,default>20", .int 5⟩
      = .returned (.ok [("toIndex", ["5"])]) :=
  (C10_wire_name_when_set _ [] "ToIndex" "toIndex,default>20" "toIndex" "20" (.int 5) false
    rfl (by decide)).2 (by decide)

/-- C11 (the code departs from the claim).  `SearchRecordsOptions` with
`Criteria` set to `(Company:Zoho)` is encoded with the criteria under the key
`noencode` and with no parameter `criteria`; `GetSearchRecordsByPDCOptions`
sends only the search value, under `noencode`, the search column being
overwritten.  The token `noencode` is taken as a new name for the field. -/
theorem C11_noencode_becomes_the_key (lib : Lib) (u : url.URL) :
    encodeOptionsToURL lib (searchRecordsOptions "(Company:Zoho)") u
      = .returned (none,
          ⟨"FromIndex=1&SelectColumns=All&ToIndex=20&newFormat=1&noencode=%28Company%3AZoho%29&version=2"⟩) ∧
    encodeOptionsToURL lib (getSearchRecordsByPDCOptions "email" "a@b.c") u
      = .returned (none,
          ⟨"FromIndex=1&SelectColumns=All&ToIndex=20&newFormat=1&noencode=a%40b.c&version=2"⟩) :=
  ⟨rfl, rfl⟩

/-! ### The parameters of the query -/

/-- The keys after `Values.Set`: the key is added at the end when it is new. -/
theorem Set_keys (vals : url.Values) (k v : String) :
    (url.Values.Set vals k v).map Prod.fst
      = if k ∈ vals.map Prod.fst then vals.map Prod.fst else vals.map Prod.fst ++ [k] := by
  induction vals with
  | nil => simp [url.Values.Set]
  | cons e rest ih =>
    obtain ⟨k1, vs⟩ := e
    simp only [url.Values.Set]
    by_cases h : k1 = k
    · simp [h]
    · have h2 : ¬ k = k1 := fun h3 => h h3.symm
      simp only [h, if_false, List.map_cons, ih, List.mem_cons, h2, false_or]
      split <;> simp

/-- `Values.Set` keeps every key held once. -/
theorem Set_nodup (vals : url.Values) (k v : String)
    (h : (vals.map Prod.fst).Nodup) : ((url.Values.Set vals k v).map Prod.fst).Nodup := by
  rw [Set_keys]
  split
  · exact h
  · rename_i hk
    rw [List.nodup_append]
    refine ⟨h, List.nodup_singleton _, ?_⟩
    intro a ha hb
    simp only [List.mem_singleton] at hb
    subst hb
    exact hk ha

/-- After `Values.Set(key, value)` the key has the single value. -/
theorem lookup_Set_self (vals : url.Values) (k v : String) :
    (url.Values.Set vals k v).lookup k = some [v] := by
  induction vals with
  | nil => simp [url.Values.Set, List.lookup]
  | cons e rest ih =>
    obtain ⟨k1, vs⟩ := e
    simp only [url.Values.Set]
    by_cases h : k1 = k
    · simp [h, List.lookup]
    · have h2 : (k == k1) = false := by simpa using fun h3 : k = k1 => h h3.symm
      simp [h, List.lookup, h2, ih]

/-- `Values.Set` leaves the other keys as they are. -/
theorem lookup_Set_other (vals : url.Values) (k v k2 : String) (hk : k2 ≠ k) :
    (url.Values.Set vals k v).lookup k2 = vals.lookup k2 := by
  induction vals with
  | nil =>
    have h2 : (k2 == k) = false := by simpa using hk
    simp [url.Values.Set, List.lookup, h2]
  | cons e rest ih =>
    obtain ⟨k1, vs⟩ := e
    simp only [url.Values.Set]
    by_cases h : k1 = k
    · subst h
      have h2 : (k2 == k1) = false := by simpa using hk
      simp [List.lookup, h2]
    · simp only [h, if_false, List.lookup]
      split <;> simp_all

/-- The type switch keeps every key held once. -/
theorem setParam_nodup (lib : Lib) (vals : url.Values) (name : String) (v : OptValue)
    (h : (vals.map Prod.fst).Nodup) : ((setParam lib vals name v).map Prod.fst).Nodup := by
  cases v <;> simp only [setParam] <;> (try split) <;>
    first
      | exact h
      | exact Set_nodup _ _ _ h

/-- The loop over the fields keeps every key held once. -/
theorem encodeFields_nodup (lib : Lib) :
    ∀ (o : List OptField) (vals vals2 : url.Values),
      encodeFields lib o vals = .returned (.ok vals2) →
      (vals.map Prod.fst).Nodup → (vals2.map Prod.fst).Nodup := by
  intro o
  induction o with
  | nil =>
    intro vals vals2 h hn
    simp only [encodeFields, Outcome.returned.injEq, Except.ok.injEq] at h
    rw [← h]; exact hn
  | cons f o ih =>
    intro vals vals2 h hn
    simp only [encodeFields, encodeField] at h
    cases ht : tagsLoop (strings.Split f.zoho ',') f.Name f.Value with
    | returned r =>
      cases r with
      | ok p =>
        obtain ⟨n, v⟩ := p
        rw [ht] at h
        exact ih _ _ h (setParam_nodup _ _ _ _ hn)
      | error e => rw [ht] at h; simp at h
    | panic => rw [ht] at h; simp at h
    | fatal => rw [ht] at h; simp at h

/-- Putting an entry in its place adds it and nothing else. -/
theorem insertEntry_perm (e : String × List String) :
    ∀ l : url.Values, (url.insertEntry e l).Perm (e :: l) := by
  intro l
  induction l with
  | nil => exact List.Perm.refl _
  | cons x rest ih =>
    simp only [url.insertEntry]
    split
    · exact List.Perm.refl _
    · exact (List.Perm.cons x ih).trans (List.Perm.swap e x rest)

/-- Sorting keeps the entries. -/
theorem sortEntries_perm : ∀ l : url.Values, (url.sortEntries l).Perm l := by
  intro l
  induction l with
  | nil => exact List.Perm.refl _
  | cons x rest ih =>
    simp only [url.sortEntries]
    exact (insertEntry_perm x _).trans (List.Perm.cons x ih)

/-- A value of an entry gives a pair `key=value` of the query. -/
theorem mem_pairs (k v : String) (vs : List String) :
    ∀ entries : url.Values, (k, vs) ∈ entries → v ∈ vs →
      url.QueryEscape k ++ "=" ++ url.QueryEscape v ∈ url.pairs entries := by
  intro entries
  induction entries with
  | nil => intro h; simp at h
  | cons e rest ih =>
    intro h hv
    obtain ⟨k1, vs1⟩ := e
    simp only [url.pairs, List.mem_append, List.mem_map]
    rcases List.mem_cons.mp h with h | h
    · simp only [Prod.mk.injEq] at h
      obtain ⟨h1, h2⟩ := h
      subst h1; subst h2
      exact Or.inl ⟨v, hv, rfl⟩
    · exact Or.inr (ih h hv)

/-- An entry found under a key is an entry of the parameters. -/
theorem mem_of_lookup (k : String) (vs : List String) :
    ∀ vals : url.Values, vals.lookup k = some vs → (k, vs) ∈ vals := by
  intro vals
  induction vals with
  | nil => intro h; simp [List.lookup] at h
  | cons e rest ih =>
    intro h
    obtain ⟨k1, vs1⟩ := e
    simp only [List.lookup] at h
    split at h
    · rename_i heq
      simp only [beq_iff_eq] at heq
      simp only [Option.some.injEq] at h
      subst heq; subst h
      exact List.mem_cons_self _ _
    · exact List.mem_cons_of_mem _ (ih h)

/-- The order of Go strings is asymmetric. -/
theorem lessChars_asymm : ∀ a b : List Char,
    url.lessChars a b = true → url.lessChars b a = false := by
  intro a
  induction a with
  | nil => intro b _; cases b <;> rfl
  | cons c cs ih =>
    intro b h
    cases b with
    | nil => simp [url.lessChars] at h
    | cons d ds =>
      simp only [url.lessChars] at h ⊢
      split at h
      · rename_i h1
        have h2 : ¬ d.toNat < c.toNat := by omega
        simp [h2, h1]
      · rename_i h1
        split at h
        · simp at h
        · rename_i h2
          simp only [h2, if_false, h1]
          exact ih ds h

/-- What is below `x` is not above what `x` is not above. -/
theorem lessChars_lt_le : ∀ e x y : List Char,
    url.lessChars e x = true → url.lessChars y x = false → url.lessChars y e = false := by
  intro e
  induction e with
  | nil => intro x y _ _; cases y <;> rfl
  | cons a as ih =>
    intro x y h1 h2
    cases x with
    | nil => simp [url.lessChars] at h1
    | cons b bs =>
      cases y with
      | nil => simp [url.lessChars] at h2
      | cons c cs =>
        simp only [url.lessChars] at h1 h2 ⊢
        by_cases hab : a.toNat < b.toNat
        · by_cases hcb : c.toNat < b.toNat
          · simp [hcb] at h2
          · have hca : ¬ c.toNat < a.toNat := by omega
            have hac : a.toNat < c.toNat := by omega
            simp [hca, hac]
        · by_cases hba : b.toNat < a.toNat
          · simp [hab, hba] at h1
          · simp only [hab, hba, if_false] at h1
            have hba2 : a.toNat = b.toNat := by omega
            by_cases hcb : c.toNat < b.toNat
            · simp [hcb] at h2
            · simp only [hcb, if_false] at h2
              by_cases hbc : b.toNat < c.toNat
              · have hca : ¬ c.toNat < a.toNat := by omega
                have hac : a.toNat < c.toNat := by omega
                simp [hca, hac]
              · simp only [hbc, if_false] at h2
                have hca : ¬ c.toNat < a.toNat := by omega
                have hac : ¬ a.toNat < c.toNat := by omega
                simp only [hca, hac, if_false]
                exact ih bs cs h1 h2

/-- The entries after an insertion are the entry and the old ones. -/
theorem mem_insertEntry (e x : String × List String) :
    ∀ l : url.Values, x ∈ url.insertEntry e l → x = e ∨ x ∈ l := by
  intro l h
  have := (insertEntry_perm e l).mem_iff.mp h
  simpa using this

/-- Putting an entry in its place keeps the keys ascending. -/
theorem insertEntry_sorted (e : String × List String) :
    ∀ l : url.Values, l.Pairwise keyLE → (url.insertEntry e l).Pairwise keyLE := by
  intro l
  induction l with
  | nil => intro _; simp [url.insertEntry]
  | cons x rest ih =>
    intro h
    rw [List.pairwise_cons] at h
    obtain ⟨hx, hrest⟩ := h
    simp only [url.insertEntry]
    split
    · rename_i hlt
      rw [List.pairwise_cons]
      refine ⟨?_, List.pairwise_cons.mpr ⟨hx, hrest⟩⟩
      intro y hy
      rcases List.mem_cons.mp hy with hy | hy
      · subst hy
        exact lessChars_asymm _ _ hlt
      · exact lessChars_lt_le _ _ _ hlt (hx y hy)
    · rename_i hlt
      rw [List.pairwise_cons]
      refine ⟨?_, ih hrest⟩
      intro y hy
      rcases mem_insertEntry e y rest hy with hy | hy
      · subst hy
        simpa [keyLE] using hlt
      · exact hx y hy

/-- The sorted entries have ascending keys. -/
theorem sortEntries_sorted : ∀ l : url.Values, (url.sortEntries l).Pairwise keyLE := by
  intro l
  induction l with
  | nil => simp [url.sortEntries]
  | cons x rest ih => exact insertEntry_sorted x _ ih

/-- A value that is not the zero value of its type passes every tag
unchanged; the tags change at most the name. -/
theorem tagsLoop_nonzero (v : OptValue) (hz : v.isZero = some false) :
    ∀ (l : List String) (name : String),
      ∃ key, tagsLoop l name v = .returned (.ok (key, v)) := by
  intro l
  induction l with
  | nil => intro name; exact ⟨name, rfl⟩
  | cons a l ih =>
    intro name
    simp only [tagsLoop, hz, Bool.false_eq_true, if_false, Bool.not_false, if_true]
    split
    · exact ih name
    · split
      · exact ih name
      · exact ih a

/-- The loop over the fields, for a record in two parts: the second part goes
on from the parameters of the first. -/
theorem encodeFields_append (lib : Lib) :
    ∀ (o1 o2 : List OptField) (vals : url.Values),
      encodeFields lib (o1 ++ o2) vals =
        match encodeFields lib o1 vals with
        | .returned (.ok vals1) => encodeFields lib o2 vals1
        | o => o := by
  intro o1
  induction o1 with
  | nil => intro o2 vals; rfl
  | cons f o1 ih =>
    intro o2 vals
    simp only [List.cons_append, encodeFields]
    cases hf : encodeField lib vals f with
    | returned r =>
      cases r with
      | ok v1 => exact ih o2 v1
      | error e => rfl
    | panic => rfl
    | fatal => rfl

/-- The type switch leaves the parameters under other keys as they are. -/
theorem setParam_lookup_other (lib : Lib) (vals : url.Values) (name key : String)
    (v : OptValue) (h : key ≠ name) :
    (setParam lib vals name v).lookup key = vals.lookup key := by
  cases v <;> simp only [setParam] <;> (try split) <;>
    first
      | rfl
      | exact lookup_Set_other _ _ _ _ h

/-- The turn of a field sets at most the parameter under the key the field is
sent under. -/
theorem encodeField_lookup_other (lib : Lib) (vals vals2 : url.Values) (g : OptField)
    (key : String) (h : encodeField lib vals g = .returned (.ok vals2))
    (hk : sentUnder g ≠ key) : vals2.lookup key = vals.lookup key := by
  unfold encodeField at h
  unfold sentUnder at hk
  cases ht : tagsLoop (strings.Split g.zoho ',') g.Name g.Value with
  | returned r =>
    cases r with
    | ok nv =>
      obtain ⟨n, v⟩ := nv
      rw [ht] at h hk
      simp only [Outcome.returned.injEq, Except.ok.injEq] at h
      rw [← h]
      exact setParam_lookup_other lib vals n key v (fun e => hk e.symm)
    | error e => rw [ht] at h; simp at h
  | panic => rw [ht] at h; simp at h
  | fatal => rw [ht] at h; simp at h

/-- Fields sent under other keys leave the parameter of a key as it is. -/
theorem encodeFields_lookup_other (lib : Lib) (key : String) :
    ∀ (o : List OptField) (vals vals2 : url.Values),
      encodeFields lib o vals = .returned (.ok vals2) →
      (∀ g ∈ o, sentUnder g ≠ key) → vals2.lookup key = vals.lookup key := by
  intro o
  induction o with
  | nil =>
    intro vals vals2 h _
    simp only [encodeFields, Outcome.returned.injEq, Except.ok.injEq] at h
    rw [h]
  | cons g o ih =>
    intro vals vals2 h hk
    simp only [encodeFields] at h
    cases hf : encodeField lib vals g with
    | returned r =>
      cases r with
      | ok v1 =>
        rw [hf] at h
        rw [ih v1 vals2 h (fun g2 hg2 => hk g2 (List.mem_cons_of_mem _ hg2))]
        exact encodeField_lookup_other lib vals v1 g key hf (hk g (List.mem_cons_self _ _))
      | error e => rw [hf] at h; simp at h
    | panic => rw [hf] at h; simp at h
    | fatal => rw [hf] at h; simp at h

/-- The loop over the tags of a field that holds the zero value of its type,
for an annotation whose first default token is `default>D` with no `required`
before it, and with a non-empty `D` or neither `required` nor a default behind
it: the value becomes the text `D`. -/
theorem tagsLoop_default_zero (name D : String) (pre post : List String) (v : OptValue)
    (hz : v.isZero = some true)
    (hpre : ∀ a ∈ pre, a ≠ "required" ∧ strings.HasPrefix a "default>" = false)
    (hpost : D ≠ "" ∨ ∀ a ∈ post, a ≠ "required" ∧ strings.HasPrefix a "default>" = false) :
    ∃ key, tagsLoop (pre ++ ("default>" ++ D) :: post) name v
      = .returned (.ok (key, .string D)) := by
  obtain ⟨hd1, hd2, hd3⟩ := default_token D
  obtain ⟨k1, hk1⟩ := tagsLoop_plain (("default>" ++ D) :: post) v true hz pre name hpre
  rw [hk1]
  simp only [tagsLoop, hz, hd1, hd2, hd3, if_false, if_true]
  by_cases hD : D = ""
  · rcases hpost with hpost | hpost
    · exact absurd hD hpost
    · have hz2 : (OptValue.string D).isZero = some true := by simp [OptValue.isZero, hD]
      obtain ⟨k2, hk2⟩ := tagsLoop_plain [] (.string D) true hz2 post k1 hpost
      rw [List.append_nil] at hk2
      exact ⟨k2, by rw [hk2]; rfl⟩
  · have hz2 : (OptValue.string D).isZero = some false := by simp [OptValue.isZero, hD]
    exact tagsLoop_nonzero (.string D) hz2 post k1

/-- C9 (the claim as stated fails).  Four records with a field annotated
`default>D`.  With `required` before the default token an unset field is the
error of the required test, not the parameter `20`.  A field sent under the
key `version` is overwritten by the fixed parameter.  Of two default tokens
the first is taken.  A later field sent under the same key overwrites the
value. -/
theorem C9_counterexample_default_not_emitted :
    encodeOptionsToURL rejectingLib [⟨"ToIndex", "toIndex,required,default>20", .int 0⟩] ⟨""⟩
      = .returned (some "Error field 'ToIndex' is required for this request", ⟨""⟩) ∧
    encodeOptionsToURL rejectingLib [⟨"Version", "version,default>7", .int 5⟩] ⟨""⟩
      = .returned (none, ⟨"newFormat=1&version=2"⟩) ∧
    encodeOptionsToURL rejectingLib [⟨"ToIndex", "toIndex,default>10,default>20", .int 0⟩] ⟨""⟩
      = .returned (none, ⟨"ToIndex=10&newFormat=1&version=2"⟩) ∧
    encodeOptionsToURL rejectingLib
        [⟨"ToIndex", "index,default>20", .int 5⟩, ⟨"FromIndex", "index,default>1", .int 6⟩] ⟨""⟩
      = .returned (none, ⟨"index=6&newFormat=1&version=2"⟩) :=
  ⟨rfl, rfl, rfl, rfl⟩

/-- C9 (amended).  For an `int` or `string` options field (`text` being the
`%d` or `%s` text of its value) whose annotation holds a token `default>D`:
when the field holds its zero value and no `required` and no other default
token stands before that token (nor behind it, when `D` is empty), the turn of
the field sets the value `D`; when the field does not hold its zero value, it
sets `text`.  The key is the one the field is sent under.  When the call
succeeds, that key is neither `version` nor `newFormat` and no later field of
the record is sent under it, the pair of that key and that value is in the
query that `encodeOptionsToURL` writes. -/
theorem C9_default_substitution (lib : Lib) (before after : List OptField)
    (name tag D : String) (pre post : List String) (v : OptValue) (text : String)
    (u u2 : url.URL)
    (hv : (∃ n : Int, v = .int n ∧ text = fmtD n) ∨ (∃ s : String, v = .string s ∧ text = s))
    (hs : strings.Split tag ',' = pre ++ ("default>" ++ D) :: post)
    (hp : v.isZero = some true →
      (∀ a ∈ pre, a ≠ "required" ∧ strings.HasPrefix a "default>" = false) ∧
      (D ≠ "" ∨ ∀ a ∈ post, a ≠ "required" ∧ strings.HasPrefix a "default>" = false)) :
    (∀ vals : url.Values, encodeField lib vals ⟨name, tag, v⟩
      = .returned (.ok (vals.Set (sentUnder ⟨name, tag, v⟩)
          (if v.isZero = some true then D else text)))) ∧
    (encodeOptionsToURL lib (before ++ ⟨name, tag, v⟩ :: after) u = .returned (none, u2) →
      sentUnder ⟨name, tag, v⟩ ≠ "version" → sentUnder ⟨name, tag, v⟩ ≠ "newFormat" →
      (∀ g ∈ after, sentUnder g ≠ sentUnder ⟨name, tag, v⟩) →
      ∃ vals : url.Values,
        u2.RawQuery = "&".intercalate (url.pairs (url.sortEntries vals)) ∧
        (vals.map Prod.fst).Nodup ∧
        vals.lookup (sentUnder ⟨name, tag, v⟩)
          = some [if v.isZero = some true then D else text] ∧
        url.QueryEscape (sentUnder ⟨name, tag, v⟩) ++ "=" ++
            url.QueryEscape (if v.isZero = some true then D else text)
          ∈ url.pairs (url.sortEntries vals)) := by
  have hz0 : ∃ z, v.isZero = some z := by
    rcases hv with ⟨n, rfl, -⟩ | ⟨s, rfl, -⟩ <;> exact ⟨_, rfl⟩
  have htext : ∀ (vals : url.Values) (key : String), setParam lib vals key v = vals.Set key text := by
    intro vals key
    rcases hv with ⟨n, rfl, rfl⟩ | ⟨s, rfl, rfl⟩ <;> rfl
  have hturn : ∃ val, tagsLoop (strings.Split tag ',') name v
        = .returned (.ok (sentUnder ⟨name, tag, v⟩, val)) ∧
      ∀ (vals : url.Values) (key : String),
        setParam lib vals key val = vals.Set key (if v.isZero = some true then D else text) := by
    obtain ⟨z, hz⟩ := hz0
    cases z with
    | true =>
      obtain ⟨h1, h2⟩ := hp hz
      obtain ⟨key, hk⟩ := tagsLoop_default_zero name D pre post v hz h1 h2
      refine ⟨.string D, ?_, ?_⟩
      · simp only [sentUnder, hs, hk]
      · intro vals k; simp only [hz, if_true]; rfl
    | false =>
      obtain ⟨key, hk⟩ := tagsLoop_nonzero v hz (strings.Split tag ',') name
      refine ⟨v, ?_, ?_⟩
      · simp only [sentUnder, hk]
      · intro vals k
        have hne : ¬ (some false = some true) := by simp
        simp only [hz, hne, if_false]
        exact htext vals k
  obtain ⟨val, hloop, hset⟩ := hturn
  have hfield : ∀ vals : url.Values, encodeField lib vals ⟨name, tag, v⟩
      = .returned (.ok (vals.Set (sentUnder ⟨name, tag, v⟩)
          (if v.isZero = some true then D else text))) := by
    intro vals
    simp only [encodeField, hloop, hset]
  refine ⟨hfield, ?_⟩
  intro h hk1 hk2 hafter
  unfold encodeOptionsToURL at h
  cases hf : encodeFields lib (before ++ ⟨name, tag, v⟩ :: after) [] with
  | returned r =>
    cases r with
    | ok vals0 =>
      rw [hf] at h
      simp only [Outcome.returned.injEq, Prod.mk.injEq, true_and] at h
      have hlook : vals0.lookup (sentUnder ⟨name, tag, v⟩)
          = some [if v.isZero = some true then D else text] := by
        rw [encodeFields_append] at hf
        cases hb : encodeFields lib before [] with
        | returned rb =>
          cases rb with
          | ok valsb =>
            rw [hb] at hf
            simp only [encodeFields, hfield] at hf
            rw [encodeFields_lookup_other lib _ after _ vals0 hf hafter]
            exact lookup_Set_self _ _ _
          | error e => rw [hb] at hf; simp at hf
        | panic => rw [hb] at hf; simp at hf
        | fatal => rw [hb] at hf; simp at hf
      have hfin : ((vals0.Set "version" "2").Set "newFormat" "1").lookup
          (sentUnder ⟨name, tag, v⟩) = some [if v.isZero = some true then D else text] := by
        rw [lookup_Set_other _ _ _ _ hk2, lookup_Set_other _ _ _ _ hk1]
        exact hlook
      refine ⟨(vals0.Set "version" "2").Set "newFormat" "1", ?_, ?_, hfin, ?_⟩
      · rw [← h]; rfl
      · exact Set_nodup _ _ _ (Set_nodup _ _ _
          (encodeFields_nodup lib _ [] vals0 hf List.nodup_nil))
      · exact mem_pairs _ _ _ _
          ((sortEntries_perm _).mem_iff.mpr (mem_of_lookup _ _ _ hfin)) (List.mem_singleton.mpr rfl)
    | error e => rw [hf] at h; simp at h
  | panic => rw [hf] at h; simp at h
  | fatal => rw [hf] at h; simp at h

/-- C9, an instance: the record with `FromIndex` and `ToIndex` annotated
`fromIndex,default>1` and `toIndex,default>20`, both unset: `ToIndex` is sent
as `ToIndex=20`; set to 5 it is sent with the value `5`. -/
theorem C9_default_substitution_witness :
    encodeField rejectingLib [] ⟨"ToIndex", "toIndex,default>20", .int 0⟩
        = .returned (.ok [("ToIndex", ["20"])]) ∧
    (∃ vals : url.Values,
      "FromIndex=1&ToIndex=20&newFormat=1&version=2"
        = "&".intercalate (url.pairs (url.sortEntries vals)) ∧
      (vals.map Prod.fst).Nodup ∧
      vals.lookup "ToIndex" = some ["20"] ∧
      url.QueryEscape "ToIndex" ++ "=" ++ url.QueryEscape "20"
        ∈ url.pairs (url.sortEntries vals)) ∧
    encodeField rejectingLib [] ⟨"ToIndex", "toIndex,default>20", .int 5⟩
        = .returned (.ok [("toIndex", ["5"])]) :=
  ⟨(C9_default_substitution rejectingLib [⟨"FromIndex", "fromIndex,default>1", .int 0⟩]
      [] "ToIndex" "toIndex,default>20" "20" ["toIndex"] [] (.int 0) "0" ⟨""⟩
      ⟨"FromIndex=1&ToIndex=20&newFormat=1&version=2"⟩ (Or.inl ⟨0, rfl, rfl⟩) (by decide)
      (fun _ => ⟨by decide, Or.inl (by decide)⟩)).1 [],
   (C9_default_substitution rejectingLib [⟨"FromIndex", "fromIndex,default>1", .int 0⟩]
      [] "ToIndex" "toIndex,default>20" "20" ["toIndex"] [] (.int 0) "0" ⟨""⟩
      ⟨"FromIndex=1&ToIndex=20&newFormat=1&version=2"⟩ (Or.inl ⟨0, rfl, rfl⟩) (by decide)
      (fun _ => ⟨by decide, Or.inl (by decide)⟩)).2 rfl (by decide) (by decide)
      (fun g hg => absurd hg (List.not_mem_nil g)),
   (C9_default_substitution rejectingLib [] [] "ToIndex" "toIndex,default>20" "20"
      ["toIndex"] [] (.int 5) "5" ⟨""⟩ ⟨""⟩ (Or.inl ⟨5, rfl, rfl⟩) (by decide)
      (fun h => absurd h (by decide))).1 []⟩

/-- C12.  Whenever `encodeOptionsToURL` succeeds, the query it writes is the
encoding of a set of parameters, each key held once, in which `version` has
the single value `2` and `newFormat` the single value `1`; the pairs
`version=2` and `newFormat=1` are among the pairs of the query string.  This
holds for every options record, whatever keys its fields are sent under. -/
theorem C12_fixed_parameters (lib : Lib) (o : List OptField) (u u2 : url.URL)
    (h : encodeOptionsToURL lib o u = .returned (none, u2)) :
    ∃ vals : url.Values,
      u2.RawQuery = "&".intercalate (url.pairs (url.sortEntries vals)) ∧
      (vals.map Prod.fst).Nodup ∧
      vals.lookup "version" = some ["2"] ∧
      vals.lookup "newFormat" = some ["1"] ∧
      "version=2" ∈ url.pairs (url.sortEntries vals) ∧
      "newFormat=1" ∈ url.pairs (url.sortEntries vals) := by
  unfold encodeOptionsToURL at h
  cases hf : encodeFields lib o [] with
  | returned r =>
    cases r with
    | ok vals0 =>
      rw [hf] at h
      simp only [Outcome.returned.injEq, Prod.mk.injEq, true_and] at h
      have hv : ((vals0.Set "version" "2").Set "newFormat" "1").lookup "version" = some ["2"] := by
        rw [lookup_Set_other _ _ _ _ (by decide)]
        exact lookup_Set_self _ _ _
      have hn : ((vals0.Set "version" "2").Set "newFormat" "1").lookup "newFormat" = some ["1"] :=
        lookup_Set_self _ _ _
      refine ⟨(vals0.Set "version" "2").Set "newFormat" "1", ?_, ?_, hv, hn, ?_, ?_⟩
      · rw [← h]; rfl
      · exact Set_nodup _ _ _ (Set_nodup _ _ _
          (encodeFields_nodup lib o [] vals0 hf List.nodup_nil))
      · exact mem_pairs "version" "2" ["2"] _
          ((sortEntries_perm _).mem_iff.mpr (mem_of_lookup _ _ _ hv)) (List.mem_singleton.mpr rfl)
      · exact mem_pairs "newFormat" "1" ["1"] _
          ((sortEntries_perm _).mem_iff.mpr (mem_of_lookup _ _ _ hn)) (List.mem_singleton.mpr rfl)
    | error e => rw [hf] at h; simp at h
  | panic => rw [hf] at h; simp at h
  | fatal => rw [hf] at h; simp at h

/-- C12, an instance: a record whose one field is sent under the key
`version` with the value `9`; the query holds `version=2`. -/
theorem C12_fixed_parameters_witness :
    ∃ vals : url.Values,
      "newFormat=1&version=2" = "&".intercalate (url.pairs (url.sortEntries vals)) ∧
      (vals.map Prod.fst).Nodup ∧
      vals.lookup "version" = some ["2"] ∧
      vals.lookup "newFormat" = some ["1"] ∧
      "version=2" ∈ url.pairs (url.sortEntries vals) ∧
      "newFormat=1" ∈ url.pairs (url.sortEntries vals) :=
  C12_fixed_parameters rejectingLib [⟨"Version", "version", .string "9"⟩] ⟨""⟩
    ⟨"newFormat=1&version=2"⟩ rfl

/-- C13 (the claim as stated fails).  `InsertRecordsOptions` with `Data` set
and `WorkflowTrigger` true is encoded with `newFormat` and `version` before
`wfTrigger` and `xmlData`. -/
theorem C13_counterexample_fixed_parameters_not_last :
    encodeOptionsToURL rejectingLib (insertRecordsOptions "<Leads/>") ⟨""⟩
      = .returned (none,
          ⟨"DuplicateCheck=1&IsApproval=false&newFormat=1&version=2&wfTrigger=true&xmlData=%3CLeads%2F%3E"⟩) :=
  rfl

/-- C13 (amended).  Whenever `encodeOptionsToURL` succeeds, the query string
is the sequence of its parameters in ascending order of their keys, byte by
byte, with `version=2` and `newFormat=1` among them: the two fixed parameters
stand where their keys sort, not at the end. -/
theorem C13_parameters_sorted_by_key (lib : Lib) (o : List OptField) (u u2 : url.URL)
    (h : encodeOptionsToURL lib o u = .returned (none, u2)) :
    ∃ entries : url.Values,
      u2.RawQuery = "&".intercalate (url.pairs entries) ∧
      entries.Pairwise keyLE ∧
      ("version", ["2"]) ∈ entries ∧
      ("newFormat", ["1"]) ∈ entries := by
  unfold encodeOptionsToURL at h
  cases hf : encodeFields lib o [] with
  | returned r =>
    cases r with
    | ok vals0 =>
      rw [hf] at h
      simp only [Outcome.returned.injEq, Prod.mk.injEq, true_and] at h
      refine ⟨url.sortEntries ((vals0.Set "version" "2").Set "newFormat" "1"), ?_,
        sortEntries_sorted _, ?_, ?_⟩
      · rw [← h]; rfl
      · refine (sortEntries_perm _).mem_iff.mpr (mem_of_lookup _ _ _ ?_)
        rw [lookup_Set_other _ _ _ _ (by decide)]
        exact lookup_Set_self _ _ _
      · exact (sortEntries_perm _).mem_iff.mpr (mem_of_lookup _ _ _ (lookup_Set_self _ _ _))
    | error e => rw [hf] at h; simp at h
  | panic => rw [hf] at h; simp at h
  | fatal => rw [hf] at h; simp at h

/-- C13, an instance: `InsertRecordsOptions` with `Data` set and
`WorkflowTrigger` true. -/
theorem C13_parameters_sorted_by_key_witness :
    ∃ entries : url.Values,
      "DuplicateCheck=1&IsApproval=false&newFormat=1&version=2&wfTrigger=true&xmlData=%3CLeads%2F%3E"
        = "&".intercalate (url.pairs entries) ∧
      entries.Pairwise keyLE ∧
      ("version", ["2"]) ∈ entries ∧
      ("newFormat", ["1"]) ∈ entries :=
  C13_parameters_sorted_by_key rejectingLib (insertRecordsOptions "<Leads/>") ⟨""⟩
    ⟨"DuplicateCheck=1&IsApproval=false&newFormat=1&version=2&wfTrigger=true&xmlData=%3CLeads%2F%3E"⟩
    rfl

/-- C14.  A timestamp field that is not the zero time is sent, under the key
its annotation gives, as the decimal year, month, day, hour, minute and second
joined as `Y-M-D H:Min:S`; a component from 0 to 9 is written as one digit,
without a leading zero. -/
theorem C14_timestamp_rendering (lib : Lib) (vals : url.Values) (name tag : String) (t : Time)
    (hz : t.IsZero = false) (hv : t.isZeroValue = false) :
    (∃ key, encodeField lib vals ⟨name, tag, .time t⟩
      = .returned (.ok (vals.Set key
          (fmtD t.Year ++ "-" ++ fmtD t.Month ++ "-" ++ fmtD t.Day ++ " " ++
            fmtD t.Hour ++ ":" ++ fmtD t.Minute ++ ":" ++ fmtD t.Second)))) ∧
    (∀ n : Int, 0 ≤ n → n < 10 → (fmtD n).length = 1) := by
  constructor
  · have hzero : (OptValue.time t).isZero = some false := by
      simp [OptValue.isZero, hv]
    obtain ⟨key, hk⟩ := tagsLoop_nonzero (.time t) hzero (strings.Split tag ',') name
    refine ⟨key, ?_⟩
    simp only [encodeField, hk, setParam, hz, Bool.not_false, if_true]
  · intro n h0 h10
    interval_cases n <;> decide

/-- C14, an instance: 2017-03-05 04:07:09 in the field `LastModifiedTime`. -/
theorem C14_timestamp_rendering_witness :
    (∃ key, encodeField rejectingLib [] ⟨"LastModifiedTime", "lastModifiedTime",
        .time ⟨2017, 3, 5, 4, 7, 9, false, false⟩⟩
      = .returned (.ok (url.Values.Set [] key "2017-3-5 4:7:9"))) ∧
    (∀ n : Int, 0 ≤ n → n < 10 → (fmtD n).length = 1) :=
  C14_timestamp_rendering rejectingLib [] "LastModifiedTime" "lastModifiedTime"
    ⟨2017, 3, 5, 4, 7, 9, false, false⟩ rfl rfl

/-! ### Looking a wire field up -/

/-- The first piece of a split is what stands before the first separator. -/
theorem splitChars_head (sep : Char) :
    ∀ l : List Char, ∃ t, strings.splitChars sep l = l.takeWhile (fun c => c ≠ sep) :: t := by
  intro l
  induction l with
  | nil => exact ⟨[], rfl⟩
  | cons c cs ih =>
    obtain ⟨t, ht⟩ := ih
    simp only [strings.splitChars]
    by_cases h : c = sep
    · simp [h]
    · simp [h, ht]

/-- The name that `getFieldLabelByName` looks for: the wire name up to its
first `>`. -/
theorem lookupName_eq (name : String) :
    (if strings.Contains name '>' then (strings.Split name '>').headD "" else name)
      = String.mk (name.data.takeWhile (fun c => c ≠ '>')) := by
  obtain ⟨t, ht⟩ := splitChars_head '>' name.data
  split
  · simp [strings.Split, ht]
  · rename_i h
    have h2 : '>' ∉ name.data := by
      simpa [strings.Contains] using h
    have h3 : name.data.takeWhile (fun c => c ≠ '>') = name.data := by
      rw [List.takeWhile_eq_self_iff]
      intro c hc
      simp only [ne_eq, decide_not, Bool.not_eq_true', decide_eq_false_iff_not]
      intro h4
      exact h2 (h4 ▸ hc)
    rw [h3]

/-- The first match of a search in a list. -/
theorem find_first (p : FieldLabel → Bool) (a : FieldLabel) (post : List FieldLabel) :
    ∀ pre : List FieldLabel, (∀ x ∈ pre, p x = false) → p a = true →
      (pre ++ a :: post).find? p = some a := by
  intro pre
  induction pre with
  | nil => intro _ ha; simp [List.find?, ha]
  | cons x pre ih =>
    intro h ha
    have hx := h x (List.mem_cons_self _ _)
    simp only [List.cons_append, List.find?, hx]
    exact ih (fun y hy => h y (List.mem_cons_of_mem _ hy)) ha

/-- C20 (the claim as stated fails).  For the wire name `a>b`, a list whose
only field is labelled `a>b` gives the empty `FieldLabel`, and a list whose
only field is labelled `a` gives that field: the name is cut at its `>`
before the search. -/
theorem C20_counterexample_name_cut_at_gt :
    getFieldLabelByName [FieldLabel.mk "FL" "a>b" "1" [] []] "a>b" = FieldLabel.zero ∧
    getFieldLabelByName [FieldLabel.mk "FL" "a" "1" [] []] "a>b"
      = FieldLabel.mk "FL" "a" "1" [] [] :=
  ⟨rfl, rfl⟩

/-- C20 (amended).  `getFieldLabelByName` returns the first field of the list
whose label is exactly equal to the wire name up to its first `>` (the whole
name when it holds no `>`), and the empty `FieldLabel` when no field has that
label. -/
theorem C20_first_field_with_cut_name (f : List FieldLabel) (name : String) :
    (∀ (pre : List FieldLabel) (a : FieldLabel) (post : List FieldLabel),
      f = pre ++ a :: post →
      a.Label = String.mk (name.data.takeWhile (fun c => c ≠ '>')) →
      (∀ x ∈ pre, x.Label ≠ String.mk (name.data.takeWhile (fun c => c ≠ '>'))) →
      getFieldLabelByName f name = a) ∧
    ((∀ x ∈ f, x.Label ≠ String.mk (name.data.takeWhile (fun c => c ≠ '>'))) →
      getFieldLabelByName f name = FieldLabel.zero) ∧
    ('>' ∉ name.data → String.mk (name.data.takeWhile (fun c => c ≠ '>')) = name) := by
  refine ⟨?_, ?_, ?_⟩
  · intro pre a post hf ha hpre
    unfold getFieldLabelByName
    simp only [lookupName_eq]
    rw [hf, find_first _ a post pre (by simpa using hpre) (by simpa using ha)]
  · intro h
    unfold getFieldLabelByName
    simp only [lookupName_eq]
    have : f.find? (fun a => decide (a.Label = String.mk (name.data.takeWhile (fun c => c ≠ '>'))))
        = none := by
      rw [List.find?_eq_none]
      intro x hx
      simpa using h x hx
    rw [this]
  · intro h
    have h3 : name.data.takeWhile (fun c => c ≠ '>') = name.data := by
      rw [List.takeWhile_eq_self_iff]
      intro c hc
      simp only [ne_eq, decide_not, Bool.not_eq_true', decide_eq_false_iff_not]
      intro h4
      exact h (h4 ▸ hc)
    rw [h3]

/-- C20, an instance: the name `Name` in a list that holds two fields
labelled `Name`, and the name `City` in the same list. -/
theorem C20_first_field_with_cut_name_witness :
    getFieldLabelByName
        [FieldLabel.mk "FL" "Id" "1" [] [], FieldLabel.mk "FL" "Name" "first" [] [],
         FieldLabel.mk "FL" "Name" "second" [] []] "Name"
      = FieldLabel.mk "FL" "Name" "first" [] [] ∧
    getFieldLabelByName
        [FieldLabel.mk "FL" "Id" "1" [] [], FieldLabel.mk "FL" "Name" "first" [] [],
         FieldLabel.mk "FL" "Name" "second" [] []] "City"
      = FieldLabel.zero ∧
    String.mk ("Name".data.takeWhile (fun c => c ≠ '>')) = "Name" :=
  ⟨(C20_first_field_with_cut_name _ "Name").1 [FieldLabel.mk "FL" "Id" "1" [] []]
      (FieldLabel.mk "FL" "Name" "first" [] []) [FieldLabel.mk "FL" "Name" "second" [] []]
      rfl (by decide) (by decide),
   (C20_first_field_with_cut_name _ "City").2.1 (by decide),
   (C20_first_field_with_cut_name [] "Name").2.2 (by decide)⟩

/-! ### Materializing groups and rows -/

/-- When every group materializes, the loop over the groups appends the
elements, one for each group, in the order of the groups. -/
theorem appendGroups_all (fillElem : List FieldLabel → Outcome (Except String GoValue)) :
    ∀ (gs : List InternalGroup) (outs acc : List GoValue),
      List.Forall₂ (fun g out => fillElem g.Fields = .returned (.ok out)) gs outs →
      appendGroups fillElem false gs acc = .returned (.ok (acc ++ outs)) := by
  intro gs
  induction gs with
  | nil =>
    intro outs acc h
    cases h
    simp [appendGroups]
  | cons g gs ih =>
    intro outs acc h
    cases h with
    | cons h1 h2 =>
      rename_i out outs2
      simp only [appendGroups, h1, Bool.false_eq_true, if_false]
      rw [ih _ _ h2]
      simp

/-- C18.  For the struct field at the head of the loop `FIELDS`, of a slice
type, exported and matched to the wire field `f`: when the groups of `f`
materialize to `outs`, one element for each group in the order of the groups,
the field ends as the elements it held followed by `outs`, and the loop goes
on with the other wire fields. -/
theorem C18_slice_field_one_element_per_group (lib : Lib) (fields : List FieldLabel)
    (sf : StructField) (f : FieldLabel) (elem : GoValue) (items outs : List GoValue)
    (rest : List (StructField × GoValue))
    (hex : sf.exported = true)
    (hf : getFieldLabelByName fields ((strings.Split sf.zoho ',').headD "") = f)
    (hlabel : f.Label ≠ "")
    (hmat : List.Forall₂
      (fun g out => fillStructFromValues lib g.Fields elem = .returned (.ok out)) f.Data outs) :
    fillFields lib fields ((sf, .slice elem items) :: rest)
      = match fillFields lib (removeLabelByName fields f.Label) rest with
        | .returned (.ok r) => .returned (.ok ((sf, .slice elem (items ++ outs)) :: r))
        | o => o := by
  have ha := appendGroups_all (fun fs => fillStructFromValues lib fs elem) f.Data outs items hmat
  simp only [fillFields, hf, hex, Bool.not_true, Bool.false_or, decide_eq_true_eq, hlabel,
    if_false, fillKind, ha]

/-- C18, an instance: a field with 3 groups gives 3 elements in the same
order. -/
theorem C18_slice_field_one_element_per_group_witness :
    fillFields rejectingLib [productsField] [(productsStructField, .slice (productRecord "") [])]
      = .returned (.ok [(productsStructField,
          .slice (productRecord "") [productRecord "p1", productRecord "p2", productRecord "p3"])]) :=
  C18_slice_field_one_element_per_group rejectingLib [productsField] productsStructField
    productsField (productRecord "") [] [productRecord "p1", productRecord "p2", productRecord "p3"]
    [] rfl rfl (by decide)
    (List.Forall₂.cons rfl (List.Forall₂.cons rfl (List.Forall₂.cons rfl List.Forall₂.nil)))

/-! ### The rows of the result -/

/-- Appending the row of a closing `row` element keeps the numbering. -/
theorem numberedFromOne_append (rows : List Row) (cur : List FieldLabel)
    (h : numberedFromOne rows) : numberedFromOne (rows ++ [newRow rows cur]) := by
  intro k r hk
  by_cases hlt : k < rows.length
  · rw [List.getElem?_append_left hlt] at hk
    exact h k r hk
  · have hge : rows.length ≤ k := by omega
    rw [List.getElem?_append_right hge] at hk
    by_cases hk0 : k - rows.length = 0
    · rw [hk0] at hk
      simp only [List.getElem?_cons_zero, Option.some.injEq] at hk
      rw [← hk]
      have : k = rows.length := by omega
      simp [newRow, this]
    · obtain ⟨m, hm⟩ := Nat.exists_eq_succ_of_ne_zero hk0
      rw [hm] at hk
      simp at hk

/-- Closing a nested element leaves the rows collected so far as they are. -/
theorem closeNested_values (st : ParseState) : (closeNested st).values = st.values := by
  unfold closeNested
  split <;> rfl

/-- A decoded sentinel is not the zero `XMLError`. -/
theorem DecodeElementXMLError_ne_zero (d d2 : xml.Decoder) (e0 e : XMLError) (name : String)
    (hn : name ≠ "") (h : DecodeElementXMLError d e0 name = (true, e, d2)) : e ≠ {} := by
  have h1 := unmarshalXMLErrorLoop_name (d.toks.length + 1) d { e0 with XMLName := name }
  unfold DecodeElementXMLError at h
  rw [h] at h1
  intro h0
  rw [h0] at h1
  exact hn h1.symm

/-- From every state of the loop of `getValuesFromXML`: the rows of a result
are numbered from 1 when the rows collected so far are, and a result without
sentinel starts with the rows collected so far. -/
theorem primeLoop_rows (b : xml.Document) :
    ∀ (fuel : Nat) (st : ParseState) (d : xml.Decoder) (x : XMLData) (err : Option String),
      primeLoop b fuel st d = .returned (x, err) →
      (numberedFromOne st.values → numberedFromOne x.Rows) ∧
      (x.Error = {} → ∃ more, x.Rows = st.values ++ more) := by
  intro fuel
  induction fuel with
  | zero => intro st d x err h; simp [primeLoop] at h
  | succ fuel ih =>
    intro st d x err h
    have hret : ∀ (y : XMLData) (e2 : Option String),
        Outcome.returned (({ Rows := st.values } : XMLData), (none : Option String))
          = Outcome.returned (y, e2) →
        (numberedFromOne st.values → numberedFromOne y.Rows) ∧
        (y.Error = {} → ∃ more, y.Rows = st.values ++ more) := by
      intro y e2 hy
      simp only [Outcome.returned.injEq, Prod.mk.injEq] at hy
      obtain ⟨hy, _⟩ := hy
      subst hy
      exact ⟨fun hn => hn, fun _ => ⟨[], by simp⟩⟩
    have hsent : ∀ (d1 d2 : xml.Decoder) (e0 e : XMLError) (name : String) (y : XMLData)
        (e2 : Option String), name ≠ "" →
        DecodeElementXMLError d1 e0 name = (true, e, d2) →
        Outcome.returned (({ Error := e } : XMLData), (none : Option String))
          = Outcome.returned (y, e2) →
        (numberedFromOne st.values → numberedFromOne y.Rows) ∧
        (y.Error = {} → ∃ more, y.Rows = st.values ++ more) := by
      intro d1 d2 e0 e name y e2 hn hdec hy
      simp only [Outcome.returned.injEq, Prod.mk.injEq] at hy
      obtain ⟨hy, _⟩ := hy
      subst hy
      refine ⟨fun _ k r hk => by simp at hk, fun h0 => ?_⟩
      exact absurd h0 (DecodeElementXMLError_ne_zero d1 d2 e0 e name hn hdec)
    simp only [primeLoop] at h
    rcases hT : d.Token with ⟨r, d1⟩
    rw [hT] at h
    cases r with
    | token t =>
      cases t with
      | StartElement n a =>
        simp only [] at h
        split at h
        · have hi := ih _ _ _ _ h
          exact hi
        · split at h
          · rename_i hname
            split at h
            · rename_i e d2 hdec
              exact hsent _ _ _ _ _ _ _ (by rw [hname]; decide) hdec h
            · simp at h
          · split at h
            · rename_i hname
              split at h
              · rename_i e d2 hdec
                exact hsent _ _ _ _ _ _ _ (by rw [hname]; decide) hdec h
              · simp at h
            · split at h
              · have hi := ih _ _ _ _ h
                exact hi
              · split at h
                · split at h
                  · have hi := ih _ _ _ _ h
                    exact hi
                  · split at h
                    · have hi := ih _ _ _ _ h
                      exact hi
                    · have hi := ih _ _ _ _ h
                      exact hi
                · split at h
                  · have hi := ih _ _ _ _ h
                    exact hi
                  · have hi := ih _ _ _ _ h
                    exact hi
      | EndElement n =>
        simp only [] at h
        split at h
        · obtain ⟨h1, h2⟩ := ih _ _ _ _ h
          refine ⟨fun hn => h1 (numberedFromOne_append _ _ hn), fun h0 => ?_⟩
          obtain ⟨more, hm⟩ := h2 h0
          exact ⟨newRow st.values st.currentRow :: more, by simp [hm]⟩
        · split at h
          · split at h
            · have := ih _ _ _ _ h
              rw [closeNested_values] at this
              exact this
            · have hi := ih _ _ _ _ h
              exact hi
          · split at h
            · split at h
              · exact hret _ _ h
              · have hi := ih _ _ _ _ h
                exact hi
            · split at h
              · exact hret _ _ h
              · split at h
                · exact hret _ _ h
                · have hi := ih _ _ _ _ h
                  exact hi
      | CharData c =>
        have hi := ih _ _ _ _ h
        exact hi
      | Comment c =>
        have hi := ih _ _ _ _ h
        exact hi
      | ProcInst a c =>
        have hi := ih _ _ _ _ h
        exact hi
      | Directive c =>
        have hi := ih _ _ _ _ h
        exact hi
    | EOF => exact hret _ _ h
    | failed => simp at h
/-- C15: the rows of a result of `getValuesFromXML` are numbered from 1 in
their order, the row at place `k` (counted from 0) having the number `k + 1`;
and they stand in the order in which the `row` elements close: reading the end
of a `row` appends the row to the rows collected so far, and a result without
sentinel starts with the rows collected at any earlier state of the loop. -/
theorem C15_rows_numbered_from_one (b : xml.Document) (x : XMLData) (err : Option String)
    (h : getValuesFromXML b = .returned (x, err)) :
    (∀ (k : Nat) (r : Row), x.Rows[k]? = some r → r.Number = (k : Int) + 1) ∧
    (∀ (fuel : Nat) (st : ParseState) (d d1 : xml.Decoder),
      d.Token = (.token (.EndElement "row"), d1) →
      primeLoop b (fuel + 1) st d =
        primeLoop b fuel
          { st with values := st.values ++ [newRow st.values st.currentRow] } d1) ∧
    (∀ (fuel : Nat) (st : ParseState) (d : xml.Decoder) (y : XMLData) (e : Option String),
      primeLoop b fuel st d = .returned (y, e) → y.Error = {} →
      ∃ more, y.Rows = st.values ++ more) := by
  refine ⟨?_, ?_, ?_⟩
  · have hn : numberedFromOne ParseState.init.values := by
      intro k r hk
      simp [ParseState.init] at hk
    exact (primeLoop_rows b _ _ _ _ _ h).1 hn
  · intro fuel st d d1 hT
    simp only [primeLoop, hT, if_true]
  · intro fuel st d y e hy
    exact (primeLoop_rows b _ _ _ _ _ hy).2

/-- C15 at a document with two rows whose `no` attributes are 5 and 9: the
rows of the result have the numbers 1 and 2. -/
theorem C15_rows_numbered_from_one_witness :
    getValuesFromXML twoRowDocument = .returned ({ Rows := twoLeadRows }, none) ∧
    (∀ (k : Nat) (r : Row), twoLeadRows[k]? = some r → r.Number = (k : Int) + 1) :=
  ⟨rfl, (C15_rows_numbered_from_one twoRowDocument { Rows := twoLeadRows } none rfl).1⟩

/-! ### The numbers of the groups -/

/-- C16: the groups of a field are not always numbered from 1.  The loop of
`getValuesFromXML` itself numbers a group it attaches one more than the
groups already there (first conjunct); but a field that the lookahead takes
for a simple one is filled by `DecodeElement`, which reads a child element
`Data` into `Data []InternalGroup` together with its attribute `no`: in the
result of `groupNumberDocument` the only group of the field `Note` of the
second row has the number 7. -/
theorem C16_group_number_read_from_the_wire :
    (∀ (label : String) (g : InternalGroup) (f : FieldLabel) (rest : List FieldLabel),
      f.Label = label →
      attachGroup label g (f :: rest)
        = some (f.setData (f.Data ++ [g.setNumber (f.Data.length + 1)]) :: rest)) ∧
    getValuesFromXML groupNumberDocument = .returned ({ Rows := groupNumberRows }, none) ∧
    (groupNumberRows.map (fun r => r.Fields.map (fun f => f.Data.map InternalGroup.Number)))
      = [[[]], [[7]]] := by
  refine ⟨?_, rfl, rfl⟩
  intro label g f rest h
  simp [attachGroup, h]

/-! ### Fields with repeated groups -/

/-- `getValuesFromXML` is the loop run from the first state. -/
theorem getValuesFromXML_parseFrom (b : xml.Document) :
    getValuesFromXML b = parseFrom b ParseState.init (xml.NewDecoder b) := rfl

/-- The loop reads over the start of a wrapper and over a token that is no
element. -/
theorem parseFrom_wrapper (b : xml.Document) (st : ParseState) (t : xml.Token)
    (rest : List xml.Token) (stk : List String) (h : isWrapper t = true) :
    parseFrom b st ⟨t :: rest, stk, false⟩ = parseFrom b st ⟨rest, openedBy [t] stk, false⟩ := by
  have h1 : ∀ fuel, primeLoop b (fuel + 1) st ⟨t :: rest, stk, false⟩
      = primeLoop b fuel st ⟨rest, openedBy [t] stk, false⟩ := by
    intro fuel
    cases t with
    | StartElement n a =>
      simp only [isWrapper, Bool.or_eq_true, decide_eq_true_eq] at h
      simp [primeLoop, xml.Decoder.Token, xml.pushPop, openedBy, h]
    | EndElement n => simp [isWrapper] at h
    | CharData c => simp [primeLoop, xml.Decoder.Token, xml.pushPop, openedBy]
    | Comment c => simp [primeLoop, xml.Decoder.Token, xml.pushPop, openedBy]
    | ProcInst a c => simp [primeLoop, xml.Decoder.Token, xml.pushPop, openedBy]
    | Directive c => simp [primeLoop, xml.Decoder.Token, xml.pushPop, openedBy]
  exact h1 (rest.length + 1)

/-- The loop reads over wrappers. -/
theorem parseFrom_wrappers (b : xml.Document) (st : ParseState) :
    ∀ (w rest : List xml.Token) (stk : List String), (∀ t ∈ w, isWrapper t = true) →
      parseFrom b st ⟨w ++ rest, stk, false⟩ = parseFrom b st ⟨rest, openedBy w stk, false⟩ := by
  intro w
  induction w with
  | nil => intro rest stk _; rfl
  | cons t w ih =>
    intro rest stk h
    have ht := h t (List.mem_cons_self _ _)
    rw [List.cons_append, parseFrom_wrapper b st t _ stk ht,
      ih rest _ (fun u hu => h u (List.mem_cons_of_mem _ hu))]
    cases t with
    | StartElement n a => rfl
    | EndElement n => simp [isWrapper] at ht
    | CharData c => rfl
    | Comment c => rfl
    | ProcInst a c => rfl
    | Directive c => rfl

/-- The first element that is not reserved becomes the module. -/
theorem parseFrom_module (b : xml.Document) (v : List Row) (row : List FieldLabel)
    (nf : FieldLabel) (ng : InternalGroup) (nested m : String) (a : List xml.Attr)
    (rest : List xml.Token) (stk : List String) (hm : m ∉ reservedNames) :
    parseFrom b ⟨v, row, nf, ng, "", nested⟩ ⟨.StartElement m a :: rest, stk, false⟩
      = parseFrom b ⟨v, row, nf, ng, m, nested⟩ ⟨rest, m :: stk, false⟩ := by
  have h1 : ∀ fuel, primeLoop b (fuel + 1) ⟨v, row, nf, ng, "", nested⟩
      ⟨.StartElement m a :: rest, stk, false⟩
      = primeLoop b fuel ⟨v, row, nf, ng, m, nested⟩ ⟨rest, m :: stk, false⟩ := by
    intro fuel
    simp only [reservedNames, List.mem_cons, List.mem_singleton, List.not_mem_nil, or_false,
      not_or] at hm
    simp [primeLoop, xml.Decoder.Token, xml.pushPop, hm]
  exact h1 (rest.length + 1)

/-- The start of a `row` empties the current row. -/
theorem parseFrom_row_start (b : xml.Document) (v : List Row) (row : List FieldLabel)
    (nf : FieldLabel) (ng : InternalGroup) (nested m : String) (a : List xml.Attr)
    (rest : List xml.Token) (stk : List String) :
    parseFrom b ⟨v, row, nf, ng, m, nested⟩ ⟨.StartElement "row" a :: rest, stk, false⟩
      = parseFrom b ⟨v, [], nf, ng, m, nested⟩ ⟨rest, "row" :: stk, false⟩ := by
  have h1 : ∀ fuel, primeLoop b (fuel + 1) ⟨v, row, nf, ng, m, nested⟩
      ⟨.StartElement "row" a :: rest, stk, false⟩
      = primeLoop b fuel ⟨v, [], nf, ng, m, nested⟩ ⟨rest, "row" :: stk, false⟩ := by
    intro fuel
    simp [primeLoop, xml.Decoder.Token, xml.pushPop]
  exact h1 (rest.length + 1)

/-- The end of a `row` appends the current row to the rows. -/
theorem parseFrom_row_end (b : xml.Document) (v : List Row) (row : List FieldLabel)
    (nf : FieldLabel) (ng : InternalGroup) (nested m : String)
    (rest : List xml.Token) (stk : List String) :
    parseFrom b ⟨v, row, nf, ng, m, nested⟩ ⟨.EndElement "row" :: rest, "row" :: stk, false⟩
      = parseFrom b ⟨v ++ [newRow v row], row, nf, ng, m, nested⟩ ⟨rest, stk, false⟩ := by
  have h1 : ∀ fuel, primeLoop b (fuel + 1) ⟨v, row, nf, ng, m, nested⟩
      ⟨.EndElement "row" :: rest, "row" :: stk, false⟩
      = primeLoop b fuel ⟨v ++ [newRow v row], row, nf, ng, m, nested⟩ ⟨rest, stk, false⟩ := by
    intro fuel
    simp [primeLoop, xml.Decoder.Token, xml.pushPop]
  exact h1 (rest.length + 1)

/-- The end of the module element ends the parse with the rows. -/
theorem parseFrom_module_end (b : xml.Document) (v : List Row) (row : List FieldLabel)
    (nf : FieldLabel) (ng : InternalGroup) (m : String)
    (rest : List xml.Token) (stk : List String) (hm : m ∉ reservedNames) (hm0 : m ≠ "") :
    parseFrom b ⟨v, row, nf, ng, m, ""⟩ ⟨.EndElement m :: rest, m :: stk, false⟩
      = .returned ({ Rows := v }, none) := by
  have h1 : ∀ fuel, primeLoop b (fuel + 1) ⟨v, row, nf, ng, m, ""⟩
      ⟨.EndElement m :: rest, m :: stk, false⟩ = .returned ({ Rows := v }, none) := by
    intro fuel
    simp only [reservedNames, List.mem_cons, List.mem_singleton, List.not_mem_nil, or_false,
      not_or] at hm
    simp [primeLoop, xml.Decoder.Token, xml.pushPop, hm, hm0]
  exact h1 (rest.length + 1)

/-- The start of a field that the lookahead takes for one with groups makes its
label the label of the nested field. -/
theorem parseFrom_grouped_start (b : xml.Document) (v : List Row) (row : List FieldLabel)
    (nf : FieldLabel) (ng : InternalGroup) (nested m label : String)
    (rest : List xml.Token) (stk : List String)
    (hc : checkForInternalGroup (xml.NewDecoder b) "FL" [⟨"val", label⟩] = true) :
    parseFrom b ⟨v, row, nf, ng, m, nested⟩
        ⟨.StartElement "FL" [⟨"val", label⟩] :: rest, stk, false⟩
      = parseFrom b ⟨v, row, FieldLabel.ofLabel label, ng, m, nested⟩
        ⟨rest, "FL" :: stk, false⟩ := by
  have h1 : ∀ fuel, primeLoop b (fuel + 1) ⟨v, row, nf, ng, m, nested⟩
      ⟨.StartElement "FL" [⟨"val", label⟩] :: rest, stk, false⟩
      = primeLoop b fuel ⟨v, row, FieldLabel.ofLabel label, ng, m, nested⟩
        ⟨rest, "FL" :: stk, false⟩ := by
    intro fuel
    simp [primeLoop, xml.Decoder.Token, xml.pushPop, hc, nestedFieldOfAttr]
  exact h1 (rest.length + 1)

/-- The end of a field with groups changes nothing. -/
theorem parseFrom_grouped_end (b : xml.Document) (v : List Row) (row : List FieldLabel)
    (nf : FieldLabel) (ng : InternalGroup) (m : String)
    (rest : List xml.Token) (stk : List String) (hm : m ∉ reservedNames) :
    parseFrom b ⟨v, row, nf, ng, m, ""⟩ ⟨.EndElement "FL" :: rest, "FL" :: stk, false⟩
      = parseFrom b ⟨v, row, nf, ng, m, ""⟩ ⟨rest, stk, false⟩ := by
  have h1 : ∀ fuel, primeLoop b (fuel + 1) ⟨v, row, nf, ng, m, ""⟩
      ⟨.EndElement "FL" :: rest, "FL" :: stk, false⟩
      = primeLoop b fuel ⟨v, row, nf, ng, m, ""⟩ ⟨rest, stk, false⟩ := by
    intro fuel
    simp only [reservedNames, List.mem_cons, List.mem_singleton, List.not_mem_nil, or_false,
      not_or] at hm
    have hm2 : ¬ "FL" = m := fun h => hm.2.2.2.2.2 h.symm
    simp [primeLoop, xml.Decoder.Token, xml.pushPop, hm2]
  exact h1 (rest.length + 1)

/-- The start of an element that is not reserved, inside the module, opens a
group named by the element. -/
theorem parseFrom_group_start (b : xml.Document) (v : List Row) (row : List FieldLabel)
    (nf : FieldLabel) (ng : InternalGroup) (nested m g : String) (a : List xml.Attr)
    (rest : List xml.Token) (stk : List String) (hg : g ∉ reservedNames) (hm0 : m ≠ "") :
    parseFrom b ⟨v, row, nf, ng, m, nested⟩ ⟨.StartElement g a :: rest, stk, false⟩
      = parseFrom b ⟨v, row, nf, ng.setXMLName g, m, g⟩ ⟨rest, g :: stk, false⟩ := by
  have h1 : ∀ fuel, primeLoop b (fuel + 1) ⟨v, row, nf, ng, m, nested⟩
      ⟨.StartElement g a :: rest, stk, false⟩
      = primeLoop b fuel ⟨v, row, nf, ng.setXMLName g, m, g⟩ ⟨rest, g :: stk, false⟩ := by
    intro fuel
    simp only [reservedNames, List.mem_cons, List.mem_singleton, List.not_mem_nil, or_false,
      not_or] at hg
    simp [primeLoop, xml.Decoder.Token, xml.pushPop, hg, hm0]
  exact h1 (rest.length + 1)

/-- The end of the element of a group closes the group. -/
theorem parseFrom_group_end (b : xml.Document) (v : List Row) (row : List FieldLabel)
    (nf : FieldLabel) (ng : InternalGroup) (m g : String)
    (rest : List xml.Token) (stk : List String) (hg : g ∉ reservedNames) (hg0 : g ≠ "") :
    parseFrom b ⟨v, row, nf, ng, m, g⟩ ⟨.EndElement g :: rest, g :: stk, false⟩
      = parseFrom b (closeNested ⟨v, row, nf, ng, m, g⟩) ⟨rest, stk, false⟩ := by
  have h1 : ∀ fuel, primeLoop b (fuel + 1) ⟨v, row, nf, ng, m, g⟩
      ⟨.EndElement g :: rest, g :: stk, false⟩
      = primeLoop b fuel (closeNested ⟨v, row, nf, ng, m, g⟩) ⟨rest, stk, false⟩ := by
    intro fuel
    simp only [reservedNames, List.mem_cons, List.mem_singleton, List.not_mem_nil, or_false,
      not_or] at hg
    simp [primeLoop, xml.Decoder.Token, xml.pushPop, hg, hg0]
  exact h1 (rest.length + 1)
/-- Decoding into a `FieldLabel` over character data up to the end of the
element collects the data as the value. -/
theorem unmarshalFieldLabelLoop_texts :
    ∀ (texts : List String) (fuel : Nat) (f : FieldLabel) (data : String)
      (rest : List xml.Token) (stk : List String) (n : String),
      texts.length < fuel →
      unmarshalFieldLabelLoop fuel
          ⟨texts.map xml.Token.CharData ++ (.EndElement n :: rest), n :: stk, false⟩ f data
        = (true, FieldLabel.mk f.XMLName f.Label (texts.foldl (fun acc s => acc ++ s) data)
            f.Data f.Tags, ⟨rest, stk, false⟩) := by
  intro texts
  induction texts with
  | nil =>
    intro fuel f data rest stk n h
    cases fuel with
    | zero => simp at h
    | succ fuel => simp [unmarshalFieldLabelLoop, xml.Decoder.Token, xml.pushPop]
  | cons s texts ih =>
    intro fuel f data rest stk n h
    cases fuel with
    | zero => simp at h
    | succ fuel =>
      have h2 : texts.length < fuel := by simpa using h
      simp only [List.map_cons, List.cons_append, unmarshalFieldLabelLoop, xml.Decoder.Token,
        xml.pushPop, List.foldl_cons]
      simpa using ih fuel f (data ++ s) rest stk n h2

/-- The method `decode` on a simple field gives the field and leaves the
reader behind its end. -/
theorem decode_simple (f : SimpleField) (rest : List xml.Token) (stk : List String) :
    FieldLabel.decode
        ⟨f.texts.map xml.Token.CharData ++ (.EndElement "FL" :: rest), "FL" :: stk, false⟩
        "FL" [⟨"val", f.label⟩]
      = (f.parsed, ⟨rest, stk, false⟩) := by
  unfold FieldLabel.decode
  simp only [ne_eq, not_true_eq_false, if_false]
  rw [unmarshalFieldLabelLoop_texts]
  · simp [SimpleField.parsed, labelOfAttr, FieldLabel.XMLName, FieldLabel.Label,
      FieldLabel.Data, FieldLabel.Tags]
  · simp only [List.length_append, List.length_map, List.length_cons]
    omega

/-- A simple field inside a group is added to the fields of the group. -/
theorem parseFrom_simple_in_group (b : xml.Document) (v : List Row) (row : List FieldLabel)
    (nf : FieldLabel) (ng : InternalGroup) (m g : String) (f : SimpleField)
    (rest : List xml.Token) (stk : List String) (hg0 : g ≠ "")
    (hc : checkForInternalGroup (xml.NewDecoder b) "FL" [⟨"val", f.label⟩] = false) :
    parseFrom b ⟨v, row, nf, ng, m, g⟩ ⟨f.tokens ++ rest, stk, false⟩
      = parseFrom b ⟨v, row, nf, ng.addField f.parsed, m, g⟩ ⟨rest, stk, false⟩ := by
  have h1 : ∀ fuel, primeLoop b (fuel + 1) ⟨v, row, nf, ng, m, g⟩ ⟨f.tokens ++ rest, stk, false⟩
      = primeLoop b fuel ⟨v, row, nf, ng.addField f.parsed, m, g⟩ ⟨rest, stk, false⟩ := by
    intro fuel
    simp only [SimpleField.tokens, List.cons_append, List.append_assoc, List.singleton_append,
      primeLoop, xml.Decoder.Token, xml.pushPop]
    simp [hc, decode_simple, hg0]
  unfold parseFrom
  rw [h1]
  apply primeLoop_fuel
  · simp [SimpleField.tokens]; omega
  · simp

/-- A simple field outside a group is appended to the current row. -/
theorem parseFrom_simple_in_row (b : xml.Document) (v : List Row) (row : List FieldLabel)
    (nf : FieldLabel) (ng : InternalGroup) (m : String) (f : SimpleField)
    (rest : List xml.Token) (stk : List String)
    (hc : checkForInternalGroup (xml.NewDecoder b) "FL" [⟨"val", f.label⟩] = false) :
    parseFrom b ⟨v, row, nf, ng, m, ""⟩ ⟨f.tokens ++ rest, stk, false⟩
      = parseFrom b ⟨v, row ++ [f.parsed], nf, ng, m, ""⟩ ⟨rest, stk, false⟩ := by
  have h1 : ∀ fuel, primeLoop b (fuel + 1) ⟨v, row, nf, ng, m, ""⟩ ⟨f.tokens ++ rest, stk, false⟩
      = primeLoop b fuel ⟨v, row ++ [f.parsed], nf, ng, m, ""⟩ ⟨rest, stk, false⟩ := by
    intro fuel
    simp only [SimpleField.tokens, List.cons_append, List.append_assoc, List.singleton_append,
      primeLoop, xml.Decoder.Token, xml.pushPop]
    simp [hc, decode_simple]
  unfold parseFrom
  rw [h1]
  apply primeLoop_fuel
  · simp [SimpleField.tokens]; omega
  · simp
/-- The simple fields of an occurrence are added to the fields of the open
group in their order. -/
theorem parseFrom_group_fields (b : xml.Document) (v : List Row) (row : List FieldLabel)
    (nf : FieldLabel) (m g n : String) (k : Int) (hg0 : g ≠ "") :
    ∀ (fs : List SimpleField) (flds : List FieldLabel) (rest : List xml.Token)
      (stk : List String),
      (∀ f ∈ fs, checkForInternalGroup (xml.NewDecoder b) "FL" [⟨"val", f.label⟩] = false) →
      parseFrom b ⟨v, row, nf, InternalGroup.mk n k flds, m, g⟩
          ⟨fs.flatMap SimpleField.tokens ++ rest, stk, false⟩
        = parseFrom b ⟨v, row, nf, InternalGroup.mk n k (flds ++ fs.map SimpleField.parsed), m, g⟩
          ⟨rest, stk, false⟩ := by
  intro fs
  induction fs with
  | nil => intro flds rest stk _; simp
  | cons f fs ih =>
    intro flds rest stk h
    have hf := h f (List.mem_cons_self _ _)
    rw [List.flatMap_cons, List.append_assoc,
      parseFrom_simple_in_group b v row nf _ m g f _ stk hg0 hf]
    have h2 := ih (flds ++ [f.parsed]) rest stk (fun u hu => h u (List.mem_cons_of_mem _ hu))
    simp only [InternalGroup.addField, InternalGroup.XMLName, InternalGroup.Number,
      InternalGroup.Fields]
    rw [h2]
    simp

/-- A row without a field labelled `label` takes no group for that label. -/
theorem attachGroup_none (label : String) (g : InternalGroup) :
    ∀ (row : List FieldLabel), (∀ f ∈ row, f.Label ≠ label) → attachGroup label g row = none := by
  intro row
  induction row with
  | nil => intro _; rfl
  | cons f row ih =>
    intro h
    have hf := h f (List.mem_cons_self _ _)
    simp [attachGroup, hf, ih (fun u hu => h u (List.mem_cons_of_mem _ hu))]

/-- A group for the label of the last field of a row, no earlier field bearing
the label, is appended to the groups of that field with the next number. -/
theorem attachGroup_last (label : String) (g : InternalGroup) (last : FieldLabel)
    (hl : last.Label = label) :
    ∀ (row : List FieldLabel), (∀ f ∈ row, f.Label ≠ label) →
      attachGroup label g (row ++ [last])
        = some (row ++ [last.setData (last.Data ++ [g.setNumber (last.Data.length + 1)])]) := by
  intro row
  induction row with
  | nil => intro _; simp [attachGroup, hl]
  | cons f row ih =>
    intro h
    have hf := h f (List.mem_cons_self _ _)
    simp [attachGroup, hf, ih (fun u hu => h u (List.mem_cons_of_mem _ hu))]

/-- The tokens of an occurrence followed by more tokens. -/
theorem Occurrence_tokens_append (g : String) (o : Occurrence) (rest : List xml.Token) :
    o.tokens g ++ rest
      = .StartElement g o.attrs
        :: (o.fields.flatMap SimpleField.tokens ++ (.EndElement g :: rest)) := by
  simp [Occurrence.tokens]

/-- The first occurrence of the repeated element of a field whose label no
field of the current row bears: at its close a field with that label and the
group, numbered 1, is appended to the row. -/
theorem parseFrom_first_occurrence (b : xml.Document) (v : List Row) (row : List FieldLabel)
    (m g label : String) (o : Occurrence) (rest : List xml.Token) (stk : List String)
    (hg : g ∉ reservedNames) (hg0 : g ≠ "") (hm0 : m ≠ "")
    (hrow : ∀ f ∈ row, f.Label ≠ label)
    (hS : ∀ f ∈ o.fields,
      checkForInternalGroup (xml.NewDecoder b) "FL" [⟨"val", f.label⟩] = false) :
    parseFrom b ⟨v, row, FieldLabel.ofLabel label, InternalGroup.zero, m, ""⟩
        ⟨o.tokens g ++ rest, stk, false⟩
      = parseFrom b ⟨v, row ++ [FieldLabel.mk "" label "" (numberGroups g 0 [o]) []],
          FieldLabel.ofLabel label, InternalGroup.zero, m, ""⟩ ⟨rest, stk, false⟩ := by
  rw [Occurrence_tokens_append, parseFrom_group_start b v row _ _ "" m g o.attrs _ stk hg hm0]
  have h2 := parseFrom_group_fields b v row (FieldLabel.ofLabel label) m g g 0 hg0 o.fields []
    (.EndElement g :: rest) (g :: stk) hS
  simp only [InternalGroup.zero, InternalGroup.setXMLName, InternalGroup.Number,
    InternalGroup.Fields]
  rw [h2, parseFrom_group_end b v row _ _ m g rest stk hg hg0]
  have h3 : attachGroup label (InternalGroup.mk g 0 (o.fields.map SimpleField.parsed)) row
      = none := attachGroup_none _ _ row hrow
  simp [closeNested, FieldLabel.ofLabel, FieldLabel.Label, h3, numberGroups,
    FieldLabel.setData, FieldLabel.Data, FieldLabel.XMLName, FieldLabel.Value, FieldLabel.Tags,
    InternalGroup.setNumber, InternalGroup.XMLName, InternalGroup.Fields, InternalGroup.zero]

/-- Further occurrences of the repeated element: at the close of each its
group, with the next number, is appended to the groups of the field. -/
theorem parseFrom_more_occurrences (b : xml.Document) (v : List Row) (row : List FieldLabel)
    (m g label : String) (hg : g ∉ reservedNames) (hg0 : g ≠ "") (hm0 : m ≠ "")
    (hrow : ∀ f ∈ row, f.Label ≠ label) :
    ∀ (os : List Occurrence) (gs : List InternalGroup) (rest : List xml.Token)
      (stk : List String),
      (∀ o ∈ os, ∀ f ∈ o.fields,
        checkForInternalGroup (xml.NewDecoder b) "FL" [⟨"val", f.label⟩] = false) →
      parseFrom b ⟨v, row ++ [FieldLabel.mk "" label "" gs []], FieldLabel.ofLabel label,
          InternalGroup.zero, m, ""⟩ ⟨os.flatMap (Occurrence.tokens g) ++ rest, stk, false⟩
        = parseFrom b ⟨v, row ++ [FieldLabel.mk "" label "" (gs ++ numberGroups g gs.length os) []],
          FieldLabel.ofLabel label, InternalGroup.zero, m, ""⟩ ⟨rest, stk, false⟩ := by
  intro os
  induction os with
  | nil => intro gs rest stk _; simp [numberGroups]
  | cons o os ih =>
    intro gs rest stk hS
    have ho := hS o (List.mem_cons_self _ _)
    rw [List.flatMap_cons, List.append_assoc, Occurrence_tokens_append,
      parseFrom_group_start b v _ _ _ "" m g o.attrs _ stk hg hm0]
    have h2 := parseFrom_group_fields b v (row ++ [FieldLabel.mk "" label "" gs []])
      (FieldLabel.ofLabel label) m g g 0 hg0 o.fields []
      (.EndElement g :: (os.flatMap (Occurrence.tokens g) ++ rest)) (g :: stk) ho
    simp only [InternalGroup.zero, InternalGroup.setXMLName, InternalGroup.Number,
      InternalGroup.Fields]
    rw [h2, parseFrom_group_end b v _ _ _ m g _ stk hg hg0]
    have h3 := attachGroup_last label
      (InternalGroup.mk g 0 ([] ++ o.fields.map SimpleField.parsed))
      (FieldLabel.mk "" label "" gs []) rfl row hrow
    have h4 := ih (gs ++ [InternalGroup.mk g ((gs.length : Int) + 1)
      (o.fields.map SimpleField.parsed)]) rest stk
      (fun u hu => hS u (List.mem_cons_of_mem _ hu))
    simp only [closeNested, FieldLabel.ofLabel, FieldLabel.Label, h3]
    simp only [FieldLabel.setData, FieldLabel.Data, FieldLabel.XMLName, FieldLabel.Value,
      FieldLabel.Tags, FieldLabel.Label, InternalGroup.setNumber, InternalGroup.XMLName,
      InternalGroup.Fields, InternalGroup.zero, List.nil_append, FieldLabel.ofLabel] at h4 ⊢
    rw [h4]
    simp [numberGroups]
/-- The tokens of a field with groups followed by more tokens. -/
theorem Item_tokens_grouped_append (label g : String) (o : Occurrence) (os : List Occurrence)
    (rest : List xml.Token) :
    (Item.grouped label g o os).tokens ++ rest
      = .StartElement "FL" [⟨"val", label⟩]
        :: (o.tokens g ++ (os.flatMap (Occurrence.tokens g) ++ (.EndElement "FL" :: rest))) := by
  simp [Item.tokens]

/-- A field with groups whose label no field of the current row bears becomes
one field of the row, carrying one group for each occurrence, numbered from 1
in their order. -/
theorem parseFrom_grouped (b : xml.Document) (v : List Row) (row : List FieldLabel)
    (nf : FieldLabel) (m g label : String) (o : Occurrence) (os : List Occurrence)
    (rest : List xml.Token) (stk : List String)
    (hm : m ∉ reservedNames) (hm0 : m ≠ "") (hg : g ∉ reservedNames) (hg0 : g ≠ "")
    (hrow : ∀ f ∈ row, f.Label ≠ label)
    (hG : checkForInternalGroup (xml.NewDecoder b) "FL" [⟨"val", label⟩] = true)
    (hS : ∀ u ∈ o :: os, ∀ f ∈ u.fields,
      checkForInternalGroup (xml.NewDecoder b) "FL" [⟨"val", f.label⟩] = false) :
    parseFrom b ⟨v, row, nf, InternalGroup.zero, m, ""⟩
        ⟨(Item.grouped label g o os).tokens ++ rest, stk, false⟩
      = parseFrom b ⟨v, row ++ [(Item.grouped label g o os).parsed], FieldLabel.ofLabel label,
          InternalGroup.zero, m, ""⟩ ⟨rest, stk, false⟩ := by
  rw [Item_tokens_grouped_append, parseFrom_grouped_start b v row nf _ "" m label _ stk hG,
    parseFrom_first_occurrence b v row m g label o _ _ hg hg0 hm0 hrow
      (hS o (List.mem_cons_self _ _)),
    parseFrom_more_occurrences b v row m g label hg hg0 hm0 hrow os _ _ _
      (fun u hu => hS u (List.mem_cons_of_mem _ hu)),
    parseFrom_grouped_end b v _ _ _ m rest stk hm]
  simp [Item.parsed, numberGroups]

/-- The items of a row are appended to the current row as the fields they are
to parse to, when the lookahead tells fields with groups from simple fields
and no label of a field with groups is borne by an earlier field of the row. -/
theorem parseFrom_items (b : xml.Document) (v : List Row) (m : String)
    (hm : m ∉ reservedNames) (hm0 : m ≠ "") :
    ∀ (items : List Item) (row : List FieldLabel) (nf : FieldLabel) (rest : List xml.Token)
      (stk : List String),
      (∀ g ∈ items.flatMap Item.groupNames, g ∉ reservedNames ∧ g ≠ "") →
      (items.flatMap Item.groupedLabels).Nodup →
      (∀ f ∈ row, ∀ l ∈ items.flatMap Item.groupedLabels, f.Label ≠ l) →
      (∀ l ∈ items.flatMap Item.simpleLabels,
        checkForInternalGroup (xml.NewDecoder b) "FL" [⟨"val", l⟩] = false) →
      (∀ l ∈ items.flatMap Item.groupedLabels,
        checkForInternalGroup (xml.NewDecoder b) "FL" [⟨"val", l⟩] = true) →
      ∃ nf2, parseFrom b ⟨v, row, nf, InternalGroup.zero, m, ""⟩
          ⟨items.flatMap Item.tokens ++ rest, stk, false⟩
        = parseFrom b ⟨v, row ++ items.map Item.parsed, nf2, InternalGroup.zero, m, ""⟩
          ⟨rest, stk, false⟩ := by
  intro items
  induction items with
  | nil => intro row nf rest stk _ _ _ _ _; exact ⟨nf, by simp⟩
  | cons it items ih =>
    intro row nf rest stk hN hD hrow hS hG
    simp only [List.flatMap_cons, List.mem_append, List.nodup_append] at hN hD hrow hS hG
    have hN2 : ∀ g ∈ items.flatMap Item.groupNames, g ∉ reservedNames ∧ g ≠ "" :=
      fun g hg => hN g (Or.inr hg)
    have hS2 : ∀ l ∈ items.flatMap Item.simpleLabels,
        checkForInternalGroup (xml.NewDecoder b) "FL" [⟨"val", l⟩] = false :=
      fun l hl => hS l (Or.inr hl)
    have hG2 : ∀ l ∈ items.flatMap Item.groupedLabels,
        checkForInternalGroup (xml.NewDecoder b) "FL" [⟨"val", l⟩] = true :=
      fun l hl => hG l (Or.inr hl)
    cases it with
    | simple f =>
      have hf : checkForInternalGroup (xml.NewDecoder b) "FL" [⟨"val", f.label⟩] = false :=
        hS f.label (Or.inl (by simp [Item.simpleLabels]))
      have hrow2 : ∀ u ∈ row ++ [f.parsed], ∀ l ∈ items.flatMap Item.groupedLabels,
          u.Label ≠ l := by
        intro u hu l hl
        rcases List.mem_append.mp hu with hu | hu
        · exact hrow u hu l (Or.inr hl)
        · simp only [List.mem_singleton] at hu
          subst hu
          intro heq
          have h1 := hG2 l hl
          have h2 : (SimpleField.parsed f).Label = f.label := rfl
          rw [← heq, h2, hf] at h1
          exact Bool.noConfusion h1
      obtain ⟨nf2, h2⟩ := ih (row ++ [f.parsed]) nf rest stk hN2 hD.2.1 hrow2 hS2 hG2
      refine ⟨nf2, ?_⟩
      rw [List.flatMap_cons, List.append_assoc]
      simp only [Item.tokens]
      rw [parseFrom_simple_in_row b v row nf _ m f _ stk hf, h2]
      simp [Item.parsed]
    | grouped label g o os =>
      have hg := hN g (Or.inl (by simp [Item.groupNames]))
      have hl : ∀ u ∈ row, u.Label ≠ label :=
        fun u hu => hrow u hu label (Or.inl (by simp [Item.groupedLabels]))
      have hGl : checkForInternalGroup (xml.NewDecoder b) "FL" [⟨"val", label⟩] = true :=
        hG label (Or.inl (by simp [Item.groupedLabels]))
      have hSo : ∀ u ∈ o :: os, ∀ f ∈ u.fields,
          checkForInternalGroup (xml.NewDecoder b) "FL" [⟨"val", f.label⟩] = false := by
        intro u hu f hf
        apply hS f.label
        left
        simp only [Item.simpleLabels, List.mem_flatMap, List.mem_map]
        exact ⟨u, hu, f, hf, rfl⟩
      have hrow2 : ∀ u ∈ row ++ [(Item.grouped label g o os).parsed],
          ∀ l ∈ items.flatMap Item.groupedLabels, u.Label ≠ l := by
        intro u hu l hl
        rcases List.mem_append.mp hu with hu | hu
        · exact hrow u hu l (Or.inr hl)
        · simp only [List.mem_singleton] at hu
          subst hu
          intro heq
          have h2 : (Item.grouped label g o os).parsed.Label = label := rfl
          rw [h2] at heq
          subst heq
          exact hD.2.2 (by simp [Item.groupedLabels]) hl
      obtain ⟨nf2, h2⟩ := ih (row ++ [(Item.grouped label g o os).parsed])
        (FieldLabel.ofLabel label) rest stk hN2 hD.2.1 hrow2 hS2 hG2
      refine ⟨nf2, ?_⟩
      rw [List.flatMap_cons, List.append_assoc,
        parseFrom_grouped b v row nf m g label o os _ stk hm hm0 hg.1 hg.2 hl hGl hSo, h2]
      simp
/-- The loop run over rows appends one row for each, numbered on from the rows
collected so far, when the names of the repeated elements are not reserved and
not empty, the labels of the fields with groups of a row are distinct, and the
lookahead over the document `b` tells the fields with groups from the simple
fields. -/
theorem parseFrom_rows (b : xml.Document) (m : String)
    (hm : m ∉ reservedNames) (hm0 : m ≠ "") :
    ∀ (rows : List WireRow) (v : List Row) (row : List FieldLabel) (nf : FieldLabel)
      (rest : List xml.Token) (stk : List String),
      (∀ r ∈ rows, ∀ g ∈ r.items.flatMap Item.groupNames, g ∉ reservedNames ∧ g ≠ "") →
      (∀ r ∈ rows, (r.items.flatMap Item.groupedLabels).Nodup) →
      (∀ r ∈ rows, ∀ l ∈ r.items.flatMap Item.simpleLabels,
        checkForInternalGroup (xml.NewDecoder b) "FL" [⟨"val", l⟩] = false) →
      (∀ r ∈ rows, ∀ l ∈ r.items.flatMap Item.groupedLabels,
        checkForInternalGroup (xml.NewDecoder b) "FL" [⟨"val", l⟩] = true) →
      ∃ row2 nf2, parseFrom b ⟨v, row, nf, InternalGroup.zero, m, ""⟩
          ⟨rows.flatMap WireRow.tokens ++ rest, stk, false⟩
        = parseFrom b ⟨v ++ numberRows v.length rows, row2, nf2, InternalGroup.zero, m, ""⟩
          ⟨rest, stk, false⟩ := by
  intro rows
  induction rows with
  | nil => intro v row nf rest stk _ _ _ _; exact ⟨row, nf, by simp [numberRows]⟩
  | cons r rows ih =>
    intro v row nf rest stk hN hD hS hG
    have hr : r ∈ r :: rows := List.mem_cons_self _ _
    obtain ⟨nf1, h1⟩ := parseFrom_items b v m hm hm0 r.items [] nf
      (.EndElement "row" :: (rows.flatMap WireRow.tokens ++ rest)) ("row" :: stk)
      (hN r hr) (hD r hr) (fun f hf => by simp at hf) (hS r hr) (hG r hr)
    obtain ⟨row2, nf2, h2⟩ := ih (v ++ [newRow v (r.items.map Item.parsed)])
      (r.items.map Item.parsed) nf1 rest stk
      (fun u hu => hN u (List.mem_cons_of_mem _ hu))
      (fun u hu => hD u (List.mem_cons_of_mem _ hu))
      (fun u hu => hS u (List.mem_cons_of_mem _ hu))
      (fun u hu => hG u (List.mem_cons_of_mem _ hu))
    refine ⟨row2, nf2, ?_⟩
    have htok : (r :: rows).flatMap WireRow.tokens ++ rest
        = .StartElement "row" r.attrs :: (r.items.flatMap Item.tokens
          ++ (.EndElement "row" :: (rows.flatMap WireRow.tokens ++ rest))) := by
      simp [WireRow.tokens]
    rw [htok, parseFrom_row_start, h1]
    simp only [List.nil_append]
    rw [parseFrom_row_end, h2]
    simp [numberRows, newRow]

/-- The loop run over a document with a module element, the lookahead being
the one over a document `b`. -/
theorem parseFrom_moduleDocument (b : xml.Document) (wrappers : List xml.Token) (m : String)
    (mattrs : List xml.Attr) (rows : List WireRow) (tail : List xml.Token)
    (hW : ∀ t ∈ wrappers, isWrapper t = true)
    (hm : m ∉ reservedNames) (hm0 : m ≠ "")
    (hN : ∀ r ∈ rows, ∀ g ∈ r.items.flatMap Item.groupNames, g ∉ reservedNames ∧ g ≠ "")
    (hD : ∀ r ∈ rows, (r.items.flatMap Item.groupedLabels).Nodup)
    (hS : ∀ r ∈ rows, ∀ l ∈ r.items.flatMap Item.simpleLabels,
      checkForInternalGroup (xml.NewDecoder b) "FL" [⟨"val", l⟩] = false)
    (hG : ∀ r ∈ rows, ∀ l ∈ r.items.flatMap Item.groupedLabels,
      checkForInternalGroup (xml.NewDecoder b) "FL" [⟨"val", l⟩] = true) :
    parseFrom b ParseState.init ⟨moduleDocument wrappers m mattrs rows tail, [], false⟩
      = .returned ({ Rows := numberRows 0 rows }, none) := by
  obtain ⟨row2, nf2, h2⟩ := parseFrom_rows b m hm hm0
    rows [] [] FieldLabel.zero (.EndElement m :: tail) (m :: openedBy wrappers [])
    hN hD hS hG
  rw [moduleDocument, parseFrom_wrappers _ _ wrappers _ [] hW]
  simp only [ParseState.init]
  rw [parseFrom_module _ [] [] _ _ "" m mattrs _ _ hm, h2,
    parseFrom_module_end _ _ _ _ _ m tail _ hm hm0]
  simp

/-- The parse of a document with a module element, when the lookahead over the
document tells the fields with groups from the simple fields: the rows of the
result are the rows of the document, numbered from 1, each with the fields its
items are to parse to. -/
theorem getValuesFromXML_moduleDocument (wrappers : List xml.Token) (m : String)
    (mattrs : List xml.Attr) (rows : List WireRow) (tail : List xml.Token)
    (hW : ∀ t ∈ wrappers, isWrapper t = true)
    (hm : m ∉ reservedNames) (hm0 : m ≠ "")
    (hN : ∀ r ∈ rows, ∀ g ∈ r.items.flatMap Item.groupNames, g ∉ reservedNames ∧ g ≠ "")
    (hD : ∀ r ∈ rows, (r.items.flatMap Item.groupedLabels).Nodup)
    (hS : ∀ r ∈ rows, ∀ l ∈ r.items.flatMap Item.simpleLabels,
      checkForInternalGroup (xml.NewDecoder (moduleDocument wrappers m mattrs rows tail))
        "FL" [⟨"val", l⟩] = false)
    (hG : ∀ r ∈ rows, ∀ l ∈ r.items.flatMap Item.groupedLabels,
      checkForInternalGroup (xml.NewDecoder (moduleDocument wrappers m mattrs rows tail))
        "FL" [⟨"val", l⟩] = true) :
    getValuesFromXML (moduleDocument wrappers m mattrs rows tail)
      = .returned ({ Rows := numberRows 0 rows }, none) :=
  parseFrom_moduleDocument _ wrappers m mattrs rows tail hW hm hm0 hN hD hS hG
/-! ### The lookahead over a document with a module element -/

/-- `checkForInternalGroup` on an `FL` element is the lookahead run from the
start of the document. -/
theorem checkForInternalGroup_checkFrom (b : xml.Document) (a : List xml.Attr) :
    checkForInternalGroup (xml.NewDecoder b) "FL" a = checkFrom a (xml.NewDecoder b) false := rfl

/-- The lookahead reads over the start of an element that is not `FL`. -/
theorem checkFrom_start (a at2 : List xml.Attr) (n : String) (rest : List xml.Token)
    (stk : List String) (hn : n ≠ "FL") :
    checkFrom a ⟨.StartElement n at2 :: rest, stk, false⟩ false
      = checkFrom a ⟨rest, n :: stk, false⟩ false := by
  have h1 : ∀ fuel, checkLoop "FL" a (fuel + 1) ⟨.StartElement n at2 :: rest, stk, false⟩ false
      = checkLoop "FL" a fuel ⟨rest, n :: stk, false⟩ false := by
    intro fuel
    simp [checkLoop, xml.Decoder.Token, xml.pushPop, hn]
  exact h1 (rest.length + 1)

/-- The lookahead reads over the start of an `FL` element with another label. -/
theorem checkFrom_other (l x : String) (rest : List xml.Token) (stk : List String)
    (hx : x ≠ l) :
    checkFrom [⟨"val", l⟩] ⟨.StartElement "FL" [⟨"val", x⟩] :: rest, stk, false⟩ false
      = checkFrom [⟨"val", l⟩] ⟨rest, "FL" :: stk, false⟩ false := by
  have h1 : ∀ fuel, checkLoop "FL" [⟨"val", l⟩] (fuel + 1)
      ⟨.StartElement "FL" [⟨"val", x⟩] :: rest, stk, false⟩ false
      = checkLoop "FL" [⟨"val", l⟩] fuel ⟨rest, "FL" :: stk, false⟩ false := by
    intro fuel
    simp [checkLoop, xml.Decoder.Token, xml.pushPop, sameAttrs, hx]
  exact h1 (rest.length + 1)

/-- The lookahead finds the start of an `FL` element with the label. -/
theorem checkFrom_same (l : String) (rest : List xml.Token) (stk : List String) :
    checkFrom [⟨"val", l⟩] ⟨.StartElement "FL" [⟨"val", l⟩] :: rest, stk, false⟩ false
      = checkFrom [⟨"val", l⟩] ⟨rest, "FL" :: stk, false⟩ true := by
  have h1 : ∀ fuel, checkLoop "FL" [⟨"val", l⟩] (fuel + 1)
      ⟨.StartElement "FL" [⟨"val", l⟩] :: rest, stk, false⟩ false
      = checkLoop "FL" [⟨"val", l⟩] fuel ⟨rest, "FL" :: stk, false⟩ true := by
    intro fuel
    simp [checkLoop, xml.Decoder.Token, xml.pushPop, sameAttrs]
  exact h1 (rest.length + 1)

/-- The lookahead reads over an end element while it has not found the field. -/
theorem checkFrom_end (a : List xml.Attr) (n : String) (rest : List xml.Token)
    (stk : List String) :
    checkFrom a ⟨.EndElement n :: rest, n :: stk, false⟩ false
      = checkFrom a ⟨rest, stk, false⟩ false := by
  have h1 : ∀ fuel, checkLoop "FL" a (fuel + 1) ⟨.EndElement n :: rest, n :: stk, false⟩ false
      = checkLoop "FL" a fuel ⟨rest, stk, false⟩ false := by
    intro fuel
    simp [checkLoop, xml.Decoder.Token, xml.pushPop]
  exact h1 (rest.length + 1)

/-- The lookahead reads over character data. -/
theorem checkFrom_texts (a : List xml.Attr) (found : Bool) :
    ∀ (texts : List String) (rest : List xml.Token) (stk : List String),
      checkFrom a ⟨texts.map xml.Token.CharData ++ rest, stk, false⟩ found
        = checkFrom a ⟨rest, stk, false⟩ found := by
  intro texts
  induction texts with
  | nil => intro rest stk; rfl
  | cons s texts ih =>
    intro rest stk
    have h1 : ∀ fuel (r : List xml.Token), checkLoop "FL" a (fuel + 1)
        ⟨.CharData s :: r, stk, false⟩ found = checkLoop "FL" a fuel ⟨r, stk, false⟩ found := by
      intro fuel r
      simp [checkLoop, xml.Decoder.Token, xml.pushPop]
    rw [← ih rest stk]
    exact h1 _ _

/-- After the field is found, an end element answers `false`. -/
theorem checkFrom_found_end (a : List xml.Attr) (n : String) (rest : List xml.Token)
    (stk : List String) :
    checkFrom a ⟨.EndElement n :: rest, n :: stk, false⟩ true = false := by
  have h1 : ∀ fuel, checkLoop "FL" a (fuel + 1) ⟨.EndElement n :: rest, n :: stk, false⟩ true
      = false := by
    intro fuel
    simp [checkLoop, xml.Decoder.Token, xml.pushPop]
  exact h1 (rest.length + 1)

/-- After the field is found, the start of an element that is not `FL` answers
`true`. -/
theorem checkFrom_found_start (a at2 : List xml.Attr) (n : String) (rest : List xml.Token)
    (stk : List String) (hn : n ≠ "FL") :
    checkFrom a ⟨.StartElement n at2 :: rest, stk, false⟩ true = true := by
  have h1 : ∀ fuel, checkLoop "FL" a (fuel + 1) ⟨.StartElement n at2 :: rest, stk, false⟩ true
      = true := by
    intro fuel
    simp [checkLoop, xml.Decoder.Token, xml.pushPop, hn]
  exact h1 (rest.length + 1)

/-- The tokens of a simple field followed by more tokens. -/
theorem SimpleField_tokens_append (f : SimpleField) (rest : List xml.Token) :
    f.tokens ++ rest
      = .StartElement "FL" [⟨"val", f.label⟩]
        :: (f.texts.map xml.Token.CharData ++ (.EndElement "FL" :: rest)) := by
  simp [SimpleField.tokens]

/-- The lookahead over simple fields: `false` when one of them bears the label,
and the lookahead over what follows otherwise. -/
theorem checkFrom_fields (l : String) :
    ∀ (fs : List SimpleField) (rest : List xml.Token) (stk : List String),
      checkFrom [⟨"val", l⟩] ⟨fs.flatMap SimpleField.tokens ++ rest, stk, false⟩ false
        = if l ∈ fs.map SimpleField.label then false
          else checkFrom [⟨"val", l⟩] ⟨rest, stk, false⟩ false := by
  intro fs
  induction fs with
  | nil => intro rest stk; simp
  | cons f fs ih =>
    intro rest stk
    rw [List.flatMap_cons, List.append_assoc, SimpleField_tokens_append]
    by_cases hf : f.label = l
    · rw [hf, checkFrom_same, checkFrom_texts, checkFrom_found_end]
      simp [hf]
    · rw [checkFrom_other l f.label _ _ hf, checkFrom_texts, checkFrom_end, ih]
      have hf2 : ¬ l = f.label := fun h => hf h.symm
      simp [hf2]

/-- The lookahead over occurrences of an element that is not `FL`. -/
theorem checkFrom_occurrences (l g : String) (hg : g ≠ "FL") :
    ∀ (os : List Occurrence) (rest : List xml.Token) (stk : List String),
      checkFrom [⟨"val", l⟩] ⟨os.flatMap (Occurrence.tokens g) ++ rest, stk, false⟩ false
        = if l ∈ os.flatMap (fun o => o.fields.map SimpleField.label) then false
          else checkFrom [⟨"val", l⟩] ⟨rest, stk, false⟩ false := by
  intro os
  induction os with
  | nil => intro rest stk; simp
  | cons o os ih =>
    intro rest stk
    rw [List.flatMap_cons, List.append_assoc, Occurrence_tokens_append,
      checkFrom_start _ _ g _ _ hg, checkFrom_fields]
    by_cases ho : l ∈ o.fields.map SimpleField.label
    · simp [ho]
    · rw [if_neg ho, checkFrom_end, ih]
      simp [ho]

/-- The lookahead over items answers with the kind of the first field bearing
the label, and goes on behind them when none bears it. -/
theorem checkFrom_items (l : String) :
    ∀ (items : List Item) (rest : List xml.Token) (stk : List String),
      (∀ g ∈ items.flatMap Item.groupNames, g ≠ "FL") →
      checkFrom [⟨"val", l⟩] ⟨items.flatMap Item.tokens ++ rest, stk, false⟩ false
        = match firstField l items with
          | some k => k
          | none => checkFrom [⟨"val", l⟩] ⟨rest, stk, false⟩ false := by
  intro items
  induction items with
  | nil => intro rest stk _; simp [firstField]
  | cons it items ih =>
    intro rest stk hN
    simp only [List.flatMap_cons, List.mem_append] at hN
    have ih2 := ih rest stk (fun g hg => hN g (Or.inr hg))
    rw [List.flatMap_cons, List.append_assoc]
    cases it with
    | simple f =>
      have h1 := checkFrom_fields l [f] (items.flatMap Item.tokens ++ rest) stk
      simp only [List.flatMap_cons, List.flatMap_nil, List.append_nil, List.map_cons,
        List.map_nil, List.mem_singleton] at h1
      simp only [Item.tokens, firstField]
      rw [h1]
      by_cases hf : f.label = l
      · simp [hf]
      · have hf2 : ¬ l = f.label := fun h => hf h.symm
        simp [hf, hf2, ih2]
    | grouped label g o os =>
      have hg : g ≠ "FL" := hN g (Or.inl (by simp [Item.groupNames]))
      rw [Item_tokens_grouped_append]
      simp only [firstField]
      by_cases hl : label = l
      · rw [hl, checkFrom_same, Occurrence_tokens_append, checkFrom_found_start _ _ g _ _ hg]
        simp
      · rw [checkFrom_other l label _ _ hl]
        have h1 := checkFrom_occurrences l g hg (o :: os)
          (.EndElement "FL" :: (items.flatMap Item.tokens ++ rest)) ("FL" :: stk)
        rw [List.flatMap_cons, List.append_assoc] at h1
        rw [h1]
        by_cases hin : l ∈ (o :: os).flatMap (fun o => o.fields.map SimpleField.label)
        · simp only [if_neg hl, if_pos hin]
        · simp only [if_neg hl, if_neg hin]
          rw [checkFrom_end, ih2]
/-- The lookahead reads over wrappers. -/
theorem checkFrom_wrappers (a : List xml.Attr) :
    ∀ (w rest : List xml.Token) (stk : List String), (∀ t ∈ w, isWrapper t = true) →
      checkFrom a ⟨w ++ rest, stk, false⟩ false
        = checkFrom a ⟨rest, openedBy w stk, false⟩ false := by
  intro w
  induction w with
  | nil => intro rest stk _; rfl
  | cons t w ih =>
    intro rest stk h
    have ht := h t (List.mem_cons_self _ _)
    have ih2 := fun s => ih rest s (fun u hu => h u (List.mem_cons_of_mem _ hu))
    have h1 : ∀ (c : xml.Token) (s2 : List String), xml.pushPop stk c = some s2 →
        (∀ n at2, c ≠ .StartElement n at2) → (∀ n, c ≠ .EndElement n) →
        ∀ fuel (r : List xml.Token), checkLoop "FL" a (fuel + 1) ⟨c :: r, stk, false⟩ false
          = checkLoop "FL" a fuel ⟨r, s2, false⟩ false := by
      intro c s2 hc hs he fuel r
      cases c with
      | StartElement n at2 => exact absurd rfl (hs n at2)
      | EndElement n => exact absurd rfl (he n)
      | CharData c => simp [xml.pushPop] at hc; subst hc; simp [checkLoop, xml.Decoder.Token, xml.pushPop]
      | Comment c => simp [xml.pushPop] at hc; subst hc; simp [checkLoop, xml.Decoder.Token, xml.pushPop]
      | ProcInst x c => simp [xml.pushPop] at hc; subst hc; simp [checkLoop, xml.Decoder.Token, xml.pushPop]
      | Directive c => simp [xml.pushPop] at hc; subst hc; simp [checkLoop, xml.Decoder.Token, xml.pushPop]
    rw [List.cons_append]
    cases t with
    | StartElement n at2 =>
      simp only [isWrapper, Bool.or_eq_true, decide_eq_true_eq] at ht
      have hn : n ≠ "FL" := by
        rcases ht with ht | ht <;> (rw [ht]; decide)
      rw [checkFrom_start a at2 n _ stk hn, ih2]
      rfl
    | EndElement n => simp [isWrapper] at ht
    | CharData c =>
      show _ = checkFrom a ⟨rest, openedBy w stk, false⟩ false
      rw [← ih2 stk]
      exact h1 (.CharData c) stk rfl (fun _ _ h => by cases h) (fun _ h => by cases h) _ _
    | Comment c =>
      show _ = checkFrom a ⟨rest, openedBy w stk, false⟩ false
      rw [← ih2 stk]
      exact h1 (.Comment c) stk rfl (fun _ _ h => by cases h) (fun _ h => by cases h) _ _
    | ProcInst x c =>
      show _ = checkFrom a ⟨rest, openedBy w stk, false⟩ false
      rw [← ih2 stk]
      exact h1 (.ProcInst x c) stk rfl (fun _ _ h => by cases h) (fun _ h => by cases h) _ _
    | Directive c =>
      show _ = checkFrom a ⟨rest, openedBy w stk, false⟩ false
      rw [← ih2 stk]
      exact h1 (.Directive c) stk rfl (fun _ _ h => by cases h) (fun _ h => by cases h) _ _

/-- The first field bearing a label among items followed by more items. -/
theorem firstField_append (l : String) :
    ∀ (xs ys : List Item),
      firstField l (xs ++ ys)
        = match firstField l xs with
          | some k => some k
          | none => firstField l ys := by
  intro xs
  induction xs with
  | nil => intro ys; simp [firstField]
  | cons it xs ih =>
    intro ys
    cases it with
    | simple f =>
      simp only [List.cons_append, firstField]
      by_cases hf : f.label = l
      · simp [hf]
      · simp [hf, ih]
    | grouped label g o os =>
      simp only [List.cons_append, firstField]
      by_cases hl : label = l
      · simp [hl]
      · by_cases hin : l ∈ (o :: os).flatMap (fun o => o.fields.map SimpleField.label)
        · simp only [if_neg hl, if_pos hin]
        · simp only [if_neg hl, if_neg hin]
          exact ih ys

/-- The tokens of a row followed by more tokens. -/
theorem WireRow_tokens_append (r : WireRow) (rest : List xml.Token) :
    r.tokens ++ rest
      = .StartElement "row" r.attrs
        :: (r.items.flatMap Item.tokens ++ (.EndElement "row" :: rest)) := by
  simp [WireRow.tokens]

/-- The lookahead over rows answers with the kind of the first field bearing
the label, and goes on behind them when none bears it. -/
theorem checkFrom_rows (l : String) :
    ∀ (rows : List WireRow) (rest : List xml.Token) (stk : List String),
      (∀ r ∈ rows, ∀ g ∈ r.items.flatMap Item.groupNames, g ≠ "FL") →
      checkFrom [⟨"val", l⟩] ⟨rows.flatMap WireRow.tokens ++ rest, stk, false⟩ false
        = match firstField l (rows.flatMap WireRow.items) with
          | some k => k
          | none => checkFrom [⟨"val", l⟩] ⟨rest, stk, false⟩ false := by
  intro rows
  induction rows with
  | nil => intro rest stk _; simp [firstField]
  | cons r rows ih =>
    intro rest stk hN
    have ih2 := ih rest stk (fun u hu => hN u (List.mem_cons_of_mem _ hu))
    rw [List.flatMap_cons, List.append_assoc, WireRow_tokens_append,
      checkFrom_start _ _ "row" _ _ (by decide),
      checkFrom_items l r.items _ _ (hN r (List.mem_cons_self _ _)),
      List.flatMap_cons, firstField_append]
    cases hk : firstField l r.items with
    | some k => rfl
    | none =>
      simp only []
      rw [checkFrom_end, ih2]

/-- The lookahead over a document with a module element answers with the kind
of the first field of the document bearing the label. -/
theorem checkForInternalGroup_moduleDocument (l : String) (wrappers : List xml.Token)
    (m : String) (mattrs : List xml.Attr) (rows : List WireRow) (tail : List xml.Token)
    (k : Bool)
    (hW : ∀ t ∈ wrappers, isWrapper t = true) (hm : m ∉ reservedNames)
    (hN : ∀ r ∈ rows, ∀ g ∈ r.items.flatMap Item.groupNames, g ∉ reservedNames ∧ g ≠ "")
    (hk : firstField l (rows.flatMap WireRow.items) = some k) :
    checkForInternalGroup (xml.NewDecoder (moduleDocument wrappers m mattrs rows tail))
      "FL" [⟨"val", l⟩] = k := by
  have hm2 : m ≠ "FL" := by
    intro h
    apply hm
    rw [h]
    decide
  have hN2 : ∀ r ∈ rows, ∀ g ∈ r.items.flatMap Item.groupNames, g ≠ "FL" := by
    intro r hr g hg h
    apply (hN r hr g hg).1
    rw [h]
    decide
  rw [checkForInternalGroup_checkFrom]
  show checkFrom _ ⟨moduleDocument wrappers m mattrs rows tail, [], false⟩ false = k
  rw [moduleDocument, checkFrom_wrappers _ wrappers _ [] hW, checkFrom_start _ _ m _ _ hm2,
    checkFrom_rows l rows _ _ hN2, hk]

/-- A label borne by a simple field and by no field with groups: the first
field bearing it is a simple one. -/
theorem firstField_simple (l : String) :
    ∀ (items : List Item), l ∈ items.flatMap Item.simpleLabels →
      l ∉ items.flatMap Item.groupedLabels → firstField l items = some false := by
  intro items
  induction items with
  | nil => intro h _; simp at h
  | cons it items ih =>
    intro hs hg
    simp only [List.flatMap_cons, List.mem_append, not_or] at hs hg
    cases it with
    | simple f =>
      simp only [firstField]
      by_cases hf : f.label = l
      · simp [hf]
      · rw [if_neg hf]
        refine ih ?_ hg.2
        rcases hs with hs | hs
        · simp only [Item.simpleLabels, List.mem_singleton] at hs
          exact absurd hs.symm hf
        · exact hs
    | grouped label g o os =>
      simp only [firstField]
      have hl : ¬ label = l := by
        intro h
        apply hg.1
        simp [Item.groupedLabels, h]
      rw [if_neg hl]
      by_cases hin : l ∈ (o :: os).flatMap (fun o => o.fields.map SimpleField.label)
      · rw [if_pos hin]
      · rw [if_neg hin]
        refine ih ?_ hg.2
        rcases hs with hs | hs
        · exact absurd hs hin
        · exact hs

/-- A label borne by a field with groups and by no simple field: the first
field bearing it is one with groups. -/
theorem firstField_grouped (l : String) :
    ∀ (items : List Item), l ∈ items.flatMap Item.groupedLabels →
      l ∉ items.flatMap Item.simpleLabels → firstField l items = some true := by
  intro items
  induction items with
  | nil => intro h _; simp at h
  | cons it items ih =>
    intro hg hs
    simp only [List.flatMap_cons, List.mem_append, not_or] at hs hg
    cases it with
    | simple f =>
      simp only [firstField]
      have hf : ¬ f.label = l := by
        intro h
        apply hs.1
        simp [Item.simpleLabels, h]
      rw [if_neg hf]
      refine ih ?_ hs.2
      rcases hg with hg | hg
      · simp [Item.groupedLabels] at hg
      · exact hg
    | grouped label g o os =>
      simp only [firstField]
      by_cases hl : label = l
      · rw [if_pos hl]
      · rw [if_neg hl]
        have hin : ¬ l ∈ (o :: os).flatMap (fun o => o.fields.map SimpleField.label) := hs.1
        rw [if_neg hin]
        refine ih ?_ hs.2
        rcases hg with hg | hg
        · simp only [Item.groupedLabels, List.mem_singleton] at hg
          exact absurd hg.symm hl
        · exact hg
/-- The group at place `k` of the groups that occurrences are to parse to has
the number `j + k + 1`, the name of the element and the fields of the
occurrence at place `k`. -/
theorem numberGroups_getElem (g : String) :
    ∀ (os : List Occurrence) (j k : Nat) (o : Occurrence), os[k]? = some o →
      (numberGroups g j os)[k]?
        = some (InternalGroup.mk g ((j : Int) + (k : Int) + 1)
            (o.fields.map SimpleField.parsed)) := by
  intro os
  induction os with
  | nil => intro j k o h; simp at h
  | cons o1 os ih =>
    intro j k o h
    cases k with
    | zero =>
      simp only [List.getElem?_cons_zero, Option.some.injEq] at h
      subst h
      simp [numberGroups]
    | succ k =>
      simp only [List.getElem?_cons_succ] at h
      have h2 := ih (j + 1) k o h
      simp only [numberGroups, List.getElem?_cons_succ, h2]
      congr 2
      push_cast
      ring

/-- C17, the claim as stated fails on two documents of its shape.  In the
first the only simple field inside the `product` of the field `Products` bears
the label of the field `Tax`, which has groups: the result has no field
labelled `Products`, and the `product` is made the second group of `Tax`,
without fields.  In the second the repeated element of the field `Items` is
named `row`: the result has two rows and no field labelled `Items`. -/
theorem C17_counterexample_field_with_groups_lost :
    getValuesFromXML (moduleDocument [] "Invoices" [] sharedLabelRows [])
      = .returned ({ Rows := sharedLabelResult }, none) ∧
    sharedLabelResult.map (fun r => r.Fields.map FieldLabel.Label) = [["Tax"]] ∧
    getValuesFromXML (moduleDocument [] "Invoices" [] nestedRowRows [])
      = .returned ({ Rows := nestedRowResult }, none) ∧
    nestedRowResult.map (fun r => r.Fields.map FieldLabel.Label) = [["Name"], ["Name"]] :=
  ⟨rfl, rfl, rfl, rfl⟩

/-- C17, amended: for a document made of wrappers, a module element and rows
whose items are simple fields `<FL val="X">text</FL>` and fields
`<FL val="L">` holding one or more occurrences of an element, each occurrence
holding simple fields only; where the names of the module and of the repeated
elements are not reserved (`response`, `result`, `nodata`, `error`, `row`,
`FL`) and not empty, the fields with groups of a row bear distinct labels, and
no simple field of the document (one inside an occurrence included) bears the
label of a field with groups: `getValuesFromXML` returns the rows of the
document, numbered from 1, each with one field for each of its items in their
order.  The field of an item with groups bears its label and carries one group
for each occurrence, in document order: the group at place `k` (counted from
0) has the number `k + 1`, the name of the element and exactly the fields of
the occurrence at place `k`, in their order. -/
theorem C17_fields_with_groups (wrappers : List xml.Token) (m : String)
    (mattrs : List xml.Attr) (rows : List WireRow) (tail : List xml.Token)
    (hW : ∀ t ∈ wrappers, isWrapper t = true)
    (hm : m ∉ reservedNames) (hm0 : m ≠ "")
    (hN : ∀ r ∈ rows, ∀ g ∈ r.items.flatMap Item.groupNames, g ∉ reservedNames ∧ g ≠ "")
    (hD : ∀ r ∈ rows, (r.items.flatMap Item.groupedLabels).Nodup)
    (hL : ∀ l ∈ (rows.flatMap WireRow.items).flatMap Item.groupedLabels,
      l ∉ (rows.flatMap WireRow.items).flatMap Item.simpleLabels) :
    getValuesFromXML (moduleDocument wrappers m mattrs rows tail)
      = .returned ({ Rows := numberRows 0 rows }, none) ∧
    (∀ (k : Nat) (r : WireRow), rows[k]? = some r →
      (numberRows 0 rows)[k]?
        = some { Number := (k : Int) + 1, Fields := r.items.map Item.parsed }) ∧
    (∀ (label g : String) (o : Occurrence) (os : List Occurrence),
      (Item.grouped label g o os).parsed.Label = label ∧
      (Item.grouped label g o os).parsed.Data.length = os.length + 1 ∧
      ∀ (k : Nat) (occ : Occurrence), (o :: os)[k]? = some occ →
        (Item.grouped label g o os).parsed.Data[k]?
          = some (InternalGroup.mk g ((k : Int) + 1) (occ.fields.map SimpleField.parsed))) := by
  have hin : ∀ r ∈ rows, ∀ (f : Item → List String), ∀ l ∈ r.items.flatMap f,
      l ∈ (rows.flatMap WireRow.items).flatMap f := by
    intro r hr f l hl
    simp only [List.mem_flatMap] at hl ⊢
    obtain ⟨it, hit, hl⟩ := hl
    exact ⟨it, ⟨r, hr, hit⟩, hl⟩
  refine ⟨?_, ?_, ?_⟩
  · apply getValuesFromXML_moduleDocument wrappers m mattrs rows tail hW hm hm0 hN hD
    · intro r hr l hl
      have hl2 := hin r hr _ l hl
      exact checkForInternalGroup_moduleDocument l wrappers m mattrs rows tail false hW hm hN
        (firstField_simple l _ hl2 (fun hg => hL l hg hl2))
    · intro r hr l hl
      have hl2 := hin r hr _ l hl
      exact checkForInternalGroup_moduleDocument l wrappers m mattrs rows tail true hW hm hN
        (firstField_grouped l _ hl2 (hL l hl2))
  · have h : ∀ (rs : List WireRow) (j k : Nat) (r : WireRow), rs[k]? = some r →
        (numberRows j rs)[k]?
          = some { Number := (j : Int) + (k : Int) + 1, Fields := r.items.map Item.parsed } := by
      intro rs
      induction rs with
      | nil => intro j k r h; simp at h
      | cons r1 rs ih =>
        intro j k r h
        cases k with
        | zero =>
          simp only [List.getElem?_cons_zero, Option.some.injEq] at h
          subst h
          simp [numberRows]
        | succ k =>
          simp only [List.getElem?_cons_succ] at h
          have h2 := ih (j + 1) k r h
          simp only [numberRows, List.getElem?_cons_succ, h2]
          congr 2
          push_cast
          ring
    intro k r hk
    have h2 := h rows 0 k r hk
    simpa using h2
  · intro label g o os
    refine ⟨rfl, ?_, ?_⟩
    · have h : ∀ (l : List Occurrence) (j : Nat), (numberGroups g j l).length = l.length := by
        intro l
        induction l with
        | nil => intro j; rfl
        | cons a l ih => intro j; simp [numberGroups, ih]
      simp [Item.parsed, FieldLabel.Data, h, numberGroups]
    · intro k occ hk
      have h2 := numberGroups_getElem g (o :: os) 0 k occ hk
      simpa [Item.parsed, FieldLabel.Data] using h2

/-- C17 at a document whose field `Products` holds three occurrences of
`product`: the row of the result has one field `Products` with three groups
numbered 1, 2, 3 in document order. -/
theorem C17_fields_with_groups_witness :
    getValuesFromXML
        (moduleDocument [.StartElement "response" [], .StartElement "result" []] "Invoices" []
          threeProductsRows [.EndElement "result", .EndElement "response"])
      = .returned ({ Rows := [threeProductsRow] }, none) :=
  (C17_fields_with_groups [.StartElement "response" [], .StartElement "result" []] "Invoices" []
    threeProductsRows [.EndElement "result", .EndElement "response"]
    (by decide) (by decide) (by decide) (by decide) (by decide) (by decide)).1

/-! ### Removing a wire field by its label -/

/-- C24: `removeLabelByName` removes exactly the first field bearing the label
and keeps all other fields, later fields with the same label included, in
their order; when no field bears the label the list comes back unchanged. -/
theorem C24_removes_first_labelled (fields : List FieldLabel) (label : String) :
    (∀ (pre post : List FieldLabel) (f : FieldLabel), fields = pre ++ f :: post →
      (∀ x ∈ pre, x.Label ≠ label) → f.Label = label →
      removeLabelByName fields label = pre ++ post) ∧
    ((∀ x ∈ fields, x.Label ≠ label) → removeLabelByName fields label = fields) := by
  constructor
  · intro pre
    induction pre generalizing fields with
    | nil =>
      intro post f hf _ hl
      subst hf
      simp [removeLabelByName, hl]
    | cons a pre ih =>
      intro post f hf hpre hl
      subst hf
      have ha : a.Label ≠ label := hpre a (List.mem_cons_self _ _)
      have h2 := ih (pre ++ f :: post) post f rfl
        (fun x hx => hpre x (List.mem_cons_of_mem _ hx)) hl
      simp [removeLabelByName, ha, h2]
  · induction fields with
    | nil => intro _; rfl
    | cons a rest ih =>
      intro h
      have ha : a.Label ≠ label := h a (List.mem_cons_self _ _)
      simp [removeLabelByName, ha, ih (fun x hx => h x (List.mem_cons_of_mem _ hx))]

/-- C24 at the fields `Id`, `Name` (first), `Name` (second): removing `Name`
takes the first `Name` out and keeps the second; removing `City` changes
nothing. -/
theorem C24_removes_first_labelled_witness :
    removeLabelByName
        [FieldLabel.mk "FL" "Id" "1" [] [], FieldLabel.mk "FL" "Name" "first" [] [],
         FieldLabel.mk "FL" "Name" "second" [] []] "Name"
      = [FieldLabel.mk "FL" "Id" "1" [] []] ++ [FieldLabel.mk "FL" "Name" "second" [] []] ∧
    removeLabelByName
        [FieldLabel.mk "FL" "Id" "1" [] [], FieldLabel.mk "FL" "Name" "first" [] [],
         FieldLabel.mk "FL" "Name" "second" [] []] "City"
      = [FieldLabel.mk "FL" "Id" "1" [] [], FieldLabel.mk "FL" "Name" "first" [] [],
         FieldLabel.mk "FL" "Name" "second" [] []] :=
  ⟨(C24_removes_first_labelled _ "Name").1 [FieldLabel.mk "FL" "Id" "1" [] []]
      [FieldLabel.mk "FL" "Name" "second" [] []] (FieldLabel.mk "FL" "Name" "first" [] [])
      rfl (by decide) rfl,
   (C24_removes_first_labelled _ "City").2 (by decide)⟩

/-! ### The URL when the encoder fails -/

/-- C29: when `encodeOptionsToURL` returns an error, the URL is the one it was
given: `RawQuery` is written only after the loop over the fields, on the path
that returns no error. -/
theorem C29_url_untouched_on_error (lib : Lib) (o : List OptField) (u u2 : url.URL)
    (e : String) (h : encodeOptionsToURL lib o u = .returned (some e, u2)) :
    u2 = u ∧ u2.RawQuery = u.RawQuery := by
  unfold encodeOptionsToURL at h
  cases hf : encodeFields lib o [] with
  | returned r =>
    rw [hf] at h
    cases r with
    | ok vals => simp at h
    | error e2 =>
      simp only [Outcome.returned.injEq, Prod.mk.injEq] at h
      exact ⟨h.2.symm, by rw [h.2]⟩
  | panic => rw [hf] at h; simp at h
  | fatal => rw [hf] at h; simp at h

/-- C29 at a record whose first field `Page` is set and whose required field
`Criteria` is empty: the error is returned and the query `old=1` stays. -/
theorem C29_url_untouched_on_error_witness :
    encodeOptionsToURL rejectingLib
        [⟨"Page", "page", .int 3⟩, ⟨"Criteria", "criteria,required", .string ""⟩] ⟨"old=1"⟩
      = .returned (some "Error field 'Criteria' is required for this request", ⟨"old=1"⟩) ∧
    (⟨"old=1"⟩ : url.URL).RawQuery = (⟨"old=1"⟩ : url.URL).RawQuery :=
  ⟨rfl, (C29_url_untouched_on_error rejectingLib
    [⟨"Page", "page", .int 3⟩, ⟨"Criteria", "criteria,required", .string ""⟩] ⟨"old=1"⟩
    ⟨"old=1"⟩ "Error field 'Criteria' is required for this request" rfl).2⟩

/-! ### The lookahead restarts at the start of the document -/

/-- C25: the lookahead does not decide from the content of the field at hand.
`checkForInternalGroup` is given a new reader over the whole document, so it
answers with the kind of the first field of the document that bears the label
(first conjunct, for the documents with a module element).  In the document of
`emptyThenProductsRows` the field `Products` of the second row is followed by
the start of a `product`, yet the answer is `false`, the first `Products` of
the document being empty, and the `product` is lost from the result. -/
theorem C25_lookahead_answers_for_first_field :
    (∀ (l : String) (wrappers : List xml.Token) (m : String) (mattrs : List xml.Attr)
      (rows : List WireRow) (tail : List xml.Token) (k : Bool),
      (∀ t ∈ wrappers, isWrapper t = true) → m ∉ reservedNames →
      (∀ r ∈ rows, ∀ g ∈ r.items.flatMap Item.groupNames, g ∉ reservedNames ∧ g ≠ "") →
      firstField l (rows.flatMap WireRow.items) = some k →
      checkForInternalGroup (xml.NewDecoder (moduleDocument wrappers m mattrs rows tail))
        "FL" [⟨"val", l⟩] = k) ∧
    checkForInternalGroup
        (xml.NewDecoder (moduleDocument [] "Invoices" [] emptyThenProductsRows []))
        "FL" [⟨"val", "Products"⟩] = false ∧
    getValuesFromXML (moduleDocument [] "Invoices" [] emptyThenProductsRows [])
      = .returned ({ Rows := emptyThenProductsResult }, none) :=
  ⟨fun l wrappers m mattrs rows tail k hW hm hN hk =>
      checkForInternalGroup_moduleDocument l wrappers m mattrs rows tail k hW hm hN hk,
    rfl, rfl⟩

/-! ### The end of the input with elements open -/

/-- The loop of `getValuesFromXML` never returns an error value. -/
theorem primeLoop_error_nil (b : xml.Document) :
    ∀ (fuel : Nat) (st : ParseState) (d : xml.Decoder) (x : XMLData) (err : Option String),
      primeLoop b fuel st d = .returned (x, err) → err = none := by
  intro fuel
  induction fuel with
  | zero => intro st d x err h; simp [primeLoop] at h
  | succ fuel ih =>
    intro st d x err h
    simp only [primeLoop] at h
    repeat' split at h
    all_goals first
      | exact ih _ _ _ _ h
      | (simp only [Outcome.returned.injEq, Prod.mk.injEq] at h
         exact h.2.symm)
      | simp at h

/-- At the end of the input with an element open the loop ends the process. -/
theorem parseFrom_end_open (b : xml.Document) (st : ParseState) (stk : List String)
    (h : stk ≠ []) : parseFrom b st ⟨[], stk, false⟩ = .fatal := by
  simp [parseFrom, primeLoop, xml.Decoder.Token, h]
/-- The lookahead over a document that ends with elements open answers with
the kind of the first field of the document bearing the label. -/
theorem checkForInternalGroup_openDocument (l : String) (wrappers : List xml.Token)
    (m : String) (mattrs : List xml.Attr) (rows : List WireRow) (openRow : Option WireRow)
    (k : Bool)
    (hW : ∀ t ∈ wrappers, isWrapper t = true) (hm : m ∉ reservedNames)
    (hN : ∀ r ∈ rows ++ openRow.toList, ∀ g ∈ r.items.flatMap Item.groupNames,
      g ∉ reservedNames ∧ g ≠ "")
    (hk : firstField l ((rows ++ openRow.toList).flatMap WireRow.items) = some k) :
    checkForInternalGroup (xml.NewDecoder (openDocument wrappers m mattrs rows openRow))
      "FL" [⟨"val", l⟩] = k := by
  have hm2 : m ≠ "FL" := by
    intro h
    apply hm
    rw [h]
    decide
  have hN2 : ∀ r ∈ rows ++ openRow.toList, ∀ g ∈ r.items.flatMap Item.groupNames,
      g ≠ "FL" := by
    intro r hr g hg h
    apply (hN r hr g hg).1
    rw [h]
    decide
  rw [checkForInternalGroup_checkFrom]
  show checkFrom _ ⟨openDocument wrappers m mattrs rows openRow, [], false⟩ false = k
  rw [openDocument, checkFrom_wrappers _ wrappers _ [] hW, checkFrom_start _ _ m _ _ hm2,
    checkFrom_rows l rows _ _ (fun r hr => hN2 r (List.mem_append_left _ hr))]
  rw [List.flatMap_append, firstField_append] at hk
  cases h1 : firstField l (rows.flatMap WireRow.items) with
  | some k1 =>
    rw [h1] at hk
    simp only [Option.some.injEq] at hk
    simp only [hk]
  | none =>
    rw [h1] at hk
    simp only [] at hk ⊢
    cases openRow with
    | none => simp [firstField] at hk
    | some r =>
      simp only [Option.toList, List.flatMap_cons, List.flatMap_nil, List.append_nil] at hk
      have h2 := checkFrom_items l r.items [] ("row" :: m :: openedBy wrappers [])
        (hN2 r (by simp))
      rw [hk, List.append_nil] at h2
      simp only [openRowTokens]
      rw [checkFrom_start _ _ "row" _ _ (by decide), h2]

/-- The loop run over a document that ends with elements open ends the
process, the lookahead being the one over a document `b`. -/
theorem parseFrom_openDocument (b : xml.Document) (wrappers : List xml.Token) (m : String)
    (mattrs : List xml.Attr) (rows : List WireRow) (openRow : Option WireRow)
    (hW : ∀ t ∈ wrappers, isWrapper t = true)
    (hm : m ∉ reservedNames) (hm0 : m ≠ "")
    (hN : ∀ r ∈ rows ++ openRow.toList, ∀ g ∈ r.items.flatMap Item.groupNames,
      g ∉ reservedNames ∧ g ≠ "")
    (hD : ∀ r ∈ rows ++ openRow.toList, (r.items.flatMap Item.groupedLabels).Nodup)
    (hS : ∀ r ∈ rows ++ openRow.toList, ∀ l ∈ r.items.flatMap Item.simpleLabels,
      checkForInternalGroup (xml.NewDecoder b) "FL" [⟨"val", l⟩] = false)
    (hG : ∀ r ∈ rows ++ openRow.toList, ∀ l ∈ r.items.flatMap Item.groupedLabels,
      checkForInternalGroup (xml.NewDecoder b) "FL" [⟨"val", l⟩] = true) :
    parseFrom b ParseState.init ⟨openDocument wrappers m mattrs rows openRow, [], false⟩
      = .fatal := by
  have hin : ∀ r ∈ rows, r ∈ rows ++ openRow.toList := fun r hr => List.mem_append_left _ hr
  obtain ⟨row2, nf2, h2⟩ := parseFrom_rows b m hm hm0
    rows [] [] FieldLabel.zero
    (openRowTokens openRow)
    (m :: openedBy wrappers [])
    (fun r hr => hN r (hin r hr)) (fun r hr => hD r (hin r hr))
    (fun r hr => hS r (hin r hr)) (fun r hr => hG r (hin r hr))
  rw [openDocument, parseFrom_wrappers _ _ wrappers _ [] hW]
  simp only [ParseState.init]
  rw [parseFrom_module _ [] [] _ _ "" m mattrs _ _ hm, h2]
  cases openRow with
  | none => exact parseFrom_end_open _ _ _ (by simp)
  | some r =>
    have hr : r ∈ rows ++ (some r).toList := by simp
    obtain ⟨nf3, h3⟩ := parseFrom_items b ([] ++ numberRows ([] : List Row).length rows) m hm hm0
      r.items [] nf2 [] ("row" :: m :: openedBy wrappers [])
      (hN r hr) (hD r hr) (fun f hf => by simp at hf) (hS r hr) (hG r hr)
    simp only [openRowTokens]
    rw [parseFrom_row_start]
    rw [List.append_nil] at h3
    rw [h3]
    exact parseFrom_end_open _ _ _ (by simp)
/-- C23, the claim as stated fails: on `<Leads><row no="1"><FL val="LEADID">7
</FL>`, where the input ends with the row and the module element open,
`getValuesFromXML` returns nothing to its caller, no error value either: the
failed read ends the process through `log.Fatal`. -/
theorem C23_counterexample_abrupt_end_is_fatal :
    getValuesFromXML
        (openDocument [] "Leads" [] [] (some ⟨[⟨"no", "1"⟩], [.simple ⟨"LEADID", ["7"]⟩]⟩))
      = .fatal :=
  rfl

/-- C23, amended: for a document made of wrappers, the start of a module
element, rows and, if any, the start of one more row with items of it, where
the input ends with the module element (and that row) open, `getValuesFromXML`
does not return the rows read so far: it ends the process through `log.Fatal`
and returns nothing.  The conditions on the names and labels are those under
which the rows are read as rows.  More generally, the loop ends the process
whenever it meets the end of the input with an element open, and no call of
`getValuesFromXML` ever returns an error value. -/
theorem C23_abrupt_end_ends_process (wrappers : List xml.Token) (m : String)
    (mattrs : List xml.Attr) (rows : List WireRow) (openRow : Option WireRow)
    (hW : ∀ t ∈ wrappers, isWrapper t = true)
    (hm : m ∉ reservedNames) (hm0 : m ≠ "")
    (hN : ∀ r ∈ rows ++ openRow.toList, ∀ g ∈ r.items.flatMap Item.groupNames,
      g ∉ reservedNames ∧ g ≠ "")
    (hD : ∀ r ∈ rows ++ openRow.toList, (r.items.flatMap Item.groupedLabels).Nodup)
    (hL : ∀ l ∈ ((rows ++ openRow.toList).flatMap WireRow.items).flatMap Item.groupedLabels,
      l ∉ ((rows ++ openRow.toList).flatMap WireRow.items).flatMap Item.simpleLabels) :
    getValuesFromXML (openDocument wrappers m mattrs rows openRow) = .fatal ∧
    (∀ (b : xml.Document) (fuel : Nat) (st : ParseState) (stk : List String), stk ≠ [] →
      primeLoop b (fuel + 1) st ⟨[], stk, false⟩ = .fatal) ∧
    (∀ (b : xml.Document) (x : XMLData) (err : Option String),
      getValuesFromXML b = .returned (x, err) → err = none) := by
  have hin : ∀ r ∈ rows ++ openRow.toList, ∀ (f : Item → List String),
      ∀ l ∈ r.items.flatMap f,
      l ∈ ((rows ++ openRow.toList).flatMap WireRow.items).flatMap f := by
    intro r hr f l hl
    simp only [List.mem_flatMap] at hl ⊢
    obtain ⟨it, hit, hl⟩ := hl
    exact ⟨it, ⟨r, hr, hit⟩, hl⟩
  refine ⟨?_, ?_, ?_⟩
  · rw [getValuesFromXML_parseFrom]
    apply parseFrom_openDocument _ wrappers m mattrs rows openRow hW hm hm0 hN hD
    · intro r hr l hl
      have hl2 := hin r hr _ l hl
      exact checkForInternalGroup_openDocument l wrappers m mattrs rows openRow false hW hm hN
        (firstField_simple l _ hl2 (fun hg => hL l hg hl2))
    · intro r hr l hl
      have hl2 := hin r hr _ l hl
      exact checkForInternalGroup_openDocument l wrappers m mattrs rows openRow true hW hm hN
        (firstField_grouped l _ hl2 (hL l hl2))
  · intro b fuel st stk h
    simp [primeLoop, xml.Decoder.Token, h]
  · intro b x err h
    exact primeLoop_error_nil b _ _ _ x err h

/-- C23 at the document `<response><result><Leads><row no="1">
<FL val="LEADID">7</FL></row><row no="2"><FL val="LEADID">8</FL>`, which ends
inside its second row: the process is ended. -/
theorem C23_abrupt_end_ends_process_witness :
    getValuesFromXML
        (openDocument [.StartElement "response" [], .StartElement "result" []] "Leads" []
          [⟨[⟨"no", "1"⟩], [.simple ⟨"LEADID", ["7"]⟩]⟩]
          (some ⟨[⟨"no", "2"⟩], [.simple ⟨"LEADID", ["8"]⟩]⟩))
      = .fatal :=
  (C23_abrupt_end_ends_process [.StartElement "response" [], .StartElement "result" []] "Leads"
    [] [⟨[⟨"no", "1"⟩], [.simple ⟨"LEADID", ["7"]⟩]⟩]
    (some ⟨[⟨"no", "2"⟩], [.simple ⟨"LEADID", ["8"]⟩]⟩)
    (by decide) (by decide) (by decide) (by decide) (by decide) (by decide)).1

/-! ### Failures of the materializer -/

/-- The timestamp case fails exactly on a value that parses in neither layout. -/
theorem setTimeFromValue_error (lib : Lib) (value : String) :
    (∃ e, setTimeFromValue lib value = .error e) ↔ unparsableTime lib value = true := by
  unfold setTimeFromValue unparsableTime
  cases lib.timeParse "2006-01-02 15:04:05" value with
  | ok t => simp
  | error e1 =>
    cases lib.timeParse "2006-01-02" value with
    | ok t => simp
    | error e2 => simp
/-- An outcome that returns a value fails only for a reason that does not hold. -/
theorem failsOnlyOnBad_ok {α : Type} (v : α) :
    failsOnlyOnBad (.returned (.ok v) : Outcome (Except String α)) false :=
  ⟨fun e h => by simp at h, fun h => by simp at h, by simp⟩

/-- The loop over the groups of a slice field fails only when the
materialization of one of the groups does. -/
theorem appendGroups_failsOnlyOnBad (fillElem : List FieldLabel → Outcome (Except String GoValue))
    (badElem : List FieldLabel → Bool)
    (h : ∀ fs, failsOnlyOnBad (fillElem fs) (badElem fs)) (viaPtr : Bool) :
    ∀ (data : List InternalGroup) (acc : List GoValue),
      failsOnlyOnBad (appendGroups fillElem viaPtr data acc)
        (data.any (fun g => badElem g.Fields)) := by
  intro data
  induction data with
  | nil => intro acc; exact failsOnlyOnBad_ok acc
  | cons a rest ih =>
    intro acc
    obtain ⟨h1, h2, h3⟩ := h a.Fields
    simp only [appendGroups, List.any_cons]
    cases hf : fillElem a.Fields with
    | returned r =>
      cases r with
      | ok item =>
        simp only []
        cases viaPtr with
        | true =>
          simp only [if_true]
          exact ⟨fun e he => by simp at he, fun _ v => by simp, by simp⟩
        | false =>
          simp only [Bool.false_eq_true, if_false]
          obtain ⟨i1, i2, i3⟩ := ih (acc ++ [item])
          refine ⟨fun e he => ?_, fun hb v => ?_, i3⟩
          · rw [i1 e he]; simp
          · rcases Bool.or_eq_true _ _ ▸ hb with hb | hb
            · exact absurd hf (h2 hb item)
            · exact i2 hb v
      | error e =>
        simp only []
        refine ⟨fun e2 _ => ?_, fun _ v => by simp, by simp⟩
        rw [h1 e hf]; simp
    | panic => exact ⟨fun e he => by simp at he, fun _ v => by simp, by simp⟩
    | fatal => exact absurd hf h3
/-- The loop over the fields of a target struct fails only on a timestamp that
does not parse, when the statement `switch field.Kind()` does so for the value
of every field and for what a pointer field points to. -/
theorem fillFields_failsOnlyOnBad (lib : Lib) :
    ∀ (fs : List (StructField × GoValue)),
      (∀ p ∈ fs, ∀ (f : FieldLabel) (viaPtr : Bool),
        failsOnlyOnBad (fillKind lib f viaPtr p.2) (badTimestampKind lib f p.2)) →
      (∀ p ∈ fs, ∀ tv, p.2 = .ptr (some tv) → ∀ (f : FieldLabel) (viaPtr : Bool),
        failsOnlyOnBad (fillKind lib f viaPtr tv) (badTimestampKind lib f tv)) →
      ∀ (fields : List FieldLabel),
        failsOnlyOnBad (fillFields lib fields fs) (badTimestampFields lib fields fs) := by
  intro fs
  induction fs with
  | nil => intro _ _ fields; exact failsOnlyOnBad_ok []
  | cons p rest ih =>
    intro hK hP fields
    have ihr := ih (fun q hq => hK q (List.mem_cons_of_mem _ hq))
      (fun q hq => hP q (List.mem_cons_of_mem _ hq))
    have hKp := hK p (List.mem_cons_self _ _)
    have hPp := hP p (List.mem_cons_self _ _)
    -- the outcome of the rest, with the value of the head put before it
    have skip : ∀ (flds : List FieldLabel) (v : GoValue) (sf : StructField),
        failsOnlyOnBad
          (match fillFields lib flds rest with
           | .returned (.ok r) => .returned (.ok ((sf, v) :: r))
           | o => o)
          (badTimestampFields lib flds rest) := by
      intro flds v sf
      obtain ⟨i1, i2, i3⟩ := ihr flds
      cases hr : fillFields lib flds rest with
      | returned r =>
        cases r with
        | ok r2 =>
          refine ⟨fun e he => by simp at he, fun hb w => ?_, by simp⟩
          exact absurd hr (i2 hb r2)
        | error e =>
          refine ⟨fun e2 _ => i1 e hr, fun _ w => by simp, by simp⟩
      | panic => exact ⟨fun e he => by simp at he, fun _ w => by simp, by simp⟩
      | fatal => exact absurd hr i3
    -- a head that is matched: its own outcome, then the rest
    have step : ∀ (f : FieldLabel) (viaPtr : Bool) (tv : GoValue) (sf : StructField)
        (wrap : GoValue → GoValue),
        failsOnlyOnBad (fillKind lib f viaPtr tv) (badTimestampKind lib f tv) →
        failsOnlyOnBad
          (match fillKind lib f viaPtr tv with
           | .returned (.ok tv2) =>
             match fillFields lib (removeLabelByName fields f.Label) rest with
             | .returned (.ok r) => .returned (.ok ((sf, wrap tv2) :: r))
             | o => o
           | .returned (.error e) => .returned (.error e)
           | .panic => .panic
           | .fatal => .fatal)
          (badTimestampKind lib f tv ||
            badTimestampFields lib (removeLabelByName fields f.Label) rest) := by
      intro f viaPtr tv sf wrap hk
      obtain ⟨k1, k2, k3⟩ := hk
      cases hf : fillKind lib f viaPtr tv with
      | returned r =>
        cases r with
        | ok tv2 =>
          simp only []
          obtain ⟨s1, s2, s3⟩ := skip (removeLabelByName fields f.Label) (wrap tv2) sf
          refine ⟨fun e he => ?_, fun hb w => ?_, s3⟩
          · rw [s1 e he]; simp
          · rcases Bool.or_eq_true _ _ ▸ hb with hb | hb
            · exact absurd hf (k2 hb tv2)
            · exact s2 hb w
        | error e =>
          simp only []
          refine ⟨fun e2 _ => ?_, fun _ w => by simp, by simp⟩
          rw [k1 e hf]; simp
      | panic => exact ⟨fun e he => by simp at he, fun _ w => by simp, by simp⟩
      | fatal => exact absurd hf k3
    obtain ⟨sf, v⟩ := p
    cases v with
    | ptr t =>
      cases t with
      | none =>
        simp only [fillFields, badTimestampFields]
        exact skip fields _ sf
      | some tv =>
        simp only [fillFields, badTimestampFields]
        split
        · exact skip fields _ sf
        · exact step _ true tv sf (fun x => .ptr (some x)) (hPp tv rfl _ _)
    | int x =>
      simp only [fillFields, badTimestampFields]
      split
      · exact skip fields _ sf
      · exact step _ false _ sf id (hKp _ _)
    | int64 x =>
      simp only [fillFields, badTimestampFields]
      split
      · exact skip fields _ sf
      · exact step _ false _ sf id (hKp _ _)
    | float64 x =>
      simp only [fillFields, badTimestampFields]
      split
      · exact skip fields _ sf
      · exact step _ false _ sf id (hKp _ _)
    | string x =>
      simp only [fillFields, badTimestampFields]
      split
      · exact skip fields _ sf
      · exact step _ false _ sf id (hKp _ _)
    | bool x =>
      simp only [fillFields, badTimestampFields]
      split
      · exact skip fields _ sf
      · exact step _ false _ sf id (hKp _ _)
    | time x =>
      simp only [fillFields, badTimestampFields]
      split
      · exact skip fields _ sf
      · exact step _ false _ sf id (hKp _ _)
    | struct x =>
      simp only [fillFields, badTimestampFields]
      split
      · exact skip fields _ sf
      · exact step _ false _ sf id (hKp _ _)
    | slice el x =>
      simp only [fillFields, badTimestampFields]
      split
      · exact skip fields _ sf
      · exact step _ false _ sf id (hKp _ _)
    | other =>
      simp only [fillFields, badTimestampFields]
      split
      · exact skip fields _ sf
      · exact step _ false _ sf id (hKp _ _)
/-- An outcome that returns an error, a value or ends the process only when
another one does, fails only for the reason of the other one. -/
theorem failsOnlyOnBad_of {α β : Type} (out : Outcome (Except String α))
    (out2 : Outcome (Except String β)) (bad : Bool) (h : failsOnlyOnBad out bad)
    (he : ∀ e, out2 = .returned (.error e) → out = .returned (.error e))
    (hv : ∀ v, out2 = .returned (.ok v) → ∃ w, out = .returned (.ok w))
    (hf : out2 = .fatal → out = .fatal) :
    failsOnlyOnBad out2 bad := by
  obtain ⟨h1, h2, h3⟩ := h
  refine ⟨fun e h4 => h1 e (he e h4), fun hb v h4 => ?_, fun h4 => h3 (hf h4)⟩
  obtain ⟨w, hw⟩ := hv v h4
  exact h2 hb w hw

/-- The materializer fails only on a timestamp that does not parse: for every
target value, at the statement `switch field.Kind()` and at
`fillStructFromValues`. -/
theorem fill_failsOnlyOnBad (lib : Lib) :
    ∀ (n : Nat) (v : GoValue), sizeOf v ≤ n →
      (∀ (f : FieldLabel) (viaPtr : Bool),
        failsOnlyOnBad (fillKind lib f viaPtr v) (badTimestampKind lib f v)) ∧
      (∀ (fields : List FieldLabel),
        failsOnlyOnBad (fillStructFromValues lib fields v) (badTimestamp lib fields v)) := by
  intro n
  induction n with
  | zero =>
    intro v h
    cases v <;> simp at h
  | succ n ih =>
    intro v h
    cases v with
    | int x =>
      exact ⟨fun f viaPtr => by simp only [fillKind, badTimestampKind]; exact failsOnlyOnBad_ok _,
        fun fields => by
          simp only [fillStructFromValues, badTimestamp]; exact failsOnlyOnBad_ok _⟩
    | int64 x =>
      exact ⟨fun f viaPtr => by simp only [fillKind, badTimestampKind]; exact failsOnlyOnBad_ok _,
        fun fields => by
          simp only [fillStructFromValues, badTimestamp]; exact failsOnlyOnBad_ok _⟩
    | float64 x =>
      exact ⟨fun f viaPtr => by simp only [fillKind, badTimestampKind]; exact failsOnlyOnBad_ok _,
        fun fields => by
          simp only [fillStructFromValues, badTimestamp]; exact failsOnlyOnBad_ok _⟩
    | string x =>
      exact ⟨fun f viaPtr => by simp only [fillKind, badTimestampKind]; exact failsOnlyOnBad_ok _,
        fun fields => by
          simp only [fillStructFromValues, badTimestamp]; exact failsOnlyOnBad_ok _⟩
    | bool x =>
      exact ⟨fun f viaPtr => by simp only [fillKind, badTimestampKind]; exact failsOnlyOnBad_ok _,
        fun fields => by
          simp only [fillStructFromValues, badTimestamp]; exact failsOnlyOnBad_ok _⟩
    | ptr t =>
      exact ⟨fun f viaPtr => by simp only [fillKind, badTimestampKind]; exact failsOnlyOnBad_ok _,
        fun fields => by
          simp only [fillStructFromValues, badTimestamp]; exact failsOnlyOnBad_ok _⟩
    | other =>
      exact ⟨fun f viaPtr => by simp only [fillKind, badTimestampKind]; exact failsOnlyOnBad_ok _,
        fun fields => by
          simp only [fillStructFromValues, badTimestamp]; exact failsOnlyOnBad_ok _⟩
    | time x =>
      refine ⟨fun f viaPtr => ?_, fun fields => by
        simp only [fillStructFromValues, badTimestamp]; exact failsOnlyOnBad_ok _⟩
      simp only [fillKind, badTimestampKind]
      have ht := setTimeFromValue_error lib f.Value
      cases hs : setTimeFromValue lib f.Value with
      | ok t =>
        refine ⟨fun e he => by simp at he, fun hb w => ?_, by simp⟩
        obtain ⟨e, he⟩ := ht.mpr hb
        rw [hs] at he
        exact absurd he (by simp)
      | error e =>
        exact ⟨fun e2 _ => ht.mp ⟨e, hs⟩, fun _ w => by simp, by simp⟩
    | struct fs =>
      have hfs : ∀ (fields : List FieldLabel),
          failsOnlyOnBad (fillFields lib fields fs) (badTimestampFields lib fields fs) := by
        apply fillFields_failsOnlyOnBad lib fs
        · intro p hp f viaPtr
          have h1 := List.sizeOf_lt_of_mem hp
          have h2 : sizeOf p = 1 + sizeOf p.1 + sizeOf p.2 := by
            cases p; simp
          simp only [GoValue.struct.sizeOf_spec] at h
          exact (ih p.2 (by omega)).1 f viaPtr
        · intro p hp tv htv f viaPtr
          have h1 := List.sizeOf_lt_of_mem hp
          have h2 : sizeOf p = 1 + sizeOf p.1 + sizeOf p.2 := by
            cases p; simp
          have h3 : sizeOf p.2 = 1 + (1 + sizeOf tv) := by
            rw [htv]; simp
          simp only [GoValue.struct.sizeOf_spec] at h
          exact (ih tv (by omega)).1 f viaPtr
      refine ⟨fun f viaPtr => ?_, fun fields => ?_⟩
      · simp only [fillKind, badTimestampKind]
        cases hd : f.Data with
        | nil => exact failsOnlyOnBad_ok _
        | cons g gs =>
          simp only []
          apply failsOnlyOnBad_of _ _ _ (hfs g.Fields)
          · intro e he
            split at he <;> simp_all
          · intro v hv
            split at hv <;> simp_all
          · intro hf
            split at hf <;> simp_all
      · simp only [fillStructFromValues, badTimestamp]
        apply failsOnlyOnBad_of _ _ _ (hfs fields)
        · intro e he
          split at he <;> simp_all
        · intro v hv
          split at hv <;> simp_all
        · intro hf
          split at hf <;> simp_all
    | slice elem items =>
      refine ⟨fun f viaPtr => ?_, fun fields => by
        simp only [fillStructFromValues, badTimestamp]; exact failsOnlyOnBad_ok _⟩
      simp only [fillKind, badTimestampKind]
      simp only [GoValue.slice.sizeOf_spec] at h
      have he := (ih elem (by omega)).2
      apply failsOnlyOnBad_of _ _ _
        (appendGroups_failsOnlyOnBad (fun fs => fillStructFromValues lib fs elem)
          (fun fs => badTimestamp lib fs elem) he viaPtr f.Data items)
      · intro e he
        split at he <;> simp_all
      · intro v hv
        split at hv <;> simp_all
      · intro hf
        split at hf <;> simp_all
/-- A target struct none of whose fields finds a wire field comes back as it
is, whatever wire fields there are. -/
theorem fillFields_unmatched (lib : Lib) (fields : List FieldLabel) :
    ∀ (fs : List (StructField × GoValue)),
      (∀ p ∈ fs,
        (getFieldLabelByName fields ((strings.Split p.1.zoho ',').headD "")).Label = "") →
      fillFields lib fields fs = .returned (.ok fs) := by
  intro fs
  induction fs with
  | nil => intro _; rfl
  | cons p rest ih =>
    intro h
    have hp := h p (List.mem_cons_self _ _)
    have hr := ih (fun q hq => h q (List.mem_cons_of_mem _ hq))
    obtain ⟨sf, v⟩ := p
    simp only [] at hp
    cases v with
    | ptr t =>
      cases t with
      | none => simp [fillFields, hr]
      | some tv => simp only [fillFields, hp, decide_True, Bool.or_true, if_true, hr]
    | int x => simp only [fillFields, hp, decide_True, Bool.or_true, if_true, hr]
    | int64 x => simp only [fillFields, hp, decide_True, Bool.or_true, if_true, hr]
    | float64 x => simp only [fillFields, hp, decide_True, Bool.or_true, if_true, hr]
    | string x => simp only [fillFields, hp, decide_True, Bool.or_true, if_true, hr]
    | bool x => simp only [fillFields, hp, decide_True, Bool.or_true, if_true, hr]
    | time x => simp only [fillFields, hp, decide_True, Bool.or_true, if_true, hr]
    | struct x => simp only [fillFields, hp, decide_True, Bool.or_true, if_true, hr]
    | slice el x => simp only [fillFields, hp, decide_True, Bool.or_true, if_true, hr]
    | other => simp only [fillFields, hp, decide_True, Bool.or_true, if_true, hr]

/-- C21: `fillStructFromValues` returns an error only when some wire field
matched to a timestamp target field, at any nesting depth, has a value that
parses in neither layout (`badTimestamp`), and, unless the call panics, it
returns an error whenever there is such a field.  In particular an integer,
float or boolean target field is set whatever the wire value is, and a target
none of whose fields finds a wire field comes back as it is, whatever wire
fields there are. -/
theorem C21_fails_only_on_bad_timestamp (lib : Lib) (fields : List FieldLabel) (v : GoValue) :
    (∀ e, fillStructFromValues lib fields v = .returned (.error e) →
      badTimestamp lib fields v = true) ∧
    (fillStructFromValues lib fields v ≠ .panic →
      (badTimestamp lib fields v = true ↔
        ∃ e, fillStructFromValues lib fields v = .returned (.error e))) ∧
    (∀ (f : FieldLabel) (viaPtr : Bool) (x : Int) (y : Float64) (z : Bool),
      fillKind lib f viaPtr (.int x) = .returned (.ok (.int (setIntFromValue x f.Value))) ∧
      fillKind lib f viaPtr (.int64 x) = .returned (.ok (.int64 (setIntFromValue x f.Value))) ∧
      fillKind lib f viaPtr (.float64 y)
        = .returned (.ok (.float64 (setFloatFromValue lib y f.Value))) ∧
      fillKind lib f viaPtr (.bool z) = .returned (.ok (.bool (setBoolFromValue z f.Value)))) ∧
    (∀ (fs : List (StructField × GoValue)),
      (∀ p ∈ fs,
        (getFieldLabelByName fields ((strings.Split p.1.zoho ',').headD "")).Label = "") →
      fillStructFromValues lib fields (.struct fs) = .returned (.ok (.struct fs))) := by
  obtain ⟨h1, h2, h3⟩ := (fill_failsOnlyOnBad lib (sizeOf v) v (le_refl _)).2 fields
  refine ⟨h1, fun hp => ⟨fun hb => ?_, fun he => ?_⟩, fun f viaPtr x y z => ⟨rfl, rfl, rfl, rfl⟩,
    fun fs hfs => ?_⟩
  · cases hr : fillStructFromValues lib fields v with
    | returned r =>
      cases r with
      | ok out => exact absurd hr (h2 hb out)
      | error e => exact ⟨e, rfl⟩
    | panic => exact absurd hr hp
    | fatal => exact absurd hr h3
  · obtain ⟨e, he⟩ := he
    exact h1 e he
  · simp [fillStructFromValues, fillFields_unmatched lib fields fs hfs]

/-- C21 at `visitsRecord` and `visitsFields`: the count `many` and the field
`Unknown` do not make the call fail, the timestamp `yesterday` of the visit
does. -/
theorem C21_fails_only_on_bad_timestamp_witness :
    fillStructFromValues rejectingLib visitsFields visitsRecord
      = .returned (.error "Got error parsing Time format: cannot parse") ∧
    badTimestamp rejectingLib visitsFields visitsRecord = true :=
  ⟨rfl, (C21_fails_only_on_bad_timestamp rejectingLib visitsFields visitsRecord).1
    "Got error parsing Time format: cannot parse" rfl⟩

/-! ### The stripping pass -/

/-- Putting a value at a place of a list and the value that was there before
the list gives the same fields as putting the value before the list. -/
theorem cons_set_perm (a : FieldLabel) :
    ∀ (l : List FieldLabel) (j : Nat) (y : FieldLabel), l[j]? = some y →
      (y :: l.set j a).Perm (a :: l) := by
  intro l
  induction l with
  | nil => intro j y h; simp at h
  | cons b l ih =>
    intro j y h
    cases j with
    | zero =>
      simp only [List.getElem?_cons_zero, Option.some.injEq] at h
      subst h
      exact List.Perm.swap _ _ _
    | succ j =>
      simp only [List.getElem?_cons_succ] at h
      simp only [List.set_cons_succ]
      exact (List.Perm.swap _ _ _).trans (((ih j y h).cons b).trans (List.Perm.swap _ _ _))

/-- Exchanging the values at two places of a list gives the same fields. -/
theorem set_set_perm :
    ∀ (l : List FieldLabel) (i j : Nat) (x y : FieldLabel), l[i]? = some x → l[j]? = some y →
      ((l.set j x).set i y).Perm l := by
  intro l
  induction l with
  | nil => intro i j x y h; simp at h
  | cons a l ih =>
    intro i j x y hi hj
    cases i with
    | zero =>
      simp only [List.getElem?_cons_zero, Option.some.injEq] at hi
      subst hi
      cases j with
      | zero =>
        simp only [List.getElem?_cons_zero, Option.some.injEq] at hj
        subst hj
        simp
      | succ j =>
        simp only [List.getElem?_cons_succ] at hj
        simp only [List.set_cons_succ, List.set_cons_zero]
        exact cons_set_perm _ l j y hj
    | succ i =>
      simp only [List.getElem?_cons_succ] at hi
      cases j with
      | zero =>
        simp only [List.getElem?_cons_zero, Option.some.injEq] at hj
        subst hj
        simp only [List.set_cons_succ, List.set_cons_zero]
        exact cons_set_perm _ l i x hi
      | succ j =>
        simp only [List.getElem?_cons_succ] at hj
        simp only [List.set_cons_succ]
        exact (ih i j x y hi hj).cons a

/-- The exchange of the stripping pass keeps the fields of the array. -/
theorem swapFields_perm (arr : List FieldLabel) (last k : Nat) :
    (swapFields arr last k).Perm arr := by
  unfold swapFields
  cases hk : arr[k]? with
  | none => exact List.Perm.refl _
  | some fk =>
    cases hl : arr[last]? with
    | none => exact List.Perm.refl _
    | some fl => exact set_set_perm arr k last fk fl hk hl

/-- The loop of the stripping pass keeps the fields of the array. -/
theorem stripLoop_perm :
    ∀ (cnt j : Nat) (arr : List FieldLabel) (m : Nat), (stripLoop cnt j arr m).1.Perm arr := by
  intro cnt
  induction cnt with
  | zero => intro j arr m; exact List.Perm.refl _
  | succ cnt ih =>
    intro j arr m
    simp only [stripLoop]
    cases hj : arr[j]? with
    | none => exact List.Perm.refl _
    | some fj =>
      simp only []
      cases hs : stripTags arr m fj.Label fj.Tags with
      | none => exact ih _ _ _
      | some k => exact (ih _ _ _).trans (swapFields_perm _ _ _)

/-- The fields after the stripping pass are fields of the row, none more often
than before. -/
theorem stripFields_subperm (fields : List FieldLabel) :
    (stripFields fields).Subperm fields := by
  unfold stripFields
  exact (List.take_sublist _ _).subperm.trans (stripLoop_perm _ _ _ _).subperm

/-- Without a tag `strip` no field is looked for. -/
theorem stripTags_unflagged (arr : List FieldLabel) (m : Nat) (label : String) :
    ∀ (tags : List String), "strip" ∉ tags → stripTags arr m label tags = none := by
  intro tags
  induction tags with
  | nil => intro _; rfl
  | cons t tags ih =>
    intro h
    simp only [List.mem_cons, not_or] at h
    have ht : ¬ t = "strip" := fun e => h.1 e.symm
    simp [stripTags, ht, ih h.2]

/-- The loop of the stripping pass leaves an array without flagged fields as
it is. -/
theorem stripLoop_unflagged :
    ∀ (cnt j : Nat) (arr : List FieldLabel) (m : Nat), (∀ f ∈ arr, "strip" ∉ f.Tags) →
      stripLoop cnt j arr m = (arr, m) := by
  intro cnt
  induction cnt with
  | zero => intro j arr m _; rfl
  | succ cnt ih =>
    intro j arr m h
    simp only [stripLoop]
    cases hj : arr[j]? with
    | none => rfl
    | some fj =>
      have hmem : fj ∈ arr := List.mem_iff_getElem?.mpr ⟨j, hj⟩
      simp only [stripTags_unflagged arr m fj.Label fj.Tags (h fj hmem)]
      exact ih _ _ _ h

/-- A row without flagged fields leaves the stripping pass as it is. -/
theorem stripFields_unflagged (fields : List FieldLabel) (h : ∀ f ∈ fields, "strip" ∉ f.Tags) :
    stripFields fields = fields := by
  unfold stripFields
  rw [stripLoop_unflagged _ _ _ _ h]
  simp
/-- A hit of the search for a label is a place within the fields that holds a
field with that label. -/
theorem findLabel_some :
    ∀ (arr : List FieldLabel) (m : Nat) (label : String) (k : Nat),
      findLabel arr m label = some k →
      k < m ∧ ∃ fk, arr[k]? = some fk ∧ fk.Label = label := by
  intro arr
  induction arr with
  | nil => intro m label k h; simp [findLabel] at h
  | cons f rest ih =>
    intro m label k h
    cases m with
    | zero => simp [findLabel] at h
    | succ m =>
      simp only [findLabel] at h
      split at h
      · rename_i hf
        simp only [Option.some.injEq] at h
        subst h
        exact ⟨Nat.succ_pos _, f, by simp, hf⟩
      · cases hr : findLabel rest m label with
        | none => rw [hr] at h; simp at h
        | some k2 =>
          rw [hr] at h
          simp only [Option.some.injEq] at h
          subst h
          obtain ⟨h1, fk, h2, h3⟩ := ih m label k2 hr
          exact ⟨Nat.succ_lt_succ h1, fk, by simpa using h2, h3⟩

/-- A hit of the loop over the tags: the tags hold `strip`, and the place is
one within the fields that holds a field with the label. -/
theorem stripTags_some (arr : List FieldLabel) (m : Nat) (label : String) :
    ∀ (tags : List String) (k : Nat), stripTags arr m label tags = some k →
      "strip" ∈ tags ∧ k < m ∧ ∃ fk, arr[k]? = some fk ∧ fk.Label = label := by
  intro tags
  induction tags with
  | nil => intro k h; simp [stripTags] at h
  | cons t tags ih =>
    intro k h
    simp only [stripTags] at h
    split at h
    · rename_i ht
      cases hf : findLabel arr m label with
      | some k2 =>
        rw [hf] at h
        simp only [Option.some.injEq] at h
        subst h
        exact ⟨by simp [ht], findLabel_some arr m label k2 hf⟩
      | none =>
        rw [hf] at h
        obtain ⟨h1, h2⟩ := ih k h
        exact ⟨List.mem_cons_of_mem _ h1, h2⟩
    · obtain ⟨h1, h2⟩ := ih k h
      exact ⟨List.mem_cons_of_mem _ h1, h2⟩

/-- The exchange keeps the length of the array. -/
theorem swapFields_length (arr : List FieldLabel) (last k : Nat) :
    (swapFields arr last k).length = arr.length :=
  (swapFields_perm arr last k).length_eq

/-- A field within the first `m` places that is not the one removed is within
the first `m - 1` places after the exchange. -/
theorem swapFields_keeps (arr : List FieldLabel) (m k : Nat) (F fk : FieldLabel)
    (hml : m ≤ arr.length) (hk : k < m) (hfk : arr[k]? = some fk) (hne : fk ≠ F)
    (hF : F ∈ arr.take m) : F ∈ (swapFields arr (m - 1) k).take (m - 1) := by
  obtain ⟨i, hi⟩ := List.mem_iff_getElem?.mp hF
  rw [List.getElem?_take] at hi
  split at hi
  · rename_i him
    have hlast : m - 1 < arr.length := by omega
    have hl : arr[m - 1]? = some arr[m - 1] := List.getElem?_eq_getElem hlast
    unfold swapFields
    rw [hfk, hl]
    simp only []
    apply List.mem_iff_getElem?.mpr
    by_cases him1 : i = m - 1
    · have hkm : k ≠ m - 1 := by
        intro e
        rw [e, hl] at hfk
        rw [him1, hl] at hi
        rw [hi] at hfk
        simp only [Option.some.injEq] at hfk
        exact hne hfk.symm
      refine ⟨k, ?_⟩
      rw [List.getElem?_take, if_pos (by omega)]
      have : k < (arr.set (m - 1) fk).length := by simp; omega
      rw [List.getElem?_set_self this]
      rw [him1, hl] at hi
      exact hi
    · have hik : k ≠ i := by
        intro e
        rw [e, hi] at hfk
        simp only [Option.some.injEq] at hfk
        exact hne hfk.symm
      refine ⟨i, ?_⟩
      rw [List.getElem?_take, if_pos (by omega), List.getElem?_set_ne hik,
        List.getElem?_set_ne (fun e => him1 e.symm)]
      exact hi
  · simp at hi
/-- The loop of the stripping pass keeps, within the fields, every field whose
label no flagged field of the array bears. -/
theorem stripLoop_keeps (F : FieldLabel) :
    ∀ (cnt j : Nat) (arr : List FieldLabel) (m : Nat), m ≤ arr.length →
      (∀ x ∈ arr, "strip" ∈ x.Tags → x.Label ≠ F.Label) → F ∈ arr.take m →
      F ∈ (stripLoop cnt j arr m).1.take (stripLoop cnt j arr m).2 := by
  intro cnt
  induction cnt with
  | zero => intro j arr m _ _ h; exact h
  | succ cnt ih =>
    intro j arr m hml hL hF
    simp only [stripLoop]
    cases hj : arr[j]? with
    | none => exact hF
    | some fj =>
      simp only []
      cases hs : stripTags arr m fj.Label fj.Tags with
      | none => exact ih _ _ _ hml hL hF
      | some k =>
        simp only []
        obtain ⟨hstrip, hk, fk, hfk, hlab⟩ := stripTags_some arr m fj.Label fj.Tags k hs
        have hmem : fj ∈ arr := List.mem_iff_getElem?.mpr ⟨j, hj⟩
        have hne : fk ≠ F := by
          intro e
          apply hL fj hmem hstrip
          rw [← hlab, e]
        apply ih
        · rw [swapFields_length]; omega
        · intro x hx
          exact hL x ((swapFields_perm arr (m - 1) k).mem_iff.mp hx)
        · exact swapFields_keeps arr m k F fk hml hk hfk hne hF
/-- The exchange of a field with the last field of the array. -/
theorem swapFields_middle (pre init : List FieldLabel) (F l : FieldLabel) :
    swapFields (pre ++ F :: (init ++ [l])) ((pre ++ F :: (init ++ [l])).length - 1) pre.length
      = pre ++ l :: (init ++ [F]) := by
  have hlen : (pre ++ F :: (init ++ [l])).length - 1 = pre.length + (init.length + 1) := by
    simp only [List.length_append, List.length_cons, List.length_nil]; omega
  have hk : (pre ++ F :: (init ++ [l]))[pre.length]? = some F := by
    rw [List.getElem?_append_right (le_refl _)]
    simp
  have hl : (pre ++ F :: (init ++ [l]))[pre.length + (init.length + 1)]? = some l := by
    rw [List.getElem?_append_right (by omega)]
    simp
  unfold swapFields
  rw [hlen, hk, hl]
  simp only []
  rw [List.set_append_right _ _ (by omega)]
  simp only [Nat.add_sub_cancel_left, List.set_cons_succ]
  rw [List.set_append_right _ _ (by omega)]
  simp

/-- The exchange of the last field with itself. -/
theorem swapFields_last (pre : List FieldLabel) (F : FieldLabel) :
    swapFields (pre ++ [F]) ((pre ++ [F]).length - 1) pre.length = pre ++ [F] := by
  have hlen : (pre ++ [F]).length - 1 = pre.length := by simp
  have hk : (pre ++ [F])[pre.length]? = some F := by
    rw [List.getElem?_append_right (le_refl _)]
    simp
  unfold swapFields
  rw [hlen, hk]
  simp only []
  rw [List.set_append_right _ _ (by omega)]
  simp
/-- The search finds nothing when no field within the first `m` places bears
the label. -/
theorem findLabel_none :
    ∀ (arr : List FieldLabel) (m : Nat) (label : String),
      (∀ x ∈ arr.take m, x.Label ≠ label) → findLabel arr m label = none := by
  intro arr
  induction arr with
  | nil => intro m label _; simp [findLabel]
  | cons f rest ih =>
    intro m label h
    cases m with
    | zero => simp [findLabel]
    | succ m =>
      simp only [List.take_succ_cons, List.mem_cons, forall_eq_or_imp] at h
      simp [findLabel, h.1, ih rest.length]
      rw [ih m label h.2]

/-- The search finds the first field that bears the label. -/
theorem findLabel_first (label : String) (F : FieldLabel) (rest : List FieldLabel)
    (hF : F.Label = label) :
    ∀ (pre : List FieldLabel) (m : Nat), (∀ x ∈ pre, x.Label ≠ label) → pre.length < m →
      findLabel (pre ++ F :: rest) m label = some pre.length := by
  intro pre
  induction pre with
  | nil =>
    intro m _ hm
    cases m with
    | zero => simp at hm
    | succ m => simp [findLabel, hF]
  | cons a pre ih =>
    intro m h hm
    cases m with
    | zero => simp at hm
    | succ m =>
      have ha : a.Label ≠ label := h a (List.mem_cons_self _ _)
      have h2 := ih m (fun x hx => h x (List.mem_cons_of_mem _ hx))
        (by simpa using hm)
      simp [findLabel, ha, h2]

/-- When the search finds nothing the loop over the tags finds nothing. -/
theorem stripTags_none (arr : List FieldLabel) (m : Nat) (label : String)
    (h : findLabel arr m label = none) :
    ∀ (tags : List String), stripTags arr m label tags = none := by
  intro tags
  induction tags with
  | nil => rfl
  | cons t tags ih => simp [stripTags, h, ih]

/-- With a tag `strip` the loop over the tags finds what the search finds. -/
theorem stripTags_flagged (arr : List FieldLabel) (m : Nat) (label : String) (k : Nat)
    (h : findLabel arr m label = some k) :
    ∀ (tags : List String), "strip" ∈ tags → stripTags arr m label tags = some k := by
  intro tags
  induction tags with
  | nil => intro hs; simp at hs
  | cons t tags ih =>
    intro hs
    by_cases ht : t = "strip"
    · simp [stripTags, ht, h]
    · simp only [List.mem_cons] at hs
      rcases hs with hs | hs
      · exact absurd hs.symm ht
      · simp [stripTags, ht, ih hs]

/-- The loop of the stripping pass goes over places at which nothing is found
without a change. -/
theorem stripLoop_idle (arr : List FieldLabel) (m : Nat) :
    ∀ (cnt j c2 : Nat),
      (∀ (i : Nat) (fi : FieldLabel), j ≤ i → i < j + cnt → arr[i]? = some fi →
        stripTags arr m fi.Label fi.Tags = none) →
      j + cnt ≤ arr.length →
      stripLoop (cnt + c2) j arr m = stripLoop c2 (j + cnt) arr m := by
  intro cnt
  induction cnt with
  | zero => intro j c2 _ _; simp
  | succ cnt ih =>
    intro j c2 h hlen
    have hj : j < arr.length := by omega
    have e1 : cnt + 1 + c2 = (cnt + c2) + 1 := by omega
    rw [e1]
    simp only [stripLoop]
    rw [List.getElem?_eq_getElem hj]
    simp only [h j arr[j] (le_refl _) (by omega) (List.getElem?_eq_getElem hj)]
    have h2 := ih (j + 1) c2 (fun i fi h1 h2 h3 => h i fi (by omega) (by omega) h3) (by omega)
    rw [h2]
    congr 1
    omega
/-- A row with one flagged field that is not its last field, no other field
bearing the label of the flagged one: the pass puts the last field into the
place of the flagged one. -/
theorem stripFields_one_flagged (pre init : List FieldLabel) (F l : FieldLabel)
    (hF : "strip" ∈ F.Tags)
    (hpre : ∀ x ∈ pre, "strip" ∉ x.Tags ∧ x.Label ≠ F.Label)
    (hinit : ∀ x ∈ init, "strip" ∉ x.Tags ∧ x.Label ≠ F.Label)
    (hl : "strip" ∉ l.Tags ∧ l.Label ≠ F.Label) :
    stripFields (pre ++ F :: (init ++ [l])) = pre ++ l :: init := by
  have hn : (pre ++ F :: (init ++ [l])).length = pre.length + (1 + (init.length + 1)) := by
    simp only [List.length_append, List.length_cons, List.length_nil]; omega
  have hunfl : ∀ (arr : List FieldLabel) (m i : Nat) (fi : FieldLabel), "strip" ∉ fi.Tags →
      stripTags arr m fi.Label fi.Tags = none :=
    fun arr m i fi h => stripTags_unflagged arr m fi.Label fi.Tags h
  -- the places before the flagged field
  have s1 := stripLoop_idle (pre ++ F :: (init ++ [l])) (pre ++ F :: (init ++ [l])).length
    pre.length 0 (1 + (init.length + 1))
    (by
      intro i fi _ hi hfi
      rw [List.getElem?_append_left (by omega)] at hfi
      exact hunfl _ _ i fi (hpre fi (List.mem_iff_getElem?.mpr ⟨i, hfi⟩)).1)
    (by omega)
  -- the place of the flagged field
  have hk : (pre ++ F :: (init ++ [l]))[pre.length]? = some F := by
    rw [List.getElem?_append_right (le_refl _)]
    simp
  have hfind := findLabel_first F.Label F (init ++ [l]) rfl pre
    (pre ++ F :: (init ++ [l])).length (fun x hx => (hpre x hx).2) (by omega)
  have hstrip := stripTags_flagged _ _ _ _ hfind F.Tags hF
  have s2 : stripLoop (1 + (init.length + 1)) (0 + pre.length) (pre ++ F :: (init ++ [l]))
      (pre ++ F :: (init ++ [l])).length
      = stripLoop (init.length + 1) (pre.length + 1) (pre ++ l :: (init ++ [F]))
        ((pre ++ F :: (init ++ [l])).length - 1) := by
    have e1 : 1 + (init.length + 1) = (init.length + 1) + 1 := by omega
    rw [e1, Nat.zero_add]
    simp only [stripLoop]
    rw [hk]
    simp only [hstrip, swapFields_middle]
  -- the places behind it: the fields between, and the flagged field at the end
  have hnone : findLabel (pre ++ l :: (init ++ [F])) ((pre ++ F :: (init ++ [l])).length - 1)
      F.Label = none := by
    apply findLabel_none
    intro x hx
    have e2 : (pre ++ F :: (init ++ [l])).length - 1 = (pre ++ l :: init).length := by
      simp only [List.length_append, List.length_cons, List.length_nil]; omega
    have e3 : pre ++ l :: (init ++ [F]) = (pre ++ l :: init) ++ [F] := by simp
    rw [e2, e3, List.take_left] at hx
    simp only [List.mem_append, List.mem_cons] at hx
    rcases hx with hx | hx | hx
    · exact (hpre x hx).2
    · rw [hx]; exact hl.2
    · exact (hinit x hx).2
  have s3 := stripLoop_idle (pre ++ l :: (init ++ [F]))
    ((pre ++ F :: (init ++ [l])).length - 1) (init.length + 1) (pre.length + 1) 0
    (by
      intro i fi h1 h2 hfi
      rw [List.getElem?_append_right (by omega)] at hfi
      obtain ⟨d, hd⟩ : ∃ d, i - pre.length = d + 1 := ⟨i - pre.length - 1, by omega⟩
      rw [hd, List.getElem?_cons_succ] at hfi
      by_cases hdi : d < init.length
      · rw [List.getElem?_append_left hdi] at hfi
        exact hunfl _ _ i fi (hinit fi (List.mem_iff_getElem?.mpr ⟨d, hfi⟩)).1
      · have hd2 : d = init.length := by omega
        rw [hd2, List.getElem?_append_right (le_refl _)] at hfi
        simp only [Nat.sub_self, List.getElem?_cons_zero, Option.some.injEq] at hfi
        rw [← hfi]
        exact stripTags_none _ _ _ hnone _)
    (by simp only [List.length_append, List.length_cons, List.length_nil]; omega)
  unfold stripFields
  have e0 : (pre ++ F :: (init ++ [l])).length = pre.length + (1 + (init.length + 1)) := hn
  have s1b : stripLoop (pre ++ F :: (init ++ [l])).length 0 (pre ++ F :: (init ++ [l]))
      (pre ++ F :: (init ++ [l])).length
      = stripLoop (init.length + 1) (pre.length + 1) (pre ++ l :: (init ++ [F]))
        ((pre ++ F :: (init ++ [l])).length - 1) := by
    conv_lhs => arg 1; rw [e0]
    rw [s1, s2]
  have s3b : stripLoop (init.length + 1) (pre.length + 1) (pre ++ l :: (init ++ [F]))
      ((pre ++ F :: (init ++ [l])).length - 1)
      = (pre ++ l :: (init ++ [F]), (pre ++ F :: (init ++ [l])).length - 1) := by
    have := s3
    simp only [Nat.add_zero] at this
    rw [this]
    rfl
  rw [s1b, s3b]
  have e2 : (pre ++ F :: (init ++ [l])).length - 1 = (pre ++ l :: init).length := by
    simp only [List.length_append, List.length_cons, List.length_nil]; omega
  have e3 : pre ++ l :: (init ++ [F]) = (pre ++ l :: init) ++ [F] := by simp
  simp only []
  rw [e2, e3, List.take_left]
/-- A row whose only flagged field is its last field, no other field bearing
its label: the pass takes the last field off. -/
theorem stripFields_last_flagged (pre : List FieldLabel) (F : FieldLabel)
    (hF : "strip" ∈ F.Tags)
    (hpre : ∀ x ∈ pre, "strip" ∉ x.Tags ∧ x.Label ≠ F.Label) :
    stripFields (pre ++ [F]) = pre := by
  have hn : (pre ++ [F]).length = pre.length + 1 := by simp
  have s1 := stripLoop_idle (pre ++ [F]) (pre ++ [F]).length pre.length 0 1
    (by
      intro i fi _ hi hfi
      rw [List.getElem?_append_left (by omega)] at hfi
      exact stripTags_unflagged _ _ _ _ (hpre fi (List.mem_iff_getElem?.mpr ⟨i, hfi⟩)).1)
    (by omega)
  have hk : (pre ++ [F])[pre.length]? = some F := by
    rw [List.getElem?_append_right (le_refl _)]
    simp
  have hfind := findLabel_first F.Label F [] rfl pre (pre ++ [F]).length
    (fun x hx => (hpre x hx).2) (by omega)
  have hstrip := stripTags_flagged _ _ _ _ hfind F.Tags hF
  have s2 : stripLoop 1 (0 + pre.length) (pre ++ [F]) (pre ++ [F]).length
      = (pre ++ [F], (pre ++ [F]).length - 1) := by
    rw [Nat.zero_add]
    simp only [stripLoop]
    rw [hk]
    simp only [hstrip, swapFields_last]
  unfold stripFields
  have s1b : stripLoop (pre ++ [F]).length 0 (pre ++ [F]) (pre ++ [F]).length
      = (pre ++ [F], (pre ++ [F]).length - 1) := by
    conv_lhs => arg 1; rw [hn]
    rw [s1, s2]
  rw [s1b]
  simp
/-- C27, the claim as stated fails: a row whose fields are `A` (flagged
`strip`), `B` and `C` leaves the stripping pass as `C`, `B`: the last field
`C` is put into the place of `A`, before `B`. -/
theorem C27_counterexample_order_not_kept :
    XMLData.encodeStrip
        { Rows := [{ Number := 1, Fields :=
            [FieldLabel.mk "FL" "A" "1" [] ["strip"], FieldLabel.mk "FL" "B" "2" [] [],
             FieldLabel.mk "FL" "C" "3" [] []] }] }
      = { Rows := [{ Number := 1, Fields :=
            [FieldLabel.mk "FL" "C" "3" [] [], FieldLabel.mk "FL" "B" "2" [] []] }] } :=
  rfl

/-- C27, amended: the stripping pass keeps the fields, not their order.  For
every row the fields that remain are fields of the row, none more often than
before; a row without flagged fields keeps its fields and their order; a row
with one flagged field, no other field bearing its label, keeps the order of
the other fields when the flagged field is the last one, and otherwise has the
last field of the row moved into the place of the flagged one. -/
theorem C27_order_up_to_the_exchange (fields : List FieldLabel) :
    (stripFields fields).Subperm fields ∧
    ((∀ f ∈ fields, "strip" ∉ f.Tags) → stripFields fields = fields) ∧
    (∀ (pre : List FieldLabel) (F : FieldLabel), fields = pre ++ [F] → "strip" ∈ F.Tags →
      (∀ x ∈ pre, "strip" ∉ x.Tags ∧ x.Label ≠ F.Label) → stripFields fields = pre) ∧
    (∀ (pre init : List FieldLabel) (F l : FieldLabel), fields = pre ++ F :: (init ++ [l]) →
      "strip" ∈ F.Tags →
      (∀ x ∈ pre ++ (init ++ [l]), "strip" ∉ x.Tags ∧ x.Label ≠ F.Label) →
      stripFields fields = pre ++ l :: init) := by
  refine ⟨stripFields_subperm fields, stripFields_unflagged fields, ?_, ?_⟩
  · intro pre F hf hF hpre
    rw [hf]
    exact stripFields_last_flagged pre F hF hpre
  · intro pre init F l hf hF hx
    rw [hf]
    exact stripFields_one_flagged pre init F l hF
      (fun x h => hx x (List.mem_append_left _ h))
      (fun x h => hx x (List.mem_append_right _ (List.mem_append_left _ h)))
      (hx l (by simp))

/-- C27 at the row `Id`, `Secret` (flagged), `Name`, `City`: the pass gives
`Id`, `City`, `Name`. -/
theorem C27_order_up_to_the_exchange_witness :
    stripFields [FieldLabel.mk "FL" "Id" "1" [] [], FieldLabel.mk "FL" "Secret" "s" [] ["strip"],
        FieldLabel.mk "FL" "Name" "n" [] [], FieldLabel.mk "FL" "City" "c" [] []]
      = [FieldLabel.mk "FL" "Id" "1" [] []] ++
        FieldLabel.mk "FL" "City" "c" [] [] :: [FieldLabel.mk "FL" "Name" "n" [] []] :=
  (C27_order_up_to_the_exchange _).2.2.2 [FieldLabel.mk "FL" "Id" "1" [] []]
    [FieldLabel.mk "FL" "Name" "n" [] []] (FieldLabel.mk "FL" "Secret" "s" [] ["strip"])
    (FieldLabel.mk "FL" "City" "c" [] []) rfl (by simp [FieldLabel.Tags])
    (by
      intro x hx
      simp only [List.cons_append, List.nil_append, List.mem_cons, List.mem_singleton,
        List.not_mem_nil, or_false] at hx
      rcases hx with hx | hx | hx <;> (subst hx; simp [FieldLabel.Tags, FieldLabel.Label]))
/-- C28, the claim as stated fails: in a row whose fields are `A` (label `x`,
not flagged) and `B` (label `x`, flagged `strip`) the pass looks for the label
of `B`, finds `A` first and removes it: the row leaves the pass as `B`. -/
theorem C28_counterexample_unflagged_field_removed :
    XMLData.encodeStrip
        { Rows := [{ Number := 1, Fields :=
            [FieldLabel.mk "FL" "x" "A" [] [], FieldLabel.mk "FL" "x" "B" [] ["strip"]] }] }
      = { Rows := [{ Number := 1, Fields := [FieldLabel.mk "FL" "x" "B" [] ["strip"]] }] } :=
  rfl

/-- C28, amended: the stripping pass never removes a field whose label no
flagged field of the row bears (such a field is not flagged itself): it is
still in the row after the pass; and a row with no flagged field is left
unchanged.  The pass of `encode` is `stripFields` on the fields of each row. -/
theorem C28_field_with_unflagged_label_stays (fields : List FieldLabel) (F : FieldLabel)
    (hF : F ∈ fields) (hL : ∀ x ∈ fields, "strip" ∈ x.Tags → x.Label ≠ F.Label) :
    F ∈ stripFields fields ∧ "strip" ∉ F.Tags ∧
    ((∀ f ∈ fields, "strip" ∉ f.Tags) → stripFields fields = fields) ∧
    (∀ (x : XMLData), (XMLData.encodeStrip x).Rows.map Row.Fields
      = x.Rows.map (fun r => stripFields r.Fields)) := by
  refine ⟨?_, fun h => hL F hF h rfl, stripFields_unflagged fields, fun x => ?_⟩
  · unfold stripFields
    exact stripLoop_keeps F _ _ _ _ (le_refl _) hL (by simpa using hF)
  · simp [XMLData.encodeStrip, List.map_map, Function.comp_def]

/-- C28 at a row with the fields `Id`, `Secret` (flagged) and `Name`: `Name`,
whose label no flagged field bears, is still in the row after the pass. -/
theorem C28_field_with_unflagged_label_stays_witness :
    FieldLabel.mk "FL" "Name" "n" [] [] ∈
      stripFields [FieldLabel.mk "FL" "Id" "1" [] [],
        FieldLabel.mk "FL" "Secret" "s" [] ["strip"], FieldLabel.mk "FL" "Name" "n" [] []] :=
  (C28_field_with_unflagged_label_stays
    [FieldLabel.mk "FL" "Id" "1" [] [], FieldLabel.mk "FL" "Secret" "s" [] ["strip"],
      FieldLabel.mk "FL" "Name" "n" [] []]
    (FieldLabel.mk "FL" "Name" "n" [] []) (by simp)
    (by
      intro x hx hs
      simp only [List.mem_cons, List.mem_singleton, List.not_mem_nil, or_false] at hx
      rcases hx with hx | hx | hx
      · subst hx; simp [FieldLabel.Tags] at hs
      · subst hx; simp [FieldLabel.Label]
      · subst hx; simp [FieldLabel.Tags] at hs)).1

/-! ### An unknown element between fields or rows -/

/-- The tokens of the items of a row of simple fields. -/
theorem simple_items_tokens (fs : List SimpleField) :
    (fs.map Item.simple).flatMap Item.tokens = fs.flatMap SimpleField.tokens := by
  induction fs with
  | nil => rfl
  | cons f fs ih => simp [Item.tokens, ih]

/-- The fields that the items of a row of simple fields are to parse to. -/
theorem simple_items_parsed (fs : List SimpleField) :
    (fs.map Item.simple).map Item.parsed = fs.map SimpleField.parsed := by
  induction fs with
  | nil => rfl
  | cons f fs ih => simp [Item.parsed]

/-- Simple fields outside a group are appended to the current row in their
order; nothing else of the state changes. -/
theorem parseFrom_simple_fields (b : xml.Document) (v : List Row) (nf : FieldLabel)
    (ng : InternalGroup) (m : String) :
    ∀ (fs : List SimpleField) (row : List FieldLabel) (rest : List xml.Token)
      (stk : List String),
      (∀ f ∈ fs, checkForInternalGroup (xml.NewDecoder b) "FL" [⟨"val", f.label⟩] = false) →
      parseFrom b ⟨v, row, nf, ng, m, ""⟩ ⟨fs.flatMap SimpleField.tokens ++ rest, stk, false⟩
        = parseFrom b ⟨v, row ++ fs.map SimpleField.parsed, nf, ng, m, ""⟩
          ⟨rest, stk, false⟩ := by
  intro fs
  induction fs with
  | nil => intro row rest stk _; simp
  | cons f fs ih =>
    intro row rest stk h
    rw [List.flatMap_cons, List.append_assoc,
      parseFrom_simple_in_row b v row nf ng m f _ stk (h f (List.mem_cons_self _ _)),
      ih _ rest stk (fun u hu => h u (List.mem_cons_of_mem _ hu))]
    simp

/-- Rows of simple fields are appended to the rows, numbered on from the rows
collected so far; the current row behind them has a property that the current
row before them and the fields of each of the rows have. -/
theorem parseFrom_simple_rows (b : xml.Document) (nf : FieldLabel) (ng : InternalGroup)
    (m : String) (P : List FieldLabel → Prop) :
    ∀ (rows : List SimpleRow) (v : List Row) (row : List FieldLabel) (rest : List xml.Token)
      (stk : List String),
      (∀ r ∈ rows, ∀ f ∈ r.fields,
        checkForInternalGroup (xml.NewDecoder b) "FL" [⟨"val", f.label⟩] = false) →
      (∀ r ∈ rows, P (r.fields.map SimpleField.parsed)) → P row →
      ∃ row2, P row2 ∧
        parseFrom b ⟨v, row, nf, ng, m, ""⟩ ⟨simpleRowsTokens rows ++ rest, stk, false⟩
          = parseFrom b ⟨v ++ numberRows v.length (rows.map SimpleRow.wire), row2,
              nf, ng, m, ""⟩ ⟨rest, stk, false⟩ := by
  intro rows
  induction rows with
  | nil =>
    intro v row rest stk _ _ hrow
    exact ⟨row, hrow, by simp [simpleRowsTokens, numberRows]⟩
  | cons r rows ih =>
    intro v row rest stk h hl hrow
    have htok : simpleRowsTokens (r :: rows) ++ rest
        = .StartElement "row" r.attrs :: (r.fields.flatMap SimpleField.tokens
          ++ (.EndElement "row" :: (simpleRowsTokens rows ++ rest))) := by
      simp [simpleRowsTokens, WireRow.tokens, SimpleRow.wire, simple_items_tokens]
    obtain ⟨row3, h3, e3⟩ := ih (v ++ [newRow v (r.fields.map SimpleField.parsed)])
      (r.fields.map SimpleField.parsed) rest stk
      (fun u hu => h u (List.mem_cons_of_mem _ hu))
      (fun u hu => hl u (List.mem_cons_of_mem _ hu)) (hl r (List.mem_cons_self _ _))
    refine ⟨row3, h3, ?_⟩
    rw [htok, parseFrom_row_start,
      parseFrom_simple_fields b v nf ng m r.fields [] _ _ (h r (List.mem_cons_self _ _)),
      List.nil_append, parseFrom_row_end, e3]
    have hcomp : (Item.parsed ∘ Item.simple) = SimpleField.parsed := by
      funext f
      rfl
    simp [numberRows, newRow, SimpleRow.wire, hcomp]

/-- An empty element that is not reserved, met inside the module element with
no group open and the nested field without label, the current row bearing no
empty label: at its close a field without label that carries the group of the
element is appended to the current row. -/
theorem parseFrom_unknown (b : xml.Document) (v : List Row) (row : List FieldLabel)
    (m x : String) (xattrs : List xml.Attr) (rest : List xml.Token) (stk : List String)
    (hx : x ∉ reservedNames) (hx0 : x ≠ "") (hm0 : m ≠ "")
    (hrow : ∀ f ∈ row, f.Label ≠ "") :
    parseFrom b ⟨v, row, FieldLabel.zero, InternalGroup.zero, m, ""⟩
        ⟨.StartElement x xattrs :: .EndElement x :: rest, stk, false⟩
      = parseFrom b ⟨v, row ++ [unknownField x], FieldLabel.zero, InternalGroup.zero, m, ""⟩
        ⟨rest, stk, false⟩ := by
  rw [parseFrom_group_start b v row _ _ "" m x xattrs _ stk hx hm0,
    parseFrom_group_end b v row _ _ m x rest stk hx hx0]
  have h3 : attachGroup "" (InternalGroup.mk x 0 []) row = none :=
    attachGroup_none _ _ row hrow
  simp [closeNested, FieldLabel.zero, FieldLabel.Label, InternalGroup.zero,
    InternalGroup.setXMLName, InternalGroup.Number, InternalGroup.Fields, h3, unknownField,
    FieldLabel.setData, FieldLabel.Data, FieldLabel.XMLName, FieldLabel.Value, FieldLabel.Tags,
    InternalGroup.setNumber, InternalGroup.XMLName, FieldLabel.ofLabel]
/-- The lookahead over rows of simple fields: `false` when one of the fields
bears the label, and the lookahead over what follows otherwise. -/
theorem checkFrom_simple_rows (l : String) :
    ∀ (rows : List SimpleRow) (rest : List xml.Token) (stk : List String),
      checkFrom [⟨"val", l⟩] ⟨simpleRowsTokens rows ++ rest, stk, false⟩ false
        = if l ∈ rows.flatMap (fun r => r.fields.map SimpleField.label) then false
          else checkFrom [⟨"val", l⟩] ⟨rest, stk, false⟩ false := by
  intro rows
  induction rows with
  | nil => intro rest stk; simp [simpleRowsTokens]
  | cons r rows ih =>
    intro rest stk
    have htok : simpleRowsTokens (r :: rows) ++ rest
        = .StartElement "row" r.attrs :: (r.fields.flatMap SimpleField.tokens
          ++ (.EndElement "row" :: (simpleRowsTokens rows ++ rest))) := by
      simp [simpleRowsTokens, WireRow.tokens, SimpleRow.wire, simple_items_tokens]
    rw [htok, checkFrom_start _ _ "row" _ _ (by decide), checkFrom_fields]
    by_cases hr : l ∈ r.fields.map SimpleField.label
    · simp [hr]
    · rw [if_neg hr, checkFrom_end, ih]
      simp [hr]

/-- The numbering of rows followed by more rows. -/
theorem numberRows_append :
    ∀ (rows1 rows2 : List WireRow) (k : Nat),
      numberRows k (rows1 ++ rows2)
        = numberRows k rows1 ++ numberRows (k + rows1.length) rows2 := by
  intro rows1
  induction rows1 with
  | nil => intro rows2 k; simp [numberRows]
  | cons r rows1 ih =>
    intro rows2 k
    have e : k + 1 + rows1.length = k + (rows1.length + 1) := by omega
    have h2 := ih rows2 (k + 1)
    rw [e] at h2
    simp only [List.cons_append, numberRows, List.length_cons, List.cons.injEq, true_and]
    exact h2

/-- There are as many numbered rows as rows. -/
theorem numberRows_length :
    ∀ (rows : List WireRow) (k : Nat), (numberRows k rows).length = rows.length := by
  intro rows
  induction rows with
  | nil => intro k; rfl
  | cons r rows ih => intro k; simp [numberRows, ih]
/-- A name that is not reserved is not `FL`. -/
theorem ne_FL_of_not_reserved (n : String) (h : n ∉ reservedNames) : n ≠ "FL" := by
  intro e
  apply h
  rw [e]
  decide

/-- The lookahead over a document of rows of simple fields with an empty
element between two rows answers `false` for the label of each of its
fields. -/
theorem checkForInternalGroup_unknownBetweenRows (l : String) (wrappers : List xml.Token)
    (m : String) (mattrs : List xml.Attr) (rows1 : List SimpleRow) (x : String)
    (xattrs : List xml.Attr) (rows2 : List SimpleRow) (tail : List xml.Token)
    (hW : ∀ t ∈ wrappers, isWrapper t = true) (hm : m ∉ reservedNames)
    (hx : x ∉ reservedNames)
    (hl : l ∈ (rows1 ++ rows2).flatMap (fun r => r.fields.map SimpleField.label)) :
    checkForInternalGroup
      (xml.NewDecoder (unknownBetweenRows wrappers m mattrs rows1 x xattrs rows2 tail))
      "FL" [⟨"val", l⟩] = false := by
  rw [checkForInternalGroup_checkFrom]
  show checkFrom _ ⟨unknownBetweenRows wrappers m mattrs rows1 x xattrs rows2 tail, [], false⟩
    false = false
  rw [unknownBetweenRows, checkFrom_wrappers _ wrappers _ [] hW,
    checkFrom_start _ _ m _ _ (ne_FL_of_not_reserved m hm), checkFrom_simple_rows]
  by_cases h1 : l ∈ rows1.flatMap (fun r => r.fields.map SimpleField.label)
  · rw [if_pos h1]
  · rw [if_neg h1, checkFrom_start _ _ x _ _ (ne_FL_of_not_reserved x hx), checkFrom_end,
      checkFrom_simple_rows]
    rw [List.flatMap_append, List.mem_append] at hl
    rcases hl with hl | hl
    · exact absurd hl h1
    · rw [if_pos hl]

/-- The lookahead over a document of rows of simple fields with an empty
element between two fields of a row answers `false` for the label of each of
its fields. -/
theorem checkForInternalGroup_unknownBetweenFields (l : String) (wrappers : List xml.Token)
    (m : String) (mattrs : List xml.Attr) (rows1 : List SimpleRow) (rattrs : List xml.Attr)
    (before : List SimpleField) (x : String) (xattrs : List xml.Attr)
    (after : List SimpleField) (rows2 : List SimpleRow) (tail : List xml.Token)
    (hW : ∀ t ∈ wrappers, isWrapper t = true) (hm : m ∉ reservedNames)
    (hx : x ∉ reservedNames)
    (hl : l ∈ (rows1 ++ ⟨rattrs, before ++ after⟩ :: rows2).flatMap
      (fun r => r.fields.map SimpleField.label)) :
    checkForInternalGroup
      (xml.NewDecoder
        (unknownBetweenFields wrappers m mattrs rows1 rattrs before x xattrs after rows2 tail))
      "FL" [⟨"val", l⟩] = false := by
  rw [checkForInternalGroup_checkFrom]
  show checkFrom _
    ⟨unknownBetweenFields wrappers m mattrs rows1 rattrs before x xattrs after rows2 tail,
      [], false⟩ false = false
  rw [unknownBetweenFields, checkFrom_wrappers _ wrappers _ [] hW,
    checkFrom_start _ _ m _ _ (ne_FL_of_not_reserved m hm), checkFrom_simple_rows]
  by_cases h1 : l ∈ rows1.flatMap (fun r => r.fields.map SimpleField.label)
  · rw [if_pos h1]
  · rw [if_neg h1, checkFrom_start _ _ "row" _ _ (by decide), checkFrom_fields]
    by_cases h2 : l ∈ before.map SimpleField.label
    · rw [if_pos h2]
    · rw [if_neg h2, checkFrom_start _ _ x _ _ (ne_FL_of_not_reserved x hx), checkFrom_end,
        checkFrom_fields]
      by_cases h3 : l ∈ after.map SimpleField.label
      · rw [if_pos h3]
      · rw [if_neg h3, checkFrom_end, checkFrom_simple_rows]
        simp only [List.flatMap_append, List.flatMap_cons, List.mem_append, List.map_append]
          at hl
        rcases hl with hl | (hl | hl) | hl
        · exact absurd hl h1
        · exact absurd hl h2
        · exact absurd hl h3
        · rw [if_pos hl]
/-- The fields that simple fields with labels are to parse to bear no empty
label. -/
theorem parsed_labels (fs : List SimpleField) (h : ∀ f ∈ fs, f.label ≠ "") :
    ∀ f ∈ fs.map SimpleField.parsed, f.Label ≠ "" := by
  intro f hf
  simp only [List.mem_map] at hf
  obtain ⟨g, hg, hgf⟩ := hf
  rw [← hgf]
  exact h g hg

/-- The loop run over a document of rows of simple fields with an empty
element between two rows, the lookahead being the one over a document `b`:
the rows are those of the document without the element. -/
theorem parseFrom_unknownBetweenRows (b : xml.Document) (wrappers : List xml.Token)
    (m : String) (mattrs : List xml.Attr) (rows1 : List SimpleRow) (x : String)
    (xattrs : List xml.Attr) (rows2 : List SimpleRow) (tail : List xml.Token)
    (hW : ∀ t ∈ wrappers, isWrapper t = true) (hm : m ∉ reservedNames) (hm0 : m ≠ "")
    (hx : x ∉ reservedNames) (hx0 : x ≠ "")
    (hS : ∀ r ∈ rows1 ++ rows2, ∀ f ∈ r.fields,
      checkForInternalGroup (xml.NewDecoder b) "FL" [⟨"val", f.label⟩] = false)
    (hl : ∀ r ∈ rows1, ∀ f ∈ r.fields, f.label ≠ "") :
    parseFrom b ParseState.init
        ⟨unknownBetweenRows wrappers m mattrs rows1 x xattrs rows2 tail, [], false⟩
      = .returned ({ Rows := numberRows 0 ((rows1 ++ rows2).map SimpleRow.wire) }, none) := by
  obtain ⟨row2, hrow2, e1⟩ := parseFrom_simple_rows b FieldLabel.zero InternalGroup.zero m
    (fun row => ∀ f ∈ row, f.Label ≠ "") rows1 [] []
    (.StartElement x xattrs :: .EndElement x :: (simpleRowsTokens rows2 ++ (.EndElement m :: tail)))
    (m :: openedBy wrappers [])
    (fun r hr => hS r (List.mem_append_left _ hr))
    (fun r hr => parsed_labels r.fields (hl r hr)) (by simp)
  obtain ⟨row3, _, e2⟩ := parseFrom_simple_rows b FieldLabel.zero InternalGroup.zero m
    (fun _ => True) rows2 ([] ++ numberRows ([] : List Row).length (rows1.map SimpleRow.wire))
    (row2 ++ [unknownField x]) (.EndElement m :: tail) (m :: openedBy wrappers [])
    (fun r hr => hS r (List.mem_append_right _ hr)) (fun _ _ => trivial) trivial
  rw [unknownBetweenRows, parseFrom_wrappers _ _ wrappers _ [] hW]
  simp only [ParseState.init]
  rw [parseFrom_module _ [] [] _ _ "" m mattrs _ _ hm, e1,
    parseFrom_unknown b _ row2 m x xattrs _ _ hx hx0 hm0 hrow2, e2,
    parseFrom_module_end _ _ _ _ _ m tail _ hm hm0]
  simp [numberRows_append, numberRows_length]

/-- The loop run over a document of rows of simple fields with an empty
element between two fields of a row, the lookahead being the one over a
document `b`: the row has one more field, at the place of the element. -/
theorem parseFrom_unknownBetweenFields (b : xml.Document) (wrappers : List xml.Token)
    (m : String) (mattrs : List xml.Attr) (rows1 : List SimpleRow) (rattrs : List xml.Attr)
    (before : List SimpleField) (x : String) (xattrs : List xml.Attr)
    (after : List SimpleField) (rows2 : List SimpleRow) (tail : List xml.Token)
    (hW : ∀ t ∈ wrappers, isWrapper t = true) (hm : m ∉ reservedNames) (hm0 : m ≠ "")
    (hx : x ∉ reservedNames) (hx0 : x ≠ "")
    (hS : ∀ r ∈ rows1 ++ ⟨rattrs, before ++ after⟩ :: rows2, ∀ f ∈ r.fields,
      checkForInternalGroup (xml.NewDecoder b) "FL" [⟨"val", f.label⟩] = false)
    (hl : ∀ f ∈ before, f.label ≠ "") :
    parseFrom b ParseState.init
        ⟨unknownBetweenFields wrappers m mattrs rows1 rattrs before x xattrs after rows2 tail,
          [], false⟩
      = .returned ({ Rows := rowsWithUnknown rows1 before x after rows2 }, none) := by
  have hmid : ∀ f ∈ before ++ after,
      checkForInternalGroup (xml.NewDecoder b) "FL" [⟨"val", f.label⟩] = false :=
    fun f hf => hS ⟨rattrs, before ++ after⟩ (by simp) f hf
  obtain ⟨row2, _, e1⟩ := parseFrom_simple_rows b FieldLabel.zero InternalGroup.zero m
    (fun _ => True) rows1 [] []
    (.StartElement "row" rattrs :: (before.flatMap SimpleField.tokens ++
      (.StartElement x xattrs :: .EndElement x :: (after.flatMap SimpleField.tokens ++
        (.EndElement "row" :: (simpleRowsTokens rows2 ++ (.EndElement m :: tail)))))))
    (m :: openedBy wrappers [])
    (fun r hr => hS r (List.mem_append_left _ hr)) (fun _ _ => trivial) trivial
  obtain ⟨row3, _, e2⟩ := parseFrom_simple_rows b FieldLabel.zero InternalGroup.zero m
    (fun _ => True) rows2
    (([] ++ numberRows ([] : List Row).length (rows1.map SimpleRow.wire)) ++
      [newRow ([] ++ numberRows ([] : List Row).length (rows1.map SimpleRow.wire))
        ([] ++ before.map SimpleField.parsed ++ [unknownField x] ++
          after.map SimpleField.parsed)])
    ([] ++ before.map SimpleField.parsed ++ [unknownField x] ++ after.map SimpleField.parsed)
    (.EndElement m :: tail) (m :: openedBy wrappers [])
    (fun r hr => hS r (List.mem_append_right _ (List.mem_cons_of_mem _ hr)))
    (fun _ _ => trivial) trivial
  rw [unknownBetweenFields, parseFrom_wrappers _ _ wrappers _ [] hW]
  simp only [ParseState.init]
  rw [parseFrom_module _ [] [] _ _ "" m mattrs _ _ hm, e1, parseFrom_row_start,
    parseFrom_simple_fields b _ _ _ m before [] _ _
      (fun f hf => hmid f (List.mem_append_left _ hf)),
    parseFrom_unknown b _ _ m x xattrs _ _ hx hx0 hm0
      (by rw [List.nil_append]; exact parsed_labels before hl),
    parseFrom_simple_fields b _ _ _ m after _ _ _
      (fun f hf => hmid f (List.mem_append_right _ hf)),
    parseFrom_row_end, e2, parseFrom_module_end _ _ _ _ _ m tail _ hm hm0]
  simp [numberRows_length, newRow, rowsWithUnknown, rowWithUnknown]
/-- The items of a row of simple fields name no repeated element and no field
with groups, and their simple labels are the labels of the fields. -/
theorem simple_items_labels (fs : List SimpleField) :
    (fs.map Item.simple).flatMap Item.groupNames = [] ∧
    (fs.map Item.simple).flatMap Item.groupedLabels = [] ∧
    (fs.map Item.simple).flatMap Item.simpleLabels = fs.map SimpleField.label := by
  induction fs with
  | nil => exact ⟨rfl, rfl, rfl⟩
  | cons f fs ih =>
    obtain ⟨h1, h2, h3⟩ := ih
    refine ⟨?_, ?_, ?_⟩
    · simp only [List.map_cons, List.flatMap_cons, h1]; rfl
    · simp only [List.map_cons, List.flatMap_cons, h2]; rfl
    · simp only [List.map_cons, List.flatMap_cons, h3]; rfl

/-- The parse of a document of rows of simple fields. -/
theorem getValuesFromXML_simple_rows (wrappers : List xml.Token) (m : String)
    (mattrs : List xml.Attr) (rows : List SimpleRow) (tail : List xml.Token)
    (hW : ∀ t ∈ wrappers, isWrapper t = true) (hm : m ∉ reservedNames) (hm0 : m ≠ "") :
    getValuesFromXML (moduleDocument wrappers m mattrs (rows.map SimpleRow.wire) tail)
      = .returned ({ Rows := numberRows 0 (rows.map SimpleRow.wire) }, none) := by
  have hG0 : ((rows.map SimpleRow.wire).flatMap WireRow.items).flatMap Item.groupedLabels
      = [] := by
    induction rows with
    | nil => rfl
    | cons s rows ih =>
      simp only [List.map_cons, List.flatMap_cons, List.flatMap_append]
      rw [ih, List.append_nil]
      exact (simple_items_labels s.fields).2.1
  have hN : ∀ r ∈ rows.map SimpleRow.wire, ∀ g ∈ r.items.flatMap Item.groupNames,
      g ∉ reservedNames ∧ g ≠ "" := by
    intro r hr g hg
    simp only [List.mem_map] at hr
    obtain ⟨s, _, hs⟩ := hr
    rw [← hs] at hg
    simp [SimpleRow.wire, (simple_items_labels s.fields).1] at hg
  apply getValuesFromXML_moduleDocument wrappers m mattrs _ tail hW hm hm0 hN
  · intro r hr
    simp only [List.mem_map] at hr
    obtain ⟨s, _, hs⟩ := hr
    rw [← hs]
    simp [SimpleRow.wire, (simple_items_labels s.fields).2.1]
  · intro r hr l hl
    have hl2 : l ∈ ((rows.map SimpleRow.wire).flatMap WireRow.items).flatMap
        Item.simpleLabels := by
      simp only [List.mem_flatMap] at hl ⊢
      obtain ⟨it, hit, hl⟩ := hl
      exact ⟨it, ⟨r, hr, hit⟩, hl⟩
    exact checkForInternalGroup_moduleDocument l wrappers m mattrs _ tail false hW hm hN
      (firstField_simple l _ hl2 (by rw [hG0]; simp))
  · intro r hr l hl
    simp only [List.mem_map] at hr
    obtain ⟨s, _, hs⟩ := hr
    rw [← hs] at hl
    simp [SimpleRow.wire, (simple_items_labels s.fields).2.1] at hl

/-- C22, the claim as stated fails: in the document `<Leads><row no="1">
<FL val="A">1</FL><x></x><FL val="B">2</FL></row></Leads>` the empty element
`x` between the fields `A` and `B` is not ignored: the row of the result has a
third field, without label, that carries a group named `x`; without the
element the row has the fields `A` and `B`. -/
theorem C22_counterexample_unknown_element_adds_field :
    getValuesFromXML
        (unknownBetweenFields [] "Leads" [] [] [⟨"no", "1"⟩] [⟨"A", ["1"]⟩] "x" []
          [⟨"B", ["2"]⟩] [] [])
      = .returned ({ Rows := rowsWithUnknown [] [⟨"A", ["1"]⟩] "x" [⟨"B", ["2"]⟩] [] }, none) ∧
    (rowsWithUnknown [] [⟨"A", ["1"]⟩] "x" [⟨"B", ["2"]⟩] []).map
        (fun r => r.Fields.map FieldLabel.Label) = [["A", "", "B"]] ∧
    getValuesFromXML
        (moduleDocument [] "Leads" [] [⟨[⟨"no", "1"⟩], [.simple ⟨"A", ["1"]⟩,
          .simple ⟨"B", ["2"]⟩]⟩] [])
      = .returned ({ Rows := numberRows 0 [⟨[⟨"no", "1"⟩], [.simple ⟨"A", ["1"]⟩,
          .simple ⟨"B", ["2"]⟩]⟩] }, none) ∧
    (numberRows 0 [⟨[⟨"no", "1"⟩], [.simple ⟨"A", ["1"]⟩, .simple ⟨"B", ["2"]⟩]⟩]).map
        (fun r => r.Fields.map FieldLabel.Label) = [["A", "B"]] :=
  ⟨rfl, rfl, rfl, rfl⟩

/-- C22, amended: in a document of rows of simple fields with a module
element, the names of the module element and of the inserted element being
not reserved and not empty: an empty element between two rows (the fields of
the rows before it bearing labels) leaves the rows returned by
`getValuesFromXML` unchanged; an empty element between two fields of a row
(the fields before it bearing labels) adds to that row, at its place, one
field without label that carries one group named after the element, and
leaves the other fields and rows as they are. -/
theorem C22_unknown_element_between (wrappers : List xml.Token) (m : String)
    (mattrs : List xml.Attr) (rows1 rows2 : List SimpleRow) (tail : List xml.Token)
    (x : String) (xattrs rattrs : List xml.Attr) (before after : List SimpleField)
    (hW : ∀ t ∈ wrappers, isWrapper t = true) (hm : m ∉ reservedNames) (hm0 : m ≠ "")
    (hx : x ∉ reservedNames) (hx0 : x ≠ "")
    (hl1 : ∀ r ∈ rows1, ∀ f ∈ r.fields, f.label ≠ "")
    (hl2 : ∀ f ∈ before, f.label ≠ "") :
    getValuesFromXML (unknownBetweenRows wrappers m mattrs rows1 x xattrs rows2 tail)
      = getValuesFromXML
          (moduleDocument wrappers m mattrs ((rows1 ++ rows2).map SimpleRow.wire) tail) ∧
    getValuesFromXML (unknownBetweenRows wrappers m mattrs rows1 x xattrs rows2 tail)
      = .returned ({ Rows := numberRows 0 ((rows1 ++ rows2).map SimpleRow.wire) }, none) ∧
    getValuesFromXML
        (unknownBetweenFields wrappers m mattrs rows1 rattrs before x xattrs after rows2 tail)
      = .returned ({ Rows := rowsWithUnknown rows1 before x after rows2 }, none) ∧
    getValuesFromXML
        (moduleDocument wrappers m mattrs
          ((rows1 ++ ⟨rattrs, before ++ after⟩ :: rows2).map SimpleRow.wire) tail)
      = .returned
          (XMLData.mk ""
            (numberRows 0 ((rows1 ++ ⟨rattrs, before ++ after⟩ :: rows2).map SimpleRow.wire))
            {}, none) := by
  have ha : getValuesFromXML (unknownBetweenRows wrappers m mattrs rows1 x xattrs rows2 tail)
      = .returned ({ Rows := numberRows 0 ((rows1 ++ rows2).map SimpleRow.wire) }, none) := by
    rw [getValuesFromXML_parseFrom]
    apply parseFrom_unknownBetweenRows _ wrappers m mattrs rows1 x xattrs rows2 tail hW hm hm0
      hx hx0 _ hl1
    intro r hr f hf
    apply checkForInternalGroup_unknownBetweenRows f.label wrappers m mattrs rows1 x xattrs
      rows2 tail hW hm hx
    simp only [List.mem_flatMap, List.mem_map]
    exact ⟨r, hr, f, hf, rfl⟩
  refine ⟨?_, ha, ?_, ?_⟩
  · rw [ha, getValuesFromXML_simple_rows wrappers m mattrs (rows1 ++ rows2) tail hW hm hm0]
  · rw [getValuesFromXML_parseFrom]
    apply parseFrom_unknownBetweenFields _ wrappers m mattrs rows1 rattrs before x xattrs after
      rows2 tail hW hm hm0 hx hx0 _ hl2
    intro r hr f hf
    apply checkForInternalGroup_unknownBetweenFields f.label wrappers m mattrs rows1 rattrs
      before x xattrs after rows2 tail hW hm hx
    simp only [List.mem_flatMap, List.mem_map]
    exact ⟨r, hr, f, hf, rfl⟩
  · exact getValuesFromXML_simple_rows wrappers m mattrs _ tail hW hm hm0

/-- C22 at rows of leads: the element `<note></note>` between the two rows
leaves the rows as they are. -/
theorem C22_unknown_element_between_witness :
    getValuesFromXML
        (unknownBetweenRows [.StartElement "response" [], .StartElement "result" []] "Leads" []
          [⟨[⟨"no", "1"⟩], [⟨"LEADID", ["7"]⟩]⟩] "note" []
          [⟨[⟨"no", "2"⟩], [⟨"LEADID", ["8"]⟩]⟩]
          [.EndElement "result", .EndElement "response"])
      = .returned ({ Rows := twoLeadRows }, none) :=
  (C22_unknown_element_between [.StartElement "response" [], .StartElement "result" []] "Leads"
    [] [⟨[⟨"no", "1"⟩], [⟨"LEADID", ["7"]⟩]⟩] [⟨[⟨"no", "2"⟩], [⟨"LEADID", ["8"]⟩]⟩]
    [.EndElement "result", .EndElement "response"] "note" [] [] [] []
    (by decide) (by decide) (by decide) (by decide) (by decide) (by decide) (by decide)).2.1

/-- Nothing behind the input leaves the reader as it is. -/
theorem withTail_nil (d : xml.Decoder) : d.withTail [] = d := by
  cases d; simp [xml.Decoder.withTail]

/-- A read that finds a token, or a reader that has failed, does not look at
what lies behind the input. -/
theorem Token_withTail (d : xml.Decoder) (h : d.err = true ∨ d.toks ≠ []) :
    ∃ (r : xml.Read) (d1 : xml.Decoder), (∀ p, (d.withTail p).Token = (r, d1.withTail p)) ∧ d1.toks <:+ d.toks ∧
      (∀ t, r = .token t → d.toks = t :: d1.toks) := by
  rcases d with ⟨toks, stk, e⟩
  cases e with
  | true =>
    refine ⟨.failed, ⟨toks, stk, true⟩, ?_, List.suffix_refl _, ?_⟩
    · intro p; simp [xml.Decoder.Token, xml.Decoder.withTail]
    · intro t ht; cases ht
  | false =>
    cases toks with
    | nil => simp at h
    | cons t rest =>
      cases hpp : xml.pushPop stk t with
      | none =>
        refine ⟨.failed, ⟨rest, stk, true⟩, ?_, List.suffix_cons _ _, ?_⟩
        · intro p; simp [xml.Decoder.Token, xml.Decoder.withTail, hpp]
        · intro t ht; cases ht
      | some stk2 =>
        refine ⟨.token t, ⟨rest, stk2, false⟩, ?_, List.suffix_cons _ _, ?_⟩
        · intro p; simp [xml.Decoder.Token, xml.Decoder.withTail, hpp]
        · intro t2 ht; cases ht; rfl
/-- `Decoder.Skip`, when it stops before the end of the input, does not depend
on what lies behind the input. -/
theorem skipLoop_withTail :
    ∀ (fuel : Nat) (d : xml.Decoder) (depth : Nat) (p : List xml.Token),
      (d.toks ++ p).length < fuel →
      p.length < (xml.skipLoop fuel (d.withTail p) depth).2.toks.length →
      ∃ (ok : Bool) (d2 : xml.Decoder), d2.toks <:+ d.toks ∧
        ∀ (q : List xml.Token) (f2 : Nat), (d.toks ++ q).length < f2 →
          xml.skipLoop f2 (d.withTail q) depth = (ok, d2.withTail q) := by
  intro fuel
  induction fuel with
  | zero => intro d depth p hf; omega
  | succ fuel ih =>
    intro d depth p hf h
    by_cases hd : d.err = true ∨ d.toks ≠ []
    · obtain ⟨r, d1, hT, hsuf, htok⟩ := Token_withTail d hd
      simp only [xml.skipLoop, hT p] at h
      have step : ∀ (depth2 : Nat) (t : xml.Token), r = .token t →
          p.length < (xml.skipLoop fuel (d1.withTail p) depth2).2.toks.length →
          ∃ (ok : Bool) (d2 : xml.Decoder), d2.toks <:+ d.toks ∧
            ∀ (q : List xml.Token) (f2 : Nat), (d.toks ++ q).length < f2 →
              xml.skipLoop (f2 - 1) (d1.withTail q) depth2 = (ok, d2.withTail q) := by
        intro depth2 t ht h2
        have e := htok t ht
        have hl : (d1.toks ++ p).length < fuel := by
          rw [e] at hf; simp at hf ⊢; omega
        obtain ⟨ok, d2, hs2, hall⟩ := ih d1 depth2 p hl h2
        refine ⟨ok, d2, hs2.trans hsuf, ?_⟩
        intro q f2 hq
        apply hall
        rw [e] at hq; simp at hq ⊢; omega
      have unf : ∀ (q : List xml.Token) (f2 : Nat), (d.toks ++ q).length < f2 →
          xml.skipLoop f2 (d.withTail q) depth =
            (match (r, d1.withTail q) with
              | (.token (.StartElement _ _), d1) => xml.skipLoop (f2 - 1) d1 (depth + 1)
              | (.token (.EndElement _), d1) =>
                if depth = 0 then (true, d1) else xml.skipLoop (f2 - 1) d1 (depth - 1)
              | (.token _, d1) => xml.skipLoop (f2 - 1) d1 depth
              | (_, d1) => (false, d1)) := by
        intro q f2 hq
        cases f2 with
        | zero => omega
        | succ f2 => simp only [xml.skipLoop, hT q, Nat.add_sub_cancel]
      cases r with
      | token t =>
        cases t with
        | StartElement n a =>
          simp only [] at h
          obtain ⟨ok, d2, hs2, hall⟩ := step (depth + 1) _ rfl h
          exact ⟨ok, d2, hs2, fun q f2 hq => by rw [unf q f2 hq]; exact hall q f2 hq⟩
        | EndElement n =>
          simp only [] at h
          by_cases h0 : depth = 0
          · refine ⟨true, d1, hsuf, fun q f2 hq => ?_⟩
            rw [unf q f2 hq]; simp [h0]
          · simp only [h0, if_false] at h
            obtain ⟨ok, d2, hs2, hall⟩ := step (depth - 1) _ rfl h
            refine ⟨ok, d2, hs2, fun q f2 hq => ?_⟩
            rw [unf q f2 hq]; simp only [h0, if_false]; exact hall q f2 hq
        | CharData c =>
          simp only [] at h
          obtain ⟨ok, d2, hs2, hall⟩ := step depth _ rfl h
          exact ⟨ok, d2, hs2, fun q f2 hq => by rw [unf q f2 hq]; exact hall q f2 hq⟩
        | Comment c =>
          simp only [] at h
          obtain ⟨ok, d2, hs2, hall⟩ := step depth _ rfl h
          exact ⟨ok, d2, hs2, fun q f2 hq => by rw [unf q f2 hq]; exact hall q f2 hq⟩
        | ProcInst a c =>
          simp only [] at h
          obtain ⟨ok, d2, hs2, hall⟩ := step depth _ rfl h
          exact ⟨ok, d2, hs2, fun q f2 hq => by rw [unf q f2 hq]; exact hall q f2 hq⟩
        | Directive c =>
          simp only [] at h
          obtain ⟨ok, d2, hs2, hall⟩ := step depth _ rfl h
          exact ⟨ok, d2, hs2, fun q f2 hq => by rw [unf q f2 hq]; exact hall q f2 hq⟩
      | EOF =>
        exact ⟨false, d1, hsuf, fun q f2 hq => by rw [unf q f2 hq]⟩
      | failed =>
        exact ⟨false, d1, hsuf, fun q f2 hq => by rw [unf q f2 hq]⟩
    · exfalso
      have hl := skipLoop_length (fuel + 1) (d.withTail p) depth
      have e : (d.withTail p).toks = p := by
        have : d.toks = [] := by
          by_contra hc; exact hd (Or.inr hc)
        simp [xml.Decoder.withTail, this]
      rw [e] at hl
      omega
/-- `Decoder.Skip`, when it stops before the end of the input, does not depend
on what lies behind the input. -/
theorem Skip_withTail (d : xml.Decoder) (p : List xml.Token)
    (h : p.length < (d.withTail p).Skip.2.toks.length) :
    ∃ (ok : Bool) (d2 : xml.Decoder), d2.toks <:+ d.toks ∧
      ∀ (q : List xml.Token), (d.withTail q).Skip = (ok, d2.withTail q) := by
  obtain ⟨ok, d2, hs, hall⟩ :=
    skipLoop_withTail ((d.toks ++ p).length + 1) d 0 p (Nat.lt_succ_self _) h
  exact ⟨ok, d2, hs, fun q => hall q _ (Nat.lt_succ_self _)⟩

/-- Reading a group, when it stops before the end of the input, does not
depend on what lies behind the input. -/
theorem unmarshalGroupLoop_withTail :
    ∀ (fuel : Nat) (d : xml.Decoder) (p : List xml.Token),
      (d.toks ++ p).length < fuel →
      p.length < (unmarshalGroupLoop fuel (d.withTail p)).2.toks.length →
      ∃ (ok : Bool) (d2 : xml.Decoder), d2.toks <:+ d.toks ∧
        ∀ (q : List xml.Token) (f2 : Nat), (d.toks ++ q).length < f2 →
          unmarshalGroupLoop f2 (d.withTail q) = (ok, d2.withTail q) := by
  intro fuel
  induction fuel with
  | zero => intro d p hf; omega
  | succ fuel ih =>
    intro d p hf h
    by_cases hd : d.err = true ∨ d.toks ≠ []
    · obtain ⟨r, d1, hT, hsuf, htok⟩ := Token_withTail d hd
      simp only [unmarshalGroupLoop, hT p] at h
      have step : ∀ (d1 : xml.Decoder) (t : xml.Token) (rest : List xml.Token),
          d.toks = t :: rest → d1.toks <:+ rest →
          p.length < (unmarshalGroupLoop fuel (d1.withTail p)).2.toks.length →
          ∃ (ok : Bool) (d2 : xml.Decoder), d2.toks <:+ d.toks ∧
            ∀ (q : List xml.Token) (f2 : Nat), (d.toks ++ q).length < f2 →
              unmarshalGroupLoop (f2 - 1) (d1.withTail q) = (ok, d2.withTail q) := by
        intro d1 t rest e hs1 h2
        have hle := hs1.length_le
        have hl : (d1.toks ++ p).length < fuel := by
          rw [e] at hf; simp at hf ⊢; omega
        obtain ⟨ok, d2, hs2, hall⟩ := ih d1 p hl h2
        refine ⟨ok, d2, ?_, ?_⟩
        · rw [e]; exact (hs2.trans hs1).trans (List.suffix_cons _ _)
        · intro q f2 hq
          apply hall
          rw [e] at hq; simp at hq ⊢; omega
      have unf : ∀ (q : List xml.Token) (f2 : Nat), (d.toks ++ q).length < f2 →
          unmarshalGroupLoop f2 (d.withTail q) =
            (match (r, d1.withTail q) with
              | (.token (.StartElement n _), d1) =>
                if n = "Fields" then (false, d1)
                else
                  match d1.Skip with
                  | (true, d2) => unmarshalGroupLoop (f2 - 1) d2
                  | (false, d2) => (false, d2)
              | (.token (.EndElement _), d1) => (true, d1)
              | (.token _, d1) => unmarshalGroupLoop (f2 - 1) d1
              | (_, d1) => (false, d1)) := by
        intro q f2 hq
        cases f2 with
        | zero => omega
        | succ f2 => simp only [unmarshalGroupLoop, hT q, Nat.add_sub_cancel]
      cases r with
      | token t =>
        have e := htok t rfl
        cases t with
        | StartElement n a =>
          simp only [] at h
          by_cases hn : n = "Fields"
          · refine ⟨false, d1, hsuf, fun q f2 hq => ?_⟩
            rw [unf q f2 hq]; simp [hn]
          · simp only [hn, if_false] at h
            have hS : p.length < (d1.withTail p).Skip.2.toks.length := by
              rcases hS : (d1.withTail p).Skip with ⟨ok, d2⟩
              rw [hS] at h
              cases ok
              · exact h
              · have := unmarshalGroupLoop_length fuel d2
                simp only [] at h ⊢
                omega
            obtain ⟨ok, d2, hs2, hall⟩ := Skip_withTail d1 p hS
            rw [hall p] at h
            cases ok with
            | false =>
              refine ⟨false, d2, hs2.trans hsuf, fun q f2 hq => ?_⟩
              rw [unf q f2 hq]; simp only [hn, if_false, hall q]
            | true =>
              simp only [] at h
              obtain ⟨ok, d3, hs3, hall3⟩ := step d2 _ _ e hs2 h
              refine ⟨ok, d3, hs3, fun q f2 hq => ?_⟩
              rw [unf q f2 hq]; simp only [hn, if_false, hall q]
              exact hall3 q f2 hq
        | EndElement n =>
          refine ⟨true, d1, hsuf, fun q f2 hq => ?_⟩
          rw [unf q f2 hq]
        | CharData c =>
          simp only [] at h
          obtain ⟨ok, d2, hs2, hall⟩ := step d1 _ _ e (List.suffix_refl _) h
          exact ⟨ok, d2, hs2, fun q f2 hq => by rw [unf q f2 hq]; exact hall q f2 hq⟩
        | Comment c =>
          simp only [] at h
          obtain ⟨ok, d2, hs2, hall⟩ := step d1 _ _ e (List.suffix_refl _) h
          exact ⟨ok, d2, hs2, fun q f2 hq => by rw [unf q f2 hq]; exact hall q f2 hq⟩
        | ProcInst a c =>
          simp only [] at h
          obtain ⟨ok, d2, hs2, hall⟩ := step d1 _ _ e (List.suffix_refl _) h
          exact ⟨ok, d2, hs2, fun q f2 hq => by rw [unf q f2 hq]; exact hall q f2 hq⟩
        | Directive c =>
          simp only [] at h
          obtain ⟨ok, d2, hs2, hall⟩ := step d1 _ _ e (List.suffix_refl _) h
          exact ⟨ok, d2, hs2, fun q f2 hq => by rw [unf q f2 hq]; exact hall q f2 hq⟩
      | EOF =>
        exact ⟨false, d1, hsuf, fun q f2 hq => by rw [unf q f2 hq]⟩
      | failed =>
        exact ⟨false, d1, hsuf, fun q f2 hq => by rw [unf q f2 hq]⟩
    · exfalso
      have hl := unmarshalGroupLoop_length (fuel + 1) (d.withTail p)
      have e : (d.withTail p).toks = p := by
        have : d.toks = [] := by
          by_contra hc; exact hd (Or.inr hc)
        simp [xml.Decoder.withTail, this]
      rw [e] at hl
      omega
/-- Unmarshalling a group, when it stops before the end of the input, does not
depend on what lies behind the input. -/
theorem unmarshalInternalGroup_withTail (d : xml.Decoder) (start : String)
    (attr : List xml.Attr) (p : List xml.Token)
    (h : p.length < (unmarshalInternalGroup (d.withTail p) start attr).2.toks.length) :
    ∃ (g : Option InternalGroup) (d2 : xml.Decoder), d2.toks <:+ d.toks ∧
      ∀ (q : List xml.Token),
        unmarshalInternalGroup (d.withTail q) start attr = (g, d2.withTail q) := by
  unfold unmarshalInternalGroup at h ⊢
  cases hg : groupNumber attr 0 with
  | none => exact ⟨none, d, List.suffix_refl _, fun q => rfl⟩
  | some n =>
    simp only [hg] at h
    have hL : p.length <
        (unmarshalGroupLoop ((d.toks ++ p).length + 1) (d.withTail p)).2.toks.length := by
      have e : (d.withTail p).toks = d.toks ++ p := rfl
      rw [e] at h
      rcases hS : unmarshalGroupLoop ((d.toks ++ p).length + 1) (d.withTail p) with ⟨ok, d2⟩
      rw [hS] at h
      cases ok <;> exact h
    obtain ⟨ok, d2, hs, hall⟩ :=
      unmarshalGroupLoop_withTail _ d p (Nat.lt_succ_self _) hL
    cases ok with
    | true =>
      refine ⟨some (InternalGroup.mk start n []), d2, hs, fun q => ?_⟩
      have e : (d.withTail q).toks = d.toks ++ q := rfl
      simp only [e, hall q _ (Nat.lt_succ_self _)]
    | false =>
      refine ⟨none, d2, hs, fun q => ?_⟩
      have e : (d.withTail q).toks = d.toks ++ q := rfl
      simp only [e, hall q _ (Nat.lt_succ_self _)]

/-- Reading a field, when it stops before the end of the input, does not
depend on what lies behind the input. -/
theorem unmarshalFieldLabelLoop_withTail :
    ∀ (fuel : Nat) (d : xml.Decoder) (f : FieldLabel) (data : String) (p : List xml.Token),
      (d.toks ++ p).length < fuel →
      p.length < (unmarshalFieldLabelLoop fuel (d.withTail p) f data).2.2.toks.length →
      ∃ (ok : Bool) (f2 : FieldLabel) (d2 : xml.Decoder), d2.toks <:+ d.toks ∧
        ∀ (q : List xml.Token) (k : Nat), (d.toks ++ q).length < k →
          unmarshalFieldLabelLoop k (d.withTail q) f data = (ok, f2, d2.withTail q) := by
  intro fuel
  induction fuel with
  | zero => intro d f data p hf; omega
  | succ fuel ih =>
    intro d f data p hf h
    by_cases hd : d.err = true ∨ d.toks ≠ []
    · obtain ⟨r, d1, hT, hsuf, htok⟩ := Token_withTail d hd
      simp only [unmarshalFieldLabelLoop, hT p] at h
      have step : ∀ (d1 : xml.Decoder) (f1 : FieldLabel) (data1 : String) (t : xml.Token)
          (rest : List xml.Token),
          d.toks = t :: rest → d1.toks <:+ rest →
          p.length < (unmarshalFieldLabelLoop fuel (d1.withTail p) f1 data1).2.2.toks.length →
          ∃ (ok : Bool) (f2 : FieldLabel) (d2 : xml.Decoder), d2.toks <:+ d.toks ∧
            ∀ (q : List xml.Token) (k : Nat), (d.toks ++ q).length < k →
              unmarshalFieldLabelLoop (k - 1) (d1.withTail q) f1 data1 =
                (ok, f2, d2.withTail q) := by
        intro d1 f1 data1 t rest e hs1 h2
        have hle := hs1.length_le
        have hl : (d1.toks ++ p).length < fuel := by
          rw [e] at hf; simp at hf ⊢; omega
        obtain ⟨ok, f2, d2, hs2, hall⟩ := ih d1 f1 data1 p hl h2
        refine ⟨ok, f2, d2, ?_, ?_⟩
        · rw [e]; exact (hs2.trans hs1).trans (List.suffix_cons _ _)
        · intro q k hq
          apply hall
          rw [e] at hq; simp at hq ⊢; omega
      have unf : ∀ (q : List xml.Token) (k : Nat), (d.toks ++ q).length < k →
          unmarshalFieldLabelLoop k (d.withTail q) f data =
            (match (r, d1.withTail q) with
              | (.token (.StartElement n attr), d1) =>
                if n = "Data" then
                  match unmarshalInternalGroup d1 n attr with
                  | (some g, d2) =>
                    unmarshalFieldLabelLoop (k - 1) d2 (f.setData (f.Data ++ [g])) data
                  | (none, d2) => (false, f, d2)
                else
                  match d1.Skip with
                  | (true, d2) => unmarshalFieldLabelLoop (k - 1) d2 f data
                  | (false, d2) => (false, f, d2)
              | (.token (.EndElement _), d1) =>
                (true, FieldLabel.mk f.XMLName f.Label data f.Data f.Tags, d1)
              | (.token (.CharData s), d1) => unmarshalFieldLabelLoop (k - 1) d1 f (data ++ s)
              | (.token _, d1) => unmarshalFieldLabelLoop (k - 1) d1 f data
              | (_, d1) => (false, f, d1)) := by
        intro q k hq
        cases k with
        | zero => omega
        | succ k => simp only [unmarshalFieldLabelLoop, hT q, Nat.add_sub_cancel]
      cases r with
      | token t =>
        have e := htok t rfl
        cases t with
        | StartElement n a =>
          simp only [] at h
          by_cases hn : n = "Data"
          · simp only [hn, if_true] at h
            have hS : p.length <
                (unmarshalInternalGroup (d1.withTail p) "Data" a).2.toks.length := by
              rcases hS : unmarshalInternalGroup (d1.withTail p) "Data" a with ⟨g, d2⟩
              rw [hS] at h
              cases g
              · exact h
              · have := unmarshalFieldLabelLoop_length fuel d2 (f.setData (f.Data ++ [‹_›])) data
                simp only [] at h ⊢
                omega
            obtain ⟨g, d2, hs2, hall⟩ := unmarshalInternalGroup_withTail d1 "Data" a p hS
            rw [hall p] at h
            cases g with
            | none =>
              refine ⟨false, f, d2, hs2.trans hsuf, fun q k hq => ?_⟩
              rw [unf q k hq]; simp only [hn, if_true, hall q]
            | some g =>
              simp only [] at h
              obtain ⟨ok, f3, d3, hs3, hall3⟩ := step d2 _ _ _ _ e hs2 h
              refine ⟨ok, f3, d3, hs3, fun q k hq => ?_⟩
              rw [unf q k hq]; simp only [hn, if_true, hall q]
              exact hall3 q k hq
          · simp only [hn, if_false] at h
            have hS : p.length < (d1.withTail p).Skip.2.toks.length := by
              rcases hS : (d1.withTail p).Skip with ⟨ok, d2⟩
              rw [hS] at h
              cases ok
              · exact h
              · have := unmarshalFieldLabelLoop_length fuel d2 f data
                simp only [] at h ⊢
                omega
            obtain ⟨ok, d2, hs2, hall⟩ := Skip_withTail d1 p hS
            rw [hall p] at h
            cases ok with
            | false =>
              refine ⟨false, f, d2, hs2.trans hsuf, fun q k hq => ?_⟩
              rw [unf q k hq]; simp only [hn, if_false, hall q]
            | true =>
              simp only [] at h
              obtain ⟨ok, f3, d3, hs3, hall3⟩ := step d2 _ _ _ _ e hs2 h
              refine ⟨ok, f3, d3, hs3, fun q k hq => ?_⟩
              rw [unf q k hq]; simp only [hn, if_false, hall q]
              exact hall3 q k hq
        | EndElement n =>
          refine ⟨true, FieldLabel.mk f.XMLName f.Label data f.Data f.Tags, d1, hsuf,
            fun q k hq => ?_⟩
          rw [unf q k hq]
        | CharData c =>
          simp only [] at h
          obtain ⟨ok, f2, d2, hs2, hall⟩ := step d1 _ _ _ _ e (List.suffix_refl _) h
          exact ⟨ok, f2, d2, hs2, fun q k hq => by rw [unf q k hq]; exact hall q k hq⟩
        | Comment c =>
          simp only [] at h
          obtain ⟨ok, f2, d2, hs2, hall⟩ := step d1 _ _ _ _ e (List.suffix_refl _) h
          exact ⟨ok, f2, d2, hs2, fun q k hq => by rw [unf q k hq]; exact hall q k hq⟩
        | ProcInst a c =>
          simp only [] at h
          obtain ⟨ok, f2, d2, hs2, hall⟩ := step d1 _ _ _ _ e (List.suffix_refl _) h
          exact ⟨ok, f2, d2, hs2, fun q k hq => by rw [unf q k hq]; exact hall q k hq⟩
        | Directive c =>
          simp only [] at h
          obtain ⟨ok, f2, d2, hs2, hall⟩ := step d1 _ _ _ _ e (List.suffix_refl _) h
          exact ⟨ok, f2, d2, hs2, fun q k hq => by rw [unf q k hq]; exact hall q k hq⟩
      | EOF =>
        exact ⟨false, f, d1, hsuf, fun q k hq => by rw [unf q k hq]⟩
      | failed =>
        exact ⟨false, f, d1, hsuf, fun q k hq => by rw [unf q k hq]⟩
    · exfalso
      have hl := unmarshalFieldLabelLoop_length (fuel + 1) (d.withTail p) f data
      have e : (d.withTail p).toks = p := by
        have : d.toks = [] := by
          by_contra hc; exact hd (Or.inr hc)
        simp [xml.Decoder.withTail, this]
      rw [e] at hl
      omega

/-- `FieldLabel.decode`, when it stops before the end of the input, does not
depend on what lies behind the input. -/
theorem decode_withTail (d : xml.Decoder) (start : String) (attr : List xml.Attr)
    (p : List xml.Token)
    (h : p.length < (FieldLabel.decode (d.withTail p) start attr).2.toks.length) :
    ∃ (f : FieldLabel) (d2 : xml.Decoder), d2.toks <:+ d.toks ∧
      ∀ (q : List xml.Token), FieldLabel.decode (d.withTail q) start attr = (f, d2.withTail q) := by
  unfold FieldLabel.decode at h ⊢
  by_cases hs : start ≠ "FL"
  · exact ⟨FieldLabel.zero, d, List.suffix_refl _, fun q => if_pos hs⟩
  · rw [if_neg hs] at h
    obtain ⟨ok, f2, d2, hs2, hall⟩ :=
      unmarshalFieldLabelLoop_withTail _ d _ _ p (Nat.lt_succ_self _) h
    refine ⟨f2, d2, hs2, fun q => ?_⟩
    have e : (d.withTail q).toks = d.toks ++ q := rfl
    rw [if_neg hs]
    simp only [e, hall q _ (Nat.lt_succ_self _)]

/-- Every attribute list has the attributes of itself. -/
theorem sameAttrs_self (a : List xml.Attr) : sameAttrs a a = true := by
  unfold sameAttrs
  rw [List.all_eq_true]
  intro x hx
  rw [List.any_eq_true]
  exact ⟨x, hx, by simp⟩

/-- With a start or end element behind the start of a field, the lookahead for
that field gives its answer before the input ends. -/
theorem settles_of_element (a : List xml.Attr) (s1 : List xml.Token)
    (h : s1.any isElement = true) :
    ∀ (pre : List xml.Token) (found : Bool),
      settles "FL" a found (pre ++ .StartElement "FL" a :: s1) = true := by
  have h1 : ∀ (l : List xml.Token), l.any isElement = true → settles "FL" a true l = true := by
    intro l
    induction l with
    | nil => intro hl; simp at hl
    | cons t rest ih =>
      intro hl
      simp only [List.any_cons, Bool.or_eq_true] at hl
      simp only [settles, Bool.or_eq_true]
      rcases hl with hl | hl
      · exact Or.inl hl
      · exact Or.inr (ih hl)
  intro pre
  induction pre with
  | nil =>
    intro found
    cases found with
    | true => simp [settles, isElement]
    | false => simp [settles, sameAttrs_self, h1 s1 h]
  | cons t pre ih =>
    intro found
    cases found with
    | true => simp [settles, ih true]
    | false =>
      cases t <;> simp only [List.cons_append, settles] <;> exact ih _

/-- The lookahead, when it gives its answer within the input, does not depend
on what lies behind the input. -/
theorem checkLoop_settles (vName : String) (vAttr : List xml.Attr) (p q : List xml.Token) :
    ∀ (toks : List xml.Token) (stk : List String) (e found : Bool) (f1 f2 : Nat),
      settles vName vAttr found toks = true →
      (toks ++ p).length < f1 → (toks ++ q).length < f2 →
      checkLoop vName vAttr f1 ⟨toks ++ p, stk, e⟩ found =
        checkLoop vName vAttr f2 ⟨toks ++ q, stk, e⟩ found := by
  intro toks
  induction toks with
  | nil => intro stk e found f1 f2 h; cases found <;> simp [settles] at h
  | cons t rest ih =>
    intro stk e found f1 f2 h h1 h2
    cases f1 with
    | zero => omega
    | succ f1 =>
      cases f2 with
      | zero => omega
      | succ f2 =>
        have l1 : (rest ++ p).length < f1 := by simp at h1 ⊢; omega
        have l2 : (rest ++ q).length < f2 := by simp at h2 ⊢; omega
        cases e with
        | true => simp [checkLoop, xml.Decoder.Token]
        | false =>
          cases hpp : xml.pushPop stk t with
          | none => simp [checkLoop, xml.Decoder.Token, hpp]
          | some stk2 =>
            have hp : (xml.Decoder.mk (t :: (rest ++ p)) stk false).Token =
                (.token t, ⟨rest ++ p, stk2, false⟩) := by
              simp [xml.Decoder.Token, hpp]
            have hq : (xml.Decoder.mk (t :: (rest ++ q)) stk false).Token =
                (.token t, ⟨rest ++ q, stk2, false⟩) := by
              simp [xml.Decoder.Token, hpp]
            simp only [checkLoop, List.cons_append, hp, hq]
            cases found with
            | true =>
              cases t with
              | StartElement n attr => simp
              | EndElement n => simp
              | CharData c =>
                simp only [settles, isElement, Bool.false_or] at h
                exact ih _ _ _ _ _ h l1 l2
              | Comment c =>
                simp only [settles, isElement, Bool.false_or] at h
                exact ih _ _ _ _ _ h l1 l2
              | ProcInst c1 c2 =>
                simp only [settles, isElement, Bool.false_or] at h
                exact ih _ _ _ _ _ h l1 l2
              | Directive c =>
                simp only [settles, isElement, Bool.false_or] at h
                exact ih _ _ _ _ _ h l1 l2
            | false =>
              cases t with
              | StartElement n attr =>
                simp only [settles] at h
                by_cases hn : n = vName
                · simp only [hn, decide_True, Bool.true_and] at h
                  simp only [hn, if_true, Bool.false_eq_true, if_false]
                  cases hs : sameAttrs attr vAttr with
                  | true => rw [hs] at h; simp only [if_true]; exact ih _ _ _ _ _ h l1 l2
                  | false =>
                    rw [hs] at h; simp only [Bool.false_eq_true, if_false]
                    exact ih _ _ _ _ _ h l1 l2
                · simp only [hn, decide_False, Bool.false_and] at h
                  simp only [hn, if_false, Bool.false_eq_true]
                  exact ih _ _ _ _ _ h l1 l2
              | EndElement n =>
                simp only [settles] at h
                simp only [Bool.false_eq_true, if_false]
                exact ih _ _ _ _ _ h l1 l2
              | CharData c =>
                simp only [settles] at h
                exact ih _ _ _ _ _ h l1 l2
              | Comment c =>
                simp only [settles] at h
                exact ih _ _ _ _ _ h l1 l2
              | ProcInst c1 c2 =>
                simp only [settles] at h
                exact ih _ _ _ _ _ h l1 l2
              | Directive c =>
                simp only [settles] at h
                exact ih _ _ _ _ _ h l1 l2

/-- The lookahead for a field that has a start or end element behind its
start does not depend on what lies behind the input. -/
theorem checkForInternalGroup_withTail (a : List xml.Attr) (pre s1 p q : List xml.Token)
    (h : s1.any isElement = true) :
    checkForInternalGroup (xml.NewDecoder ((pre ++ .StartElement "FL" a :: s1) ++ p)) "FL" a =
      checkForInternalGroup (xml.NewDecoder ((pre ++ .StartElement "FL" a :: s1) ++ q)) "FL" a := by
  unfold checkForInternalGroup xml.NewDecoder
  exact checkLoop_settles "FL" a p q _ [] false false _ _ (settles_of_element a s1 h pre false)
    (Nat.lt_succ_self _) (Nat.lt_succ_self _)
/-- The end element at which the loop breaks is one it has read: the reader
behind it has less left to read. -/
theorem closeReader_lt (b : xml.Document) :
    ∀ (fuel : Nat) (st : ParseState) (d dEnd : xml.Decoder),
      closeReader b fuel st d = some dEnd → dEnd.toks.length < d.toks.length := by
  intro fuel
  induction fuel with
  | zero => intro st d dEnd h; simp [closeReader] at h
  | succ fuel ih =>
    intro st d dEnd h
    simp only [closeReader] at h
    rcases hT : d.Token with ⟨r, d1⟩
    rw [hT] at h
    cases r with
    | token t =>
      have hlt := Token_lt hT
      cases t with
      | StartElement n a =>
        have hd := FieldLabel.decode_length d1 n a
        revert h
        simp only []
        repeat' split
        all_goals intro h
        all_goals first
          | (have hi := ih _ _ _ h
             omega)
          | cases h
      | EndElement n =>
        revert h
        simp only []
        repeat' split
        all_goals intro h
        all_goals first
          | (have hi := ih _ _ _ h
             omega)
          | (cases h; exact hlt)
      | CharData c => have := ih _ _ _ h; omega
      | Comment c => have := ih _ _ _ h; omega
      | ProcInst a c => have := ih _ _ _ h; omega
      | Directive c => have := ih _ _ _ h; omega
    | EOF => simp at h
    | failed => simp at h
/-- When the loop breaks at a close that lies within the input, the parse does
not depend on what lies behind the input: with any tokens in their place the
loop returns the same rows. -/
theorem closeReader_tail (c p : List xml.Token) :
    ∀ (fuel : Nat) (st : ParseState) (d dEnd : xml.Decoder),
      d.toks <:+ c →
      closeReader (c ++ p) fuel st (d.withTail p) = some dEnd →
      p.length ≤ dEnd.toks.length →
      ∃ (d3 : xml.Decoder) (rows : List Row) (n : String) (mid : List xml.Token),
        dEnd = d3.withTail p ∧ d.toks = mid ++ .EndElement n :: d3.toks ∧
        ∀ (q : List xml.Token) (f2 : Nat), (d.toks ++ q).length < f2 →
          primeLoop (c ++ q) f2 st (d.withTail q) = .returned ({ Rows := rows }, none) := by
  intro fuel
  induction fuel with
  | zero => intro st d dEnd hc h; simp [closeReader] at h
  | succ fuel ih =>
    intro st d dEnd hc h hle
    by_cases hd : d.err = true ∨ d.toks ≠ []
    · obtain ⟨r, d1, hT, hsuf, htok⟩ := Token_withTail d hd
      simp only [closeReader, hT p] at h
      have step : ∀ (st1 : ParseState) (d2 : xml.Decoder) (t : xml.Token)
          (rest : List xml.Token),
          d.toks = t :: rest → d2.toks <:+ rest →
          closeReader (c ++ p) fuel st1 (d2.withTail p) = some dEnd →
          ∃ (d3 : xml.Decoder) (rows : List Row) (n : String) (mid : List xml.Token),
            dEnd = d3.withTail p ∧ d.toks = mid ++ .EndElement n :: d3.toks ∧
            rest.any isElement = true ∧
            ∀ (q : List xml.Token) (k : Nat), (d.toks ++ q).length < k + 1 →
              primeLoop (c ++ q) k st1 (d2.withTail q) =
                .returned ({ Rows := rows }, none) := by
        intro st1 d2 t rest e hs1 h2
        have hsufc : d2.toks <:+ c :=
          (hs1.trans (by rw [e]; exact List.suffix_cons _ _)).trans hc
        obtain ⟨d3, rows, m, mid, h1, h3, hall⟩ := ih st1 d2 dEnd hsufc h2 hle
        have hle1 := hs1.length_le
        obtain ⟨pre1, hpre1⟩ := hs1
        refine ⟨d3, rows, m, t :: pre1 ++ mid, h1, ?_, ?_, ?_⟩
        · rw [e, ← hpre1, h3]; simp
        · rw [← hpre1, h3]; simp [isElement]
        · intro q k hq
          apply hall
          rw [e] at hq; simp at hq ⊢; omega
      cases r with
      | token t =>
        have e := htok t rfl
        cases t with
        | StartElement n a =>
          simp only [] at h
          by_cases hn1 : n = "response" ∨ n = "result"
          · rw [if_pos hn1] at h
            obtain ⟨d3, rows, m, mid, h1, h2, -, hall⟩ := step _ d1 _ _ e (List.suffix_refl _) h
            refine ⟨d3, rows, m, mid, h1, h2, fun q f2 hq => ?_⟩
            obtain ⟨k, rfl⟩ : ∃ k, f2 = k + 1 := ⟨f2 - 1, by omega⟩
            simp only [primeLoop, hT q]
            rw [if_pos hn1]
            exact hall q k hq
          · rw [if_neg hn1] at h
            by_cases hn2 : n = "nodata"
            · rw [if_pos hn2] at h; cases h
            · rw [if_neg hn2] at h
              by_cases hn3 : n = "error"
              · rw [if_pos hn3] at h; cases h
              · rw [if_neg hn3] at h
                by_cases hn4 : n = "row"
                · rw [if_pos hn4] at h
                  obtain ⟨d3, rows, m, mid, h1, h2, -, hall⟩ :=
                    step _ d1 _ _ e (List.suffix_refl _) h
                  refine ⟨d3, rows, m, mid, h1, h2, fun q f2 hq => ?_⟩
                  obtain ⟨k, rfl⟩ : ∃ k, f2 = k + 1 := ⟨f2 - 1, by omega⟩
                  simp only [primeLoop, hT q]
                  rw [if_neg hn1, if_neg hn2, if_neg hn3, if_pos hn4]
                  exact hall q k hq
                · rw [if_neg hn4] at h
                  by_cases hn5 : n = "FL"
                  · rw [if_pos hn5] at h
                    subst hn5
                    obtain ⟨pre, hpre⟩ := hc
                    have hagree : d1.toks.any isElement = true → ∀ (q : List xml.Token),
                        checkForInternalGroup (xml.NewDecoder (c ++ q)) "FL" a =
                          checkForInternalGroup (xml.NewDecoder (c ++ p)) "FL" a := by
                      intro hel q
                      rw [← hpre, e]
                      exact checkForInternalGroup_withTail a pre d1.toks q p hel
                    cases hv : checkForInternalGroup (xml.NewDecoder (c ++ p)) "FL" a with
                    | true =>
                      rw [hv] at h
                      simp only [if_true] at h
                      obtain ⟨d3, rows, m, mid, h1, h2, hel, hall⟩ :=
                        step _ d1 _ _ e (List.suffix_refl _) h
                      refine ⟨d3, rows, m, mid, h1, h2, fun q f2 hq => ?_⟩
                      obtain ⟨k, rfl⟩ : ∃ k, f2 = k + 1 := ⟨f2 - 1, by omega⟩
                      simp only [primeLoop, hT q]
                      rw [if_pos trivial, hagree hel q, hv]
                      simp only [if_true]
                      exact hall q k hq
                    | false =>
                      rw [hv] at h
                      simp only [Bool.false_eq_true, if_false] at h
                      have hlen : p.length <
                          (FieldLabel.decode (d1.withTail p) "FL" a).2.toks.length := by
                        by_cases hnest : st.nested ≠ ""
                        · rw [if_pos hnest] at h
                          have := closeReader_lt _ _ _ _ _ h
                          omega
                        · rw [if_neg hnest] at h
                          have := closeReader_lt _ _ _ _ _ h
                          omega
                      obtain ⟨f, d2, hs2, hdec⟩ := decode_withTail d1 "FL" a p hlen
                      rw [hdec p] at h
                      by_cases hnest : st.nested ≠ ""
                      · rw [if_pos hnest] at h
                        obtain ⟨d3, rows, m, mid, h1, h2, hel, hall⟩ :=
                          step _ d2 _ _ e hs2 h
                        refine ⟨d3, rows, m, mid, h1, h2, fun q f2 hq => ?_⟩
                        obtain ⟨k, rfl⟩ : ∃ k, f2 = k + 1 := ⟨f2 - 1, by omega⟩
                        simp only [primeLoop, hT q]
                        rw [if_pos trivial, hagree hel q, hv]
                        simp only [Bool.false_eq_true, if_false]
                        rw [hdec q, if_pos hnest]
                        exact hall q k hq
                      · rw [if_neg hnest] at h
                        obtain ⟨d3, rows, m, mid, h1, h2, hel, hall⟩ :=
                          step _ d2 _ _ e hs2 h
                        refine ⟨d3, rows, m, mid, h1, h2, fun q f2 hq => ?_⟩
                        obtain ⟨k, rfl⟩ : ∃ k, f2 = k + 1 := ⟨f2 - 1, by omega⟩
                        simp only [primeLoop, hT q]
                        rw [if_pos trivial, hagree hel q, hv]
                        simp only [Bool.false_eq_true, if_false]
                        rw [hdec q, if_neg hnest]
                        exact hall q k hq
                  · rw [if_neg hn5] at h
                    by_cases hm : st.module = ""
                    · rw [if_pos hm] at h
                      obtain ⟨d3, rows, m, mid, h1, h2, -, hall⟩ :=
                        step _ d1 _ _ e (List.suffix_refl _) h
                      refine ⟨d3, rows, m, mid, h1, h2, fun q f2 hq => ?_⟩
                      obtain ⟨k, rfl⟩ : ∃ k, f2 = k + 1 := ⟨f2 - 1, by omega⟩
                      simp only [primeLoop, hT q]
                      rw [if_neg hn1, if_neg hn2, if_neg hn3, if_neg hn4, if_neg hn5, if_pos hm]
                      exact hall q k hq
                    · rw [if_neg hm] at h
                      obtain ⟨d3, rows, m, mid, h1, h2, -, hall⟩ :=
                        step _ d1 _ _ e (List.suffix_refl _) h
                      refine ⟨d3, rows, m, mid, h1, h2, fun q f2 hq => ?_⟩
                      obtain ⟨k, rfl⟩ : ∃ k, f2 = k + 1 := ⟨f2 - 1, by omega⟩
                      simp only [primeLoop, hT q]
                      rw [if_neg hn1, if_neg hn2, if_neg hn3, if_neg hn4, if_neg hn5, if_neg hm]
                      exact hall q k hq
        | EndElement n =>
          simp only [] at h
          by_cases hn1 : n = "row"
          · rw [if_pos hn1] at h
            obtain ⟨d3, rows, m, mid, h1, h2, -, hall⟩ := step _ d1 _ _ e (List.suffix_refl _) h
            refine ⟨d3, rows, m, mid, h1, h2, fun q f2 hq => ?_⟩
            obtain ⟨k, rfl⟩ : ∃ k, f2 = k + 1 := ⟨f2 - 1, by omega⟩
            simp only [primeLoop, hT q]
            rw [if_pos hn1]
            exact hall q k hq
          · rw [if_neg hn1] at h
            by_cases hn2 : n = st.nested
            · rw [if_pos hn2] at h
              by_cases hne : st.nested ≠ ""
              · rw [if_pos hne] at h
                obtain ⟨d3, rows, m, mid, h1, h2, -, hall⟩ :=
                  step _ d1 _ _ e (List.suffix_refl _) h
                refine ⟨d3, rows, m, mid, h1, h2, fun q f2 hq => ?_⟩
                obtain ⟨k, rfl⟩ : ∃ k, f2 = k + 1 := ⟨f2 - 1, by omega⟩
                simp only [primeLoop, hT q]
                rw [if_neg hn1, if_pos hn2, if_pos hne]
                exact hall q k hq
              · rw [if_neg hne] at h
                obtain ⟨d3, rows, m, mid, h1, h2, -, hall⟩ :=
                  step _ d1 _ _ e (List.suffix_refl _) h
                refine ⟨d3, rows, m, mid, h1, h2, fun q f2 hq => ?_⟩
                obtain ⟨k, rfl⟩ : ∃ k, f2 = k + 1 := ⟨f2 - 1, by omega⟩
                simp only [primeLoop, hT q]
                rw [if_neg hn1, if_pos hn2, if_neg hne]
                exact hall q k hq
            · rw [if_neg hn2] at h
              by_cases hn3 : n = st.module
              · rw [if_pos hn3] at h
                by_cases hme : st.module ≠ ""
                · rw [if_pos hme] at h
                  cases h
                  refine ⟨d1, st.values, n, [], rfl, e, fun q f2 hq => ?_⟩
                  obtain ⟨k, rfl⟩ : ∃ k, f2 = k + 1 := ⟨f2 - 1, by omega⟩
                  simp only [primeLoop, hT q]
                  rw [if_neg hn1, if_neg hn2, if_pos hn3, if_pos hme]
                · rw [if_neg hme] at h
                  obtain ⟨d3, rows, m, mid, h1, h2, -, hall⟩ :=
                    step _ d1 _ _ e (List.suffix_refl _) h
                  refine ⟨d3, rows, m, mid, h1, h2, fun q f2 hq => ?_⟩
                  obtain ⟨k, rfl⟩ : ∃ k, f2 = k + 1 := ⟨f2 - 1, by omega⟩
                  simp only [primeLoop, hT q]
                  rw [if_neg hn1, if_neg hn2, if_pos hn3, if_neg hme]
                  exact hall q k hq
              · rw [if_neg hn3] at h
                by_cases hn4 : n = "response"
                · rw [if_pos hn4] at h
                  cases h
                  refine ⟨d1, st.values, n, [], rfl, e, fun q f2 hq => ?_⟩
                  obtain ⟨k, rfl⟩ : ∃ k, f2 = k + 1 := ⟨f2 - 1, by omega⟩
                  simp only [primeLoop, hT q]
                  rw [if_neg hn1, if_neg hn2, if_neg hn3, if_pos hn4]
                · rw [if_neg hn4] at h
                  by_cases hn5 : n = "result"
                  · rw [if_pos hn5] at h
                    cases h
                    refine ⟨d1, st.values, n, [], rfl, e, fun q f2 hq => ?_⟩
                    obtain ⟨k, rfl⟩ : ∃ k, f2 = k + 1 := ⟨f2 - 1, by omega⟩
                    simp only [primeLoop, hT q]
                    rw [if_neg hn1, if_neg hn2, if_neg hn3, if_neg hn4, if_pos hn5]
                  · rw [if_neg hn5] at h
                    obtain ⟨d3, rows, m, mid, h1, h2, -, hall⟩ :=
                      step _ d1 _ _ e (List.suffix_refl _) h
                    refine ⟨d3, rows, m, mid, h1, h2, fun q f2 hq => ?_⟩
                    obtain ⟨k, rfl⟩ : ∃ k, f2 = k + 1 := ⟨f2 - 1, by omega⟩
                    simp only [primeLoop, hT q]
                    rw [if_neg hn1, if_neg hn2, if_neg hn3, if_neg hn4, if_neg hn5]
                    exact hall q k hq
        | CharData s =>
          simp only [] at h
          obtain ⟨d3, rows, m, mid, h1, h2, -, hall⟩ := step _ d1 _ _ e (List.suffix_refl _) h
          refine ⟨d3, rows, m, mid, h1, h2, fun q f2 hq => ?_⟩
          obtain ⟨k, rfl⟩ : ∃ k, f2 = k + 1 := ⟨f2 - 1, by omega⟩
          simp only [primeLoop, hT q]
          exact hall q k hq
        | Comment s =>
          simp only [] at h
          obtain ⟨d3, rows, m, mid, h1, h2, -, hall⟩ := step _ d1 _ _ e (List.suffix_refl _) h
          refine ⟨d3, rows, m, mid, h1, h2, fun q f2 hq => ?_⟩
          obtain ⟨k, rfl⟩ : ∃ k, f2 = k + 1 := ⟨f2 - 1, by omega⟩
          simp only [primeLoop, hT q]
          exact hall q k hq
        | ProcInst s1 s2 =>
          simp only [] at h
          obtain ⟨d3, rows, m, mid, h1, h2, -, hall⟩ := step _ d1 _ _ e (List.suffix_refl _) h
          refine ⟨d3, rows, m, mid, h1, h2, fun q f2 hq => ?_⟩
          obtain ⟨k, rfl⟩ : ∃ k, f2 = k + 1 := ⟨f2 - 1, by omega⟩
          simp only [primeLoop, hT q]
          exact hall q k hq
        | Directive s =>
          simp only [] at h
          obtain ⟨d3, rows, m, mid, h1, h2, -, hall⟩ := step _ d1 _ _ e (List.suffix_refl _) h
          refine ⟨d3, rows, m, mid, h1, h2, fun q f2 hq => ?_⟩
          obtain ⟨k, rfl⟩ : ∃ k, f2 = k + 1 := ⟨f2 - 1, by omega⟩
          simp only [primeLoop, hT q]
          exact hall q k hq
      | EOF => simp at h
      | failed => simp at h
    · exfalso
      have hl := closeReader_lt _ _ _ _ _ h
      have e : (d.withTail p).toks = p := by
        have : d.toks = [] := by
          by_contra hc2; exact hd (Or.inr hc2)
        simp [xml.Decoder.withTail, this]
      rw [e] at hl
      omega

/-- C26 (as stated, refuted): a close of `result` inside a field that is
decoded as a whole is read by `DecodeElement`, not by the loop.  In
`<Leads><row><FL val="a"><FL val="b"><result/></FL></FL></row></Leads>` the
first close of the module wrapper, of `response` or of `result` is the sixth
token; the parse goes on to `</Leads>` and returns one row, and on the stream
cut just after that sixth token it ends in `log.Fatal`. -/
theorem C26_counterexample_close_inside_field :
    closeInsideField.findIdx? (isClose "Leads") = some 5 ∧
    cutAtClose closeInsideField = some closeInsideField ∧
    getValuesFromXML closeInsideField =
      .returned ({ Rows := [newRow [] [FieldLabel.mk "FL" "a" "" [] []]] }, none) ∧
    getValuesFromXML (closeInsideField.take 6) = .fatal :=
  ⟨by decide, rfl, rfl, rfl⟩

/-- C26 (amended): when the loop of `getValuesFromXML(b)` breaks at a close
that it reads itself (the close of the module wrapper, of `response` or of
`result`), `c` being `b` cut just after that end element, the result on `b`
is a list of rows and equals the result on `c` and on `c` followed by any
other tokens: what lies behind that end element has no effect. -/
theorem C26_nothing_behind_the_close_counts (b c : xml.Document)
    (h : cutAtClose b = some c) :
    (∃ (n : String) (front post : List xml.Token),
      c = front ++ [.EndElement n] ∧ b = c ++ post) ∧
    (∃ rows : List Row, getValuesFromXML b = .returned ({ Rows := rows }, none)) ∧
    getValuesFromXML c = getValuesFromXML b ∧
    ∀ tail : List xml.Token, getValuesFromXML (c ++ tail) = getValuesFromXML b := by
  unfold cutAtClose at h
  cases hcr : closeReader b (b.length + 1) ParseState.init (xml.NewDecoder b) with
  | none => rw [hcr] at h; cases h
  | some dEnd =>
    rw [hcr] at h
    simp only [Option.some.injEq] at h
    have hb : c ++ b.drop (b.length - dEnd.toks.length) = b := by
      rw [← h]; exact List.take_append_drop _ _
    have hpl : (b.drop (b.length - dEnd.toks.length)).length ≤ dEnd.toks.length := by
      rw [List.length_drop]; omega
    have hcl : c.length = b.length - dEnd.toks.length := by
      rw [← h, List.length_take]; omega
    generalize b.drop (b.length - dEnd.toks.length) = post at hb hpl
    have hrun : closeReader (c ++ post) (b.length + 1) ParseState.init
        ((xml.NewDecoder c).withTail post) = some dEnd := by
      rw [hb]
      have e : (xml.NewDecoder c).withTail post = xml.NewDecoder b := by
        simp only [xml.NewDecoder, xml.Decoder.withTail, hb]
      rw [e]; exact hcr
    obtain ⟨d3, rows, n, mid, h1, h2, hall⟩ :=
      closeReader_tail c post _ _ (xml.NewDecoder c) dEnd (List.suffix_refl _) hrun hpl
    have h2c : c = mid ++ .EndElement n :: d3.toks := h2
    have hlen : dEnd.toks.length = d3.toks.length + post.length := by
      rw [h1]; simp [xml.Decoder.withTail]
    have hbl : b.length = c.length + post.length := by rw [← hb]; simp
    have hd3 : d3.toks = [] := by
      have hc2 : c.length = mid.length + 1 + d3.toks.length := by
        rw [h2c]; simp; omega
      apply List.eq_nil_of_length_eq_zero
      omega
    have hres : ∀ tail : List xml.Token,
        getValuesFromXML (c ++ tail) = .returned ({ Rows := rows }, none) := by
      intro tail
      exact hall tail _ (Nat.lt_succ_self _)
    have hB : getValuesFromXML b = .returned ({ Rows := rows }, none) := by
      rw [← hb]; exact hres post
    refine ⟨⟨n, mid, post, ?_, hb.symm⟩, ⟨rows, hB⟩, ?_, ?_⟩
    · rw [h2c, hd3]
    · have := hres []
      rw [List.append_nil] at this
      rw [this, hB]
    · intro tail; rw [hres tail, hB]

/-- C26 at work: the document `moreBehindClose` is cut behind `</Leads>`, and
the row and the sentinel behind it change nothing. -/
theorem C26_nothing_behind_the_close_counts_witness :
    cutAtClose moreBehindClose = some (moreBehindClose.take 9) ∧
    getValuesFromXML (moreBehindClose.take 9) = getValuesFromXML moreBehindClose :=
  ⟨rfl, (C26_nothing_behind_the_close_counts moreBehindClose (moreBehindClose.take 9) rfl).2.2.1⟩

/-- Where the arrays matter for the parse itself: in `groupBehindRowDocument`
the group `q` closes when the row is already appended, and is written into the
field `P` in the array that the row shares with `currentRow`; the row returned
shows `P` with the groups `p` and `q`, where `primeLoop` gives it `p` only. -/
theorem sharedLoop_writes_through :
    (match getValuesShared rejectingLib groupBehindRowDocument with
      | .returned x => x.groupsShown
      | _ => []) = [[("P", [("p", 1), ("q", 2)])]] ∧
    (match getValuesFromXML groupBehindRowDocument with
      | .returned (x, _) =>
        x.Rows.map (fun r =>
          r.Fields.map (fun f => (f.Label, f.Data.map (fun g => (g.XMLName, g.Number)))))
      | _ => []) = [[("P", [("p", 1)])]] :=
  ⟨by decide, by decide⟩

/-- The places of an array that has just been written. -/
theorem Heap.cells_set_self (h : Heap) (a : Nat) (x : List FieldCell) (ha : a < h.length) :
    Heap.cells (h.set a x) a = x := by
  unfold Heap.cells
  rw [List.getD_eq_getElem?_getD, List.getElem?_set_self ha]
  rfl

/-- Two fields appended to the empty slice lie at the first two places of one
array, whatever capacity the runtime chooses. -/
theorem Heap.append_two (lib : Lib) (x y : FieldCell) :
    ∃ (h : Heap) (s : Slice) (tail : List FieldCell),
      Heap.append lib (Heap.append lib Heap.init Slice.empty x).1
        (Heap.append lib Heap.init Slice.empty x).2 y = (h, s) ∧
      s.len = 2 ∧ s.arr < h.length ∧ h.cells s.arr = x :: y :: tail := by
  have h1 : Heap.append lib Heap.init Slice.empty x
      = ([[], x :: List.replicate (max (lib.growslice 0) 1 - 1) FieldCell.zero],
          ⟨1, 1, max (lib.growslice 0) 1⟩) := by
    simp [Heap.append, Heap.init, Slice.empty, Heap.view, Heap.cells]
  rw [h1]
  by_cases hc : 1 < max (lib.growslice 0) 1
  · obtain ⟨k, hk⟩ : ∃ k, max (lib.growslice 0) 1 - 1 = k + 1 :=
      ⟨max (lib.growslice 0) 1 - 2, by omega⟩
    refine ⟨[[], x :: y :: List.replicate k FieldCell.zero],
      ⟨1, 2, max (lib.growslice 0) 1⟩, List.replicate k FieldCell.zero, ?_, rfl, ?_, rfl⟩
    · simp [Heap.append, hc, Heap.cells, hk, List.replicate_succ]
    · simp
  · have hc1 : max (lib.growslice 0) 1 = 1 := by omega
    rw [hc1]
    refine ⟨[[], [x], x :: y :: List.replicate (max (lib.growslice 1) 2 - 2) FieldCell.zero],
      ⟨2, 2, max (lib.growslice 1) 2⟩,
      List.replicate (max (lib.growslice 1) 2 - 2) FieldCell.zero, ?_, rfl, ?_, rfl⟩
    · simp [Heap.append, Heap.cells, Heap.view]
    · simp

/-- The parse of `rowInFieldDocument` with its arrays: both rows hold the
slice that `currentRow` is after the fields `A` and `B` have been appended. -/
theorem getValuesShared_rowInField (lib : Lib) :
    getValuesShared lib rowInFieldDocument
      = .returned
          ⟨(Heap.append lib (Heap.append lib Heap.init Slice.empty ⟨"FL", "A", "1", [], []⟩).1
              (Heap.append lib Heap.init Slice.empty ⟨"FL", "A", "1", [], []⟩).2
              ⟨"FL", "B", "2", [], []⟩).1,
            [⟨1, (Heap.append lib (Heap.append lib Heap.init Slice.empty ⟨"FL", "A", "1", [], []⟩).1
              (Heap.append lib Heap.init Slice.empty ⟨"FL", "A", "1", [], []⟩).2
              ⟨"FL", "B", "2", [], []⟩).2⟩,
             ⟨2, (Heap.append lib (Heap.append lib Heap.init Slice.empty ⟨"FL", "A", "1", [], []⟩).1
              (Heap.append lib Heap.init Slice.empty ⟨"FL", "A", "1", [], []⟩).2
              ⟨"FL", "B", "2", [], []⟩).2⟩], {}⟩ :=
  rfl

/-- Filling a record with the string fields `A` and `B` from a slice that
shows a field `A` and a field `B`: both are removed from the slice, which
leaves the field `B` at the first two places of the array. -/
theorem fillStructShared_pair (lib : Lib) (h : Heap) (s : Slice) (tail : List FieldCell)
    (hl : s.len = 2) (ha : s.arr < h.length)
    (hc : h.cells s.arr = ⟨"FL", "A", "1", [], []⟩ :: ⟨"FL", "B", "2", [], []⟩ :: tail) :
    ∃ h2 : Heap, fillStructShared lib h s (pairRecord "" "")
        = .returned (.ok (pairRecord "1" "2", h2)) ∧
      s.arr < h2.length ∧
      h2.cells s.arr = ⟨"FL", "B", "2", [], []⟩ :: ⟨"FL", "B", "2", [], []⟩ :: tail := by
  have hv : h.view s = [⟨"FL", "A", "1", [], []⟩, ⟨"FL", "B", "2", [], []⟩] := by
    simp [Heap.view, hc, hl]
  have hgA : getCellByName (h.view s) ((strings.Split "A" ',').headD "")
      = ⟨"FL", "A", "1", [], []⟩ := by
    rw [hv]; rfl
  have hm : removeInPlace h s "A"
      = (h.set s.arr (⟨"FL", "B", "2", [], []⟩ :: ⟨"FL", "B", "2", [], []⟩ :: tail),
          ⟨s.arr, 1, s.cap⟩) := by
    simp [removeInPlace, hv, hc, hl, List.findIdx?]
  have hv2 : Heap.view
      (h.set s.arr (⟨"FL", "B", "2", [], []⟩ :: ⟨"FL", "B", "2", [], []⟩ :: tail))
      ⟨s.arr, 1, s.cap⟩ = [⟨"FL", "B", "2", [], []⟩] := by
    simp [Heap.view, Heap.cells_set_self _ _ _ ha]
  have hgB : getCellByName (Heap.view
      (h.set s.arr (⟨"FL", "B", "2", [], []⟩ :: ⟨"FL", "B", "2", [], []⟩ :: tail))
      ⟨s.arr, 1, s.cap⟩) ((strings.Split "B" ',').headD "") = ⟨"FL", "B", "2", [], []⟩ := by
    rw [hv2]; rfl
  have hm2 : removeInPlace
      (h.set s.arr (⟨"FL", "B", "2", [], []⟩ :: ⟨"FL", "B", "2", [], []⟩ :: tail))
      ⟨s.arr, 1, s.cap⟩ "B"
      = ((h.set s.arr (⟨"FL", "B", "2", [], []⟩ :: ⟨"FL", "B", "2", [], []⟩ :: tail)).set s.arr
          (⟨"FL", "B", "2", [], []⟩ :: ⟨"FL", "B", "2", [], []⟩ :: tail),
          ⟨s.arr, 0, s.cap⟩) := by
    simp [removeInPlace, hv2, Heap.cells_set_self _ _ _ ha, List.findIdx?]
  refine ⟨(h.set s.arr (⟨"FL", "B", "2", [], []⟩ :: ⟨"FL", "B", "2", [], []⟩ :: tail)).set s.arr
      (⟨"FL", "B", "2", [], []⟩ :: ⟨"FL", "B", "2", [], []⟩ :: tail), ?_, ?_, ?_⟩
  · simp only [pairRecord, fillStructShared, fillFieldsShared, hgA, hm, fillKindShared, hgB, hm2]
    simp
  · simp [ha]
  · exact Heap.cells_set_self _ _ _ (by simp [ha])

/-- A successful loop over the rows, for a slice target: the elements the
target held, then one new element for each row. -/
theorem decodeRows_slice_length (lib : Lib) (elem : GoValue) :
    ∀ (rows : List SharedRow) (h : Heap) (items : List GoValue) (v : GoValue),
      decodeRows lib h rows (.slice elem items) = .returned (some (.value v), none) →
      ∃ outs, v = .slice elem (items ++ outs) ∧ outs.length = rows.length := by
  intro rows
  induction rows with
  | nil =>
    intro h items v hd
    simp only [decodeRows, Outcome.returned.injEq, Prod.mk.injEq, Option.some.injEq,
      CrmData.value.injEq, and_true] at hd
    exact ⟨[], by simp [hd], rfl⟩
  | cons a rest ih =>
    intro h items v hd
    simp only [decodeRows] at hd
    cases hf : fillStructShared lib h a.Fields elem with
    | returned r =>
      cases r with
      | ok ih2 =>
        obtain ⟨item, h2⟩ := ih2
        rw [hf] at hd
        obtain ⟨outs, h1, hlen⟩ := ih _ _ _ hd
        exact ⟨item :: outs, by simp [h1], by simp [hlen]⟩
      | error e => rw [hf] at hd; simp at hd
    | panic => rw [hf] at hd; simp at hd
    | fatal => rw [hf] at hd; simp at hd

/-- What of the claim on the rows holds for every document: when a document
parses to the rows of `x` and `decodeXML` succeeds on a slice target, the
result is the elements the target held followed by as many new elements as
there are rows. -/
theorem decodeXML_slice_length (lib : Lib) (b : xml.Document) (x : XMLData)
    (elem : GoValue) (items : List GoValue) (v : GoValue)
    (hx : getValuesFromXML b = .returned (x, none))
    (h : decodeXML lib b (.slice elem items) = .returned (some (.value v), none)) :
    ∃ outs, v = .slice elem (items ++ outs) ∧ outs.length = x.Rows.length := by
  obtain ⟨r, hr, hre, hnum⟩ := getValuesShared_error lib b x none hx
  have hlen : r.Rows.length = x.Rows.length := by
    have := congrArg List.length hnum
    simpa using this
  unfold decodeXML at h
  rw [hr] at h
  simp only at h
  split at h
  · simp at h
  · split at h
    · rename_i h1 h2
      simp only [Outcome.returned.injEq, Prod.mk.injEq, Option.some.injEq, CrmData.value.injEq,
        and_true] at h
      have hrows : x.Rows = [] := by
        rcases primeLoop_rows_or_error b _ _ _ x none hx with h3 | h3
        · exact h3
        · rw [hre] at h2; exact absurd h3 h2.1
      exact ⟨[], by simp [← h], by rw [hrows]; rfl⟩
    · obtain ⟨outs, h1, h2⟩ := decodeRows_slice_length lib elem _ _ _ _ h
      exact ⟨outs, h1, by rw [h2, hlen]⟩

/-- Filling a record with the string fields `A` and `B` from a slice that
shows two fields `B`: there is no field `A`, so `A` stays empty. -/
theorem fillStructShared_pair_moved (lib : Lib) (h : Heap) (s : Slice)
    (tail : List FieldCell) (hl : s.len = 2)
    (hc : h.cells s.arr = ⟨"FL", "B", "2", [], []⟩ :: ⟨"FL", "B", "2", [], []⟩ :: tail) :
    ∃ h2 : Heap, fillStructShared lib h s (pairRecord "" "")
        = .returned (.ok (pairRecord "" "2", h2)) := by
  have hv : h.view s = [⟨"FL", "B", "2", [], []⟩, ⟨"FL", "B", "2", [], []⟩] := by
    simp [Heap.view, hc, hl]
  have hgA : getCellByName (h.view s) ((strings.Split "A" ',').headD "") = FieldCell.zero := by
    rw [hv]; rfl
  have hgB : getCellByName (h.view s) ((strings.Split "B" ',').headD "")
      = ⟨"FL", "B", "2", [], []⟩ := by
    rw [hv]; rfl
  refine ⟨(removeInPlace h s "B").1, ?_⟩
  simp only [pairRecord, fillStructShared, fillFieldsShared, hgA, hgB, fillKindShared]
  simp [FieldCell.zero]

/-- C19 (the code departs from the claim).  In `rowInFieldDocument` the two
`</row>` append the same slice `currentRow`, so the document parses to two
rows with the fields `A` and `B`, and the materialization of those fields is
the record `{A: 1, B: 2}`.  `decodeXML` gives `{A: 1, B: 2}` for the first row
only: filling it removes `A` and `B` from the slice within its array, the
second row reads the array as that has left it, two fields labelled `B`, and
gives `{A: "", B: 2}`.  This holds whatever capacities `append` chooses. -/
theorem C19_rows_sharing_an_array (lib : Lib) :
    getValuesFromXML rowInFieldDocument
      = .returned ({ Rows :=
          [newRow [] [FieldLabel.mk "FL" "A" "1" [] [], FieldLabel.mk "FL" "B" "2" [] []],
           newRow [newRow [] []]
             [FieldLabel.mk "FL" "A" "1" [] [], FieldLabel.mk "FL" "B" "2" [] []]] },
          none) ∧
    fillStructFromValues lib
        [FieldLabel.mk "FL" "A" "1" [] [], FieldLabel.mk "FL" "B" "2" [] []] (pairRecord "" "")
      = .returned (.ok (pairRecord "1" "2")) ∧
    decodeXML lib rowInFieldDocument (.slice (pairRecord "" "") [])
      = .returned (some (.value (.slice (pairRecord "" "")
          [pairRecord "1" "2", pairRecord "" "2"])), none) := by
  refine ⟨rfl, rfl, ?_⟩
  obtain ⟨h, s, tail, hap, hl, ha, hc⟩ :=
    Heap.append_two lib ⟨"FL", "A", "1", [], []⟩ ⟨"FL", "B", "2", [], []⟩
  obtain ⟨h2, hf1, -, hc2⟩ := fillStructShared_pair lib h s tail hl ha hc
  obtain ⟨h3, hf2⟩ := fillStructShared_pair_moved lib h2 s tail hl hc2
  unfold decodeXML
  rw [getValuesShared_rowInField, hap]
  simp [decodeRows, hf1, hf2]

end crm
